import Mathlib

/-!
# File system emulator: shallow embedding and verified properties

The C++ program keeps a tree of heap-allocated nodes linked by raw pointers
(`include/base.hpp`) and manipulates it through the methods of
`File_system_emulator` (`src/file_system_emulator.cpp`).

Embedding conventions.

* A pointer is a natural number, the address of a cell of the heap. The heap
  is a list of cells; `new` appends a cell (so a fresh address is never equal
  to an older one) and `delete` empties the cell. `nullptr` is `none`.
* `std::string` / `std::string_view` values are `List Char`.
* `std::size_t` values are natural numbers below `2 ^ 64`; the wrap-around of
  `npos + 1` and of `right - left - 1` is written with an explicit `% 2 ^ 64`.
* A method returns a `Result`: `ok` (normal return, with the new state),
  `raised` (a `std::runtime_error` was thrown; the state at the throw is
  kept, because the tests go on using the object after a throw), `undefined`
  (the C++ run has undefined behaviour: it dereferences `nullptr` or a
  destroyed node, destroys a node twice, calls `front()` on an empty list or
  uses a plain `Node` as a `Linked_node` / `Directory`), or `diverge` (a loop or
  recursion exceeded its step bound).
* Loops over a container are structural recursions over the list. The
  pointer-chasing recursions take a step bound counted in heap cells.
* The text that `print` writes to `std::cout` is the value the method returns.
* Of the script interpreter (`src/main.cpp`) only the name test `is_valid_name` is
  embedded; `std::isdigit` and `std::isalpha` are those of the default "C" locale.
-/

namespace FSE

/-! ## Data model (`include/base.hpp`) -/

/-- Kinds of node, `enum class NODE_TYPE`. -/
inductive NODE_TYPE where
  | DIRECTORY
  | FILE
  | HLINK
  | DLINK
  deriving DecidableEq

/-- One heap object. The C++ classes `Node`, `Linked_node`, `File` and `Directory` are
merged into one record; `m_hlinks` and `m_dlinks` exist only in objects whose
`m_type` is `FILE` or `DIRECTORY`, and `m_childs` only in a `DIRECTORY`: the
accessors below make any other access undefined behaviour. -/
structure Node where
  m_parent : Option Nat
  m_type : NODE_TYPE
  m_name : List Char
  m_hlinks : List Nat
  m_dlinks : List Nat
  m_childs : List Nat
  deriving DecidableEq

/-- The heap: cell `p` holds `some node` while the object at address `p` is alive
and `none` once it has been destroyed. -/
abbrev Heap := List (Option Node)

/-- The object state: the heap and the two members `m_root`, `m_curr_catalog`. -/
structure File_system_emulator where
  heap : Heap
  m_root : Nat
  m_curr_catalog : Nat
  deriving DecidableEq

/-- Outcome of a method that only reads the state. -/
inductive Read (α : Type) where
  | val : α → Read α
  | undefined : Read α
  | diverge : Read α
  deriving DecidableEq

/-- Outcome of a method that may change the state. -/
inductive Result (α : Type) where
  | ok : α → File_system_emulator → Result α
  | raised : String → File_system_emulator → Result α
  | undefined : Result α
  | diverge : Result α
  deriving DecidableEq

/-- Sequencing after a read. -/
def Read.bind {α β : Type} (r : Read α) (f : α → Result β) : Result β :=
  match r with
  | .val a => f a
  | .undefined => .undefined
  | .diverge => .diverge

/-- Sequencing of reads. -/
def Read.andThen {α β : Type} (r : Read α) (f : α → Read β) : Read β :=
  match r with
  | .val a => f a
  | .undefined => .undefined
  | .diverge => .diverge

/-- Sequencing after a state change; a throw or a crash ends the method. -/
def Result.bind {α β : Type} (r : Result α) (f : α → File_system_emulator → Result β) : Result β :=
  match r with
  | .ok a s => f a s
  | .raised e s => .raised e s
  | .undefined => .undefined
  | .diverge => .diverge

/-! ## Heap primitives -/

/-- Content of the cell at address `p`, `none` for a destroyed or never allocated
object. -/
def Heap.cell (h : Heap) (p : Nat) : Option Node :=
  match h[p]? with
  | some (some n) => some n
  | _ => none

/-- Dereference of a `Node*`. -/
def deref (s : File_system_emulator) (p : Nat) : Read Node :=
  match s.heap.cell p with
  | some n => .val n
  | none => .undefined

/-- Dereference of a `Directory*`: the object must be a live directory. -/
def deref_dir (s : File_system_emulator) (p : Nat) : Read Node :=
  match s.heap.cell p with
  | some n => if n.m_type = NODE_TYPE.DIRECTORY then .val n else .undefined
  | none => .undefined

/-- Dereference of a `Linked_node*` obtained by `static_cast`: the object must be a
live file or directory. -/
def deref_linked (s : File_system_emulator) (p : Nat) : Read Node :=
  match s.heap.cell p with
  | some n =>
    if n.m_type = NODE_TYPE.FILE ∨ n.m_type = NODE_TYPE.DIRECTORY then .val n else .undefined
  | none => .undefined

/-- Overwrite the live object at address `p`. -/
def store (s : File_system_emulator) (p : Nat) (n : Node) : File_system_emulator :=
  { s with heap := s.heap.set p (some n) }

/-- Result of `new`: the fresh address and the state holding the new object. -/
def alloc (s : File_system_emulator) (n : Node) : Nat × File_system_emulator :=
  (s.heap.length, { s with heap := s.heap ++ [some n] })

/-- The call `std::forward_list::remove(value)`: drops every element equal to
`value`. -/
def list_remove (l : List Nat) (value : Nat) : List Nat :=
  l.filter (fun x => x ≠ value)

/-- A `for` loop over a list of nodes whose body works on the heap alone; `none`
is undefined behaviour. -/
def each_on_heap (body : Nat → Heap → Option Heap) : List Nat → Heap → Option Heap
  | [], h => some h
  | x :: rest, h => (body x h).bind (each_on_heap body rest)

/-- The expression `delete p` on the heap, through the virtual destructor:
`~Directory` first deletes every child in list order, then the object goes.
`none` is undefined behaviour (object already destroyed, or a cycle of child
lists, which would destroy an object under destruction). -/
def destroy : Nat → Nat → Heap → Option Heap
  | 0, _, _ => none
  | fuel + 1, p, h =>
    match h.cell p with
    | none => none
    | some n =>
      if n.m_type = NODE_TYPE.DIRECTORY then
        (each_on_heap (destroy fuel) n.m_childs h).map (fun h1 => h1.set p none)
      else some (h.set p none)

/-- The statement `delete p;`. -/
def delete_node (s : File_system_emulator) (p : Nat) : Result Unit :=
  match destroy (s.heap.length + 1) p s.heap with
  | some h => .ok () { s with heap := h }
  | none => .undefined

/-! ## Path utility functions (`src/file_system_emulator.cpp`, lines 9-102) -/

/-- The constant `DRIVE`. -/
def DRIVE : List Char := "C:".toList

/-- The value `std::string::npos` for a 64-bit `std::size_t`. -/
def npos : Nat := 2 ^ 64 - 1

/-- Scan of `find_last_of`: `i` is the index of the head of the remaining text,
`best` the last match so far. -/
def find_last_of_from (c : Char) : List Char → Nat → Nat → Nat
  | [], _, best => best
  | x :: xs, i, best => find_last_of_from c xs (i + 1) (if x = c then i else best)

/-- The call `path.find_last_of(c)`: the greatest index holding `c`, `npos` if
none. -/
def find_last_of (path : List Char) (c : Char) : Nat :=
  find_last_of_from c path 0 npos

/-- Scan of `find_first_of`. -/
def find_first_of_from (c : Char) : List Char → Nat → Nat
  | [], _ => npos
  | x :: xs, i => if x = c then i else find_first_of_from c xs (i + 1)

/-- The call `path.find_first_of(c)`: the least index holding `c`, `npos` if
none. -/
def find_first_of (path : List Char) (c : Char) : Nat :=
  find_first_of_from c path 0

/-- The call `path.substr(pos, count)`. Every call site has `pos ≤ path.size()`,
so the `std::out_of_range` case never arises. -/
def substr (path : List Char) (pos count : Nat) : List Char :=
  (path.drop pos).take count

/-- The call `path.substr(pos)`. -/
def substr_from (path : List Char) (pos : Nat) : List Char :=
  path.drop pos

/-- Function `is_absolute_path`. -/
def is_absolute_path (path : List Char) : Bool :=
  DRIVE.isPrefixOf path

/-- Function `get_parent_path`. -/
def get_parent_path (path : List Char) : List Char :=
  let idx := find_last_of path '\\'
  if idx ≠ npos then substr path 0 idx else []

/-- Function `get_path_basename`; `idx__ + 1` wraps to `0` when `idx__` is
`npos`. -/
def get_path_basename (path : List Char) : List Char :=
  let idx := find_last_of path '\\'
  substr_from path ((idx + 1) % 2 ^ 64)

/-- The `for` loop of `split_path`: `n` iterations remain, `curr_pos` and
`left_pos` are the loop variables, `path_list` the vector built so far. -/
def split_path_loop (path : List Char) : Nat → Nat → Nat → List (List Char) → List (List Char)
  | 0, _, left_pos, path_list => path_list ++ [substr_from path left_pos]
  | n + 1, curr_pos, left_pos, path_list =>
    if path[curr_pos]? = some '\\' then
      split_path_loop path n (curr_pos + 1) (curr_pos + 1)
        (path_list ++ [substr path left_pos (curr_pos - left_pos)])
    else if path[curr_pos]? = some '[' then
      path_list ++ [substr_from path left_pos]
    else
      split_path_loop path n (curr_pos + 1) left_pos path_list

/-- Function `split_path`. -/
def split_path (path : List Char) : List (List Char) :=
  split_path_loop path path.length 0 0 []

/-- Function `get_link_basename`; both `left__ + 1` and `right__ - left__ - 1` are
computed modulo `2 ^ 64`. -/
def get_link_basename (name : List Char) : List Char :=
  let left := find_first_of name '['
  let right := find_first_of name ']'
  substr name ((left + 1) % 2 ^ 64) ((right + 2 ^ 64 - left - 1) % 2 ^ 64)

/-! ## The class `File_system_emulator` (`src/file_system_emulator.cpp`, lines 110-617) -/

/-- The constructor: the drive directory `C:` is allocated first (address `0`), then
the super-root (address `1`), whose only child is the drive. The constructor
leaves `m_parent` of the drive at `nullptr`. -/
def init : File_system_emulator :=
  { heap := [some ⟨none, NODE_TYPE.DIRECTORY, DRIVE, [], [], []⟩,
             some ⟨none, NODE_TYPE.DIRECTORY, [], [], [], [0]⟩],
    m_root := 1,
    m_curr_catalog := 0 }

/-- The expression `m_root->m_childs.front()`. -/
def drive_root (s : File_system_emulator) : Read Nat :=
  (deref_dir s s.m_root).andThen fun r =>
    match r.m_childs with
    | [] => .undefined
    | c :: _ => .val c

/-- The `while(dir)` loop of `m_to_absolute_path`. -/
def m_to_absolute_path_loop (s : File_system_emulator) : Nat → Option Nat → List Char → Read (List Char)
  | _, none, absolute_path => .val absolute_path
  | 0, some _, _ => .diverge
  | fuel + 1, some dir, absolute_path =>
    (deref_dir s dir).andThen fun d =>
      m_to_absolute_path_loop s fuel d.m_parent (d.m_name ++ '\\' :: absolute_path)

/-- Method `m_to_absolute_path`. A chain of more parents than the heap has cells
passes twice through the same directory, so the loop never ends. -/
def m_to_absolute_path (path : List Char) (dir : Option Nat) (s : File_system_emulator) :
    Read (List Char) :=
  if is_absolute_path path then .val path
  else m_to_absolute_path_loop s (s.heap.length + 1) dir path

/-- Inner loop of `m_find_node_by_path`: the first child whose name is
`entity_name`, with its content. -/
def find_child (s : File_system_emulator) (entity_name : List Char) :
    List Nat → Read (Option (Nat × Node))
  | [] => .val none
  | child :: rest =>
    (deref s child).andThen fun c =>
      if c.m_name = entity_name then .val (some (child, c))
      else find_child s entity_name rest

/-- Outer loop of `m_find_node_by_path` over the segments of the path: a matching
directory becomes `curr__`, a matching node of another kind is returned at
once, whatever segments remain. -/
def m_find_node_loop (s : File_system_emulator) : List (List Char) → Nat → Read (Option Nat)
  | [], curr => .val (some curr)
  | entity_name :: rest, curr =>
    (deref_dir s curr).andThen fun d =>
      (find_child s entity_name d.m_childs).andThen fun r =>
        match r with
        | none => .val none
        | some (child, c) =>
          if c.m_type = NODE_TYPE.DIRECTORY then m_find_node_loop s rest child
          else .val (some child)

/-- Method `m_find_node_by_path`; `none` is the `nullptr` result. -/
def m_find_node_by_path (path : List Char) (s : File_system_emulator) : Read (Option Nat) :=
  if path = [] then .val (some s.m_curr_catalog)
  else
    m_find_node_loop s (split_path path)
      (if is_absolute_path path then s.m_root else s.m_curr_catalog)

/-- What the scan of the siblings in `m_make_node` decides. -/
inductive Scan where
  | create
  | nothing
  | blocked_by_file
  | blocked_by_directory
  deriving DecidableEq

/-- The loop of `m_make_node` over the children of the parent directory. A child
with the same name that is a link of another kind does not stop the loop. -/
def m_make_node_scan (s : File_system_emulator) (name : List Char) (type : NODE_TYPE) :
    List Nat → Read Scan
  | [] => .val Scan.create
  | child :: rest =>
    (deref s child).andThen fun c =>
      if c.m_name = name then
        if c.m_type = type then .val Scan.nothing
        else if c.m_type = NODE_TYPE.FILE then .val Scan.blocked_by_file
        else if c.m_type = NODE_TYPE.DIRECTORY then .val Scan.blocked_by_directory
        else m_make_node_scan s name type rest
      else m_make_node_scan s name type rest

/-- Method `m_make_node`; the value is the new node, or `none` for the `nullptr`
returned when the same entity already exists. -/
def m_make_node (path name : List Char) (type : NODE_TYPE) (s : File_system_emulator) :
    Result (Option Nat) :=
  (m_find_node_by_path path s).bind fun node_ptr =>
    match node_ptr with
    | none => .raised "ERROR: Path not found." s
    | some parent_dir =>
      (deref s parent_dir).bind fun nd =>
        if nd.m_type ≠ NODE_TYPE.DIRECTORY then .raised "ERROR: Path not found." s
        else
          (m_make_node_scan s name type nd.m_childs).bind fun r =>
            match r with
            | Scan.nothing => .ok none s
            | Scan.blocked_by_file =>
              .raised "ERROR: Can`t create a directory - File with the same name exists." s
            | Scan.blocked_by_directory =>
              .raised "ERROR: Can`t create a file - Directory with the same name exists." s
            | Scan.create =>
              let new_node := (alloc s ⟨some parent_dir, type, name, [], [], []⟩).1
              let s1 := (alloc s ⟨some parent_dir, type, name, [], [], []⟩).2
              .ok (some new_node) (store s1 parent_dir { nd with m_childs := new_node :: nd.m_childs })

/-- Method `m_make_link`. -/
def m_make_link (source dest name : List Char) (type : NODE_TYPE) (s : File_system_emulator) :
    Result Unit :=
  (m_find_node_by_path source s).bind fun source_ptr =>
    match source_ptr with
    | none => .raised "ERROR: Path is not found." s
    | some src =>
      (m_make_node dest name type s).bind fun link s1 =>
        match link with
        | none => .ok () s1
        | some l =>
          (deref s1 l).bind fun ln =>
            (deref_linked s1 src).bind fun linked =>
              if ln.m_type = NODE_TYPE.HLINK then
                .ok () (store s1 src { linked with m_hlinks := l :: linked.m_hlinks })
              else
                .ok () (store s1 src { linked with m_dlinks := l :: linked.m_dlinks })

/-- Method `make_dir`. -/
def make_dir (path : List Char) (s : File_system_emulator) : Result Unit :=
  (m_make_node (get_parent_path path) (get_path_basename path) NODE_TYPE.DIRECTORY s).bind
    fun _ s1 => .ok () s1

/-- Method `make_file`. -/
def make_file (path : List Char) (s : File_system_emulator) : Result Unit :=
  (m_make_node (get_parent_path path) (get_path_basename path) NODE_TYPE.FILE s).bind
    fun _ s1 => .ok () s1

/-- Method `make_hlink`. -/
def make_hlink (source dest : List Char) (s : File_system_emulator) : Result Unit :=
  (m_to_absolute_path source (some s.m_curr_catalog) s).bind fun full_path_to_source =>
    m_make_link source dest ("hlink[".toList ++ full_path_to_source ++ "]".toList)
      NODE_TYPE.HLINK s

/-- Method `make_dlink`. -/
def make_dlink (source dest : List Char) (s : File_system_emulator) : Result Unit :=
  (m_to_absolute_path source (some s.m_curr_catalog) s).bind fun full_path_to_source =>
    m_make_link source dest ("dlink[".toList ++ full_path_to_source ++ "]".toList)
      NODE_TYPE.DLINK s

/-- Method `change_dir`. -/
def change_dir (path : List Char) (s : File_system_emulator) : Result Unit :=
  (m_find_node_by_path path s).bind fun node_ptr =>
    match node_ptr with
    | none => .raised "ERROR: Path not found." s
    | some p =>
      (deref s p).bind fun nd =>
        if nd.m_type ≠ NODE_TYPE.DIRECTORY then .raised "ERROR: Path not found." s
        else .ok () { s with m_curr_catalog := p }

/-- The `while` loop of `m_remove_node` over the registered dynamic links: each
turn detaches the first registered link from its own parent, pops it from the
registry and destroys it. The registry shrinks by one entry per turn, so
`fuel`, its initial length, is never exhausted. -/
def m_remove_dlinks (node : Nat) : Nat → File_system_emulator → Result Unit
  | 0, s =>
    (deref_linked s node).bind fun linked =>
      if linked.m_dlinks = [] then .ok () s else .diverge
  | fuel + 1, s =>
    (deref_linked s node).bind fun linked =>
      match linked.m_dlinks with
      | [] => .ok () s
      | child :: _ =>
        (deref s child).bind fun c =>
          match c.m_parent with
          | none => .undefined
          | some parent =>
            (deref_dir s parent).bind fun pn =>
              let s1 := store s parent { pn with m_childs := list_remove pn.m_childs child }
              (deref_linked s1 node).bind fun linked1 =>
                let s2 := store s1 node { linked1 with m_dlinks := linked1.m_dlinks.tail }
                (delete_node s2 child).bind fun _ s3 => m_remove_dlinks node fuel s3

/-- Method `m_remove_node`. -/
def m_remove_node (node : Nat) (s : File_system_emulator) : Result Unit :=
  (deref s node).bind fun nd =>
    (if nd.m_type = NODE_TYPE.FILE ∨ nd.m_type = NODE_TYPE.DIRECTORY then
        if nd.m_hlinks ≠ [] then
          .raised "ERROR: Can`t delete entity with attached hard link." s
        else m_remove_dlinks node nd.m_dlinks.length s
      else .ok () s).bind fun _ s1 =>
      (deref s1 node).bind fun nd1 =>
        match nd1.m_parent with
        | none => .undefined
        | some parent =>
          (deref_dir s1 parent).bind fun pn =>
            delete_node (store s1 parent { pn with m_childs := list_remove pn.m_childs node }) node

/-- Method `remove_dir`. -/
def remove_dir (path : List Char) (s : File_system_emulator) : Result Unit :=
  (m_find_node_by_path path s).bind fun node_ptr =>
    match node_ptr with
    | none => .raised "ERROR: Path is not found." s
    | some p =>
      (deref s p).bind fun nd =>
        if nd.m_type ≠ NODE_TYPE.DIRECTORY then .raised "ERROR: Path is not found." s
        else
          (drive_root s).bind fun drive =>
            if p = drive then .raised "ERROR: Can`t delete root directory." s
            else if p = s.m_curr_catalog then .raised "ERROR: Can`t delete current directory." s
            else if nd.m_childs ≠ [] then .raised "ERROR: Can`t delete non-empty directory" s
            else m_remove_node p s

/-- Method `remove_file`. -/
def remove_file (path : List Char) (s : File_system_emulator) : Result Unit :=
  (m_find_node_by_path path s).bind fun node_ptr =>
    match node_ptr with
    | none => .raised "ERROR: Path is not found." s
    | some p =>
      (deref s p).bind fun nd =>
        if nd.m_type = NODE_TYPE.DIRECTORY then .raised "ERROR: Path is not found." s
        else m_remove_node p s

/-- A `for` loop over a list of nodes whose body is a method call: the calls run in
list order and the first throw or crash ends the loop. -/
def for_each (body : Nat → File_system_emulator → Result Unit) :
    List Nat → File_system_emulator → Result Unit
  | [], s => .ok () s
  | x :: rest, s => (body x s).bind fun _ s1 => for_each body rest s1

/-- Attach a freshly built node at the front of the child list of `destination`. -/
def push_child (destination node : Nat) (s : File_system_emulator) : Result Unit :=
  (deref_dir s destination).bind fun d =>
    .ok () (store s destination { d with m_childs := node :: d.m_childs })

/-- The link cases of `m_copy`: the new link node is built, the node its name
points to is looked up by path and used as a `Linked_node` without any check,
the new link is pushed on that node's registry and then on the destination. -/
def m_copy_link (type : NODE_TYPE) (name : List Char) (destination : Nat)
    (s : File_system_emulator) : Result Unit :=
  let link := (alloc s ⟨some destination, type, name, [], [], []⟩).1
  let s1 := (alloc s ⟨some destination, type, name, [], [], []⟩).2
  (m_find_node_by_path (get_link_basename name) s1).bind fun target =>
    match target with
    | none => .undefined
    | some t =>
      (deref_linked s1 t).bind fun linked =>
        push_child destination link
          (store s1 t
            (if type = NODE_TYPE.HLINK then { linked with m_hlinks := link :: linked.m_hlinks }
             else { linked with m_dlinks := link :: linked.m_dlinks }))

/-- Method `m_copy`; `fuel` bounds the depth of the recursion. -/
def m_copy : Nat → Nat → Nat → File_system_emulator → Result Unit
  | 0, _, _, _ => .diverge
  | fuel + 1, source, destination, s =>
    (deref s source).bind fun src =>
      match src.m_type with
      | NODE_TYPE.FILE =>
        let file_ptr := (alloc s ⟨some destination, NODE_TYPE.FILE, src.m_name, [], [], []⟩).1
        let s1 := (alloc s ⟨some destination, NODE_TYPE.FILE, src.m_name, [], [], []⟩).2
        push_child destination file_ptr s1
      | NODE_TYPE.HLINK => m_copy_link NODE_TYPE.HLINK src.m_name destination s
      | NODE_TYPE.DLINK => m_copy_link NODE_TYPE.DLINK src.m_name destination s
      | NODE_TYPE.DIRECTORY =>
        let dir_ptr := (alloc s ⟨some destination, NODE_TYPE.DIRECTORY, src.m_name, [], [], []⟩).1
        let s1 := (alloc s ⟨some destination, NODE_TYPE.DIRECTORY, src.m_name, [], [], []⟩).2
        (for_each (fun child => m_copy fuel child dir_ptr) src.m_childs s1).bind fun _ s2 =>
          push_child destination dir_ptr s2

/-- Method `copy`. -/
def copy (source dest : List Char) (s : File_system_emulator) : Result Unit :=
  (m_find_node_by_path source s).bind fun source_ptr =>
    match source_ptr with
    | none => .raised "ERROR: Path is not found." s
    | some src =>
      (m_find_node_by_path dest s).bind fun dest_ptr =>
        match dest_ptr with
        | none => .raised "ERROR: Path is not found." s
        | some dst =>
          (deref s dst).bind fun dn =>
            if dn.m_type ≠ NODE_TYPE.DIRECTORY then .raised "ERROR: Path is not found." s
            else m_copy (s.heap.length + 1) src dst s

/-- The loop `for(child : m_childs) if(m_check_on_hlinks(child)) return true;`. -/
def any_child (check : Nat → Read Bool) : List Nat → Read Bool
  | [] => .val false
  | child :: rest =>
    (check child).andThen fun found => if found then .val true else any_child check rest

/-- Method `m_check_on_hlinks`; `fuel` bounds the depth of the recursion. -/
def m_check_on_hlinks : Nat → Nat → File_system_emulator → Read Bool
  | 0, _, _ => .diverge
  | fuel + 1, node, s =>
    (deref s node).andThen fun nd =>
      if nd.m_type = NODE_TYPE.FILE then .val (decide (nd.m_hlinks ≠ []))
      else if nd.m_type = NODE_TYPE.DIRECTORY then
        if nd.m_hlinks ≠ [] then .val true
        else any_child (fun child => m_check_on_hlinks fuel child s) nd.m_childs
      else .val false

/-- The loop `for(dlink : m_dlinks) dlink->m_name = ...` of `m_update_links`. -/
def rename_links (name : List Char) : List Nat → File_system_emulator → Result Unit
  | [], s => .ok () s
  | dlink :: rest, s =>
    (deref s dlink).bind fun l => rename_links name rest (store s dlink { l with m_name := name })

/-- Method `m_update_links`; `fuel` bounds the depth of the recursion. -/
def m_update_links : Nat → Nat → File_system_emulator → Result Unit
  | 0, _, _ => .diverge
  | fuel + 1, node, s =>
    (deref s node).bind fun nd =>
      (if nd.m_type = NODE_TYPE.DIRECTORY ∨ nd.m_type = NODE_TYPE.FILE then
          if nd.m_dlinks ≠ [] then
            (m_to_absolute_path nd.m_name nd.m_parent s).bind fun updated_path =>
              rename_links ("dlink[".toList ++ updated_path ++ "]".toList) nd.m_dlinks s
          else .ok () s
        else .ok () s).bind fun _ s1 =>
        (deref s1 node).bind fun nd1 =>
          if nd1.m_type = NODE_TYPE.DIRECTORY then
            for_each (m_update_links fuel) nd1.m_childs s1
          else .ok () s1

/-- Method `move`. The recursions over the subtree of the source are bounded by
the number of heap cells plus one: a deeper descent meets the same directory
twice and never ends. -/
def move (source dest : List Char) (s : File_system_emulator) : Result Unit :=
  (m_find_node_by_path source s).bind fun source_ptr =>
    match source_ptr with
    | none => .raised "ERROR: Path is not found." s
    | some src =>
      (m_find_node_by_path dest s).bind fun dest_ptr =>
        match dest_ptr with
        | none => .raised "ERROR: Path is not found." s
        | some dst =>
          (deref s dst).bind fun dn =>
            if dn.m_type ≠ NODE_TYPE.DIRECTORY then .raised "ERROR: Path is not found." s
            else
              (if dst = src then Read.val true
                else (drive_root s).andThen fun drive => .val (decide (src = drive))).bind
                fun nothing_to_do =>
                if nothing_to_do then .ok () s
                else
                  (deref s src).bind fun sn =>
                    (if sn.m_type = NODE_TYPE.DIRECTORY then
                        m_check_on_hlinks (s.heap.length + 1) src s
                      else if sn.m_type = NODE_TYPE.FILE then .val (decide (sn.m_hlinks ≠ []))
                      else .val false).bind fun attached =>
                      if attached then
                        .raised "ERROR: Can't move source with attached hard link." s
                      else
                        match sn.m_parent with
                        | none => .undefined
                        | some source_parent =>
                          (deref_dir s source_parent).bind fun pn =>
                            let s1 := store s source_parent
                              { pn with m_childs := list_remove pn.m_childs src }
                            (push_child dst src s1).bind fun _ s2 =>
                              (deref s2 src).bind fun sn2 =>
                                m_update_links (s.heap.length + 1) src
                                  (store s2 src { sn2 with m_parent := some dst })

/-- The inner `while(!queue__.empty())` loop of `delete_tree`. -/
def delete_tree_sweep : Nat → List Nat → File_system_emulator → Result Unit
  | _, [], s => .ok () s
  | 0, _ :: _, _ => .diverge
  | fuel + 1, node :: queue, s =>
    (deref s node).bind fun nd =>
      if nd.m_type ≠ NODE_TYPE.DIRECTORY then
        (m_remove_node node s).bind fun _ s1 => delete_tree_sweep fuel queue s1
      else if nd.m_childs = [] then
        (m_remove_node node s).bind fun _ s1 => delete_tree_sweep fuel queue s1
      else delete_tree_sweep fuel (queue ++ nd.m_childs) s

/-- The outer `while(!target_dir_ptr__->m_childs.empty())` loop of `delete_tree`:
each turn puts the target in the queue and runs the inner loop. -/
def delete_tree_loop (target : Nat) : Nat → File_system_emulator → Result Unit
  | 0, s =>
    (deref_dir s target).bind fun t => if t.m_childs = [] then .ok () s else .diverge
  | fuel + 1, s =>
    (deref_dir s target).bind fun t =>
      if t.m_childs = [] then .ok () s
      else
        (delete_tree_sweep (s.heap.length + 1) [target] s).bind fun _ s1 =>
          delete_tree_loop target fuel s1

/-- Method `delete_tree`. The final removal of the target does not go through
`m_remove_node`. -/
def delete_tree (path : List Char) (s : File_system_emulator) : Result Unit :=
  (m_find_node_by_path path s).bind fun node_ptr =>
    match node_ptr with
    | none => .raised "ERROR: Path is not found." s
    | some target =>
      (deref s target).bind fun nd =>
        if nd.m_type ≠ NODE_TYPE.DIRECTORY then .raised "ERROR: Path is not found." s
        else
          (drive_root s).bind fun drive =>
            if target = drive then .raised "ERROR: Can`t delete root directory." s
            else if target = s.m_curr_catalog then
              .raised "ERROR: Can`t delete current directory." s
            else
              (delete_tree_loop target (s.heap.length + 1) s).bind fun _ s1 =>
                (deref s1 target).bind fun nd1 =>
                  match nd1.m_parent with
                  | none => .undefined
                  | some parent =>
                    (deref_dir s1 parent).bind fun pn =>
                      delete_node
                        (store s1 parent { pn with m_childs := list_remove pn.m_childs target })
                        target

/-- The comparison `lhs->m_name < rhs->m_name` of two `std::string` values:
lexicographic, character by character, a proper prefix being less. -/
def string_lt : List Char → List Char → Bool
  | _, [] => false
  | [], _ :: _ => true
  | a :: as, b :: bs =>
    if a.toNat < b.toNat then true
    else if b.toNat < a.toNat then false
    else string_lt as bs

/-- Name of the node at address `c`; the empty text for a destroyed node. -/
def name_of (s : File_system_emulator) (c : Nat) : List Char :=
  match s.heap.cell c with
  | some n => n.m_name
  | none => []

/-- What a stable sort with the comparator `comp__` of `m_print` maintains: `a` stays
before `b` unless the name of `b` compares less than the name of `a`. -/
def comp_keeps (s : File_system_emulator) (a b : Nat) : Prop :=
  string_lt (name_of s b) (name_of s a) = false

instance comp_keeps_decidable (s : File_system_emulator) : DecidableRel (comp_keeps s) :=
  fun a b => decEq (string_lt (name_of s b) (name_of s a)) false

/-- The call `dir_ptr__->m_childs.sort(comp__)`. The call `std::forward_list::sort` is a
stable sort, and the result of a stable sort does not depend on the algorithm:
it is written as an insertion sort. The comparator dereferences the nodes it
compares, so a destroyed child is undefined behaviour (for a list of one
destroyed child it is the loop after the sort that dereferences it). -/
def sort_childs (s : File_system_emulator) (childs : List Nat) : Read (List Nat) :=
  if childs.all (fun c => (s.heap.cell c).isSome) then
    .val (childs.insertionSort (comp_keeps s))
  else .undefined

/-- The text written by the loop
`for(i = 0; i < depth; ++i) std::cout << ((i == depth - 1) ? "|_" : "| ")`. -/
def indent (depth : Nat) : List Char :=
  ((List.range depth).map fun i => if i = depth - 1 then "|_".toList else "| ".toList).flatten

/-- The loop `for(auto child : dir_ptr__->m_childs) m_print(child, depth + 1)`; the value
is the text written. -/
def print_each (body : Nat → File_system_emulator → Result (List Char)) :
    List Nat → File_system_emulator → Result (List Char)
  | [], s => .ok [] s
  | child :: rest, s =>
    (body child s).bind fun out s1 =>
      (print_each body rest s1).bind fun out_rest s2 => .ok (out ++ out_rest) s2

/-- Method `m_print`; the value is the text written to `std::cout`, and `fuel` bounds
the depth of the recursion. The sort is applied to the child list of the
directory itself, not to a copy. -/
def m_print : Nat → Nat → Nat → File_system_emulator → Result (List Char)
  | 0, _, _, _ => .diverge
  | fuel + 1, node, depth, s =>
    (deref s node).bind fun nd =>
      if nd.m_type = NODE_TYPE.DIRECTORY then
        (sort_childs s nd.m_childs).bind fun sorted =>
          (print_each (fun child => m_print fuel child (depth + 1)) sorted
              (store s node { nd with m_childs := sorted })).bind fun out s1 =>
            .ok (indent depth ++ nd.m_name ++ '\n' :: out) s1
      else .ok (indent depth ++ nd.m_name ++ ['\n']) s

/-- Method `print`; the value is the text written to `std::cout`. -/
def print (s : File_system_emulator) : Result (List Char) :=
  (drive_root s).bind fun drive =>
    (m_print (s.heap.length + 1) drive 0 s).bind fun out s1 => .ok ('\n' :: out ++ ['\n']) s1

/-! ## Sequences of calls -/

/-- One call of a public method of the class. -/
inductive Call where
  | make_dir (path : List Char)
  | make_file (path : List Char)
  | make_hlink (source dest : List Char)
  | make_dlink (source dest : List Char)
  | change_dir (path : List Char)
  | remove_dir (path : List Char)
  | remove_file (path : List Char)
  | copy (source dest : List Char)
  | move (source dest : List Char)
  | delete_tree (path : List Char)
  | print

/-- Run one call. -/
def Call.exec : Call → File_system_emulator → Result Unit
  | .make_dir p, s => FSE.make_dir p s
  | .make_file p, s => FSE.make_file p s
  | .make_hlink a b, s => FSE.make_hlink a b s
  | .make_dlink a b, s => FSE.make_dlink a b s
  | .change_dir p, s => FSE.change_dir p s
  | .remove_dir p, s => FSE.remove_dir p s
  | .remove_file p, s => FSE.remove_file p s
  | .copy a b, s => FSE.copy a b s
  | .move a b, s => FSE.move a b s
  | .delete_tree p, s => FSE.delete_tree p s
  | .print, s => (FSE.print s).bind fun _ s1 => .ok () s1

/-- Run a script of calls in order, stopping at the first call that does not
return normally. -/
def run : List Call → File_system_emulator → Result Unit
  | [], s => .ok () s
  | c :: rest, s => (c.exec s).bind fun _ s1 => run rest s1

/-! ## Vocabulary of the properties -/

/-- State reached from the initial state by a script of calls; the initial state
itself when the script does not run to its end. -/
def after (script : List Call) : File_system_emulator :=
  match run script init with
  | .ok _ s => s
  | _ => init

/-- Names of the live children of the node at address `d`. -/
def child_names (s : File_system_emulator) (d : Nat) : List (List Char) :=
  match s.heap.cell d with
  | some dn => dn.m_childs.filterMap fun c => (s.heap.cell c).map Node.m_name
  | none => []

/-- Node `c` stands in the child list of the live directory `d`. -/
def is_child (s : File_system_emulator) (d c : Nat) : Prop :=
  ∃ dn, s.heap.cell d = some dn ∧ dn.m_type = NODE_TYPE.DIRECTORY ∧ c ∈ dn.m_childs

/-- Node `n` is `a` itself or lies below `a`, at any depth. -/
def in_subtree (s : File_system_emulator) (a n : Nat) : Prop :=
  Relation.ReflTransGen (is_child s) a n

/-- The nodes below `n` are alive and form a tree of at most `k` levels (no child
list leads back to an ancestor). -/
def tree_within (s : File_system_emulator) : Nat → Nat → Bool
  | 0, _ => false
  | k + 1, n =>
    match s.heap.cell n with
    | none => false
    | some nd =>
      if nd.m_type = NODE_TYPE.DIRECTORY then nd.m_childs.all (tree_within s k) else true

/-- Node `n` is a file or directory with a non-empty `m_hlinks` registry. -/
def has_hard_link (s : File_system_emulator) (n : Nat) : Prop :=
  ∃ nd, s.heap.cell n = some nd ∧
    (nd.m_type = NODE_TYPE.FILE ∨ nd.m_type = NODE_TYPE.DIRECTORY) ∧ nd.m_hlinks ≠ []

/-- The absolute path of a node as the properties word it: the names on the parent
chain from the drive down to the node, joined by the separator. `none` when
the chain meets a destroyed node or is longer than `fuel`. -/
def absolute_path_of (s : File_system_emulator) : Nat → Nat → Option (List Char)
  | 0, _ => none
  | fuel + 1, n =>
    match s.heap.cell n with
    | none => none
    | some nd =>
      match nd.m_parent with
      | none => some nd.m_name
      | some p => (absolute_path_of s fuel p).map fun pre => pre ++ '\\' :: nd.m_name

/-- Every live entry of every `m_dlinks` registry is a node of kind `DLINK`. -/
def dlinks_typed (s : File_system_emulator) : Bool :=
  s.heap.all fun cell =>
    match cell with
    | none => true
    | some nd =>
      nd.m_dlinks.all fun l =>
        match s.heap.cell l with
        | none => true
        | some ln => decide (ln.m_type = NODE_TYPE.DLINK)

/-- Node `q` stands in the `m_dlinks` registry of some live node. -/
def registered_dlink (s : File_system_emulator) (q : Nat) : Prop :=
  ∃ owner reg, s.heap.cell owner = some reg ∧ q ∈ reg.m_dlinks

/-- State `s'` is `s` up to the names of registered dynamic links: the same cells
are alive, and a live node keeps its parent, kind, registries and children. -/
def renamed_only (s s' : File_system_emulator) : Prop :=
  s'.m_root = s.m_root ∧ s'.m_curr_catalog = s.m_curr_catalog ∧
  ∀ q, (s.heap.cell q = none ∧ s'.heap.cell q = none) ∨
    ∃ nd name, s.heap.cell q = some nd ∧ s'.heap.cell q = some { nd with m_name := name } ∧
      (name ≠ nd.m_name → registered_dlink s q)

/-- What a successful `move` of node `a` from its parent `p` into `b` does to the
content `nd` of the cell at address `q`, before the links are renamed: `p`
loses `a`, `b` receives it at the front, `a` gets `b` as parent. -/
def moved_cell (a b p q : Nat) (nd : Node) : Node :=
  { nd with
    m_childs := (if q = b then [a] else []) ++
      (if q = p then list_remove nd.m_childs a else nd.m_childs),
    m_parent := if q = a then some b else nd.m_parent }

/-- States reachable from the initial state through calls of the public methods. A
call that throws leaves a state too: the tests go on using the object after a
throw. -/
inductive Reachable : File_system_emulator → Prop where
  | init : Reachable init
  | ok (c : Call) (s s' : File_system_emulator) :
      Reachable s → c.exec s = .ok () s' → Reachable s'
  | raised (c : Call) (e : String) (s s' : File_system_emulator) :
      Reachable s → c.exec s = .raised e s' → Reachable s'

/-- Postcondition of a method: `Q` holds of the value and state of a normal return,
`E` of the state left by a throw. -/
def Result.post {α : Type} (Q : α → File_system_emulator → Prop)
    (E : File_system_emulator → Prop) : Result α → Prop
  | .ok a s => Q a s
  | .raised _ s => E s
  | .undefined => True
  | .diverge => True

/-- Every registry entry is an address that has been allocated, and a live entry of
`m_dlinks` is a node of kind `DLINK`, a live entry of `m_hlinks` a node of kind
`HLINK`. -/
def registries_typed (s : File_system_emulator) : Prop :=
  ∀ p nd, s.heap.cell p = some nd →
    (∀ l ∈ nd.m_dlinks, l < s.heap.length ∧
      ∀ ln, s.heap.cell l = some ln → ln.m_type = NODE_TYPE.DLINK) ∧
    (∀ l ∈ nd.m_hlinks, l < s.heap.length ∧
      ∀ ln, s.heap.cell l = some ln → ln.m_type = NODE_TYPE.HLINK)

/-- The super-root is a live directory without parent whose only child, the drive,
is a live directory without parent. -/
def rooted (s : File_system_emulator) : Prop :=
  ∃ rn drive dn, s.heap.cell s.m_root = some rn ∧ rn.m_type = NODE_TYPE.DIRECTORY ∧
    rn.m_parent = none ∧ rn.m_childs = [drive] ∧ s.heap.cell drive = some dn ∧
    dn.m_type = NODE_TYPE.DIRECTORY ∧ dn.m_parent = none ∧ drive ≠ s.m_root

/-- Every child listed by a live directory other than the super-root is alive and
names that directory as its parent. -/
def parents_consistent (s : File_system_emulator) : Prop :=
  ∀ d dn, s.heap.cell d = some dn → dn.m_type = NODE_TYPE.DIRECTORY → d ≠ s.m_root →
    ∀ c ∈ dn.m_childs, ∃ cn, s.heap.cell c = some cn ∧ cn.m_parent = some d

/-- The super-root is neither the current directory nor the parent of any node. -/
def root_hidden (s : File_system_emulator) : Prop :=
  s.m_curr_catalog ≠ s.m_root ∧
  ∀ n nd, s.heap.cell n = some nd → nd.m_parent ≠ some s.m_root

/-- Below every live node the child lists form a tree of live nodes. -/
def all_trees (s : File_system_emulator) : Prop :=
  ∀ n nd, s.heap.cell n = some nd → ∃ k, tree_within s k n = true

/-- The structure is a tree: the four conditions above. -/
def well_formed (s : File_system_emulator) : Prop :=
  rooted s ∧ parents_consistent s ∧ root_hidden s ∧ all_trees s

/-- Two states with the same tree: the same cells are alive, and a live node has the
same kind, parent and children in both; the root and the current directory
are the same. -/
def same_shape (s s' : File_system_emulator) : Prop :=
  s'.m_root = s.m_root ∧ s'.m_curr_catalog = s.m_curr_catalog ∧
  ∀ x, (s.heap.cell x = none ∧ s'.heap.cell x = none) ∨
    ∃ nd nd', s.heap.cell x = some nd ∧ s'.heap.cell x = some nd' ∧
      nd'.m_type = nd.m_type ∧ nd'.m_parent = nd.m_parent ∧ nd'.m_childs = nd.m_childs

/-- Node `x` stands in the child list of no live directory. -/
def unlisted (s : File_system_emulator) (x : Nat) : Prop :=
  ∀ d dn, s.heap.cell d = some dn → dn.m_type = NODE_TYPE.DIRECTORY → x ∉ dn.m_childs

/-- Every child-list entry of `s'` that points to a cell allocated in `s` was
already an entry of the same directory in `s`. -/
def new_edges_fresh (s s' : File_system_emulator) : Prop :=
  ∀ x xn', s'.heap.cell x = some xn' → xn'.m_type = NODE_TYPE.DIRECTORY →
    ∀ c ∈ xn'.m_childs, c < s.heap.length →
      ∃ xn, s.heap.cell x = some xn ∧ xn.m_type = NODE_TYPE.DIRECTORY ∧ c ∈ xn.m_childs

/-- State `s'` has no live cell and no child-list entry that `s` has not: cells die
and child lists shrink, kinds stay. -/
def shrinks (s s' : File_system_emulator) : Prop :=
  ∀ q nd', s'.heap.cell q = some nd' →
    ∃ nd, s.heap.cell q = some nd ∧ nd'.m_type = nd.m_type ∧
      ∀ c ∈ nd'.m_childs, c ∈ nd.m_childs

/-- State `s'` extends `s`: the heap has grown, the old cells are alive as before
with the same kind and parent, the root is the same, and the new child-list
entries point to new cells. -/
def grows (s s' : File_system_emulator) : Prop :=
  s.heap.length ≤ s'.heap.length ∧ s'.m_root = s.m_root ∧
  (∀ q nd, s.heap.cell q = some nd →
    ∃ nd', s'.heap.cell q = some nd' ∧ nd'.m_type = nd.m_type ∧ nd'.m_parent = nd.m_parent) ∧
  new_edges_fresh s s'

/-! ## Scripts used as concrete inputs -/

/-- The scenario of the test `Remove_file_throw_absolute_path`, with the link
placed in `Dir1`. -/
def script_hard_linked_file : List Call :=
  [.make_dir "C:\\Dir1".toList,
   .make_file "C:\\Dir1\\file1.txt".toList,
   .make_hlink "C:\\Dir1\\file1.txt".toList "C:\\Dir1".toList]

/-- A directory whose only dynamic link has been removed with `remove_file`. -/
def script_removed_dlink_of_dir : List Call :=
  [.make_dir "C:\\D".toList,
   .make_dlink "C:\\D".toList "C:".toList,
   .remove_file "C:\\dlink[C:\\D]".toList]

/-- A file whose only dynamic link has been removed with `remove_file`. -/
def script_removed_dlink_of_file : List Call :=
  [.make_file "C:\\f".toList,
   .make_dlink "C:\\f".toList "C:".toList,
   .remove_file "C:\\dlink[C:\\f]".toList]

/-- A directory with a dynamic link is removed by `delete_tree` and made again. -/
def script_deleted_tree_made_again : List Call :=
  [.make_dir "C:\\D".toList,
   .make_dlink "C:\\D".toList "C:".toList,
   .delete_tree "C:\\D".toList,
   .make_dir "C:\\D".toList]

/-- The scenario of the test `Move_throw_absolute_path`. -/
def script_move_throw : List Call :=
  [.make_dir "C:\\Dir1".toList,
   .make_dir "C:\\Dir1\\Dir2".toList,
   .make_file "C:\\Dir1\\Dir2\\file1.txt".toList,
   .make_file "C:\\Dir1\\Dir2\\file2.txt".toList,
   .make_hlink "C:\\Dir1\\Dir2\\file2.txt".toList "C:\\Dir1\\Dir2".toList,
   .make_dir "C:\\BDir1".toList]

/-- An empty directory with a hard link attached to it. -/
def script_hard_linked_dir : List Call :=
  [.make_dir "C:\\D".toList,
   .make_hlink "C:\\D".toList "C:".toList]

/-- The second half of the test `Remove_file_no_throw_absolute_path`: a file, a
dynamic and a hard link to it, and both links removed with `remove_file`. -/
def script_links_removed : List Call :=
  [.make_dir "C:\\Dir1".toList,
   .make_dir "C:\\Dir1\\Dir2".toList,
   .make_file "C:\\Dir1\\file1.txt".toList,
   .make_dlink "C:\\Dir1\\file1.txt".toList "C:\\Dir1\\Dir2".toList,
   .make_hlink "C:\\Dir1\\file1.txt".toList "C:\\Dir1\\Dir2".toList,
   .remove_file "C:\\Dir1\\Dir2\\hlink[C:\\Dir1\\file1.txt]".toList,
   .remove_file "C:\\Dir1\\Dir2\\dlink[C:\\Dir1\\file1.txt]".toList]

/-- A directory whose name starts with the drive token, a dynamic link to it, and
a directory to move it into. -/
def script_drive_named_dir : List Call :=
  [.make_dir "C:\\C:x".toList,
   .make_dlink "C:\\C:x".toList "C:".toList,
   .make_dir "C:\\B".toList]

/-- A dynamic link to the current directory, given as the empty path. -/
def script_dlink_to_current : List Call :=
  [.make_dlink [] "C:".toList]

/-- A dynamic link to a file, given by a path that goes on after the file. -/
def script_dlink_past_file : List Call :=
  [.make_file "C:\\f".toList,
   .make_dlink "C:\\f\\junk".toList "C:".toList]

/-- The scenario of the test `Move_no_throw_absolute_path`, before the move. -/
def script_move_no_throw : List Call :=
  [.make_dir "C:\\Dir1".toList,
   .make_dir "C:\\Dir1\\Dir2".toList,
   .make_file "C:\\Dir1\\Dir2\\file1.txt".toList,
   .make_file "C:\\Dir1\\Dir2\\file2.txt".toList,
   .make_dlink "C:\\Dir1\\Dir2\\file2.txt".toList "C:\\Dir1\\Dir2".toList,
   .make_dlink "C:\\Dir1\\Dir2".toList "C:\\Dir1\\Dir2".toList,
   .make_dir "C:\\BDir1".toList,
   .change_dir "C:\\Dir1".toList]

/-- Two directories in the drive, the first of them made the current directory. -/
def script_current_beside : List Call :=
  [.make_dir "C:\\A".toList,
   .make_dir "C:\\B".toList,
   .change_dir "C:\\A".toList]

/-- The current directory lies below the directory `C:\A`. -/
def script_current_below : List Call :=
  [.make_dir "C:\\A".toList,
   .make_dir "C:\\A\\B".toList,
   .change_dir "C:\\A\\B".toList]

/-- A directory that holds a file and a dynamic link to that file. -/
def script_dlink_beside_target : List Call :=
  [.make_dir "C:\\D".toList,
   .make_file "C:\\D\\f".toList,
   .make_dlink "C:\\D\\f".toList "C:\\D".toList]

/-- A directory that holds a file and, one level down, a dynamic link to that file. -/
def script_dlink_below_target : List Call :=
  [.make_dir "C:\\D".toList,
   .make_file "C:\\D\\f".toList,
   .make_dir "C:\\D\\E".toList,
   .make_dlink "C:\\D\\f".toList "C:\\D\\E".toList]

/-- A directory `x` is moved into the drive, next to a file of the same name: `move`
does not look at the names in the destination. -/
def script_same_name_twice : List Call :=
  [.make_dir "C:\\A".toList,
   .make_dir "C:\\A\\x".toList,
   .make_file "C:\\x".toList,
   .move "C:\\A\\x".toList "C:".toList]

/-- A directory whose name holds an opening bracket. -/
def script_bracket_dir : List Call :=
  [.make_dir "C:\\a[b".toList]

/-- The state of the test `Make_dir_throw_absolute_path` before its second throw. -/
def script_file_in_dir : List Call :=
  [.make_dir "C:\\Dir1".toList,
   .make_file "C:\\Dir1\\file1".toList]

/-- State `s'` keeps the tree of `s` and has pushed the node `new` on the front of the
child list of `D`: the root and the current directory are the same, the arena
has not shrunk, and a live node of `s` is alive in `s'` with the same name,
kind, parent and, `D` apart, children. -/
def child_pushed (s s' : File_system_emulator) (D new : Nat) : Prop :=
  s'.m_root = s.m_root ∧ s'.m_curr_catalog = s.m_curr_catalog ∧
  s.heap.length ≤ s'.heap.length ∧
  ∀ q nd, s.heap.cell q = some nd →
    ∃ nd', s'.heap.cell q = some nd' ∧ nd'.m_name = nd.m_name ∧ nd'.m_type = nd.m_type ∧
      nd'.m_parent = nd.m_parent ∧
      nd'.m_childs = if q = D then new :: nd.m_childs else nd.m_childs

/-- A directory made under the empty path. -/
def script_empty_name : List Call :=
  [.make_dir []]

/-- A directory named like a hard link to the drive, and that hard link moved in
front of it. -/
def script_link_before_dir : List Call :=
  [.make_dir "hlink[C:]".toList,
   .make_dir "C:\\E".toList,
   .make_hlink "C:".toList "C:\\E".toList,
   .move "C:\\E\\hlink[C:]".toList "C:".toList]

/-- The test `Make_dir_no_throw_relative_path` before its second `make_dir`. -/
def script_relative_dir : List Call :=
  [.make_dir "C:\\Dir1".toList,
   .change_dir "C:\\Dir1".toList,
   .make_dir "Dir2".toList]

/-- A directory copied into its own parent. -/
def script_copy_beside : List Call :=
  [.make_dir "C:\\A".toList,
   .copy "C:\\A".toList "C:".toList]

/-- A hard link to the drive, and a directory made under the name of that link. -/
def script_dir_over_link : List Call :=
  [.make_hlink "C:".toList "C:".toList,
   .make_dir "C:\\hlink[C:]".toList]

/-- One file in the drive. -/
def script_one_file : List Call :=
  [.make_file "C:\\f".toList]

/-- A directory and a dynamic link to it, placed in the drive. -/
def script_dir_with_dlink : List Call :=
  [.make_dir "C:\\D".toList,
   .make_dlink "C:\\D".toList "C:".toList]

/-- The state of the test `Make_link_throw_absolute_path` before its throws. -/
def script_link_throw : List Call :=
  [.make_dir "C:\\Dir1".toList,
   .make_file "C:\\Dir1\\file1.txt".toList,
   .make_dir "C:\\Dir2".toList]

/-- The state of the test `Make_link_throw_relative_path` before its throws. -/
def script_link_throw_relative : List Call :=
  [.make_dir "C:\\Dir1".toList,
   .make_file "C:\\Dir1\\file1.txt".toList,
   .make_dir "C:\\Dir2".toList,
   .change_dir "C:\\Dir1".toList]

/-- A directory that holds a file `f` with a hard link placed outside and, in front of
it in the child list, a file `a`. -/
def script_partial_delete : List Call :=
  [.make_dir "C:\\D".toList,
   .make_file "C:\\D\\f".toList,
   .make_file "C:\\D\\a".toList,
   .make_hlink "C:\\D\\f".toList "C:".toList]

/-- The names on the parent chain of the directory `dir`, from the top of the chain
down to `dir` itself, as the properties word the absolute path of the current
directory; `none` when the chain meets a cell that is not a live directory or is
longer than `fuel`. -/
def parent_chain (s : File_system_emulator) : Nat → Option Nat → Option (List (List Char))
  | _, none => some []
  | 0, some _ => none
  | fuel + 1, some dir =>
    match s.heap.cell dir with
    | none => none
    | some d =>
      if d.m_type = NODE_TYPE.DIRECTORY then
        (parent_chain s fuel d.m_parent).map fun names => names ++ [d.m_name]
      else none

/-- The absolute path of `source` as the properties word it: `source` itself when it
starts with the drive token, otherwise the names of the chain, each followed by
the separator, followed by `source`. -/
def absolute_form (source : List Char) (names : List (List Char)) : List Char :=
  if is_absolute_path source then source
  else (names.map fun n => n ++ ['\\']).flatten ++ source

/-- State `s'` is `s` with one link more: the root and the current directory are the
same, the arena has one cell more, the new cell (address `s.heap.length`) holds
a node of kind `type` named `L` with parent `D` and nothing else, and every
older cell is as in `s` except that the child list of `D` and the registry of `t`
that matches `type` have the new node at the front. -/
def link_added (s s' : File_system_emulator) (D t : Nat) (type : NODE_TYPE) (L : List Char) :
    Prop :=
  s'.m_root = s.m_root ∧ s'.m_curr_catalog = s.m_curr_catalog ∧
  s'.heap.length = s.heap.length + 1 ∧
  s'.heap.cell s.heap.length = some ⟨some D, type, L, [], [], []⟩ ∧
  ∀ q, q < s.heap.length →
    s'.heap.cell q = (s.heap.cell q).map fun nd =>
      { nd with
        m_childs := if q = D then s.heap.length :: nd.m_childs else nd.m_childs,
        m_hlinks :=
          if q = t ∧ type = NODE_TYPE.HLINK then s.heap.length :: nd.m_hlinks else nd.m_hlinks,
        m_dlinks :=
          if q = t ∧ type = NODE_TYPE.DLINK then s.heap.length :: nd.m_dlinks else nd.m_dlinks }

/-- The state of the test `Make_link_no_throw_relative_path` before its links. -/
def script_link_relative : List Call :=
  [.make_dir "C:\\Dir1".toList,
   .make_file "C:\\Dir1\\file1.txt".toList,
   .make_dir "C:\\Dir2".toList,
   .change_dir "C:\\Dir1".toList]

/-- The loop of `split_path` as a recursion over the text that remains to be read:
`cur` is the text read since the last separator. A separator closes the
segment `cur`; an opening bracket ends the loop, and the last segment is `cur`
followed by the bracket and all the text after it. -/
def split_rest : List Char → List Char → List (List Char)
  | [], cur => [cur]
  | c :: rest, cur =>
    if c = '\\' then cur :: split_rest rest []
    else if c = '[' then [cur ++ c :: rest]
    else split_rest rest (cur ++ [c])

/-- Concatenation of the texts `f` gives for the nodes of a list, in list order. -/
def preorder_each (f : Nat → Option (List Char)) : List Nat → Option (List Char)
  | [] => some []
  | c :: rest => (f c).bind fun out => (preorder_each f rest).map fun out_rest => out ++ out_rest

/-- The depth-first pre-order text of the tree below `node` as it stands in state `s`:
the line of the node, then the texts of its children in the order of its child
list, one level deeper. `none` when a destroyed node is met or the tree is
deeper than `k`. -/
def preorder (s : File_system_emulator) : Nat → Nat → Nat → Option (List Char)
  | 0, _, _ => none
  | k + 1, node, depth =>
    match s.heap.cell node with
    | none => none
    | some nd =>
      if nd.m_type = NODE_TYPE.DIRECTORY then
        (preorder_each (fun c => preorder s k c (depth + 1)) nd.m_childs).map fun out =>
          indent depth ++ nd.m_name ++ '\n' :: out
      else some (indent depth ++ nd.m_name ++ ['\n'])

/-- State `s'` is `s` up to the order of siblings: the same root, current directory
and arena size, the same cells alive, and a live node keeps its name, kind,
parent and registries, its child list being a permutation of what it was. -/
def reordered (s s' : File_system_emulator) : Prop :=
  s'.m_root = s.m_root ∧ s'.m_curr_catalog = s.m_curr_catalog ∧
  s'.heap.length = s.heap.length ∧
  ∀ q, (s.heap.cell q = none ∧ s'.heap.cell q = none) ∨
    ∃ nd l, s.heap.cell q = some nd ∧ s'.heap.cell q = some { nd with m_childs := l } ∧
      l.Perm nd.m_childs

/-- State `s'` is `s` with the child lists of the directories in `V` sorted by name, and
nothing else changed. -/
def tidied (s s' : File_system_emulator) (V : Nat → Prop) : Prop :=
  s'.m_root = s.m_root ∧ s'.m_curr_catalog = s.m_curr_catalog ∧
  s'.heap.length = s.heap.length ∧
  ∀ q, (s.heap.cell q = none ∧ s'.heap.cell q = none) ∨
    ∃ nd l, s.heap.cell q = some nd ∧ s'.heap.cell q = some { nd with m_childs := l } ∧
      (V q ∧ nd.m_type = NODE_TYPE.DIRECTORY → l = nd.m_childs.insertionSort (comp_keeps s)) ∧
      (¬ (V q ∧ nd.m_type = NODE_TYPE.DIRECTORY) → l = nd.m_childs)

/-- Every directory at or below `node` lists its children in non-decreasing order of
their names. -/
def sorted_below (s : File_system_emulator) (node : Nat) : Prop :=
  ∀ q nd, in_subtree s node q → s.heap.cell q = some nd → nd.m_type = NODE_TYPE.DIRECTORY →
    nd.m_childs.Pairwise fun a b => string_lt (name_of s b) (name_of s a) = false

/-- The state of the test `Make_link_no_throw_absolute_path` when it prints. -/
def script_print : List Call :=
  [.make_dir "C:\\Dir1".toList,
   .make_file "C:\\Dir1\\file1.txt".toList,
   .make_dir "C:\\Dir2".toList,
   .make_hlink "C:\\Dir1\\file1.txt".toList "C:\\Dir2".toList,
   .make_hlink "C:\\Dir1".toList "C:\\Dir2".toList,
   .make_dlink "C:\\Dir1\\file1.txt".toList "C:\\Dir2".toList,
   .make_dlink "C:\\Dir1".toList "C:\\Dir2".toList]

/-- The current directory is an address that has been allocated. -/
def cursor_allocated (s : File_system_emulator) : Prop :=
  s.m_curr_catalog < s.heap.length

/-- State `s'` has an arena at least as long as that of `s` and the same current
directory. -/
def arena_kept (s s' : File_system_emulator) : Prop :=
  s.heap.length ≤ s'.heap.length ∧ s'.m_curr_catalog = s.m_curr_catalog

/-- The registry that holds the links of kind `type`: `m_hlinks` for `HLINK`, `m_dlinks`
otherwise. -/
def registry_of (type : NODE_TYPE) (nd : Node) : List Nat :=
  if type = NODE_TYPE.HLINK then nd.m_hlinks else nd.m_dlinks

/-- Entry `l`, gained by the registry of kind `kind` of the node `q` while a copy ran
from state `s0` to state `s'`: a node made since `s0`, alive in `s'`, a link of that
kind, whose name encodes a path that resolved to `q` in `s0`. -/
def gained (s0 s' : File_system_emulator) (q : Nat) (kind : NODE_TYPE) (l : Nat) : Prop :=
  s0.heap.length ≤ l ∧ ∃ ln, s'.heap.cell l = some ln ∧ ln.m_type = kind ∧
    m_find_node_by_path (get_link_basename ln.m_name) s0 = .val (some q)

/-- What a part of a copy that began in state `s0` has done between the states `s` and
`s'`: the root and the current directory are the same, the arena has not shrunk,
a destroyed cell of `s` stays destroyed, and a live node `q` of `s` keeps its name,
kind and parent, has the nodes `added q` in front of its child list, and has in
front of each registry only links gained from the copy. -/
def copying (s0 s s' : File_system_emulator) (added : Nat → List Nat) : Prop :=
  s'.m_root = s.m_root ∧ s'.m_curr_catalog = s.m_curr_catalog ∧
  s.heap.length ≤ s'.heap.length ∧
  ∀ q, q < s.heap.length →
    (s.heap.cell q = none ∧ s'.heap.cell q = none) ∨
    ∃ nd nd', s.heap.cell q = some nd ∧ s'.heap.cell q = some nd' ∧
      nd'.m_name = nd.m_name ∧ nd'.m_type = nd.m_type ∧ nd'.m_parent = nd.m_parent ∧
      nd'.m_childs = added q ++ nd.m_childs ∧
      (∃ ex, nd'.m_hlinks = ex ++ nd.m_hlinks ∧
        ∀ l ∈ ex, gained s0 s' q NODE_TYPE.HLINK l) ∧
      (∃ ex, nd'.m_dlinks = ex ++ nd.m_dlinks ∧
        ∀ l ∈ ex, gained s0 s' q NODE_TYPE.DLINK l)

/-- Every node made since state `s0` has empty registries. -/
def new_clean (s0 s : File_system_emulator) : Prop :=
  ∀ q nd, s0.heap.length ≤ q → s.heap.cell q = some nd → nd.m_hlinks = [] ∧ nd.m_dlinks = []

/-- The tree below `x'` in state `s` is a copy of the tree below `x` in state `s0`, at most
`k` levels deep: `x'` is a node made since `s0` with the name and kind of `x`; the
children of a directory correspond one to one, the child list of the copy being
in reverse order (each copied child is pushed at the front), and each copied
child has the copy as parent and a greater address; a node that is not a
directory has no children; the name of a link encodes a path that resolved in
`s0` to a file or directory `t`, and the copy of the link stands in the registry
of `t` that matches its kind. -/
def copy_of (s0 s : File_system_emulator) : Nat → Nat → Nat → Prop
  | 0, _, _ => False
  | k + 1, x, x' =>
    ∃ xn xn', s0.heap.cell x = some xn ∧ s.heap.cell x' = some xn' ∧ s0.heap.length ≤ x' ∧
      xn'.m_name = xn.m_name ∧ xn'.m_type = xn.m_type ∧
      (xn.m_type = NODE_TYPE.DIRECTORY →
        List.Forall₂
          (fun c c' => x' < c' ∧ (∃ cn', s.heap.cell c' = some cn' ∧ cn'.m_parent = some x') ∧
            copy_of s0 s k c c')
          xn.m_childs xn'.m_childs.reverse) ∧
      (xn.m_type ≠ NODE_TYPE.DIRECTORY → xn'.m_childs = []) ∧
      (xn.m_type = NODE_TYPE.HLINK ∨ xn.m_type = NODE_TYPE.DLINK →
        ∃ t tn tn', m_find_node_by_path (get_link_basename xn.m_name) s0 = .val (some t) ∧
          s0.heap.cell t = some tn ∧
          (tn.m_type = NODE_TYPE.FILE ∨ tn.m_type = NODE_TYPE.DIRECTORY) ∧
          s.heap.cell t = some tn' ∧ x' ∈ registry_of xn.m_type tn')

/-- State `s` has the tree of `s0` on the cells of `s0`: the same root and current
directory, the same cells of `s0` destroyed, and a live node of `s0` alive with the
same name, kind and children. -/
def old_kept (s0 s : File_system_emulator) : Prop :=
  s.m_root = s0.m_root ∧ s.m_curr_catalog = s0.m_curr_catalog ∧
  s0.heap.length ≤ s.heap.length ∧
  ∀ q, q < s0.heap.length →
    (s0.heap.cell q = none ∧ s.heap.cell q = none) ∨
    ∃ nd nd', s0.heap.cell q = some nd ∧ s.heap.cell q = some nd' ∧
      nd'.m_name = nd.m_name ∧ nd'.m_type = nd.m_type ∧ nd'.m_childs = nd.m_childs

/-- What the call `m_copy(x, d)` has done between the states `s` and `s'`, as a part of a
copy that began in state `s0`: the node at the first free address of `s` is a copy
of `x`, has `d` as parent and has been pushed on the child list of `d`; nothing else
has been pushed on a node of `s`; and the nodes made since `s0` have empty
registries. -/
def copied (s0 s s' : File_system_emulator) (k x d : Nat) : Prop :=
  copying s0 s s' (fun q => if q = d then [s.heap.length] else []) ∧
  new_clean s0 s' ∧
  copy_of s0 s' k x s.heap.length ∧
  ∃ xn', s'.heap.cell s.heap.length = some xn' ∧ xn'.m_parent = some d

/-- A hard-linked file and a second directory to copy it into. -/
def script_copy_hard_linked : List Call :=
  [.make_dir "C:\\Dir1".toList,
   .make_file "C:\\Dir1\\file1.txt".toList,
   .make_hlink "C:\\Dir1\\file1.txt".toList "C:\\Dir1".toList,
   .make_dir "C:\\Dir2".toList]

/-! ## Name validation of the script interpreter (`src/main.cpp`, lines 49-87) -/

/-- The call `std::isdigit(c)` in the default "C" locale, which `main` never
changes. -/
def isdigit (c : Char) : Bool :=
  c.isDigit

/-- The call `std::isalpha(c)` in the default "C" locale: the 52 ASCII letters. -/
def isalpha (c : Char) : Bool :=
  c.isAlpha

/-- Function `is_valid_name` of `main.cpp`. The differences `path.size() - ext_idx__ - 1`
and `ext_idx__ - 1` and the sum `idx__ + 1` are computed modulo `2 ^ 64`;
`substr(0, count)` clips `count` to the length of the text. The first value of
`name__`, `no_ext_path__.substr(0)`, is overwritten before it is read, so `name` is
the second one, `no_ext_path__.substr(idx__ + 1)`. -/
def is_valid_name (path : List Char) : Bool :=
  let ext_idx := find_last_of path '.'
  if ext_idx ≠ npos ∧ (path.length + 2 ^ 64 - ext_idx - 1) % 2 ^ 64 > 3 then false
  else
    let no_ext_path := substr path 0 ((ext_idx + 2 ^ 64 - 1) % 2 ^ 64)
    let idx := find_last_of no_ext_path '\\'
    let name := substr_from no_ext_path ((idx + 1) % 2 ^ 64)
    if idx = npos then
      if no_ext_path.length > 8 then false
      else name.all fun c => isdigit c || isalpha c
    else if (no_ext_path.length + 2 ^ 64 - idx) % 2 ^ 64 > 8 then false
    else name.all fun c => isdigit c || isalpha c

/-- The final component of a path as the properties word it: the characters after
the last separator. -/
def final_component (path : List Char) : List Char :=
  (path.reverse.takeWhile fun c => c ≠ '\\').reverse

/-- The base name of the final component as the properties word it: what stands
before the last `'.'` of the component, the whole component when it has none. -/
def base_name (path : List Char) : List Char :=
  let comp := final_component path
  if '.' ∈ comp then ((comp.reverse.dropWhile fun c => c ≠ '.').drop 1).reverse else comp

/-! ## Vocabulary of the tree invariant and of termination -/

/-- Total postcondition of a method: as `Result.post`, and the call does not run
for ever. -/
def Result.ends {α : Type} (Q : α → File_system_emulator → Prop)
    (E : File_system_emulator → Prop) : Result α → Prop
  | .ok a s => Q a s
  | .raised _ s => E s
  | .undefined => True
  | .diverge => False

/-- Every live node stands in the child list of the live directory its parent
reference names; a live node without parent reference is the super-root or
its child, the drive. -/
def attached (s : File_system_emulator) : Prop :=
  ∀ n nd, s.heap.cell n = some nd →
    (∀ p, nd.m_parent = some p → is_child s p n) ∧
    (nd.m_parent = none → n = s.m_root ∨ is_child s s.m_root n)

/-- No child list names a node twice. -/
def childs_nodup (s : File_system_emulator) : Prop :=
  ∀ d dn, s.heap.cell d = some dn → dn.m_childs.Nodup

/-- A well-formed finite tree state: the child lists form a tree under the
super-root, parent references and child lists agree in both directions, no
child list names a node twice, and the registries hold links of their kind. -/
def tree_state (s : File_system_emulator) : Prop :=
  well_formed s ∧ registries_typed s ∧ attached s ∧ childs_nodup s

/-- State `s'` is `s` with cells destroyed and child-list entries taken out: the
arena has the same size, and a live node of `s'` was alive in `s` with the
same kind and parent, its child list being a sublist of what it was. -/
def pruned (s s' : File_system_emulator) : Prop :=
  s'.heap.length = s.heap.length ∧ s'.m_root = s.m_root ∧
  ∀ q nd', s'.heap.cell q = some nd' →
    ∃ nd, s.heap.cell q = some nd ∧ nd'.m_type = nd.m_type ∧ nd'.m_parent = nd.m_parent ∧
      nd'.m_childs.Sublist nd.m_childs

/-- State `s'` is `s` without the node `x`: its cell is destroyed, and every other
cell is as alive as before, with the same kind and parent and a child list
that has lost at most the entry `x`. -/
def removed (s s' : File_system_emulator) (x : Nat) : Prop :=
  s'.heap.length = s.heap.length ∧ s'.m_root = s.m_root ∧ s'.heap.cell x = none ∧
  ∀ q, q ≠ x →
    (s.heap.cell q = none ∧ s'.heap.cell q = none) ∨
    ∃ nd nd', s.heap.cell q = some nd ∧ s'.heap.cell q = some nd' ∧
      nd'.m_type = nd.m_type ∧ nd'.m_parent = nd.m_parent ∧
      nd'.m_childs.Sublist nd.m_childs ∧ ∀ c ∈ nd.m_childs, c ≠ x → c ∈ nd'.m_childs

/-- Number of live cells of the arena. -/
def live_count (s : File_system_emulator) : Nat :=
  ((List.range s.heap.length).filter fun q => (s.heap.cell q).isSome).length

/-- Number of nodes met by a descent of at most `k` levels from `n` through the
child lists, `n` included. -/
def subtree_size (s : File_system_emulator) : Nat → Nat → Nat
  | 0, _ => 1
  | k + 1, n =>
    match s.heap.cell n with
    | none => 1
    | some nd =>
      if nd.m_type = NODE_TYPE.DIRECTORY then 1 + (nd.m_childs.map (subtree_size s k)).sum
      else 1

/-- The nodes met by that descent, in preorder. -/
def subtree_nodes (s : File_system_emulator) : Nat → Nat → List Nat
  | 0, n => [n]
  | k + 1, n =>
    match s.heap.cell n with
    | none => [n]
    | some nd =>
      if nd.m_type = NODE_TYPE.DIRECTORY then
        n :: (nd.m_childs.map (subtree_nodes s k)).flatten
      else [n]

/-- The node reached from `n` by following `k` parent references. -/
def ancestor (s : File_system_emulator) : Nat → Nat → Option Nat
  | 0, n => some n
  | k + 1, n =>
    match s.heap.cell n with
    | none => none
    | some nd =>
      match nd.m_parent with
      | none => none
      | some p => ancestor s k p
/-- As `attached`, for the nodes outside `P`: the nodes in `P` are being built or
moved and are not yet in the child list of their parent. -/
def attached_but (s : File_system_emulator) (P : Nat → Prop) : Prop :=
  ∀ n nd, s.heap.cell n = some nd → ¬ P n →
    (∀ p, nd.m_parent = some p → is_child s p n) ∧
    (nd.m_parent = none → n = s.m_root ∨ is_child s s.m_root n)

/-- Postcondition of a method that also excludes undefined behaviour: as
`Result.post`, and the call reads no destroyed node and no `nullptr`. -/
def Result.defined {α : Type} (Q : α → File_system_emulator → Prop)
    (E : File_system_emulator → Prop) : Result α → Prop
  | .ok a s => Q a s
  | .raised _ s => E s
  | .undefined => False
  | .diverge => True

/-- What a part of `delete_tree` that works on `target` has done between the states `s`
and `s'`: the state is pruned, only nodes strictly below `target` are destroyed,
and no registry of dynamic links has changed. -/
def swept (target : Nat) (s s' : File_system_emulator) : Prop :=
  pruned s s' ∧
  (∀ q, s.heap.cell q ≠ none → s'.heap.cell q = none →
    Relation.TransGen (is_child s) target q) ∧
  ∀ q nd', s'.heap.cell q = some nd' →
    ∃ nd, s.heap.cell q = some nd ∧ nd'.m_dlinks = nd.m_dlinks

/-- No node strictly below `target` has a registered dynamic link. -/
def no_dlinks_below (s : File_system_emulator) (target : Nat) : Prop :=
  ∀ x xn, Relation.TransGen (is_child s) target x → s.heap.cell x = some xn →
    xn.m_dlinks = []

/-- Neither of the nodes `a` and `b` lies in the subtree of the other. -/
def apart (s : File_system_emulator) (a b : Nat) : Prop :=
  ¬ in_subtree s a b ∧ ¬ in_subtree s b a
/-- Every dynamic link registered on a node at or below `n` is alive. -/
def dlinks_alive (s : File_system_emulator) (n : Nat) : Prop :=
  ∀ x xn, in_subtree s n x → s.heap.cell x = some xn →
    ∀ l ∈ xn.m_dlinks, s.heap.cell l ≠ none

/-- The script `script_current_below` followed by `delete_tree("C:\A")`: the call
returns and destroys the current directory `C:\A\B`. -/
def script_current_destroyed : List Call :=
  [.make_dir "C:\\A".toList,
   .make_dir "C:\\A\\B".toList,
   .change_dir "C:\\A\\B".toList,
   .delete_tree "C:\\A".toList]

/-- A directory whose only dynamic link has been removed with `remove_file`, and a
directory to move it into. -/
def script_removed_dlink_and_dir : List Call :=
  [.make_dir "C:\\D".toList,
   .make_dlink "C:\\D".toList "C:".toList,
   .remove_file "C:\\dlink[C:\\D]".toList,
   .make_dir "C:\\B".toList]

/-- A file `x` is moved into the drive, next to a directory of the same name. -/
def script_same_name_file_first : List Call :=
  [.make_dir "C:\\A".toList,
   .make_file "C:\\A\\x".toList,
   .make_dir "C:\\x".toList,
   .move "C:\\A\\x".toList "C:".toList]

/-- A directory `C:\A` that holds a directory `B`. -/
def script_dir_in_dir : List Call :=
  [.make_dir "C:\\A".toList,
   .make_dir "C:\\A\\B".toList]

/-- The state that `move("C:\A", "C:\A\B")` has built from the state of
`script_dir_in_dir` when it calls `m_update_links`: `C:\A` (address 2) has left
the child list of the drive, stands in the child list of `C:\A\B` (address 3)
and has it as parent, while `C:\A\B` is still a child of `C:\A`. -/
def moved_into_itself : File_system_emulator :=
  { heap := [some ⟨none, NODE_TYPE.DIRECTORY, DRIVE, [], [], []⟩,
             some ⟨none, NODE_TYPE.DIRECTORY, [], [], [], [0]⟩,
             some ⟨some 3, NODE_TYPE.DIRECTORY, "A".toList, [], [], [3]⟩,
             some ⟨some 2, NODE_TYPE.DIRECTORY, "B".toList, [], [], [2]⟩],
    m_root := 1,
    m_curr_catalog := 0 }

/-! ## Basic facts about the embedding -/

@[simp] theorem read_bind_val {α β : Type} (a : α) (f : α → Result β) : (Read.val a).bind f = f a := rfl
@[simp] theorem read_bind_undefined {α β : Type} (f : α → Result β) : (Read.undefined : Read α).bind f = .undefined := rfl
@[simp] theorem read_bind_diverge {α β : Type} (f : α → Result β) : (Read.diverge : Read α).bind f = .diverge := rfl
@[simp] theorem read_andThen_val {α β : Type} (a : α) (f : α → Read β) : (Read.val a).andThen f = f a := rfl
@[simp] theorem read_andThen_undefined {α β : Type} (f : α → Read β) : (Read.undefined : Read α).andThen f = .undefined := rfl
@[simp] theorem read_andThen_diverge {α β : Type} (f : α → Read β) : (Read.diverge : Read α).andThen f = .diverge := rfl
@[simp] theorem result_bind_ok {α β : Type} (a : α) (s : File_system_emulator) (f : α → File_system_emulator → Result β) : (Result.ok a s).bind f = f a s := rfl
@[simp] theorem result_bind_raised {α β : Type} (e : String) (s : File_system_emulator) (f : α → File_system_emulator → Result β) : (Result.raised e s : Result α).bind f = .raised e s := rfl
@[simp] theorem result_bind_undefined {α β : Type} (f : α → File_system_emulator → Result β) : (Result.undefined : Result α).bind f = .undefined := rfl
@[simp] theorem result_bind_diverge {α β : Type} (f : α → File_system_emulator → Result β) : (Result.diverge : Result α).bind f = .diverge := rfl

theorem deref_of_cell {s : File_system_emulator} {p : Nat} {n : Node} (h : s.heap.cell p = some n) :
    deref s p = .val n := by
  simp [deref, h]

theorem cell_lt {h : Heap} {p : Nat} {n : Node} (hc : h.cell p = some n) : p < h.length := by
  unfold Heap.cell at hc
  by_contra hlt
  have : h[p]? = none := List.getElem?_eq_none (by omega)
  simp [this] at hc

/-! ## Trees of live nodes and the hard-link scan -/

/-- More levels never hurt. -/
theorem tree_within_mono (s : File_system_emulator) :
    ∀ k n, tree_within s k n = true → tree_within s (k + 1) n = true := by
  intro k
  induction k with
  | zero => intro n h; simp [tree_within] at h
  | succ k ih =>
    intro n h
    unfold tree_within at h ⊢
    cases hc : s.heap.cell n with
    | none => simp [hc] at h
    | some nd =>
      simp only [hc] at h ⊢
      by_cases hd : nd.m_type = NODE_TYPE.DIRECTORY
      · simp only [hd, if_true, List.all_eq_true] at h ⊢
        intro c hcm
        exact ih c (h c hcm)
      · simp [hd]

theorem tree_within_child (s : File_system_emulator) {k a c : Nat}
    (h : tree_within s (k + 1) a = true) (hc : is_child s a c) : tree_within s k c = true := by
  obtain ⟨dn, hcell, hdir, hmem⟩ := hc
  unfold tree_within at h
  simp only [hcell, hdir, if_true, List.all_eq_true] at h
  exact h c hmem

theorem tree_within_pos (s : File_system_emulator) {k a : Nat} (h : tree_within s k a = true) :
    ∃ j, k = j + 1 := by
  cases k with
  | zero => simp [tree_within] at h
  | succ j => exact ⟨j, rfl⟩

/-- Every node of the subtree is itself the root of a tree of at most as many levels. -/
theorem tree_within_subtree (s : File_system_emulator) {k a n : Nat}
    (h : tree_within s k a = true) (hn : in_subtree s a n) : tree_within s k n = true := by
  induction hn with
  | refl => exact h
  | tail _ hstep ih =>
    obtain ⟨j, rfl⟩ := tree_within_pos s ih
    exact tree_within_mono s j _ (tree_within_child s ih hstep)

/-- A tree has no cycle of child lists. -/
theorem tree_within_acyclic (s : File_system_emulator) :
    ∀ k a, tree_within s k a = true → ¬ Relation.TransGen (is_child s) a a := by
  intro k
  induction k with
  | zero => intro a h; simp [tree_within] at h
  | succ k ih =>
    intro a h hcyc
    obtain ⟨c, hac, hca⟩ := Relation.TransGen.head'_iff.mp hcyc
    have hc : tree_within s k c = true := tree_within_child s h hac
    have ha : tree_within s k a = true := tree_within_subtree s hc hca
    exact ih a ha hcyc

theorem nodup_bound (l : List Nat) (L : Nat) (hn : l.Nodup) (hb : ∀ x ∈ l, x < L) : l.length ≤ L := by
  have hsub : l ⊆ List.range L := fun x hx => List.mem_range.mpr (hb x hx)
  have := (List.subperm_of_subset hn hsub).length_le
  simpa using this

/-- Pigeonhole: below distinct ancestors, the levels that remain fit in the heap. -/
theorem tree_within_heap_aux (s : File_system_emulator) (j : Nat) :
    ∀ k (anc : List Nat) (n : Nat), anc.Nodup → (∀ a ∈ anc, a < s.heap.length) →
      (∀ a ∈ anc, Relation.TransGen (is_child s) a n) →
      tree_within s j n = true → s.heap.length ≤ anc.length + k →
      tree_within s k n = true := by
  intro k
  induction k with
  | zero =>
    intro anc n hnd hlt hreach htree hlen
    exfalso
    obtain ⟨j', rfl⟩ := tree_within_pos s htree
    have hlive : ∃ nd, s.heap.cell n = some nd := by
      unfold tree_within at htree
      cases hc : s.heap.cell n with
      | none => simp [hc] at htree
      | some nd => exact ⟨nd, rfl⟩
    obtain ⟨nd, hnd'⟩ := hlive
    have hn_lt := cell_lt hnd'
    have hnotin : n ∉ anc := fun hmem => tree_within_acyclic s _ n htree (hreach n hmem)
    have := nodup_bound (n :: anc) s.heap.length (List.nodup_cons.mpr ⟨hnotin, hnd⟩)
      (by intro x hx; rcases List.mem_cons.mp hx with rfl | hx; exact hn_lt; exact hlt x hx)
    simp at this
    omega
  | succ k ih =>
    intro anc n hnd hlt hreach htree hlen
    obtain ⟨j', rfl⟩ := tree_within_pos s htree
    have hnotin : n ∉ anc := fun hmem => tree_within_acyclic s _ n htree (hreach n hmem)
    have htree' := htree
    unfold tree_within at htree ⊢
    cases hc : s.heap.cell n with
    | none => simp [hc] at htree
    | some nd =>
      simp only [hc] at htree ⊢
      by_cases hd : nd.m_type = NODE_TYPE.DIRECTORY
      · simp only [hd, if_true, List.all_eq_true] at htree ⊢
        intro c hcm
        have hchild : is_child s n c := ⟨nd, hc, hd, hcm⟩
        apply ih (n :: anc) c (List.nodup_cons.mpr ⟨hnotin, hnd⟩)
        · intro x hx
          rcases List.mem_cons.mp hx with rfl | hx
          · exact cell_lt hc
          · exact hlt x hx
        · intro x hx
          rcases List.mem_cons.mp hx with rfl | hx
          · exact Relation.TransGen.single hchild
          · exact Relation.TransGen.tail (hreach x hx) hchild
        · exact tree_within_mono s _ _ (htree c hcm)
        · simp; omega
      · simp [hd]

/-- A tree of live nodes has at most as many levels as the heap has cells. -/
theorem tree_within_heap (s : File_system_emulator) {j a : Nat} (h : tree_within s j a = true) :
    tree_within s (s.heap.length + 1) a = true :=
  tree_within_heap_aux s j (s.heap.length + 1) [] a List.nodup_nil (by simp) (by simp) h (by simp)


theorem any_child_spec (check : Nat → Read Bool) (P : Nat → Prop) :
    ∀ l : List Nat, (∀ c ∈ l, ∃ b, check c = .val b ∧ (b = true ↔ P c)) →
      ∃ b, any_child check l = .val b ∧ (b = true ↔ ∃ c ∈ l, P c) := by
  intro l
  induction l with
  | nil => intro _; exact ⟨false, rfl, by simp⟩
  | cons c rest ih =>
    intro h
    obtain ⟨b, hb, hP⟩ := h c (List.mem_cons_self _ _)
    obtain ⟨b', hb', hP'⟩ := ih (fun x hx => h x (List.mem_cons_of_mem _ hx))
    cases b with
    | true =>
      refine ⟨true, by simp [any_child, hb], ?_⟩
      simp only [true_iff]
      exact ⟨c, List.mem_cons_self _ _, hP.mp rfl⟩
    | false =>
      refine ⟨b', by simp [any_child, hb, hb'], ?_⟩
      rw [hP']
      constructor
      · rintro ⟨x, hx, hpx⟩
        exact ⟨x, List.mem_cons_of_mem _ hx, hpx⟩
      · rintro ⟨x, hx, hpx⟩
        rcases List.mem_cons.mp hx with rfl | hx
        · exact absurd (hP.mpr hpx) (by simp)
        · exact ⟨x, hx, hpx⟩

theorem in_subtree_head (s : File_system_emulator) {a n : Nat} (h : in_subtree s a n) :
    n = a ∨ ∃ c, is_child s a c ∧ in_subtree s c n := by
  rcases Relation.ReflTransGen.cases_head h with h | ⟨c, hc, hcn⟩
  · exact Or.inl h.symm
  · exact Or.inr ⟨c, hc, hcn⟩

/-- On a tree, `m_check_on_hlinks` returns, and returns `true` exactly when a file or
directory of the subtree has a hard link attached. -/
theorem m_check_on_hlinks_spec (s : File_system_emulator) :
    ∀ k a, tree_within s k a = true →
      ∃ b, m_check_on_hlinks k a s = .val b ∧
        (b = true ↔ ∃ n, in_subtree s a n ∧ has_hard_link s n) := by
  intro k
  induction k with
  | zero => intro a h; simp [tree_within] at h
  | succ k ih =>
    intro a h
    unfold tree_within at h
    cases hc : s.heap.cell a with
    | none => simp [hc] at h
    | some nd =>
      simp only [hc] at h
      unfold m_check_on_hlinks
      simp only [deref_of_cell hc, read_andThen_val]
      by_cases hf : nd.m_type = NODE_TYPE.FILE
      · refine ⟨decide (nd.m_hlinks ≠ []), by simp [hf], ?_⟩
        simp only [decide_eq_true_eq]
        constructor
        · intro hne
          exact ⟨a, Relation.ReflTransGen.refl, nd, hc, Or.inl hf, hne⟩
        · rintro ⟨n, hn, nn, hnn, _, hne⟩
          rcases in_subtree_head s hn with rfl | ⟨c, ⟨dn, hdn, hdir, _⟩, _⟩
          · rw [hc] at hnn; cases hnn; exact hne
          · rw [hc] at hdn; cases hdn; rw [hf] at hdir; cases hdir
      · by_cases hd : nd.m_type = NODE_TYPE.DIRECTORY
        · simp only [hd, if_true, List.all_eq_true] at h
          by_cases hl : nd.m_hlinks ≠ []
          · refine ⟨true, by simp [hd, hl], ?_⟩
            simp only [true_iff]
            exact ⟨a, Relation.ReflTransGen.refl, nd, hc, Or.inr hd, hl⟩
          · obtain ⟨b, hb, hP⟩ := any_child_spec (fun child => m_check_on_hlinks k child s)
              (fun c => ∃ n, in_subtree s c n ∧ has_hard_link s n) nd.m_childs
              (fun c hcm => ih c (h c hcm))
            refine ⟨b, by simp [hd, hl, hb], ?_⟩
            rw [hP]
            constructor
            · rintro ⟨c, hcm, n, hn, hh⟩
              exact ⟨n, Relation.ReflTransGen.head ⟨nd, hc, hd, hcm⟩ hn, hh⟩
            · rintro ⟨n, hn, hh⟩
              rcases in_subtree_head s hn with rfl | ⟨c, ⟨dn, hdn, _, hcm⟩, hcn⟩
              · obtain ⟨nn, hnn, _, hne⟩ := hh
                rw [hc] at hnn; cases hnn; exact absurd hne hl
              · rw [hc] at hdn; cases hdn
                exact ⟨c, hcm, n, hcn, hh⟩
        · refine ⟨false, by simp [hf, hd], ?_⟩
          simp only [Bool.false_eq_true, false_iff]
          rintro ⟨n, hn, nn, hnn, hty, _⟩
          rcases in_subtree_head s hn with rfl | ⟨c, ⟨dn, hdn, hdir, _⟩, _⟩
          · rw [hc] at hnn; cases hnn
            rcases hty with h1 | h1
            · exact hf h1
            · exact hd h1
          · rw [hc] at hdn; cases hdn; exact hd hdir

theorem move_hard_linked (s : File_system_emulator) (source dest : List Char)
    (a b drive k : Nat) (an dn : Node)
    (hsrc : m_find_node_by_path source s = .val (some a))
    (hdst : m_find_node_by_path dest s = .val (some b))
    (ha : s.heap.cell a = some an)
    (hb : s.heap.cell b = some dn)
    (hdir : dn.m_type = NODE_TYPE.DIRECTORY)
    (hab : b ≠ a)
    (hdrive : drive_root s = .val drive)
    (hroot : a ≠ drive)
    (htree : tree_within s k a = true)
    (hlinked : ∃ n, in_subtree s a n ∧ has_hard_link s n) :
    move source dest s = .raised "ERROR: Can't move source with attached hard link." s := by
  simp only [move, hsrc, hdst, deref_of_cell hb, deref_of_cell ha, hdir, read_bind_val]
  simp only [hab, hdrive, hroot, if_false, read_andThen_val, ne_eq, not_true_eq_false,
    decide_False, read_bind_val, Bool.false_eq_true]
  obtain ⟨r, hr, hP⟩ := m_check_on_hlinks_spec s _ a (tree_within_heap s htree)
  have hr' : r = true := hP.mpr hlinked
  subst hr'
  by_cases hd : an.m_type = NODE_TYPE.DIRECTORY
  · simp [hd, hr]
  · obtain ⟨n, hn, nn, hnn, hty, hne⟩ := hlinked
    rcases in_subtree_head s hn with rfl | ⟨c, ⟨dn', hdn, hdir', _⟩, _⟩
    · rw [ha] at hnn; cases hnn
      rcases hty with h1 | h1
      · simp [h1, hne]
      · exact absurd h1 hd
    · rw [ha] at hdn; cases hdn; exact absurd hdir' hd

/-! ## What `m_update_links` and `move` change -/

/-- Sequencing inversion: a normal return of `bind` comes from normal returns. -/
theorem read_bind_eq_ok {α β : Type} {r : Read α} {f : α → Result β} {b : β}
    {s' : File_system_emulator} (h : r.bind f = .ok b s') : ∃ a, r = .val a ∧ f a = .ok b s' := by
  cases r with
  | val a => exact ⟨a, rfl, h⟩
  | undefined => cases h
  | diverge => cases h

theorem result_bind_eq_ok {α β : Type} {r : Result α} {f : α → File_system_emulator → Result β}
    {b : β} {s' : File_system_emulator} (h : r.bind f = .ok b s') :
    ∃ a s1, r = .ok a s1 ∧ f a s1 = .ok b s' := by
  cases r with
  | ok a s1 => exact ⟨a, s1, rfl, h⟩
  | raised e s1 => cases h
  | undefined => cases h
  | diverge => cases h

theorem deref_eq_val {s : File_system_emulator} {p : Nat} {n : Node} (h : deref s p = .val n) :
    s.heap.cell p = some n := by
  unfold deref at h
  cases hc : s.heap.cell p with
  | none => simp [hc] at h
  | some m => simp [hc] at h; rw [h]

theorem deref_dir_eq_val {s : File_system_emulator} {p : Nat} {n : Node}
    (h : deref_dir s p = .val n) : s.heap.cell p = some n ∧ n.m_type = NODE_TYPE.DIRECTORY := by
  unfold deref_dir at h
  cases hc : s.heap.cell p with
  | none => simp [hc] at h
  | some m =>
    simp only [hc] at h
    by_cases hd : m.m_type = NODE_TYPE.DIRECTORY
    · simp [hd] at h; subst h; exact ⟨rfl, hd⟩
    · simp [hd] at h

/-- Reading a cell after a store to a live cell. -/
theorem cell_store {s : File_system_emulator} {p : Nat} {old : Node}
    (h : s.heap.cell p = some old) (n : Node) (q : Nat) :
    (store s p n).heap.cell q = if q = p then some n else s.heap.cell q := by
  have hlt := cell_lt h
  unfold store Heap.cell
  by_cases hq : q = p
  · subst hq
    simp [List.getElem?_set, hlt]
  · have : p ≠ q := fun e => hq e.symm
    simp [List.getElem?_set, hq, this]

@[simp] theorem store_m_root (s : File_system_emulator) (p : Nat) (n : Node) :
    (store s p n).m_root = s.m_root := rfl

@[simp] theorem store_m_curr_catalog (s : File_system_emulator) (p : Nat) (n : Node) :
    (store s p n).m_curr_catalog = s.m_curr_catalog := rfl

@[simp] theorem store_length (s : File_system_emulator) (p : Nat) (n : Node) :
    (store s p n).heap.length = s.heap.length := by
  simp [store]

theorem renamed_only_refl (s : File_system_emulator) : renamed_only s s := by
  refine ⟨rfl, rfl, fun q => ?_⟩
  cases hc : s.heap.cell q with
  | none => exact Or.inl ⟨rfl, rfl⟩
  | some nd => exact Or.inr ⟨nd, nd.m_name, rfl, rfl, fun h => absurd rfl h⟩

theorem registered_dlink_of_renamed {s s' : File_system_emulator} (h : renamed_only s s')
    {q : Nat} (hq : registered_dlink s' q) : registered_dlink s q := by
  obtain ⟨owner, reg, hon, hmem⟩ := hq
  rcases h.2.2 owner with ⟨_, h2⟩ | ⟨nd, name, h1, h2, _⟩
  · rw [h2] at hon; cases hon
  · rw [h2] at hon; cases hon
    exact ⟨owner, nd, h1, hmem⟩

theorem renamed_only_trans {s s1 s2 : File_system_emulator} (h1 : renamed_only s s1)
    (h2 : renamed_only s1 s2) : renamed_only s s2 := by
  refine ⟨h2.1.trans h1.1, h2.2.1.trans h1.2.1, fun q => ?_⟩
  rcases h1.2.2 q with ⟨a, b⟩ | ⟨nd, name, a, b, c⟩
  · rcases h2.2.2 q with ⟨_, d⟩ | ⟨nd', name', a', _, _⟩
    · exact Or.inl ⟨a, d⟩
    · rw [b] at a'; cases a'
  · rcases h2.2.2 q with ⟨a', _⟩ | ⟨nd', name', a', b', c'⟩
    · rw [b] at a'; cases a'
    · rw [b] at a'; cases a'
      refine Or.inr ⟨nd, name', a, b', fun hne => ?_⟩
      by_cases hn : name = nd.m_name
      · subst hn
        exact registered_dlink_of_renamed h1 (c' hne)
      · exact c hn

/-- The renaming loop of `m_update_links` touches the name of listed nodes only. -/
theorem rename_links_frame (name : List Char) (owner : Nat) (registry : List Nat) :
    ∀ (l : List Nat) (s s' : File_system_emulator),
      (∃ reg, s.heap.cell owner = some reg ∧ reg.m_dlinks = registry) →
      (∀ x ∈ l, x ∈ registry) → rename_links name l s = .ok () s' → renamed_only s s' := by
  intro l
  induction l with
  | nil =>
    intro s s' _ _ h
    simp [rename_links] at h
    subst h
    exact renamed_only_refl s
  | cons x rest ih =>
    intro s s' hown hsub h
    obtain ⟨reg, hown, hreg⟩ := hown
    unfold rename_links at h
    obtain ⟨xn, hx, h⟩ := read_bind_eq_ok h
    have hxc := deref_eq_val hx
    have hstep : renamed_only s (store s x { xn with m_name := name }) := by
      refine ⟨rfl, rfl, fun q => ?_⟩
      rw [cell_store hxc]
      by_cases hq : q = x
      · subst hq
        exact Or.inr ⟨xn, name, hxc, by simp, fun _ =>
          ⟨owner, reg, hown, by rw [hreg]; exact hsub q (List.mem_cons_self _ _)⟩⟩
      · simp only [hq, if_false]
        cases hc : s.heap.cell q with
        | none => exact Or.inl ⟨rfl, rfl⟩
        | some nd => exact Or.inr ⟨nd, nd.m_name, rfl, rfl, fun h => absurd rfl h⟩
    have hown' : ∃ reg', (store s x { xn with m_name := name }).heap.cell owner = some reg' ∧
        reg'.m_dlinks = registry := by
      rw [cell_store hxc]
      by_cases ho : owner = x
      · rw [ho] at hown
        rw [hown] at hxc
        cases hxc
        exact ⟨{ reg with m_name := name }, by simp [ho], hreg⟩
      · exact ⟨reg, by simp [ho, hown], hreg⟩
    exact renamed_only_trans hstep
      (ih _ s' hown' (fun y hy => hsub y (List.mem_cons_of_mem _ hy)) h)

/-- A loop whose body keeps a transitive relation to the state keeps it as a whole. -/
theorem for_each_frame (body : Nat → File_system_emulator → Result Unit)
    (hbody : ∀ x s s', body x s = .ok () s' → renamed_only s s') :
    ∀ (l : List Nat) (s s' : File_system_emulator), for_each body l s = .ok () s' →
      renamed_only s s' := by
  intro l
  induction l with
  | nil =>
    intro s s' h
    simp [for_each] at h
    subst h
    exact renamed_only_refl s
  | cons x rest ih =>
    intro s s' h
    unfold for_each at h
    obtain ⟨_, s1, h1, h2⟩ := result_bind_eq_ok h
    exact renamed_only_trans (hbody x s s1 h1) (ih s1 s' h2)

/-- Method `m_update_links` changes nothing but the names of registered dynamic links. -/
theorem m_update_links_frame :
    ∀ (fuel node : Nat) (s s' : File_system_emulator),
      m_update_links fuel node s = .ok () s' → renamed_only s s' := by
  intro fuel
  induction fuel with
  | zero => intro node s s' h; simp [m_update_links] at h
  | succ fuel ih =>
    intro node s s' h
    unfold m_update_links at h
    obtain ⟨nd, hnd, h⟩ := read_bind_eq_ok h
    have hc := deref_eq_val hnd
    obtain ⟨_, s1, h1, h⟩ := result_bind_eq_ok h
    have hfirst : renamed_only s s1 := by
      by_cases hty : nd.m_type = NODE_TYPE.DIRECTORY ∨ nd.m_type = NODE_TYPE.FILE
      · by_cases hl : nd.m_dlinks ≠ []
        · rw [if_pos hty, if_pos hl] at h1
          obtain ⟨path, _, h1⟩ := read_bind_eq_ok h1
          exact rename_links_frame _ node nd.m_dlinks nd.m_dlinks s s1 ⟨nd, hc, rfl⟩
            (fun x hx => hx) h1
        · rw [if_pos hty, if_neg hl] at h1
          cases h1
          exact renamed_only_refl s
      · rw [if_neg hty] at h1
        cases h1
        exact renamed_only_refl s
    obtain ⟨nd1, hnd1, h⟩ := read_bind_eq_ok h
    by_cases hd : nd1.m_type = NODE_TYPE.DIRECTORY
    · rw [if_pos hd] at h
      exact renamed_only_trans hfirst (for_each_frame _ (fun x => ih x) _ s1 s' h)
    · rw [if_neg hd] at h
      cases h
      exact hfirst

theorem heap_mem_of_cell {h : Heap} {p : Nat} {n : Node} (hc : h.cell p = some n) :
    some n ∈ h := by
  unfold Heap.cell at hc
  cases hg : h[p]? with
  | none => simp [hg] at hc
  | some c =>
    cases c with
    | none => simp [hg] at hc
    | some m =>
      simp [hg] at hc
      subst hc
      exact List.getElem?_mem hg

/-- What `dlinks_typed` says of one registered link. -/
theorem dlinks_typed_spec {s : File_system_emulator} (h : dlinks_typed s = true) {q : Nat}
    (hq : registered_dlink s q) {nd : Node} (hc : s.heap.cell q = some nd) :
    nd.m_type = NODE_TYPE.DLINK := by
  obtain ⟨owner, reg, hreg, hmem⟩ := hq
  unfold dlinks_typed at h
  have h1 := (List.all_eq_true.mp h) _ (heap_mem_of_cell hreg)
  have h2 := (List.all_eq_true.mp h1) q hmem
  simpa [hc] using h2

/-- The three stores of `move`, cell by cell. -/
theorem move_stores_cell {s : File_system_emulator} {a b p : Nat} {pn dn1 sn2 : Node}
    (hab : a ≠ b)
    (hp : s.heap.cell p = some pn)
    (hb1 : (store s p { pn with m_childs := list_remove pn.m_childs a }).heap.cell b = some dn1)
    (ha2 : (store (store s p { pn with m_childs := list_remove pn.m_childs a }) b
        { dn1 with m_childs := a :: dn1.m_childs }).heap.cell a = some sn2) (q : Nat) :
    (store (store (store s p { pn with m_childs := list_remove pn.m_childs a }) b
        { dn1 with m_childs := a :: dn1.m_childs }) a
        { sn2 with m_parent := some b }).heap.cell q =
      (s.heap.cell q).map (moved_cell a b p q) := by
  have hb1' := hb1
  have ha2' := ha2
  rw [cell_store hp] at hb1'
  rw [cell_store hb1, cell_store hp] at ha2'
  rw [cell_store ha2, cell_store hb1, cell_store hp]
  simp only [hab, if_false] at ha2'
  by_cases hqa : q = a
  · subst hqa
    simp only [if_true]
    by_cases hqp : q = p
    · subst hqp
      simp only [if_true] at ha2'
      cases ha2'
      simp [moved_cell, hp, hab]
    · simp only [hqp, if_false] at ha2'
      simp [moved_cell, ha2', hab, hqp]
  · simp only [hqa, if_false]
    by_cases hqb : q = b
    · subst hqb
      simp only [if_true]
      by_cases hqp : q = p
      · subst hqp
        simp only [if_true] at hb1'
        cases hb1'
        simp [moved_cell, hp, hqa]
      · simp only [hqp, if_false] at hb1'
        simp [moved_cell, hb1', hqa, hqp]
    · simp only [hqb, if_false]
      by_cases hqp : q = p
      · subst hqp
        simp [moved_cell, hp, hqa, hqb]
      · simp only [hqp, if_false]
        cases hc : s.heap.cell q with
        | none => rfl
        | some nd => simp [moved_cell, hqa, hqb, hqp]

/-- Anatomy of a `move` that returns normally and is not the silent case. -/
theorem move_ok_inv {s s' : File_system_emulator} {source dest : List Char} {a b drive : Nat}
    {dn : Node}
    (hsrc : m_find_node_by_path source s = .val (some a))
    (hdst : m_find_node_by_path dest s = .val (some b))
    (hb : s.heap.cell b = some dn)
    (hdir : dn.m_type = NODE_TYPE.DIRECTORY)
    (hab : a ≠ b)
    (hdrive : drive_root s = .val drive)
    (hroot : a ≠ drive)
    (hmove : move source dest s = .ok () s') :
    ∃ an p pn s3, s.heap.cell a = some an ∧ an.m_parent = some p ∧ s.heap.cell p = some pn ∧
      pn.m_type = NODE_TYPE.DIRECTORY ∧
      (∀ q, s3.heap.cell q = (s.heap.cell q).map (moved_cell a b p q)) ∧
      s3.m_root = s.m_root ∧ s3.m_curr_catalog = s.m_curr_catalog ∧
      m_update_links (s.heap.length + 1) a s3 = .ok () s' := by
  have hba : b ≠ a := fun e => hab e.symm
  simp only [move, hsrc, hdst, deref_of_cell hb, hdir, read_bind_val, ne_eq, not_true_eq_false,
    if_false, hba, hdrive, read_andThen_val, hroot, decide_False, Bool.false_eq_true] at hmove
  obtain ⟨an, han, hmove⟩ := read_bind_eq_ok hmove
  obtain ⟨attached, _, hmove⟩ := read_bind_eq_ok hmove
  cases attached with
  | true => simp at hmove
  | false =>
    simp only [Bool.false_eq_true, if_false] at hmove
    cases hpar : an.m_parent with
    | none => simp [hpar] at hmove
    | some p =>
      simp only [hpar] at hmove
      obtain ⟨pn, hpn, hmove⟩ := read_bind_eq_ok hmove
      obtain ⟨hp, hpdir⟩ := deref_dir_eq_val hpn
      obtain ⟨_, s2, hpush, hmove⟩ := result_bind_eq_ok hmove
      unfold push_child at hpush
      obtain ⟨dn1, hdn1, hpush⟩ := read_bind_eq_ok hpush
      obtain ⟨hb1, _⟩ := deref_dir_eq_val hdn1
      cases hpush
      obtain ⟨sn2, hsn2, hmove⟩ := read_bind_eq_ok hmove
      have ha2 := deref_eq_val hsn2
      exact ⟨an, p, pn, _, deref_eq_val han, hpar, hp, hpdir,
        move_stores_cell hab hp hb1 ha2, rfl, rfl, hmove⟩

/-- After a normal, non-silent `move`, every cell is the moved cell of the old
state, up to the name of nodes of kind `DLINK`. -/
theorem move_ok_cells {s s' : File_system_emulator} {source dest : List Char} {a b drive : Nat}
    {dn : Node}
    (hsrc : m_find_node_by_path source s = .val (some a))
    (hdst : m_find_node_by_path dest s = .val (some b))
    (hb : s.heap.cell b = some dn)
    (hdir : dn.m_type = NODE_TYPE.DIRECTORY)
    (hab : a ≠ b)
    (hdrive : drive_root s = .val drive)
    (hroot : a ≠ drive)
    (htyped : dlinks_typed s = true)
    (hmove : move source dest s = .ok () s') :
    ∃ an p pn, s.heap.cell a = some an ∧ an.m_parent = some p ∧ s.heap.cell p = some pn ∧
      s'.m_root = s.m_root ∧ s'.m_curr_catalog = s.m_curr_catalog ∧
      ∀ q, (s.heap.cell q = none ∧ s'.heap.cell q = none) ∨
        ∃ nd name, s.heap.cell q = some nd ∧
          s'.heap.cell q = some { moved_cell a b p q nd with m_name := name } ∧
          (nd.m_type ≠ NODE_TYPE.DLINK → name = nd.m_name) := by
  obtain ⟨an, p, pn, s3, ha, hpar, hp, _, hcells, hr, hcur, hupd⟩ :=
    move_ok_inv hsrc hdst hb hdir hab hdrive hroot hmove
  have hfr := m_update_links_frame _ _ _ _ hupd
  refine ⟨an, p, pn, ha, hpar, hp, hfr.1.trans hr, hfr.2.1.trans hcur, fun q => ?_⟩
  rcases hfr.2.2 q with ⟨h1, h2⟩ | ⟨nd3, name, h1, h2, h3⟩
  · rw [hcells q] at h1
    cases hc : s.heap.cell q with
    | none => exact Or.inl ⟨rfl, h2⟩
    | some nd => simp [hc] at h1
  · rw [hcells q] at h1
    cases hc : s.heap.cell q with
    | none => simp [hc] at h1
    | some nd =>
      simp only [hc, Option.map_some', Option.some.injEq] at h1
      subst h1
      refine Or.inr ⟨nd, name, rfl, h2, fun hty => ?_⟩
      by_contra hne
      obtain ⟨owner, reg, hreg, hmem⟩ := h3 hne
      rw [hcells owner] at hreg
      cases hco : s.heap.cell owner with
      | none => simp [hco] at hreg
      | some reg0 =>
        simp only [hco, Option.map_some', Option.some.injEq] at hreg
        subst hreg
        exact hty (dlinks_typed_spec htyped ⟨owner, reg0, hco, hmem⟩ hc)

/-! ## Postconditions of the methods -/

theorem post_read_bind {α β : Type} {Q : β → File_system_emulator → Prop}
    {E : File_system_emulator → Prop} {r : Read α} {f : α → Result β}
    (h : ∀ a, r = .val a → (f a).post Q E) : (r.bind f).post Q E := by
  cases r with
  | val a => exact h a rfl
  | undefined => trivial
  | diverge => trivial

theorem post_bind {α β : Type} {Q1 : α → File_system_emulator → Prop}
    {Q : β → File_system_emulator → Prop} {E : File_system_emulator → Prop} {r : Result α}
    {f : α → File_system_emulator → Result β} (hr : r.post Q1 E)
    (h : ∀ a s, Q1 a s → (f a s).post Q E) : (r.bind f).post Q E := by
  cases r with
  | ok a s => exact h a s hr
  | raised e s => exact hr
  | undefined => trivial
  | diverge => trivial

theorem post_mono {α : Type} {Q Q' : α → File_system_emulator → Prop}
    {E E' : File_system_emulator → Prop} {r : Result α} (hr : r.post Q E)
    (hq : ∀ a s, Q a s → Q' a s) (he : ∀ s, E s → E' s) : r.post Q' E' := by
  cases r with
  | ok a s => exact hq a s hr
  | raised e s => exact he s hr
  | undefined => trivial
  | diverge => trivial

theorem cell_alloc (s : File_system_emulator) (n : Node) (q : Nat) :
    (alloc s n).2.heap.cell q =
      if q = s.heap.length then some n else s.heap.cell q := by
  unfold alloc Heap.cell
  by_cases hq : q = s.heap.length
  · subst hq
    simp
  · simp only [hq, if_false]
    by_cases hlt : q < s.heap.length
    · rw [List.getElem?_append_left hlt]
    · have h1 : s.heap[q]? = none := List.getElem?_eq_none (by omega)
      have h2 : (s.heap ++ [some n])[q]? = none :=
        List.getElem?_eq_none (by simp; omega)
      rw [h1, h2]

theorem cell_release (h : Heap) (p q : Nat) :
    Heap.cell (h.set p none) q = if q = p then none else h.cell q := by
  unfold Heap.cell
  by_cases hq : q = p
  · subst hq
    by_cases hlt : q < h.length
    · simp [List.getElem?_set, hlt]
    · simp [List.getElem?_set, hlt]
  · have : p ≠ q := fun e => hq e.symm
    simp [List.getElem?_set, hq, this]


/-! ## An invariant of the reachable states: the registries are typed -/

theorem registries_typed_init : registries_typed init := by
  intro p nd h
  rcases p with _ | _ | p
  · simp [init, Heap.cell] at h
    subst h
    simp
  · simp [init, Heap.cell] at h
    subst h
    simp
  · simp [init, Heap.cell] at h

/-- A store that keeps the kind of the node and adds only typed entries to its
registries keeps the invariant. -/
theorem registries_typed_store {s : File_system_emulator} {p : Nat} {old n : Node}
    (hi : registries_typed s) (hp : s.heap.cell p = some old) (hty : n.m_type = old.m_type)
    (hd : ∀ l ∈ n.m_dlinks, l ∈ old.m_dlinks ∨
      (l < s.heap.length ∧ ∀ ln, s.heap.cell l = some ln → ln.m_type = NODE_TYPE.DLINK))
    (hh : ∀ l ∈ n.m_hlinks, l ∈ old.m_hlinks ∨
      (l < s.heap.length ∧ ∀ ln, s.heap.cell l = some ln → ln.m_type = NODE_TYPE.HLINK)) :
    registries_typed (store s p n) := by
  have hkind : ∀ (l : Nat) (t : NODE_TYPE),
      (∀ ln, s.heap.cell l = some ln → ln.m_type = t) →
      ∀ ln, (store s p n).heap.cell l = some ln → ln.m_type = t := by
    intro l t h ln hln
    rw [cell_store hp] at hln
    by_cases hlp : l = p
    · subst hlp
      simp only [if_true, Option.some.injEq] at hln
      subst hln
      rw [hty]
      exact h old hp
    · simp only [hlp, if_false] at hln
      exact h ln hln
  intro q nd hq
  rw [cell_store hp] at hq
  rw [store_length]
  by_cases hqp : q = p
  · subst hqp
    simp only [if_true, Option.some.injEq] at hq
    subst hq
    refine ⟨fun l hl => ?_, fun l hl => ?_⟩
    · rcases hd l hl with h | ⟨h1, h2⟩
      · exact ⟨((hi q old hp).1 l h).1, hkind l _ ((hi q old hp).1 l h).2⟩
      · exact ⟨h1, hkind l _ h2⟩
    · rcases hh l hl with h | ⟨h1, h2⟩
      · exact ⟨((hi q old hp).2 l h).1, hkind l _ ((hi q old hp).2 l h).2⟩
      · exact ⟨h1, hkind l _ h2⟩
  · simp only [hqp, if_false] at hq
    exact ⟨fun l hl => ⟨((hi q nd hq).1 l hl).1, hkind l _ ((hi q nd hq).1 l hl).2⟩,
      fun l hl => ⟨((hi q nd hq).2 l hl).1, hkind l _ ((hi q nd hq).2 l hl).2⟩⟩

/-- A store that keeps the kind and both registries keeps the invariant. -/
theorem registries_typed_store_same {s : File_system_emulator} {p : Nat} {old n : Node}
    (hi : registries_typed s) (hp : s.heap.cell p = some old) (hty : n.m_type = old.m_type)
    (hd : n.m_dlinks = old.m_dlinks) (hh : n.m_hlinks = old.m_hlinks) :
    registries_typed (store s p n) :=
  registries_typed_store hi hp hty (fun _ hl => Or.inl (hd ▸ hl)) (fun _ hl => Or.inl (hh ▸ hl))

/-- Allocating a node with empty registries keeps the invariant. -/
theorem registries_typed_alloc {s : File_system_emulator} {n : Node}
    (hi : registries_typed s) (hd : n.m_dlinks = []) (hh : n.m_hlinks = []) :
    registries_typed (alloc s n).2 := by
  have hlen : (alloc s n).2.heap.length = s.heap.length + 1 := by simp [alloc]
  have hkind : ∀ (l : Nat) (t : NODE_TYPE), l < s.heap.length →
      (∀ ln, s.heap.cell l = some ln → ln.m_type = t) →
      ∀ ln, (alloc s n).2.heap.cell l = some ln → ln.m_type = t := by
    intro l t hlt h ln hln
    rw [cell_alloc] at hln
    have : l ≠ s.heap.length := by omega
    simp only [this, if_false] at hln
    exact h ln hln
  intro q nd hq
  rw [cell_alloc] at hq
  rw [hlen]
  by_cases hql : q = s.heap.length
  · simp only [hql, if_true, Option.some.injEq] at hq
    subst hq
    simp [hd, hh]
  · simp only [hql, if_false] at hq
    exact ⟨fun l hl => ⟨Nat.lt_succ_of_lt ((hi q nd hq).1 l hl).1,
        hkind l _ ((hi q nd hq).1 l hl).1 ((hi q nd hq).1 l hl).2⟩,
      fun l hl => ⟨Nat.lt_succ_of_lt ((hi q nd hq).2 l hl).1,
        hkind l _ ((hi q nd hq).2 l hl).1 ((hi q nd hq).2 l hl).2⟩⟩

/-- Destroying nodes keeps the invariant. -/
theorem registries_typed_of_dies {s : File_system_emulator} {h' : Heap}
    (hi : registries_typed s) (hl : h'.length = s.heap.length)
    (hc : ∀ q, h'.cell q = none ∨ h'.cell q = s.heap.cell q) :
    registries_typed { s with heap := h' } := by
  intro q nd hq
  have hq' : s.heap.cell q = some nd := by
    rcases hc q with h | h
    · rw [h] at hq; cases hq
    · rw [← h]; exact hq
  have hkind : ∀ (l : Nat) (t : NODE_TYPE),
      (∀ ln, s.heap.cell l = some ln → ln.m_type = t) →
      ∀ ln, h'.cell l = some ln → ln.m_type = t := by
    intro l t h ln hln
    rcases hc l with h1 | h1
    · rw [h1] at hln; cases hln
    · rw [h1] at hln; exact h ln hln
  show (∀ l ∈ nd.m_dlinks, l < h'.length ∧ _) ∧ (∀ l ∈ nd.m_hlinks, l < h'.length ∧ _)
  rw [hl]
  exact ⟨fun l hl => ⟨((hi q nd hq').1 l hl).1, hkind l _ ((hi q nd hq').1 l hl).2⟩,
    fun l hl => ⟨((hi q nd hq').2 l hl).1, hkind l _ ((hi q nd hq').2 l hl).2⟩⟩

theorem each_on_heap_dies (body : Nat → Heap → Option Heap)
    (hbody : ∀ x h h', body x h = some h' →
      h'.length = h.length ∧ ∀ q, h'.cell q = none ∨ h'.cell q = h.cell q) :
    ∀ (l : List Nat) (h h' : Heap), each_on_heap body l h = some h' →
      h'.length = h.length ∧ ∀ q, h'.cell q = none ∨ h'.cell q = h.cell q := by
  intro l
  induction l with
  | nil =>
    intro h h' e
    simp [each_on_heap] at e
    subst e
    exact ⟨rfl, fun q => Or.inr rfl⟩
  | cons x rest ih =>
    intro h h' e
    unfold each_on_heap at e
    cases hb : body x h with
    | none => simp [hb] at e
    | some h1 =>
      simp only [hb, Option.bind_some] at e
      obtain ⟨l1, c1⟩ := hbody x h h1 hb
      obtain ⟨l2, c2⟩ := ih h1 h' e
      refine ⟨l2.trans l1, fun q => ?_⟩
      rcases c2 q with k | k
      · exact Or.inl k
      · rcases c1 q with k1 | k1
        · exact Or.inl (k.trans k1)
        · exact Or.inr (k.trans k1)

/-- The expression `delete p` only empties cells. -/
theorem destroy_dies : ∀ (fuel p : Nat) (h h' : Heap), destroy fuel p h = some h' →
    h'.length = h.length ∧ ∀ q, h'.cell q = none ∨ h'.cell q = h.cell q := by
  intro fuel
  induction fuel with
  | zero => intro p h h' e; simp [destroy] at e
  | succ fuel ih =>
    intro p h h' e
    unfold destroy at e
    cases hc : h.cell p with
    | none => simp [hc] at e
    | some n =>
      simp only [hc] at e
      by_cases hd : n.m_type = NODE_TYPE.DIRECTORY
      · rw [if_pos hd] at e
        cases he : each_on_heap (destroy fuel) n.m_childs h with
        | none => simp [he] at e
        | some h1 =>
          simp only [he, Option.map_some', Option.some.injEq] at e
          subst e
          obtain ⟨l1, c1⟩ := each_on_heap_dies (destroy fuel) (fun x => ih x) _ _ _ he
          refine ⟨by simp [l1], fun q => ?_⟩
          rw [cell_release]
          by_cases hq : q = p
          · simp [hq]
          · simp only [hq, if_false]
            exact c1 q
      · rw [if_neg hd] at e
        simp only [Option.some.injEq] at e
        subst e
        refine ⟨by simp, fun q => ?_⟩
        rw [cell_release]
        by_cases hq : q = p
        · simp [hq]
        · simp [hq]

theorem delete_node_typed {s : File_system_emulator} (p : Nat) (hi : registries_typed s) :
    (delete_node s p).post (fun _ s' => registries_typed s') registries_typed := by
  unfold delete_node
  cases hd : destroy (s.heap.length + 1) p s.heap with
  | none => trivial
  | some h =>
    obtain ⟨l1, c1⟩ := destroy_dies _ _ _ _ hd
    exact registries_typed_of_dies hi l1 c1


theorem deref_linked_eq_val {s : File_system_emulator} {p : Nat} {n : Node}
    (h : deref_linked s p = .val n) : s.heap.cell p = some n := by
  unfold deref_linked at h
  cases hc : s.heap.cell p with
  | none => simp [hc] at h
  | some m =>
    simp only [hc] at h
    by_cases hd : m.m_type = NODE_TYPE.FILE ∨ m.m_type = NODE_TYPE.DIRECTORY
    · rw [if_pos hd] at h; cases h; rfl
    · rw [if_neg hd] at h; cases h

theorem m_make_node_typed (path name : List Char) (type : NODE_TYPE) {s : File_system_emulator}
    (hi : registries_typed s) :
    (m_make_node path name type s).post
      (fun r s' => registries_typed s' ∧ ∀ l, r = some l →
        l < s'.heap.length ∧ ∀ ln, s'.heap.cell l = some ln → ln.m_type = type)
      registries_typed := by
  unfold m_make_node
  apply post_read_bind
  intro node_ptr _
  cases node_ptr with
  | none => exact hi
  | some parent_dir =>
    apply post_read_bind
    intro nd hnd
    have hc := deref_eq_val hnd
    by_cases hd : nd.m_type ≠ NODE_TYPE.DIRECTORY
    · rw [if_pos hd]; exact hi
    · rw [if_neg hd]
      apply post_read_bind
      intro r _
      cases r with
      | nothing => exact ⟨hi, fun l h => by cases h⟩
      | blocked_by_file => exact hi
      | blocked_by_directory => exact hi
      | create =>
        have ha : registries_typed (alloc s ⟨some parent_dir, type, name, [], [], []⟩).2 :=
          registries_typed_alloc hi rfl rfl
        have hc1 : (alloc s ⟨some parent_dir, type, name, [], [], []⟩).2.heap.cell parent_dir
            = some nd := by
          rw [cell_alloc]
          have := cell_lt hc
          have hne : parent_dir ≠ s.heap.length := by omega
          simp [hne, hc]
        refine ⟨registries_typed_store_same ha hc1 rfl rfl rfl, fun l hl => ?_⟩
        cases hl
        refine ⟨by simp [alloc], fun ln hln => ?_⟩
        rw [cell_store hc1, cell_alloc] at hln
        have hne : s.heap.length ≠ parent_dir := by
          have := cell_lt hc
          omega
        simp [alloc, hne] at hln
        subst hln
        rfl

theorem m_make_link_typed (source dest name : List Char) (type : NODE_TYPE)
    (hty : type = NODE_TYPE.HLINK ∨ type = NODE_TYPE.DLINK) {s : File_system_emulator}
    (hi : registries_typed s) :
    (m_make_link source dest name type s).post (fun _ s' => registries_typed s')
      registries_typed := by
  unfold m_make_link
  apply post_read_bind
  intro source_ptr _
  cases source_ptr with
  | none => exact hi
  | some src =>
    apply post_bind (m_make_node_typed dest name type hi)
    intro link s1 ⟨hi1, hl⟩
    cases link with
    | none => exact hi1
    | some l =>
      obtain ⟨hlt, hkind⟩ := hl l rfl
      apply post_read_bind
      intro ln hln
      have hlk := hkind ln (deref_eq_val hln)
      apply post_read_bind
      intro linked hlinked
      have hc := deref_linked_eq_val hlinked
      by_cases hh : ln.m_type = NODE_TYPE.HLINK
      · rw [if_pos hh]
        refine registries_typed_store hi1 hc rfl (fun x hx => Or.inl hx) (fun x hx => ?_)
        rcases List.mem_cons.mp hx with rfl | hx
        · exact Or.inr ⟨hlt, fun ln' h' => by rw [hkind ln' h', ← hlk, hh]⟩
        · exact Or.inl hx
      · rw [if_neg hh]
        have htd : type = NODE_TYPE.DLINK := by
          rcases hty with h | h
          · exact absurd (hlk.trans h) hh
          · exact h
        refine registries_typed_store hi1 hc rfl (fun x hx => ?_) (fun x hx => Or.inl hx)
        rcases List.mem_cons.mp hx with rfl | hx
        · exact Or.inr ⟨hlt, fun ln' h' => by rw [hkind ln' h', htd]⟩
        · exact Or.inl hx

theorem make_dir_typed (path : List Char) {s : File_system_emulator} (hi : registries_typed s) :
    (make_dir path s).post (fun _ s' => registries_typed s') registries_typed := by
  unfold make_dir
  exact post_bind (m_make_node_typed _ _ _ hi) (fun _ _ h => h.1)

theorem make_file_typed (path : List Char) {s : File_system_emulator} (hi : registries_typed s) :
    (make_file path s).post (fun _ s' => registries_typed s') registries_typed := by
  unfold make_file
  exact post_bind (m_make_node_typed _ _ _ hi) (fun _ _ h => h.1)

theorem make_hlink_typed (source dest : List Char) {s : File_system_emulator}
    (hi : registries_typed s) :
    (make_hlink source dest s).post (fun _ s' => registries_typed s') registries_typed := by
  unfold make_hlink
  exact post_read_bind (fun _ _ => m_make_link_typed _ _ _ _ (Or.inl rfl) hi)

theorem make_dlink_typed (source dest : List Char) {s : File_system_emulator}
    (hi : registries_typed s) :
    (make_dlink source dest s).post (fun _ s' => registries_typed s') registries_typed := by
  unfold make_dlink
  exact post_read_bind (fun _ _ => m_make_link_typed _ _ _ _ (Or.inr rfl) hi)

theorem change_dir_typed (path : List Char) {s : File_system_emulator}
    (hi : registries_typed s) :
    (change_dir path s).post (fun _ s' => registries_typed s') registries_typed := by
  unfold change_dir
  apply post_read_bind
  intro node_ptr _
  cases node_ptr with
  | none => exact hi
  | some p =>
    apply post_read_bind
    intro nd _
    by_cases hd : nd.m_type ≠ NODE_TYPE.DIRECTORY
    · rw [if_pos hd]; exact hi
    · rw [if_neg hd]; exact hi

theorem m_remove_dlinks_typed (node : Nat) :
    ∀ (fuel : Nat) (s : File_system_emulator), registries_typed s →
      (m_remove_dlinks node fuel s).post (fun _ s' => registries_typed s') registries_typed := by
  intro fuel
  induction fuel with
  | zero =>
    intro s hi
    unfold m_remove_dlinks
    apply post_read_bind
    intro linked _
    by_cases h : linked.m_dlinks = []
    · rw [if_pos h]; exact hi
    · rw [if_neg h]; trivial
  | succ fuel ih =>
    intro s hi
    unfold m_remove_dlinks
    apply post_read_bind
    intro linked _
    cases hl : linked.m_dlinks with
    | nil => exact hi
    | cons child rest =>
      simp only []
      apply post_read_bind
      intro c _
      cases hp : c.m_parent with
      | none => trivial
      | some parent =>
        simp only []
        apply post_read_bind
        intro pn hpn
        obtain ⟨hpc, _⟩ := deref_dir_eq_val hpn
        have hi1 := registries_typed_store_same (n := { pn with m_childs := list_remove pn.m_childs child })
          hi hpc rfl rfl rfl
        apply post_read_bind
        intro linked1 hlinked1
        have hc1 := deref_linked_eq_val hlinked1
        have hi2 := registries_typed_store (n := { linked1 with m_dlinks := linked1.m_dlinks.tail })
          hi1 hc1 rfl (fun x hx => Or.inl (List.mem_of_mem_tail hx)) (fun x hx => Or.inl hx)
        exact post_bind (delete_node_typed child hi2) (fun _ s3 h3 => ih s3 h3)

theorem m_remove_node_typed (node : Nat) {s : File_system_emulator} (hi : registries_typed s) :
    (m_remove_node node s).post (fun _ s' => registries_typed s') registries_typed := by
  unfold m_remove_node
  apply post_read_bind
  intro nd _
  have hfirst : (if nd.m_type = NODE_TYPE.FILE ∨ nd.m_type = NODE_TYPE.DIRECTORY then
        if nd.m_hlinks ≠ [] then
          Result.raised "ERROR: Can`t delete entity with attached hard link." s
        else m_remove_dlinks node nd.m_dlinks.length s
      else Result.ok () s).post (fun _ s' => registries_typed s') registries_typed := by
    by_cases h1 : nd.m_type = NODE_TYPE.FILE ∨ nd.m_type = NODE_TYPE.DIRECTORY
    · rw [if_pos h1]
      by_cases h2 : nd.m_hlinks ≠ []
      · rw [if_pos h2]; exact hi
      · rw [if_neg h2]; exact m_remove_dlinks_typed node _ s hi
    · rw [if_neg h1]; exact hi
  apply post_bind hfirst
  intro _ s1 hi1
  apply post_read_bind
  intro nd1 _
  cases hp : nd1.m_parent with
  | none => trivial
  | some parent =>
    simp only []
    apply post_read_bind
    intro pn hpn
    obtain ⟨hpc, _⟩ := deref_dir_eq_val hpn
    exact delete_node_typed node
      (registries_typed_store_same (n := { pn with m_childs := list_remove pn.m_childs node })
        hi1 hpc rfl rfl rfl)

theorem remove_dir_typed (path : List Char) {s : File_system_emulator}
    (hi : registries_typed s) :
    (remove_dir path s).post (fun _ s' => registries_typed s') registries_typed := by
  unfold remove_dir
  apply post_read_bind
  intro node_ptr _
  cases node_ptr with
  | none => exact hi
  | some p =>
    apply post_read_bind
    intro nd _
    by_cases hd : nd.m_type ≠ NODE_TYPE.DIRECTORY
    · rw [if_pos hd]; exact hi
    · rw [if_neg hd]
      apply post_read_bind
      intro drive _
      by_cases h1 : p = drive
      · rw [if_pos h1]; exact hi
      · rw [if_neg h1]
        by_cases h2 : p = s.m_curr_catalog
        · rw [if_pos h2]; exact hi
        · rw [if_neg h2]
          by_cases h3 : nd.m_childs ≠ []
          · rw [if_pos h3]; exact hi
          · rw [if_neg h3]; exact m_remove_node_typed p hi

theorem remove_file_typed (path : List Char) {s : File_system_emulator}
    (hi : registries_typed s) :
    (remove_file path s).post (fun _ s' => registries_typed s') registries_typed := by
  unfold remove_file
  apply post_read_bind
  intro node_ptr _
  cases node_ptr with
  | none => exact hi
  | some p =>
    apply post_read_bind
    intro nd _
    by_cases hd : nd.m_type = NODE_TYPE.DIRECTORY
    · rw [if_pos hd]; exact hi
    · rw [if_neg hd]; exact m_remove_node_typed p hi


theorem push_child_typed (destination node : Nat) {s : File_system_emulator}
    (hi : registries_typed s) :
    (push_child destination node s).post (fun _ s' => registries_typed s') registries_typed := by
  unfold push_child
  apply post_read_bind
  intro d hd
  obtain ⟨hc, _⟩ := deref_dir_eq_val hd
  exact registries_typed_store_same (n := { d with m_childs := node :: d.m_childs })
    hi hc rfl rfl rfl

theorem m_copy_link_typed (type : NODE_TYPE) (name : List Char) (destination : Nat)
    (hty : type = NODE_TYPE.HLINK ∨ type = NODE_TYPE.DLINK) {s : File_system_emulator}
    (hi : registries_typed s) :
    (m_copy_link type name destination s).post (fun _ s' => registries_typed s')
      registries_typed := by
  unfold m_copy_link
  simp only []
  have ha : registries_typed (alloc s ⟨some destination, type, name, [], [], []⟩).2 :=
    registries_typed_alloc hi rfl rfl
  have hnew : (alloc s ⟨some destination, type, name, [], [], []⟩).2.heap.cell
      (alloc s ⟨some destination, type, name, [], [], []⟩).1 =
      some ⟨some destination, type, name, [], [], []⟩ := by
    rw [cell_alloc]; simp [alloc]
  have hlt := cell_lt hnew
  apply post_read_bind
  intro target _
  cases target with
  | none => trivial
  | some t =>
    apply post_read_bind
    intro linked hlinked
    have hc := deref_linked_eq_val hlinked
    apply push_child_typed
    by_cases hh : type = NODE_TYPE.HLINK
    · rw [if_pos hh]
      refine registries_typed_store ha hc rfl (fun x hx => Or.inl hx) (fun x hx => ?_)
      rcases List.mem_cons.mp hx with rfl | hx
      · refine Or.inr ⟨hlt, fun ln hln => ?_⟩
        rw [hnew] at hln; cases hln; exact hh
      · exact Or.inl hx
    · rw [if_neg hh]
      have htd : type = NODE_TYPE.DLINK := by
        rcases hty with h | h
        · exact absurd h hh
        · exact h
      refine registries_typed_store ha hc rfl (fun x hx => ?_) (fun x hx => Or.inl hx)
      rcases List.mem_cons.mp hx with rfl | hx
      · refine Or.inr ⟨hlt, fun ln hln => ?_⟩
        rw [hnew] at hln; cases hln; exact htd
      · exact Or.inl hx

/-- A loop whose body keeps an invariant keeps it. -/
theorem for_each_post (P : File_system_emulator → Prop)
    (body : Nat → File_system_emulator → Result Unit)
    (hbody : ∀ x s, P s → (body x s).post (fun _ s' => P s') P) :
    ∀ (l : List Nat) (s : File_system_emulator), P s →
      (for_each body l s).post (fun _ s' => P s') P := by
  intro l
  induction l with
  | nil => intro s hs; exact hs
  | cons x rest ih =>
    intro s hs
    unfold for_each
    exact post_bind (hbody x s hs) (fun _ s1 h1 => ih s1 h1)

theorem m_copy_typed : ∀ (fuel source destination : Nat) (s : File_system_emulator),
    registries_typed s →
      (m_copy fuel source destination s).post (fun _ s' => registries_typed s')
        registries_typed := by
  intro fuel
  induction fuel with
  | zero => intro _ _ s _; trivial
  | succ fuel ih =>
    intro source destination s hi
    unfold m_copy
    apply post_read_bind
    intro src _
    cases hty : src.m_type with
    | FILE =>
      simp only []
      exact push_child_typed _ _ (registries_typed_alloc hi rfl rfl)
    | HLINK => exact m_copy_link_typed _ _ _ (Or.inl rfl) hi
    | DLINK => exact m_copy_link_typed _ _ _ (Or.inr rfl) hi
    | DIRECTORY =>
      simp only []
      apply post_bind
        (for_each_post registries_typed _ (fun x s1 h1 => ih x _ s1 h1) src.m_childs _
          (registries_typed_alloc hi rfl rfl))
      intro _ s2 h2
      exact push_child_typed _ _ h2

theorem copy_typed (source dest : List Char) {s : File_system_emulator}
    (hi : registries_typed s) :
    (copy source dest s).post (fun _ s' => registries_typed s') registries_typed := by
  unfold copy
  apply post_read_bind
  intro source_ptr _
  cases source_ptr with
  | none => exact hi
  | some src =>
    apply post_read_bind
    intro dest_ptr _
    cases dest_ptr with
    | none => exact hi
    | some dst =>
      apply post_read_bind
      intro dn _
      by_cases hd : dn.m_type ≠ NODE_TYPE.DIRECTORY
      · rw [if_pos hd]; exact hi
      · rw [if_neg hd]; exact m_copy_typed _ _ _ s hi

theorem rename_links_typed (name : List Char) :
    ∀ (l : List Nat) (s : File_system_emulator), registries_typed s →
      (rename_links name l s).post (fun _ s' => registries_typed s') registries_typed := by
  intro l
  induction l with
  | nil => intro s hi; exact hi
  | cons x rest ih =>
    intro s hi
    unfold rename_links
    apply post_read_bind
    intro xn hx
    exact ih _ (registries_typed_store_same (n := { xn with m_name := name })
      hi (deref_eq_val hx) rfl rfl rfl)

theorem m_update_links_typed : ∀ (fuel node : Nat) (s : File_system_emulator),
    registries_typed s →
      (m_update_links fuel node s).post (fun _ s' => registries_typed s')
        registries_typed := by
  intro fuel
  induction fuel with
  | zero => intro _ s _; trivial
  | succ fuel ih =>
    intro node s hi
    unfold m_update_links
    apply post_read_bind
    intro nd _
    have hfirst : (if nd.m_type = NODE_TYPE.DIRECTORY ∨ nd.m_type = NODE_TYPE.FILE then
          if nd.m_dlinks ≠ [] then
            (m_to_absolute_path nd.m_name nd.m_parent s).bind fun updated_path =>
              rename_links ("dlink[".toList ++ updated_path ++ "]".toList) nd.m_dlinks s
          else Result.ok () s
        else Result.ok () s).post (fun _ s' => registries_typed s') registries_typed := by
      by_cases h1 : nd.m_type = NODE_TYPE.DIRECTORY ∨ nd.m_type = NODE_TYPE.FILE
      · rw [if_pos h1]
        by_cases h2 : nd.m_dlinks ≠ []
        · rw [if_pos h2]
          exact post_read_bind (fun _ _ => rename_links_typed _ _ s hi)
        · rw [if_neg h2]; exact hi
      · rw [if_neg h1]; exact hi
    apply post_bind hfirst
    intro _ s1 hi1
    apply post_read_bind
    intro nd1 _
    by_cases hd : nd1.m_type = NODE_TYPE.DIRECTORY
    · rw [if_pos hd]
      exact for_each_post registries_typed _ (fun x s2 h2 => ih x s2 h2) _ s1 hi1
    · rw [if_neg hd]; exact hi1

theorem move_typed (source dest : List Char) {s : File_system_emulator}
    (hi : registries_typed s) :
    (move source dest s).post (fun _ s' => registries_typed s') registries_typed := by
  unfold move
  apply post_read_bind
  intro source_ptr _
  cases source_ptr with
  | none => exact hi
  | some src =>
    apply post_read_bind
    intro dest_ptr _
    cases dest_ptr with
    | none => exact hi
    | some dst =>
      apply post_read_bind
      intro dn _
      by_cases hd : dn.m_type ≠ NODE_TYPE.DIRECTORY
      · rw [if_pos hd]; exact hi
      · rw [if_neg hd]
        apply post_read_bind
        intro nothing_to_do _
        cases nothing_to_do with
        | true => exact hi
        | false =>
          simp only [Bool.false_eq_true, if_false]
          apply post_read_bind
          intro sn _
          apply post_read_bind
          intro attached _
          cases attached with
          | true => exact hi
          | false =>
            simp only [Bool.false_eq_true, if_false]
            cases hp : sn.m_parent with
            | none => trivial
            | some source_parent =>
              simp only []
              apply post_read_bind
              intro pn hpn
              obtain ⟨hpc, _⟩ := deref_dir_eq_val hpn
              have hi1 := registries_typed_store_same
                (n := { pn with m_childs := list_remove pn.m_childs src }) hi hpc rfl rfl rfl
              apply post_bind (push_child_typed dst src hi1)
              intro _ s2 hi2
              apply post_read_bind
              intro sn2 hsn2
              exact m_update_links_typed _ _ _
                (registries_typed_store_same (n := { sn2 with m_parent := some dst })
                  hi2 (deref_eq_val hsn2) rfl rfl rfl)

theorem delete_tree_sweep_typed : ∀ (fuel : Nat) (queue : List Nat) (s : File_system_emulator),
    registries_typed s →
      (delete_tree_sweep fuel queue s).post (fun _ s' => registries_typed s')
        registries_typed := by
  intro fuel
  induction fuel with
  | zero =>
    intro queue s hi
    cases queue with
    | nil => exact hi
    | cons x rest => trivial
  | succ fuel ih =>
    intro queue s hi
    cases queue with
    | nil => exact hi
    | cons node queue =>
      unfold delete_tree_sweep
      apply post_read_bind
      intro nd _
      by_cases h1 : nd.m_type ≠ NODE_TYPE.DIRECTORY
      · rw [if_pos h1]
        exact post_bind (m_remove_node_typed node hi) (fun _ s1 h => ih queue s1 h)
      · rw [if_neg h1]
        by_cases h2 : nd.m_childs = []
        · rw [if_pos h2]
          exact post_bind (m_remove_node_typed node hi) (fun _ s1 h => ih queue s1 h)
        · rw [if_neg h2]
          exact ih _ s hi

theorem delete_tree_loop_typed (target : Nat) :
    ∀ (fuel : Nat) (s : File_system_emulator), registries_typed s →
      (delete_tree_loop target fuel s).post (fun _ s' => registries_typed s')
        registries_typed := by
  intro fuel
  induction fuel with
  | zero =>
    intro s hi
    unfold delete_tree_loop
    apply post_read_bind
    intro t _
    by_cases h : t.m_childs = []
    · rw [if_pos h]; exact hi
    · rw [if_neg h]; trivial
  | succ fuel ih =>
    intro s hi
    unfold delete_tree_loop
    apply post_read_bind
    intro t _
    by_cases h : t.m_childs = []
    · rw [if_pos h]; exact hi
    · rw [if_neg h]
      exact post_bind (delete_tree_sweep_typed _ _ s hi) (fun _ s1 h1 => ih s1 h1)

theorem delete_tree_typed (path : List Char) {s : File_system_emulator}
    (hi : registries_typed s) :
    (delete_tree path s).post (fun _ s' => registries_typed s') registries_typed := by
  unfold delete_tree
  apply post_read_bind
  intro node_ptr _
  cases node_ptr with
  | none => exact hi
  | some target =>
    apply post_read_bind
    intro nd _
    by_cases hd : nd.m_type ≠ NODE_TYPE.DIRECTORY
    · rw [if_pos hd]; exact hi
    · rw [if_neg hd]
      apply post_read_bind
      intro drive _
      by_cases h1 : target = drive
      · rw [if_pos h1]; exact hi
      · rw [if_neg h1]
        by_cases h2 : target = s.m_curr_catalog
        · rw [if_pos h2]; exact hi
        · rw [if_neg h2]
          apply post_bind (delete_tree_loop_typed target _ s hi)
          intro _ s1 hi1
          apply post_read_bind
          intro nd1 _
          cases hp : nd1.m_parent with
          | none => trivial
          | some parent =>
            simp only []
            apply post_read_bind
            intro pn hpn
            obtain ⟨hpc, _⟩ := deref_dir_eq_val hpn
            exact delete_node_typed target
              (registries_typed_store_same
                (n := { pn with m_childs := list_remove pn.m_childs target }) hi1 hpc rfl rfl rfl)

/-! ## The order of names and the sort of `m_print` -/

theorem string_lt_asymm : ∀ a b : List Char, string_lt a b = true → string_lt b a = false := by
  intro a
  induction a with
  | nil =>
    intro b _
    cases b <;> simp [string_lt]
  | cons x as ih =>
    intro b h
    cases b with
    | nil => simp [string_lt] at h
    | cons y bs =>
      simp only [string_lt] at h ⊢
      by_cases h1 : x.toNat < y.toNat
      · have h2 : ¬ y.toNat < x.toNat := by omega
        simp [h1, h2]
      · by_cases h2 : y.toNat < x.toNat
        · simp [h1, h2] at h
        · simp only [h1, h2, if_false] at h ⊢
          exact ih bs h

theorem string_lt_neg_trans : ∀ a b c : List Char, string_lt c a = true →
    string_lt b a = true ∨ string_lt c b = true := by
  intro a
  induction a with
  | nil => intro b c h; cases c <;> simp [string_lt] at h
  | cons x as ih =>
    intro b c h
    cases b with
    | nil =>
      left
      simp [string_lt]
    | cons y bs =>
      cases c with
      | nil => right; simp [string_lt]
      | cons z cs =>
        simp only [string_lt] at h ⊢
        by_cases h1 : y.toNat < x.toNat
        · left; simp [h1]
        · by_cases h2 : z.toNat < y.toNat
          · right; simp [h2]
          · by_cases h3 : z.toNat < x.toNat
            · exfalso; omega
            · by_cases h4 : x.toNat < z.toNat
              · simp [h3, h4] at h
              · have h5 : ¬ x.toNat < y.toNat := by omega
                have h6 : ¬ y.toNat < z.toNat := by omega
                simp only [h1, h2, h3, h4, h5, h6, if_false] at h ⊢
                exact ih bs cs h

theorem comp_keeps_total (s : File_system_emulator) (a b : Nat) :
    comp_keeps s a b ∨ comp_keeps s b a := by
  unfold comp_keeps
  cases h : string_lt (name_of s b) (name_of s a) with
  | false => exact Or.inl rfl
  | true => exact Or.inr (string_lt_asymm _ _ h)

theorem comp_keeps_trans (s : File_system_emulator) (a b c : Nat)
    (h1 : comp_keeps s a b) (h2 : comp_keeps s b c) : comp_keeps s a c := by
  unfold comp_keeps at h1 h2 ⊢
  cases h : string_lt (name_of s c) (name_of s a) with
  | false => rfl
  | true =>
    rcases string_lt_neg_trans _ (name_of s b) _ h with h3 | h3
    · rw [h1] at h3; cases h3
    · rw [h2] at h3; cases h3

/-- The sort leaves the list in non-decreasing order of the names. -/
theorem sorted_childs_sorted (s : File_system_emulator) (l : List Nat) :
    (l.insertionSort (comp_keeps s)).Sorted (comp_keeps s) := by
  haveI : IsTotal Nat (comp_keeps s) := ⟨comp_keeps_total s⟩
  haveI : IsTrans Nat (comp_keeps s) := ⟨comp_keeps_trans s⟩
  exact List.sorted_insertionSort (comp_keeps s) l

/-- Sorting a sorted list changes nothing. -/
theorem sorted_childs_idem (s : File_system_emulator) (l : List Nat) :
    (l.insertionSort (comp_keeps s)).insertionSort (comp_keeps s) =
      l.insertionSort (comp_keeps s) :=
  (sorted_childs_sorted s l).insertionSort_eq

theorem ordered_insert_congr (s s' : File_system_emulator)
    (h : ∀ a b, comp_keeps s' a b ↔ comp_keeps s a b) (x : Nat) :
    ∀ l : List Nat, l.orderedInsert (comp_keeps s') x = l.orderedInsert (comp_keeps s) x := by
  intro l
  induction l with
  | nil => rfl
  | cons y ys ih =>
    simp only [List.orderedInsert]
    by_cases hxy : comp_keeps s x y
    · rw [if_pos hxy, if_pos ((h x y).mpr hxy)]
    · rw [if_neg hxy, if_neg (fun e => hxy ((h x y).mp e)), ih]

theorem sorted_childs_congr (s s' : File_system_emulator)
    (h : ∀ a b, comp_keeps s' a b ↔ comp_keeps s a b) :
    ∀ l : List Nat, l.insertionSort (comp_keeps s') = l.insertionSort (comp_keeps s) := by
  intro l
  induction l with
  | nil => rfl
  | cons y ys ih =>
    simp only [List.insertionSort]
    rw [ih, ordered_insert_congr s s' h]

theorem sort_childs_live (s : File_system_emulator) (l : List Nat)
    (h : ∀ c ∈ l, ∃ cn, s.heap.cell c = some cn) :
    sort_childs s l = .val (l.insertionSort (comp_keeps s)) := by
  unfold sort_childs
  rw [if_pos]
  rw [List.all_eq_true]
  intro c hc
  obtain ⟨cn, hcn⟩ := h c hc
  simp [hcn]

theorem sort_childs_eq_val {s : File_system_emulator} {l sorted : List Nat}
    (h : sort_childs s l = .val sorted) : sorted = l.insertionSort (comp_keeps s) := by
  unfold sort_childs at h
  by_cases hall : (l.all fun c => (s.heap.cell c).isSome) = true
  · rw [if_pos hall] at h
    cases h
    rfl
  · rw [if_neg hall] at h
    cases h

/-! ## What `print` changes: the order of siblings -/

theorem reordered_refl (s : File_system_emulator) : reordered s s := by
  refine ⟨rfl, rfl, rfl, ?_⟩
  intro q
  cases hc : s.heap.cell q with
  | none => exact Or.inl ⟨rfl, rfl⟩
  | some nd => exact Or.inr ⟨nd, nd.m_childs, rfl, rfl, List.Perm.refl _⟩

theorem reordered_trans {s s1 s2 : File_system_emulator} (h1 : reordered s s1)
    (h2 : reordered s1 s2) : reordered s s2 := by
  obtain ⟨a1, b1, c1, d1⟩ := h1
  obtain ⟨a2, b2, c2, d2⟩ := h2
  refine ⟨a2.trans a1, b2.trans b1, c2.trans c1, ?_⟩
  intro q
  rcases d1 q with ⟨e1, e2⟩ | ⟨nd, l, e1, e2, e3⟩
  · rcases d2 q with ⟨f1, f2⟩ | ⟨nd', l', f1, _, _⟩
    · exact Or.inl ⟨e1, f2⟩
    · rw [e2] at f1; cases f1
  · rcases d2 q with ⟨f1, _⟩ | ⟨nd', l', f1, f2, f3⟩
    · rw [e2] at f1; cases f1
    · rw [e2] at f1
      cases f1
      exact Or.inr ⟨nd, l', e1, f2, f3.trans e3⟩

theorem reordered_store {s : File_system_emulator} {p : Nat} {nd : Node} {l : List Nat}
    (hc : s.heap.cell p = some nd) (hp : l.Perm nd.m_childs) :
    reordered s (store s p { nd with m_childs := l }) := by
  refine ⟨rfl, rfl, by simp [store], ?_⟩
  intro q
  rw [cell_store hc]
  by_cases hq : q = p
  · subst hq
    exact Or.inr ⟨nd, l, hc, by simp, hp⟩
  · simp only [hq, if_false]
    cases hcq : s.heap.cell q with
    | none => exact Or.inl ⟨rfl, rfl⟩
    | some qn => exact Or.inr ⟨qn, qn.m_childs, rfl, rfl, List.Perm.refl _⟩

theorem print_each_post (P : File_system_emulator → Prop)
    (body : Nat → File_system_emulator → Result (List Char))
    (hbody : ∀ x s, P s → (body x s).post (fun _ s' => P s') (fun _ => False)) :
    ∀ (l : List Nat) (s : File_system_emulator), P s →
      (print_each body l s).post (fun _ s' => P s') (fun _ => False) := by
  intro l
  induction l with
  | nil => intro s hs; exact hs
  | cons x rest ih =>
    intro s hs
    unfold print_each
    refine post_bind (hbody x s hs) ?_
    intro out s1 h1
    refine post_bind (ih s1 h1) ?_
    intro out2 s2 h2
    exact h2

/-- Whatever the state, a call of `m_print` that returns has changed the order of
siblings only, and `m_print` never throws. -/
theorem m_print_reordered : ∀ (fuel node depth : Nat) (s : File_system_emulator),
    (m_print fuel node depth s).post (fun _ s' => reordered s s') (fun _ => False) := by
  intro fuel
  induction fuel with
  | zero => intro _ _ s; trivial
  | succ fuel ih =>
    intro node depth s
    unfold m_print
    apply post_read_bind
    intro nd hnd
    have hc := deref_eq_val hnd
    by_cases hd : nd.m_type = NODE_TYPE.DIRECTORY
    · rw [if_pos hd]
      apply post_read_bind
      intro sorted hs
      have hsorted := sort_childs_eq_val hs
      have h1 : reordered s (store s node { nd with m_childs := sorted }) :=
        reordered_store hc (by rw [hsorted]; exact List.perm_insertionSort _ _)
      refine post_bind
        (print_each_post (fun s' => reordered s s') _
          (fun x s1 hs1 => post_mono (ih x (depth + 1) s1)
            (fun _ s2 h2 => reordered_trans hs1 h2) (fun _ h => h)) sorted _ h1) ?_
      intro out s1 hs1
      exact hs1
    · rw [if_neg hd]
      exact reordered_refl s

theorem print_reordered (s : File_system_emulator) :
    (print s).post (fun _ s' => reordered s s') (fun _ => False) := by
  unfold print
  apply post_read_bind
  intro drive _
  refine post_bind (m_print_reordered _ drive 0 s) ?_
  intro out s1 h1
  exact h1

theorem registries_typed_reordered {s s' : File_system_emulator} (h : reordered s s')
    (hi : registries_typed s) : registries_typed s' := by
  obtain ⟨_, _, hlen, hcells⟩ := h
  have hback : ∀ q nd', s'.heap.cell q = some nd' →
      ∃ nd, s.heap.cell q = some nd ∧ nd'.m_type = nd.m_type ∧ nd'.m_hlinks = nd.m_hlinks ∧
        nd'.m_dlinks = nd.m_dlinks := by
    intro q nd' hq
    rcases hcells q with ⟨_, e2⟩ | ⟨nd, l, e1, e2, _⟩
    · rw [e2] at hq; cases hq
    · rw [e2] at hq
      cases hq
      exact ⟨nd, e1, rfl, rfl, rfl⟩
  intro p nd' hp
  obtain ⟨nd, hnd, _, hh, hdl⟩ := hback p nd' hp
  obtain ⟨h1, h2⟩ := hi p nd hnd
  constructor
  · intro l hl
    rw [hdl] at hl
    obtain ⟨a, b⟩ := h1 l hl
    refine ⟨by rw [hlen]; exact a, ?_⟩
    intro ln hln
    obtain ⟨ln0, hln0, ht, _, _⟩ := hback l ln hln
    rw [ht]
    exact b ln0 hln0
  · intro l hl
    rw [hh] at hl
    obtain ⟨a, b⟩ := h2 l hl
    refine ⟨by rw [hlen]; exact a, ?_⟩
    intro ln hln
    obtain ⟨ln0, hln0, ht, _, _⟩ := hback l ln hln
    rw [ht]
    exact b ln0 hln0

theorem reordered_cell {s s' : File_system_emulator} (h : reordered s s') {q : Nat} {nd : Node}
    (hq : s.heap.cell q = some nd) :
    ∃ l, s'.heap.cell q = some { nd with m_childs := l } ∧ l.Perm nd.m_childs := by
  rcases h.2.2.2 q with ⟨e1, _⟩ | ⟨nd0, l, e1, e2, e3⟩
  · rw [e1] at hq; cases hq
  · rw [e1] at hq
    cases hq
    exact ⟨l, e2, e3⟩

theorem reordered_cell_back {s s' : File_system_emulator} (h : reordered s s') {q : Nat}
    {nd' : Node} (hq : s'.heap.cell q = some nd') :
    ∃ nd, s.heap.cell q = some nd ∧ nd' = { nd with m_childs := nd'.m_childs } ∧
      nd'.m_childs.Perm nd.m_childs := by
  rcases h.2.2.2 q with ⟨_, e2⟩ | ⟨nd, l, e1, e2, e3⟩
  · rw [e2] at hq; cases hq
  · rw [e2] at hq
    cases hq
    exact ⟨nd, e1, rfl, e3⟩

theorem reordered_none {s s' : File_system_emulator} (h : reordered s s') {q : Nat}
    (hq : s.heap.cell q = none) : s'.heap.cell q = none := by
  rcases h.2.2.2 q with ⟨_, e2⟩ | ⟨nd, l, e1, _, _⟩
  · exact e2
  · rw [e1] at hq; cases hq

theorem tree_within_reordered {s s' : File_system_emulator} (h : reordered s s') :
    ∀ k n, tree_within s' k n = tree_within s k n := by
  intro k
  induction k with
  | zero => intro n; rfl
  | succ k ih =>
    intro n
    unfold tree_within
    cases hc : s.heap.cell n with
    | none => rw [reordered_none h hc]
    | some nd =>
      obtain ⟨l, hl, hperm⟩ := reordered_cell h hc
      rw [hl]
      simp only []
      by_cases hd : nd.m_type = NODE_TYPE.DIRECTORY
      · rw [if_pos hd, if_pos hd]
        rw [Bool.eq_iff_iff, List.all_eq_true, List.all_eq_true]
        constructor
        · intro hall x hx
          rw [← ih]
          exact hall x (hperm.mem_iff.mpr hx)
        · intro hall x hx
          rw [ih]
          exact hall x (hperm.mem_iff.mp hx)
      · rw [if_neg hd, if_neg hd]

theorem is_child_reordered {s s' : File_system_emulator} (h : reordered s s') (d c : Nat) :
    is_child s' d c ↔ is_child s d c := by
  constructor
  · rintro ⟨dn', h1, h2, h3⟩
    obtain ⟨dn, e1, e2, e3⟩ := reordered_cell_back h h1
    refine ⟨dn, e1, ?_, e3.mem_iff.mp h3⟩
    rw [e2] at h2
    exact h2
  · rintro ⟨dn, h1, h2, h3⟩
    obtain ⟨l, e1, e2⟩ := reordered_cell h h1
    exact ⟨_, e1, h2, e2.mem_iff.mpr h3⟩

theorem in_subtree_reordered {s s' : File_system_emulator} (h : reordered s s') (a n : Nat) :
    in_subtree s' a n ↔ in_subtree s a n := by
  have e : is_child s' = is_child s := by
    funext d c
    exact propext (is_child_reordered h d c)
  unfold in_subtree
  rw [e]

theorem well_formed_reordered {s s' : File_system_emulator} (h : reordered s s')
    (hw : well_formed s) : well_formed s' := by
  obtain ⟨hroot, hpc, hhid, htrees⟩ := hw
  have hr := h.1
  have hcur := h.2.1
  refine ⟨?_, ?_, ?_, ?_⟩
  · obtain ⟨rn, drive, dn, h1, h2, h3, h4, h5, h6, h7, h8⟩ := hroot
    obtain ⟨l, e1, e2⟩ := reordered_cell h h1
    obtain ⟨l2, f1, _⟩ := reordered_cell h h5
    rw [h4] at e2
    have el : l = [drive] := List.perm_singleton.mp e2
    exact ⟨{ rn with m_childs := l }, drive, { dn with m_childs := l2 }, by rw [hr]; exact e1,
      h2, h3, el, f1, h6, h7, by rw [hr]; exact h8⟩
  · intro d dn' hd hdir hne c hc
    obtain ⟨dn, e1, e2, e3⟩ := reordered_cell_back h hd
    have hdir0 : dn.m_type = NODE_TYPE.DIRECTORY := by rw [e2] at hdir; exact hdir
    obtain ⟨cn, hcn, hpar⟩ := hpc d dn e1 hdir0 (by rw [← hr]; exact hne) c (e3.mem_iff.mp hc)
    obtain ⟨l, f1, _⟩ := reordered_cell h hcn
    exact ⟨_, f1, hpar⟩
  · refine ⟨by rw [hr, hcur]; exact hhid.1, ?_⟩
    intro n nd' hn
    obtain ⟨nd, e1, e2, _⟩ := reordered_cell_back h hn
    rw [e2, hr]
    exact hhid.2 n nd e1
  · intro n nd' hn
    obtain ⟨nd, e1, _, _⟩ := reordered_cell_back h hn
    obtain ⟨k, hk⟩ := htrees n nd e1
    exact ⟨k, by rw [tree_within_reordered h]; exact hk⟩

theorem print_typed {s : File_system_emulator} (hi : registries_typed s) :
    ((print s).bind fun _ s1 => Result.ok () s1).post (fun _ s' => registries_typed s')
      registries_typed := by
  refine post_bind (post_mono (print_reordered s) (fun _ _ h => h) (fun _ h => h.elim)) ?_
  intro _ s1 h1
  exact registries_typed_reordered h1 hi

theorem print_wf {s : File_system_emulator} (hw : well_formed s) :
    ((print s).bind fun _ s1 => Result.ok () s1).post (fun _ s' => well_formed s')
      well_formed := by
  refine post_bind (post_mono (print_reordered s) (fun _ _ h => h) (fun _ h => h.elim)) ?_
  intro _ s1 h1
  exact well_formed_reordered h1 hw

theorem exec_typed (c : Call) {s : File_system_emulator} (hi : registries_typed s) :
    (c.exec s).post (fun _ s' => registries_typed s') registries_typed := by
  cases c with
  | make_dir p => exact make_dir_typed p hi
  | make_file p => exact make_file_typed p hi
  | make_hlink a b => exact make_hlink_typed a b hi
  | make_dlink a b => exact make_dlink_typed a b hi
  | change_dir p => exact change_dir_typed p hi
  | remove_dir p => exact remove_dir_typed p hi
  | remove_file p => exact remove_file_typed p hi
  | copy a b => exact copy_typed a b hi
  | move a b => exact move_typed a b hi
  | delete_tree p => exact delete_tree_typed p hi
  | print => exact print_typed hi

/-- In every reachable state the registries are typed. -/
theorem reachable_registries_typed {s : File_system_emulator} (h : Reachable s) :
    registries_typed s := by
  induction h with
  | init => exact registries_typed_init
  | ok c s s' _ hexec ih =>
    have := exec_typed c ih
    rw [hexec] at this
    exact this
  | raised c e s s' _ hexec ih =>
    have := exec_typed c ih
    rw [hexec] at this
    exact this

theorem cell_of_heap_mem {h : Heap} {n : Node} (hm : some n ∈ h) : ∃ p, h.cell p = some n := by
  obtain ⟨p, hp⟩ := List.mem_iff_getElem?.mp hm
  exact ⟨p, by simp [Heap.cell, hp]⟩

/-- In every reachable state the live entries of the `m_dlinks` registries are nodes
of kind `DLINK`: the hypothesis of the frame property of `move` holds. -/
theorem reachable_dlinks_typed {s : File_system_emulator} (h : Reachable s) :
    dlinks_typed s = true := by
  have hi := reachable_registries_typed h
  unfold dlinks_typed
  rw [List.all_eq_true]
  intro c hc
  cases c with
  | none => rfl
  | some nd =>
    obtain ⟨p, hp⟩ := cell_of_heap_mem hc
    simp only [List.all_eq_true]
    intro l hl
    cases hcl : s.heap.cell l with
    | none => rfl
    | some ln => simpa using ((hi p nd hp).1 l hl).2 ln hcl

/-- The state left by a script that runs to its end is reachable. -/
theorem reachable_run : ∀ (script : List Call) (s s' : File_system_emulator),
    Reachable s → run script s = .ok () s' → Reachable s' := by
  intro script
  induction script with
  | nil =>
    intro s s' hs h
    simp [run] at h
    subst h
    exact hs
  | cons c rest ih =>
    intro s s' hs h
    unfold run at h
    obtain ⟨_, s1, h1, h2⟩ := result_bind_eq_ok h
    exact ih s1 s' (Reachable.ok c s s1 hs h1) h2

/-! ## The structure is a tree in every reachable state -/

theorem tree_within_mono_le (s : File_system_emulator) {k j n : Nat} (hkj : k ≤ j)
    (h : tree_within s k n = true) : tree_within s j n = true := by
  induction hkj with
  | refl => exact h
  | step _ ih => exact tree_within_mono s _ _ ih

theorem tree_within_live (s : File_system_emulator) {k n : Nat}
    (h : tree_within s k n = true) : ∃ nd, s.heap.cell n = some nd := by
  obtain ⟨j, rfl⟩ := tree_within_pos s h
  unfold tree_within at h
  cases hc : s.heap.cell n with
  | none => simp [hc] at h
  | some nd => exact ⟨nd, rfl⟩

/-- Transfer of trees from a state to a changed state: every child listed in the new
state is an old child that is still alive, or the root of a tree of at most
`K` levels in the new state. -/
theorem tree_transfer (s s' : File_system_emulator) (K : Nat)
    (h : ∀ n nd nd', s.heap.cell n = some nd → s'.heap.cell n = some nd' →
      nd'.m_type = NODE_TYPE.DIRECTORY →
        nd.m_type = NODE_TYPE.DIRECTORY ∧
        ∀ y ∈ nd'.m_childs, (y ∈ nd.m_childs ∧ ∃ yn', s'.heap.cell y = some yn') ∨
          tree_within s' K y = true) :
    ∀ k n, tree_within s k n = true → (∃ nd', s'.heap.cell n = some nd') →
      tree_within s' (k + K) n = true := by
  intro k
  induction k with
  | zero => intro n hn; simp [tree_within] at hn
  | succ k ih =>
    intro n hn ⟨nd', hn'⟩
    obtain ⟨nd, hc⟩ := tree_within_live s hn
    have hkK : k + 1 + K = (k + K) + 1 := by omega
    rw [hkK]
    unfold tree_within at hn ⊢
    simp only [hc] at hn
    simp only [hn']
    by_cases hd' : nd'.m_type = NODE_TYPE.DIRECTORY
    · obtain ⟨hd, hch⟩ := h n nd nd' hc hn' hd'
      simp only [hd, if_true, List.all_eq_true] at hn
      simp only [hd', if_true, List.all_eq_true]
      intro y hy
      rcases hch y hy with ⟨hold, hlive⟩ | hsp
      · exact ih y (hn y hold) hlive
      · exact tree_within_mono_le s' (by omega) hsp
    · simp [hd']

/-- The tree below a node depends only on the cells of its subtree. -/
theorem tree_within_local (s s' : File_system_emulator) :
    ∀ k c, (∀ x, in_subtree s c x → s'.heap.cell x = s.heap.cell x) →
      tree_within s' k c = tree_within s k c := by
  intro k
  induction k with
  | zero => intro c _; rfl
  | succ k ih =>
    intro c h
    unfold tree_within
    rw [h c Relation.ReflTransGen.refl]
    cases hc : s.heap.cell c with
    | none => rfl
    | some nd =>
      simp only []
      by_cases hd : nd.m_type = NODE_TYPE.DIRECTORY
      · simp only [hd, if_true]
        have hy : ∀ y ∈ nd.m_childs, tree_within s' k y = tree_within s k y := fun y hy =>
          ih y (fun x hx => h x (Relation.ReflTransGen.head ⟨nd, hc, hd, hy⟩ hx))
        rw [Bool.eq_iff_iff]
        simp only [List.all_eq_true]
        constructor
        · intro H y hm; rw [← hy y hm]; exact H y hm
        · intro H y hm; rw [hy y hm]; exact H y hm
      · simp [hd]

theorem rooted_drive {s : File_system_emulator} (h : rooted s) :
    ∃ drive dn, drive_root s = .val drive ∧ s.heap.cell drive = some dn ∧
      dn.m_type = NODE_TYPE.DIRECTORY ∧ dn.m_parent = none ∧ drive ≠ s.m_root := by
  obtain ⟨rn, drive, dn, h1, h2, _, h4, h5, h6, h7, h8⟩ := h
  refine ⟨drive, dn, ?_, h5, h6, h7, h8⟩
  simp [drive_root, deref_dir, h1, h2, h4]


theorem same_shape_tree (s s' : File_system_emulator) (h : same_shape s s') :
    ∀ k n, tree_within s' k n = tree_within s k n := by
  intro k
  induction k with
  | zero => intro n; rfl
  | succ k ih =>
    intro n
    unfold tree_within
    rcases h.2.2 n with ⟨h1, h2⟩ | ⟨nd, nd', h1, h2, h3, _, h5⟩
    · rw [h1, h2]
    · rw [h1, h2]
      simp only [h3, h5]
      by_cases hd : nd.m_type = NODE_TYPE.DIRECTORY
      · simp only [hd, if_true]
        rw [Bool.eq_iff_iff]
        simp only [List.all_eq_true]
        constructor
        · intro H y hm; rw [← ih y]; exact H y hm
        · intro H y hm; rw [ih y]; exact H y hm
      · simp [hd]

/-- Well-formedness depends on the shape only. -/
theorem well_formed_of_same_shape {s s' : File_system_emulator} (hw : well_formed s)
    (h : same_shape s s') : well_formed s' := by
  obtain ⟨hroot, hpc, hhid, htree⟩ := hw
  obtain ⟨hr, hcur, hx⟩ := h
  have hlive : ∀ x nd, s.heap.cell x = some nd → ∃ nd', s'.heap.cell x = some nd' ∧
      nd'.m_type = nd.m_type ∧ nd'.m_parent = nd.m_parent ∧ nd'.m_childs = nd.m_childs := by
    intro x nd hc
    rcases hx x with ⟨h1, _⟩ | ⟨nd0, nd', h1, h2, h3, h4, h5⟩
    · rw [hc] at h1; cases h1
    · rw [hc] at h1; cases h1; exact ⟨nd', h2, h3, h4, h5⟩
  have hback : ∀ x nd', s'.heap.cell x = some nd' → ∃ nd, s.heap.cell x = some nd ∧
      nd'.m_type = nd.m_type ∧ nd'.m_parent = nd.m_parent ∧ nd'.m_childs = nd.m_childs := by
    intro x nd' hc
    rcases hx x with ⟨_, h2⟩ | ⟨nd, nd0, h1, h2, h3, h4, h5⟩
    · rw [hc] at h2; cases h2
    · rw [hc] at h2; cases h2; exact ⟨nd, h1, h3, h4, h5⟩
  refine ⟨?_, ?_, ?_, ?_⟩
  · obtain ⟨rn, drive, dn, h1, h2, h3, h4, h5, h6, h7, h8⟩ := hroot
    obtain ⟨rn', a1, a2, a3, a4⟩ := hlive _ _ h1
    obtain ⟨dn', b1, b2, b3, _⟩ := hlive _ _ h5
    exact ⟨rn', drive, dn', by rw [hr]; exact a1, a2.trans h2, a3.trans h3, a4.trans h4, b1,
      b2.trans h6, b3.trans h7, by rw [hr]; exact h8⟩
  · intro d dn' hd hdir hne c hcm
    obtain ⟨dn, a1, a2, _, a4⟩ := hback d dn' hd
    obtain ⟨cn, c1, c2⟩ := hpc d dn a1 (a2 ▸ hdir) (by rw [← hr]; exact hne) c (a4 ▸ hcm)
    obtain ⟨cn', d1, _, d3, _⟩ := hlive c cn c1
    exact ⟨cn', d1, d3.trans c2⟩
  · refine ⟨by rw [hr, hcur]; exact hhid.1, fun n nd' hn => ?_⟩
    obtain ⟨nd, a1, _, a3, _⟩ := hback n nd' hn
    rw [a3, hr]
    exact hhid.2 n nd a1
  · intro n nd' hn
    obtain ⟨nd, a1, _⟩ := hback n nd' hn
    obtain ⟨k, hk⟩ := htree n nd a1
    exact ⟨k, by rw [same_shape_tree s s' ⟨hr, hcur, hx⟩]; exact hk⟩

theorem same_shape_refl (s : File_system_emulator) : same_shape s s := by
  refine ⟨rfl, rfl, fun x => ?_⟩
  cases hc : s.heap.cell x with
  | none => exact Or.inl ⟨rfl, rfl⟩
  | some nd => exact Or.inr ⟨nd, nd, rfl, rfl, rfl, rfl, rfl⟩

theorem same_shape_trans {s s1 s2 : File_system_emulator} (h1 : same_shape s s1)
    (h2 : same_shape s1 s2) : same_shape s s2 := by
  refine ⟨h2.1.trans h1.1, h2.2.1.trans h1.2.1, fun x => ?_⟩
  rcases h1.2.2 x with ⟨a, b⟩ | ⟨nd, nd1, a, b, c, d, e⟩
  · rcases h2.2.2 x with ⟨_, b'⟩ | ⟨nd', _, a', _⟩
    · exact Or.inl ⟨a, b'⟩
    · rw [b] at a'; cases a'
  · rcases h2.2.2 x with ⟨a', _⟩ | ⟨nd1', nd2, a', b', c', d', e'⟩
    · rw [b] at a'; cases a'
    · rw [b] at a'; cases a'
      exact Or.inr ⟨nd, nd2, a, b', c'.trans c, d'.trans d, e'.trans e⟩

/-- A store that keeps kind, parent and children keeps the shape. -/
theorem same_shape_store {s : File_system_emulator} {p : Nat} {old n : Node}
    (hp : s.heap.cell p = some old) (hty : n.m_type = old.m_type)
    (hpar : n.m_parent = old.m_parent) (hch : n.m_childs = old.m_childs) :
    same_shape s (store s p n) := by
  refine ⟨rfl, rfl, fun x => ?_⟩
  rw [cell_store hp]
  by_cases hx : x = p
  · subst hx
    exact Or.inr ⟨old, n, hp, by simp, hty, hpar, hch⟩
  · simp only [hx, if_false]
    cases hc : s.heap.cell x with
    | none => exact Or.inl ⟨rfl, rfl⟩
    | some nd => exact Or.inr ⟨nd, nd, rfl, rfl, rfl, rfl, rfl⟩

theorem same_shape_of_renamed {s s' : File_system_emulator} (h : renamed_only s s') :
    same_shape s s' := by
  refine ⟨h.1, h.2.1, fun x => ?_⟩
  rcases h.2.2 x with ⟨a, b⟩ | ⟨nd, name, a, b, _⟩
  · exact Or.inl ⟨a, b⟩
  · exact Or.inr ⟨nd, _, a, b, rfl, rfl, rfl⟩


/-- In a well-formed state the children of a live directory are alive. -/
theorem children_live {s : File_system_emulator} (hw : well_formed s) {d : Nat} {dn : Node}
    (hd : s.heap.cell d = some dn) (hdir : dn.m_type = NODE_TYPE.DIRECTORY) :
    ∀ c ∈ dn.m_childs, ∃ cn, s.heap.cell c = some cn := by
  intro c hc
  obtain ⟨hroot, hpc, _, _⟩ := hw
  by_cases hr : d = s.m_root
  · obtain ⟨rn, drive, dn', h1, _, _, h4, h5, _⟩ := hroot
    rw [hr, h1] at hd
    cases hd
    rw [h4] at hc
    simp at hc
    subst hc
    exact ⟨dn', h5⟩
  · obtain ⟨cn, h1, _⟩ := hpc d dn hd hdir hr c hc
    exact ⟨cn, h1⟩

theorem all_trees_heap {s : File_system_emulator} (hw : well_formed s) {n : Nat} {nd : Node}
    (hn : s.heap.cell n = some nd) : tree_within s (s.heap.length + 1) n = true := by
  obtain ⟨k, hk⟩ := hw.2.2.2 n nd hn
  exact tree_within_heap s hk

/-- A store that replaces the child list of a directory other than the super-root:
every new entry is an old entry, or a live node that names the directory as
its parent and does not have the directory in its own subtree. -/
theorem well_formed_store_childs {s : File_system_emulator} {p : Nat} {old : Node}
    (hw : well_formed s) (hp : s.heap.cell p = some old)
    (hdir : old.m_type = NODE_TYPE.DIRECTORY) (hpr : p ≠ s.m_root) (l : List Nat)
    (hl : ∀ c ∈ l, c ∈ old.m_childs ∨
      ∃ cn, s.heap.cell c = some cn ∧ cn.m_parent = some p ∧ ¬ in_subtree s c p) :
    well_formed (store s p { old with m_childs := l }) := by
  have hw' := hw
  obtain ⟨hroot, hpc, hhid, htree⟩ := hw
  have hcell : ∀ x, (store s p { old with m_childs := l }).heap.cell x =
      if x = p then some { old with m_childs := l } else s.heap.cell x := cell_store hp _
  have hfwd : ∀ x nd, s.heap.cell x = some nd →
      ∃ nd', (store s p { old with m_childs := l }).heap.cell x = some nd' ∧
        nd'.m_type = nd.m_type ∧ nd'.m_parent = nd.m_parent := by
    intro x nd hx
    rw [hcell]
    by_cases hxp : x = p
    · subst hxp
      rw [hp] at hx; cases hx
      exact ⟨{ old with m_childs := l }, by simp, rfl, rfl⟩
    · exact ⟨nd, by simp [hxp, hx], rfl, rfl⟩
  have hback : ∀ x nd', (store s p { old with m_childs := l }).heap.cell x = some nd' →
      ∃ nd, s.heap.cell x = some nd ∧ nd'.m_type = nd.m_type ∧ nd'.m_parent = nd.m_parent ∧
        (x ≠ p → nd' = nd) ∧ (x = p → nd'.m_childs = l) := by
    intro x nd' hx
    rw [hcell] at hx
    by_cases hxp : x = p
    · subst hxp
      simp only [if_true, Option.some.injEq] at hx
      subst hx
      exact ⟨old, hp, rfl, rfl, fun h => absurd rfl h, fun _ => rfl⟩
    · simp only [hxp, if_false] at hx
      exact ⟨nd', hx, rfl, rfl, fun _ => rfl, fun h => absurd h hxp⟩
  refine ⟨?_, ?_, ?_, ?_⟩
  · obtain ⟨rn, drive, dn, h1, h2, h3, h4, h5, h6, h7, h8⟩ := hroot
    obtain ⟨dn', b1, b2, b3⟩ := hfwd _ _ h5
    refine ⟨rn, drive, dn', ?_, h2, h3, h4, b1, b2.trans h6, b3.trans h7, h8⟩
    show (store s p { old with m_childs := l }).heap.cell s.m_root = some rn
    rw [hcell]
    have : s.m_root ≠ p := fun e => hpr e.symm
    simp [this, h1]
  · intro d dn' hd hdd hne c hcm
    obtain ⟨dn, a1, a2, _, a4, a5⟩ := hback d dn' hd
    by_cases hdp : d = p
    · subst hdp
      rw [a5 rfl] at hcm
      rw [hp] at a1; cases a1
      rcases hl c hcm with hold | ⟨cn, c1, c2, _⟩
      · obtain ⟨cn, c1, c2⟩ := hpc d old hp hdir hpr c hold
        obtain ⟨cn', d1, _, d3⟩ := hfwd c cn c1
        exact ⟨cn', d1, d3.trans c2⟩
      · obtain ⟨cn', d1, _, d3⟩ := hfwd c cn c1
        exact ⟨cn', d1, d3.trans c2⟩
    · have := a4 hdp
      subst this
      obtain ⟨cn, c1, c2⟩ := hpc d dn' a1 hdd hne c hcm
      obtain ⟨cn', d1, _, d3⟩ := hfwd c cn c1
      exact ⟨cn', d1, d3.trans c2⟩
  · refine ⟨hhid.1, fun n nd' hn => ?_⟩
    obtain ⟨nd, a1, _, a3, _⟩ := hback n nd' hn
    rw [a3]
    exact hhid.2 n nd a1
  · have key := tree_transfer s (store s p { old with m_childs := l }) (s.heap.length + 1) (by
      intro n nd nd' hn hn' hd'
      obtain ⟨nd0, a1, a2, _, a4, a5⟩ := hback n nd' hn'
      rw [hn] at a1; cases a1
      refine ⟨a2 ▸ hd', fun y hy => ?_⟩
      by_cases hnp : n = p
      · subst hnp
        rw [a5 rfl] at hy
        rw [hp] at hn; cases hn
        rcases hl y hy with hold | ⟨cn, c1, _, c3⟩
        · obtain ⟨yn, hyl⟩ := children_live hw' hp hdir y hold
          obtain ⟨yn', d1, _⟩ := hfwd y yn hyl
          exact Or.inl ⟨hold, yn', d1⟩
        · right
          rw [tree_within_local s _ _ y (fun x hx => by
            rw [hcell]
            have : x ≠ n := fun e => c3 (e ▸ hx)
            simp [this])]
          exact all_trees_heap hw' c1
      · have := a4 hnp
        subst this
        obtain ⟨yn, hyl⟩ := children_live hw' hn (a2 ▸ hd') y hy
        obtain ⟨yn', d1, _⟩ := hfwd y yn hyl
        exact Or.inl ⟨hy, yn', d1⟩)
    intro n nd' hn
    obtain ⟨nd, a1, _⟩ := hback n nd' hn
    obtain ⟨k, hk⟩ := htree n nd a1
    exact ⟨_, key k n hk ⟨nd', hn⟩⟩

/-- Taking a node out of the child list of its parent. -/
theorem well_formed_unlist {s : File_system_emulator} {p : Nat} {pn : Node}
    (hw : well_formed s) (hp : s.heap.cell p = some pn)
    (hdir : pn.m_type = NODE_TYPE.DIRECTORY) (hpr : p ≠ s.m_root) (x : Nat) :
    well_formed (store s p { pn with m_childs := list_remove pn.m_childs x }) :=
  well_formed_store_childs hw hp hdir hpr _ (fun _ hc => Or.inl (List.mem_of_mem_filter hc))

/-- Once a node is out of the child list of its parent it is in no child list. -/
theorem unlisted_after_unlist {s : File_system_emulator} {p x : Nat} {pn xn : Node}
    (hw : well_formed s) (hp : s.heap.cell p = some pn) (hx : s.heap.cell x = some xn)
    (hxp : xn.m_parent = some p) :
    unlisted (store s p { pn with m_childs := list_remove pn.m_childs x }) x := by
  intro d dn' hd hdir hmem
  rw [cell_store hp] at hd
  by_cases hdp : d = p
  · subst hdp
    simp only [if_true, Option.some.injEq] at hd
    subst hd
    simp [list_remove] at hmem
  · simp only [hdp, if_false] at hd
    obtain ⟨hroot, hpc, _, _⟩ := hw
    by_cases hr : d = s.m_root
    · obtain ⟨rn, drive, dn, h1, _, _, h4, h5, _, h7, _⟩ := hroot
      rw [hr, h1] at hd
      cases hd
      rw [h4] at hmem
      simp at hmem
      subst hmem
      rw [hx] at h5; cases h5
      rw [h7] at hxp; cases hxp
    · obtain ⟨cn, c1, c2⟩ := hpc d dn' hd hdir hr x hmem
      rw [hx] at c1; cases c1
      rw [hxp] at c2
      exact hdp (Option.some.inj c2).symm

/-- Emptying the cell of a node that is in no child list. -/
theorem well_formed_release {s : File_system_emulator} {x : Nat} (hw : well_formed s)
    (hu : unlisted s x) (hxr : x ≠ s.m_root) :
    well_formed { s with heap := s.heap.set x none } := by
  have hw' := hw
  obtain ⟨hroot, hpc, hhid, htree⟩ := hw
  have hcell : ∀ q, Heap.cell (s.heap.set x none) q = if q = x then none else s.heap.cell q :=
    cell_release s.heap x
  have hfwd : ∀ q nd, s.heap.cell q = some nd → q ≠ x →
      Heap.cell (s.heap.set x none) q = some nd := by
    intro q nd hq hne
    rw [hcell]; simp [hne, hq]
  have hback : ∀ q nd, Heap.cell (s.heap.set x none) q = some nd →
      s.heap.cell q = some nd ∧ q ≠ x := by
    intro q nd hq
    rw [hcell] at hq
    by_cases hqx : q = x
    · simp [hqx] at hq
    · simp only [hqx, if_false] at hq
      exact ⟨hq, hqx⟩
  have hchild : ∀ d dn, s.heap.cell d = some dn → dn.m_type = NODE_TYPE.DIRECTORY →
      ∀ c ∈ dn.m_childs, c ≠ x := by
    intro d dn hd hdir c hc e
    exact hu d dn hd hdir (e ▸ hc)
  refine ⟨?_, ?_, ?_, ?_⟩
  · obtain ⟨rn, drive, dn, h1, h2, h3, h4, h5, h6, h7, h8⟩ := hroot
    have hdx : drive ≠ x := hchild _ rn h1 h2 drive (by rw [h4]; simp)
    exact ⟨rn, drive, dn, hfwd _ _ h1 (fun e => hxr e.symm), h2, h3, h4, hfwd _ _ h5 hdx,
      h6, h7, h8⟩
  · intro d dn hd hdir hne c hcm
    obtain ⟨a1, _⟩ := hback d dn hd
    obtain ⟨cn, c1, c2⟩ := hpc d dn a1 hdir hne c hcm
    exact ⟨cn, hfwd c cn c1 (hchild d dn a1 hdir c hcm), c2⟩
  · exact ⟨hhid.1, fun n nd hn => hhid.2 n nd (hback n nd hn).1⟩
  · have key := tree_transfer s { s with heap := s.heap.set x none } 0 (by
      intro n nd nd' hn hn' hd'
      obtain ⟨a1, _⟩ := hback n nd' hn'
      rw [hn] at a1; cases a1
      refine ⟨hd', fun y hy => ?_⟩
      obtain ⟨yn, hyl⟩ := children_live hw' hn hd' y hy
      exact Or.inl ⟨hy, yn, hfwd y yn hyl (hchild n nd hn hd' y hy)⟩)
    intro n nd hn
    obtain ⟨a1, _⟩ := hback n nd hn
    obtain ⟨k, hk⟩ := htree n nd a1
    exact ⟨_, key k n hk ⟨nd, hn⟩⟩

/-- Allocating a node without children. -/
theorem well_formed_alloc {s : File_system_emulator} {n : Node} (hw : well_formed s)
    (hch : n.m_childs = []) (hpar : n.m_parent ≠ some s.m_root) :
    well_formed (alloc s n).2 := by
  have hw' := hw
  obtain ⟨hroot, hpc, hhid, htree⟩ := hw
  have hfwd : ∀ q nd, s.heap.cell q = some nd → (alloc s n).2.heap.cell q = some nd := by
    intro q nd hq
    rw [cell_alloc]
    have := cell_lt hq
    have hne : q ≠ s.heap.length := by omega
    simp [hne, hq]
  have hback : ∀ q nd, (alloc s n).2.heap.cell q = some nd →
      (q = s.heap.length ∧ nd = n) ∨ s.heap.cell q = some nd := by
    intro q nd hq
    rw [cell_alloc] at hq
    by_cases hql : q = s.heap.length
    · simp only [hql, if_true, Option.some.injEq] at hq
      exact Or.inl ⟨hql, hq.symm⟩
    · simp only [hql, if_false] at hq
      exact Or.inr hq
  refine ⟨?_, ?_, ?_, ?_⟩
  · obtain ⟨rn, drive, dn, h1, h2, h3, h4, h5, h6, h7, h8⟩ := hroot
    exact ⟨rn, drive, dn, hfwd _ _ h1, h2, h3, h4, hfwd _ _ h5, h6, h7, h8⟩
  · intro d dn hd hdir hne c hcm
    rcases hback d dn hd with ⟨_, h2⟩ | h1
    · subst h2; rw [hch] at hcm; simp at hcm
    · obtain ⟨cn, c1, c2⟩ := hpc d dn h1 hdir hne c hcm
      exact ⟨cn, hfwd c cn c1, c2⟩
  · refine ⟨hhid.1, fun q nd hq => ?_⟩
    rcases hback q nd hq with ⟨_, h2⟩ | h1
    · subst h2; exact hpar
    · exact hhid.2 q nd h1
  · have key := tree_transfer s (alloc s n).2 0 (by
      intro q nd nd' hq hq' hd'
      have := hfwd q nd hq
      rw [this] at hq'; cases hq'
      refine ⟨hd', fun y hy => ?_⟩
      obtain ⟨yn, hyl⟩ := children_live hw' hq hd' y hy
      exact Or.inl ⟨hy, yn, hfwd y yn hyl⟩)
    intro q nd hq
    rcases hback q nd hq with ⟨h1, h2⟩ | h1
    · refine ⟨1, ?_⟩
      subst h2
      unfold tree_within
      simp [hq, hch]
    · obtain ⟨k, hk⟩ := htree q nd h1
      exact ⟨_, key k q hk ⟨nd, hq⟩⟩

/-! ### Path resolution never returns the super-root -/

theorem split_path_loop_ne_nil (path : List Char) :
    ∀ (n curr_pos left_pos : Nat) (acc : List (List Char)),
      split_path_loop path n curr_pos left_pos acc ≠ [] := by
  intro n
  induction n with
  | zero => intro _ _ acc; simp [split_path_loop]
  | succ n ih =>
    intro curr_pos left_pos acc
    unfold split_path_loop
    by_cases h1 : path[curr_pos]? = some '\\'
    · rw [if_pos h1]; exact ih _ _ _
    · rw [if_neg h1]
      by_cases h2 : path[curr_pos]? = some '['
      · rw [if_pos h2]; simp
      · rw [if_neg h2]; exact ih _ _ _

theorem split_path_ne_nil (path : List Char) : split_path path ≠ [] :=
  split_path_loop_ne_nil path _ _ _ _

theorem read_andThen_eq_val {α β : Type} {r : Read α} {f : α → Read β} {b : β}
    (h : r.andThen f = .val b) : ∃ a, r = .val a ∧ f a = .val b := by
  cases r with
  | val a => exact ⟨a, rfl, h⟩
  | undefined => cases h
  | diverge => cases h

theorem find_child_spec (s : File_system_emulator) (name : List Char) :
    ∀ (l : List Nat) (c : Nat) (cn : Node), find_child s name l = .val (some (c, cn)) →
      c ∈ l ∧ s.heap.cell c = some cn := by
  intro l
  induction l with
  | nil => intro c cn h; simp [find_child] at h
  | cons x rest ih =>
    intro c cn h
    unfold find_child at h
    obtain ⟨xn, hx, h⟩ := read_andThen_eq_val h
    by_cases hn : xn.m_name = name
    · rw [if_pos hn] at h
      cases h
      exact ⟨List.mem_cons_self _ _, deref_eq_val hx⟩
    · rw [if_neg hn] at h
      obtain ⟨h1, h2⟩ := ih c cn h
      exact ⟨List.mem_cons_of_mem _ h1, h2⟩

theorem m_find_node_loop_spec (s : File_system_emulator) :
    ∀ (segs : List (List Char)) (curr n : Nat), m_find_node_loop s segs curr = .val (some n) →
      (segs = [] ∧ n = curr) ∨ ∃ d, is_child s d n := by
  intro segs
  induction segs with
  | nil =>
    intro curr n h
    simp [m_find_node_loop] at h
    exact Or.inl ⟨rfl, h.symm⟩
  | cons seg rest ih =>
    intro curr n h
    unfold m_find_node_loop at h
    obtain ⟨d, hd, h⟩ := read_andThen_eq_val h
    obtain ⟨hdc, hdir⟩ := deref_dir_eq_val hd
    obtain ⟨r, hr, h⟩ := read_andThen_eq_val h
    cases r with
    | none => cases h
    | some pr =>
      obtain ⟨child, c⟩ := pr
      obtain ⟨hm, hc⟩ := find_child_spec s seg _ _ _ hr
      simp only [] at h
      by_cases hcd : c.m_type = NODE_TYPE.DIRECTORY
      · rw [if_pos hcd] at h
        rcases ih child n h with ⟨_, h2⟩ | h2
        · subst h2
          exact Or.inr ⟨curr, d, hdc, hdir, hm⟩
        · exact Or.inr h2
      · rw [if_neg hcd] at h
        cases h
        exact Or.inr ⟨curr, d, hdc, hdir, hm⟩

/-- A listed child is never the super-root, and never a node without parent other
than the drive. -/
theorem child_ne_root {s : File_system_emulator} (hw : well_formed s) {d n : Nat}
    (h : is_child s d n) : n ≠ s.m_root := by
  obtain ⟨dn, hd, hdir, hm⟩ := h
  obtain ⟨hroot, hpc, _, _⟩ := hw
  obtain ⟨rn, drive, dn', h1, _, h3, h4, _, _, _, h8⟩ := hroot
  by_cases hr : d = s.m_root
  · rw [hr, h1] at hd
    cases hd
    rw [h4] at hm
    simp at hm
    subst hm
    exact h8
  · obtain ⟨cn, c1, c2⟩ := hpc d dn hd hdir hr n hm
    intro e
    rw [e, h1] at c1
    cases c1
    rw [h3] at c2
    cases c2

theorem find_ne_root {s : File_system_emulator} (hw : well_formed s) {path : List Char}
    {n : Nat} (h : m_find_node_by_path path s = .val (some n)) : n ≠ s.m_root := by
  unfold m_find_node_by_path at h
  by_cases hp : path = []
  · rw [if_pos hp] at h
    cases h
    exact hw.2.2.1.1
  · rw [if_neg hp] at h
    rcases m_find_node_loop_spec s _ _ _ h with ⟨h1, _⟩ | ⟨d, hd⟩
    · exact absurd h1 (split_path_ne_nil path)
    · exact child_ne_root hw hd

/-! ### Creation and linking -/

theorem leaf_subtree {s : File_system_emulator} {c x : Nat} {cn : Node}
    (hc : s.heap.cell c = some cn) (hleaf : cn.m_type ≠ NODE_TYPE.DIRECTORY ∨ cn.m_childs = [])
    (h : in_subtree s c x) : x = c := by
  rcases in_subtree_head s h with h1 | ⟨y, ⟨dn, hd, hdir, hm⟩, _⟩
  · exact h1
  · rw [hc] at hd; cases hd
    rcases hleaf with h2 | h2
    · exact absurd hdir h2
    · rw [h2] at hm; simp at hm

/-- Allocating a childless node whose parent is the live directory `d`, then pushing
it on the child list of `d`. -/
theorem well_formed_new_child {s : File_system_emulator} (hw : well_formed s) {d : Nat}
    {dn : Node} (hd : s.heap.cell d = some dn) (hdir : dn.m_type = NODE_TYPE.DIRECTORY)
    (hdr : d ≠ s.m_root) (type : NODE_TYPE) (name : List Char) :
    well_formed (store (alloc s ⟨some d, type, name, [], [], []⟩).2 d
      { dn with m_childs := (alloc s ⟨some d, type, name, [], [], []⟩).1 :: dn.m_childs }) := by
  have ha : well_formed (alloc s ⟨some d, type, name, [], [], []⟩).2 :=
    well_formed_alloc hw rfl (by simpa using hdr)
  have hd1 : (alloc s ⟨some d, type, name, [], [], []⟩).2.heap.cell d = some dn := by
    rw [cell_alloc]
    have := cell_lt hd
    have hne : d ≠ s.heap.length := by omega
    simp [hne, hd]
  have hnew : (alloc s ⟨some d, type, name, [], [], []⟩).2.heap.cell
      (alloc s ⟨some d, type, name, [], [], []⟩).1 = some ⟨some d, type, name, [], [], []⟩ := by
    rw [cell_alloc]; simp [alloc]
  apply well_formed_store_childs ha hd1 hdir (by simpa [alloc] using hdr)
  intro c hc
  rcases List.mem_cons.mp hc with rfl | hc
  · refine Or.inr ⟨_, hnew, rfl, fun hsub => ?_⟩
    have := leaf_subtree hnew (Or.inr rfl) hsub
    have hlt := cell_lt hd
    simp [alloc] at this
    omega
  · exact Or.inl hc

theorem m_make_node_wf (path name : List Char) (type : NODE_TYPE) {s : File_system_emulator}
    (hw : well_formed s) :
    (m_make_node path name type s).post (fun _ s' => well_formed s') well_formed := by
  unfold m_make_node
  apply post_read_bind
  intro node_ptr hfind
  cases node_ptr with
  | none => exact hw
  | some parent_dir =>
    apply post_read_bind
    intro nd hnd
    have hc := deref_eq_val hnd
    by_cases hd : nd.m_type ≠ NODE_TYPE.DIRECTORY
    · rw [if_pos hd]; exact hw
    · rw [if_neg hd]
      have hdir : nd.m_type = NODE_TYPE.DIRECTORY := by
        by_contra h; exact hd h
      apply post_read_bind
      intro r _
      cases r with
      | nothing => exact hw
      | blocked_by_file => exact hw
      | blocked_by_directory => exact hw
      | create => exact well_formed_new_child hw hc hdir (find_ne_root hw hfind) type name

theorem m_make_link_wf (source dest name : List Char) (type : NODE_TYPE)
    {s : File_system_emulator} (hw : well_formed s) :
    (m_make_link source dest name type s).post (fun _ s' => well_formed s') well_formed := by
  unfold m_make_link
  apply post_read_bind
  intro source_ptr _
  cases source_ptr with
  | none => exact hw
  | some src =>
    apply post_bind (m_make_node_wf dest name type hw)
    intro link s1 hw1
    cases link with
    | none => exact hw1
    | some l =>
      apply post_read_bind
      intro ln _
      apply post_read_bind
      intro linked hlinked
      have hc := deref_linked_eq_val hlinked
      by_cases hh : ln.m_type = NODE_TYPE.HLINK
      · rw [if_pos hh]
        exact well_formed_of_same_shape hw1 (same_shape_store hc rfl rfl rfl)
      · rw [if_neg hh]
        exact well_formed_of_same_shape hw1 (same_shape_store hc rfl rfl rfl)

theorem make_dir_wf (path : List Char) {s : File_system_emulator} (hw : well_formed s) :
    (make_dir path s).post (fun _ s' => well_formed s') well_formed := by
  unfold make_dir
  exact post_bind (m_make_node_wf _ _ _ hw) (fun _ _ h => h)

theorem make_file_wf (path : List Char) {s : File_system_emulator} (hw : well_formed s) :
    (make_file path s).post (fun _ s' => well_formed s') well_formed := by
  unfold make_file
  exact post_bind (m_make_node_wf _ _ _ hw) (fun _ _ h => h)

theorem make_hlink_wf (source dest : List Char) {s : File_system_emulator}
    (hw : well_formed s) :
    (make_hlink source dest s).post (fun _ s' => well_formed s') well_formed := by
  unfold make_hlink
  exact post_read_bind (fun _ _ => m_make_link_wf _ _ _ _ hw)

theorem make_dlink_wf (source dest : List Char) {s : File_system_emulator}
    (hw : well_formed s) :
    (make_dlink source dest s).post (fun _ s' => well_formed s') well_formed := by
  unfold make_dlink
  exact post_read_bind (fun _ _ => m_make_link_wf _ _ _ _ hw)

theorem tree_within_of_heap_eq {s s' : File_system_emulator} (h : s'.heap = s.heap) :
    ∀ k n, tree_within s' k n = tree_within s k n := by
  intro k
  induction k with
  | zero => intro n; rfl
  | succ k ih =>
    intro n
    unfold tree_within
    rw [h]
    cases hc : s.heap.cell n with
    | none => rfl
    | some nd =>
      simp only []
      by_cases hd : nd.m_type = NODE_TYPE.DIRECTORY
      · simp only [hd, if_true]
        rw [Bool.eq_iff_iff]
        simp only [List.all_eq_true]
        constructor
        · intro H y hm; rw [← ih y]; exact H y hm
        · intro H y hm; rw [ih y]; exact H y hm
      · simp [hd]

theorem well_formed_set_curr {s : File_system_emulator} (hw : well_formed s) {p : Nat}
    (hp : p ≠ s.m_root) : well_formed { s with m_curr_catalog := p } := by
  obtain ⟨h1, h2, h3, h4⟩ := hw
  refine ⟨h1, h2, ⟨hp, h3.2⟩, fun n nd hn => ?_⟩
  obtain ⟨k, hk⟩ := h4 n nd hn
  exact ⟨k, (@tree_within_of_heap_eq s { s with m_curr_catalog := p } rfl k n).trans hk⟩

theorem change_dir_wf (path : List Char) {s : File_system_emulator} (hw : well_formed s) :
    (change_dir path s).post (fun _ s' => well_formed s') well_formed := by
  unfold change_dir
  apply post_read_bind
  intro node_ptr hfind
  cases node_ptr with
  | none => exact hw
  | some p =>
    apply post_read_bind
    intro nd _
    by_cases hd : nd.m_type ≠ NODE_TYPE.DIRECTORY
    · rw [if_pos hd]; exact hw
    · rw [if_neg hd]
      exact well_formed_set_curr hw (find_ne_root hw hfind)


/-! ### Removal -/

theorem shrinks_refl (s : File_system_emulator) : shrinks s s :=
  fun _ nd' h => ⟨nd', h, rfl, fun _ hc => hc⟩

theorem shrinks_trans {s s1 s2 : File_system_emulator} (h1 : shrinks s s1)
    (h2 : shrinks s1 s2) : shrinks s s2 := by
  intro q nd2 hq
  obtain ⟨nd1, a1, a2, a3⟩ := h2 q nd2 hq
  obtain ⟨nd, b1, b2, b3⟩ := h1 q nd1 a1
  exact ⟨nd, b1, a2.trans b2, fun c hc => b3 c (a3 c hc)⟩

theorem shrinks_store {s : File_system_emulator} {p : Nat} {old n : Node}
    (hp : s.heap.cell p = some old) (hty : n.m_type = old.m_type)
    (hch : ∀ c ∈ n.m_childs, c ∈ old.m_childs) : shrinks s (store s p n) := by
  intro q nd' hq
  rw [cell_store hp] at hq
  by_cases hqp : q = p
  · subst hqp
    simp only [if_true, Option.some.injEq] at hq
    subst hq
    exact ⟨old, hp, hty, hch⟩
  · simp only [hqp, if_false] at hq
    exact ⟨nd', hq, rfl, fun _ hc => hc⟩

theorem shrinks_release (s : File_system_emulator) (x : Nat) :
    shrinks s { s with heap := s.heap.set x none } := by
  intro q nd' hq
  have hq' : Heap.cell (s.heap.set x none) q = some nd' := hq
  rw [cell_release] at hq'
  by_cases hqx : q = x
  · simp [hqx] at hq'
  · simp only [hqx, if_false] at hq'
    exact ⟨nd', hq', rfl, fun _ hc => hc⟩

theorem unlisted_of_same_shape {s s' : File_system_emulator} {x : Nat} (hu : unlisted s x)
    (h : same_shape s s') : unlisted s' x := by
  intro d dn' hd hdir hm
  rcases h.2.2 d with ⟨_, h2⟩ | ⟨dn, dn0, h1, h2, h3, _, h5⟩
  · rw [hd] at h2; cases h2
  · rw [hd] at h2; cases h2
    exact hu d dn h1 (h3 ▸ hdir) (h5 ▸ hm)

/-- Destroying a node that is not a directory, or an empty directory, empties one
cell. -/
theorem delete_node_leaf {s : File_system_emulator} {x : Nat} {xn : Node}
    (hx : s.heap.cell x = some xn)
    (hleaf : xn.m_type ≠ NODE_TYPE.DIRECTORY ∨ xn.m_childs = []) :
    delete_node s x = .ok () { s with heap := s.heap.set x none } := by
  unfold delete_node destroy
  simp only [hx]
  by_cases hd : xn.m_type = NODE_TYPE.DIRECTORY
  · rcases hleaf with h | h
    · exact absurd hd h
    · simp [hd, h, each_on_heap]
  · simp [hd]

theorem deref_linked_kind {s : File_system_emulator} {p : Nat} {n : Node}
    (h : deref_linked s p = .val n) :
    n.m_type = NODE_TYPE.FILE ∨ n.m_type = NODE_TYPE.DIRECTORY := by
  unfold deref_linked at h
  cases hc : s.heap.cell p with
  | none => simp [hc] at h
  | some m =>
    simp only [hc] at h
    by_cases hd : m.m_type = NODE_TYPE.FILE ∨ m.m_type = NODE_TYPE.DIRECTORY
    · rw [if_pos hd] at h; cases h; exact hd
    · rw [if_neg hd] at h; cases h

/-- A node with a parent is not the super-root. -/
theorem ne_root_of_parent {s : File_system_emulator} (hw : well_formed s) {x p : Nat}
    {xn : Node} (hx : s.heap.cell x = some xn) (hp : xn.m_parent = some p) : x ≠ s.m_root := by
  intro e
  obtain ⟨rn, _, _, h1, _, h3, _⟩ := hw.1
  rw [e, h1] at hx
  cases hx
  rw [h3] at hp
  cases hp

/-- Detaching a childless node from its parent and destroying it. -/
theorem detach_and_delete {s : File_system_emulator} (hw : well_formed s)
    (hi : registries_typed s) {x p : Nat} {xn pn : Node}
    (hx : s.heap.cell x = some xn) (hxp : xn.m_parent = some p)
    (hleaf : xn.m_type ≠ NODE_TYPE.DIRECTORY ∨ xn.m_childs = [])
    (hp : s.heap.cell p = some pn) (hpd : pn.m_type = NODE_TYPE.DIRECTORY) :
    (delete_node (store s p { pn with m_childs := list_remove pn.m_childs x }) x).post
      (fun _ s' => (well_formed s' ∧ registries_typed s') ∧ shrinks s s')
      (fun _ => False) := by
  have hpr : p ≠ s.m_root := fun e => hw.2.2.1.2 x xn hx (e ▸ hxp)
  have hw1 := well_formed_unlist hw hp hpd hpr x
  have hu1 := unlisted_after_unlist hw hp hx hxp
  have hi1 := registries_typed_store_same
    (n := { pn with m_childs := list_remove pn.m_childs x }) hi hp rfl rfl rfl
  have hsh1 : shrinks s (store s p { pn with m_childs := list_remove pn.m_childs x }) :=
    shrinks_store hp rfl (fun c hc => List.mem_of_mem_filter hc)
  have hx1 : ∃ xn1, (store s p { pn with m_childs := list_remove pn.m_childs x }).heap.cell x
      = some xn1 ∧ (xn1.m_type ≠ NODE_TYPE.DIRECTORY ∨ xn1.m_childs = []) := by
    rw [cell_store hp]
    by_cases hxe : x = p
    · subst hxe
      rw [hp] at hx; cases hx
      refine ⟨{ xn with m_childs := list_remove xn.m_childs x }, by simp, ?_⟩
      rcases hleaf with h | h
      · exact Or.inl h
      · exact Or.inr (by simp [h, list_remove])
    · exact ⟨xn, by simp [hxe, hx], hleaf⟩
  obtain ⟨xn1, hx1, hleaf1⟩ := hx1
  rw [delete_node_leaf hx1 hleaf1]
  have hxr : x ≠ s.m_root := ne_root_of_parent hw hx hxp
  exact ⟨⟨well_formed_release hw1 hu1 hxr,
    registries_typed_of_dies hi1 (by simp) (fun q => by
      rw [cell_release]
      by_cases hq : q = x
      · simp [hq]
      · simp [hq])⟩,
    shrinks_trans hsh1 (shrinks_release _ x)⟩

theorem m_remove_dlinks_wf (node : Nat) :
    ∀ (fuel : Nat) (s : File_system_emulator), well_formed s → registries_typed s →
      (m_remove_dlinks node fuel s).post
        (fun _ s' => (well_formed s' ∧ registries_typed s') ∧ shrinks s s')
        (fun _ => False) := by
  intro fuel
  induction fuel with
  | zero =>
    intro s hw hi
    unfold m_remove_dlinks
    apply post_read_bind
    intro linked _
    by_cases h : linked.m_dlinks = []
    · rw [if_pos h]; exact ⟨⟨hw, hi⟩, shrinks_refl s⟩
    · rw [if_neg h]; trivial
  | succ fuel ih =>
    intro s hw hi
    unfold m_remove_dlinks
    apply post_read_bind
    intro linked hlinked
    have hlc := deref_linked_eq_val hlinked
    have hlk := deref_linked_kind hlinked
    cases hl : linked.m_dlinks with
    | nil => exact ⟨⟨hw, hi⟩, shrinks_refl s⟩
    | cons child rest =>
      simp only []
      apply post_read_bind
      intro c hc
      have hcc := deref_eq_val hc
      have hck : c.m_type = NODE_TYPE.DLINK :=
        ((hi node linked hlc).1 child (by rw [hl]; exact List.mem_cons_self _ _)).2 c hcc
      cases hp : c.m_parent with
      | none => trivial
      | some parent =>
        simp only []
        apply post_read_bind
        intro pn hpn
        obtain ⟨hpc, hpd⟩ := deref_dir_eq_val hpn
        have hpr : parent ≠ s.m_root := fun e => hw.2.2.1.2 child c hcc (e ▸ hp)
        have hw1 := well_formed_unlist hw hpc hpd hpr child
        have hu1 := unlisted_after_unlist hw hpc hcc hp
        have hi1 := registries_typed_store_same
          (n := { pn with m_childs := list_remove pn.m_childs child }) hi hpc rfl rfl rfl
        have hsh1 : shrinks s
            (store s parent { pn with m_childs := list_remove pn.m_childs child }) :=
          shrinks_store hpc rfl (fun c hc => List.mem_of_mem_filter hc)
        have hcp : child ≠ parent := by
          intro e
          rw [e, hpc] at hcc
          cases hcc
          rw [hpd] at hck
          cases hck
        have hc1 : (store s parent
            { pn with m_childs := list_remove pn.m_childs child }).heap.cell child = some c := by
          rw [cell_store hpc]; simp [hcp, hcc]
        apply post_read_bind
        intro linked1 hlinked1
        have hl1 := deref_linked_eq_val hlinked1
        have hk1 := deref_linked_kind hlinked1
        have hss := same_shape_store (n := { linked1 with m_dlinks := linked1.m_dlinks.tail })
          hl1 rfl rfl rfl
        have hw2 := well_formed_of_same_shape hw1 hss
        have hu2 := unlisted_of_same_shape hu1 hss
        have hi2 := registries_typed_store
          (n := { linked1 with m_dlinks := linked1.m_dlinks.tail })
          hi1 hl1 rfl (fun x hx => Or.inl (List.mem_of_mem_tail hx)) (fun x hx => Or.inl hx)
        have hsh2 := shrinks_trans hsh1
          (shrinks_store (n := { linked1 with m_dlinks := linked1.m_dlinks.tail }) hl1 rfl
            (fun _ hc => hc))
        have hcn : child ≠ node := by
          intro e
          have hcl : some c = some linked1 := by rw [← hc1, ← hl1, e]
          cases hcl
          rcases hk1 with h | h
          · rw [h] at hck; cases hck
          · rw [h] at hck; cases hck
        have hc2 : (store (store s parent
            { pn with m_childs := list_remove pn.m_childs child }) node
            { linked1 with m_dlinks := linked1.m_dlinks.tail }).heap.cell child = some c := by
          rw [cell_store hl1]; simp [hcn, hc1]
        rw [delete_node_leaf hc2 (Or.inl (by rw [hck]; decide))]
        have hxr : child ≠ s.m_root := ne_root_of_parent hw hcc hp
        have hw3 := well_formed_release hw2 hu2 hxr
        have hsh3 := shrinks_trans hsh2 (shrinks_release _ child)
        refine post_mono (ih _ hw3 ?_) (fun _ s' h => ⟨h.1, shrinks_trans hsh3 h.2⟩)
          (fun _ h => h)
        exact registries_typed_of_dies hi2 (by simp) (fun q => by
          rw [cell_release]
          by_cases hq : q = child
          · simp [hq]
          · simp [hq])


theorem m_remove_node_wf (node : Nat) {s : File_system_emulator} (hw : well_formed s)
    (hi : registries_typed s)
    (hleaf : ∀ nd, s.heap.cell node = some nd →
      nd.m_type ≠ NODE_TYPE.DIRECTORY ∨ nd.m_childs = []) :
    (m_remove_node node s).post
      (fun _ s' => (well_formed s' ∧ registries_typed s') ∧ shrinks s s')
      (fun s' => well_formed s' ∧ registries_typed s') := by
  unfold m_remove_node
  apply post_read_bind
  intro nd hnd
  have hfirst : (if nd.m_type = NODE_TYPE.FILE ∨ nd.m_type = NODE_TYPE.DIRECTORY then
        if nd.m_hlinks ≠ [] then
          Result.raised "ERROR: Can`t delete entity with attached hard link." s
        else m_remove_dlinks node nd.m_dlinks.length s
      else Result.ok () s).post
        (fun _ s' => (well_formed s' ∧ registries_typed s') ∧ shrinks s s')
        (fun s' => well_formed s' ∧ registries_typed s') := by
    by_cases h1 : nd.m_type = NODE_TYPE.FILE ∨ nd.m_type = NODE_TYPE.DIRECTORY
    · rw [if_pos h1]
      by_cases h2 : nd.m_hlinks ≠ []
      · rw [if_pos h2]; exact ⟨hw, hi⟩
      · rw [if_neg h2]
        exact post_mono (m_remove_dlinks_wf node _ s hw hi) (fun _ _ h => h)
          (fun _ h => h.elim)
    · rw [if_neg h1]; exact ⟨⟨hw, hi⟩, shrinks_refl s⟩
  apply post_bind hfirst
  intro _ s1 ⟨⟨hw1, hi1⟩, hsh1⟩
  apply post_read_bind
  intro nd1 hnd1
  have hc1 := deref_eq_val hnd1
  obtain ⟨nd0, hc0, hty, hch⟩ := hsh1 node nd1 hc1
  have hleaf1 : nd1.m_type ≠ NODE_TYPE.DIRECTORY ∨ nd1.m_childs = [] := by
    rcases hleaf nd0 hc0 with h | h
    · exact Or.inl (by rw [hty]; exact h)
    · right
      cases hl : nd1.m_childs with
      | nil => rfl
      | cons c rest =>
        have := hch c (by rw [hl]; exact List.mem_cons_self _ _)
        rw [h] at this
        cases this
  cases hp : nd1.m_parent with
  | none => trivial
  | some parent =>
    simp only []
    apply post_read_bind
    intro pn hpn
    obtain ⟨hpc, hpd⟩ := deref_dir_eq_val hpn
    exact post_mono (detach_and_delete hw1 hi1 hc1 hp hleaf1 hpc hpd)
      (fun _ _ h => ⟨h.1, shrinks_trans hsh1 h.2⟩) (fun _ h => h.elim)

theorem remove_dir_wf (path : List Char) {s : File_system_emulator} (hw : well_formed s)
    (hi : registries_typed s) :
    (remove_dir path s).post (fun _ s' => well_formed s' ∧ registries_typed s')
      (fun s' => well_formed s' ∧ registries_typed s') := by
  unfold remove_dir
  apply post_read_bind
  intro node_ptr _
  cases node_ptr with
  | none => exact ⟨hw, hi⟩
  | some p =>
    apply post_read_bind
    intro nd hnd
    by_cases hd : nd.m_type ≠ NODE_TYPE.DIRECTORY
    · rw [if_pos hd]; exact ⟨hw, hi⟩
    · rw [if_neg hd]
      apply post_read_bind
      intro drive _
      by_cases h1 : p = drive
      · rw [if_pos h1]; exact ⟨hw, hi⟩
      · rw [if_neg h1]
        by_cases h2 : p = s.m_curr_catalog
        · rw [if_pos h2]; exact ⟨hw, hi⟩
        · rw [if_neg h2]
          by_cases h3 : nd.m_childs ≠ []
          · rw [if_pos h3]; exact ⟨hw, hi⟩
          · rw [if_neg h3]
            refine post_mono (m_remove_node_wf p hw hi (fun nd' hc => ?_))
              (fun _ _ h => h.1) (fun _ h => h)
            rw [deref_eq_val hnd] at hc
            cases hc
            exact Or.inr (not_not.mp h3)

theorem remove_file_wf (path : List Char) {s : File_system_emulator} (hw : well_formed s)
    (hi : registries_typed s) :
    (remove_file path s).post (fun _ s' => well_formed s' ∧ registries_typed s')
      (fun s' => well_formed s' ∧ registries_typed s') := by
  unfold remove_file
  apply post_read_bind
  intro node_ptr _
  cases node_ptr with
  | none => exact ⟨hw, hi⟩
  | some p =>
    apply post_read_bind
    intro nd hnd
    by_cases hd : nd.m_type = NODE_TYPE.DIRECTORY
    · rw [if_pos hd]; exact ⟨hw, hi⟩
    · rw [if_neg hd]
      refine post_mono (m_remove_node_wf p hw hi (fun nd' hc => ?_))
        (fun _ _ h => h.1) (fun _ h => h)
      rw [deref_eq_val hnd] at hc
      cases hc
      exact Or.inl hd


/-! ### Deleting a tree -/

theorem delete_tree_sweep_wf : ∀ (fuel : Nat) (queue : List Nat) (s : File_system_emulator),
    well_formed s ∧ registries_typed s →
      (delete_tree_sweep fuel queue s).post (fun _ s' => well_formed s' ∧ registries_typed s')
        (fun s' => well_formed s' ∧ registries_typed s') := by
  intro fuel
  induction fuel with
  | zero =>
    intro queue s h
    cases queue with
    | nil => exact h
    | cons _ _ => trivial
  | succ fuel ih =>
    intro queue s h
    cases queue with
    | nil => exact h
    | cons node queue =>
      unfold delete_tree_sweep
      apply post_read_bind
      intro nd hnd
      have hc := deref_eq_val hnd
      by_cases hd : nd.m_type ≠ NODE_TYPE.DIRECTORY
      · rw [if_pos hd]
        refine post_bind (m_remove_node_wf node h.1 h.2 (fun nd' hc' => ?_))
          (fun _ s1 h1 => ih queue s1 h1.1)
        rw [hc] at hc'
        cases hc'
        exact Or.inl hd
      · rw [if_neg hd]
        by_cases he : nd.m_childs = []
        · rw [if_pos he]
          refine post_bind (m_remove_node_wf node h.1 h.2 (fun nd' hc' => ?_))
            (fun _ s1 h1 => ih queue s1 h1.1)
          rw [hc] at hc'
          cases hc'
          exact Or.inr he
        · rw [if_neg he]
          exact ih _ s h

theorem delete_tree_loop_wf (target : Nat) :
    ∀ (fuel : Nat) (s : File_system_emulator), well_formed s ∧ registries_typed s →
      (delete_tree_loop target fuel s).post
        (fun _ s' => (well_formed s' ∧ registries_typed s') ∧
          ∀ t, s'.heap.cell target = some t → t.m_childs = [])
        (fun s' => well_formed s' ∧ registries_typed s') := by
  intro fuel
  induction fuel with
  | zero =>
    intro s h
    unfold delete_tree_loop
    apply post_read_bind
    intro t ht
    by_cases he : t.m_childs = []
    · rw [if_pos he]
      refine ⟨h, fun t' ht' => ?_⟩
      rw [(deref_dir_eq_val ht).1] at ht'
      cases ht'
      exact he
    · rw [if_neg he]; trivial
  | succ fuel ih =>
    intro s h
    unfold delete_tree_loop
    apply post_read_bind
    intro t ht
    by_cases he : t.m_childs = []
    · rw [if_pos he]
      refine ⟨h, fun t' ht' => ?_⟩
      rw [(deref_dir_eq_val ht).1] at ht'
      cases ht'
      exact he
    · rw [if_neg he]
      exact post_bind (delete_tree_sweep_wf _ _ s h) (fun _ s1 h1 => ih s1 h1)

theorem delete_tree_wf (path : List Char) {s : File_system_emulator} (hw : well_formed s)
    (hi : registries_typed s) :
    (delete_tree path s).post (fun _ s' => well_formed s' ∧ registries_typed s')
      (fun s' => well_formed s' ∧ registries_typed s') := by
  unfold delete_tree
  apply post_read_bind
  intro node_ptr _
  cases node_ptr with
  | none => exact ⟨hw, hi⟩
  | some target =>
    apply post_read_bind
    intro nd _
    by_cases hd : nd.m_type ≠ NODE_TYPE.DIRECTORY
    · rw [if_pos hd]; exact ⟨hw, hi⟩
    · rw [if_neg hd]
      apply post_read_bind
      intro drive _
      by_cases h1 : target = drive
      · rw [if_pos h1]; exact ⟨hw, hi⟩
      · rw [if_neg h1]
        by_cases h2 : target = s.m_curr_catalog
        · rw [if_pos h2]; exact ⟨hw, hi⟩
        · rw [if_neg h2]
          apply post_bind (delete_tree_loop_wf target _ s ⟨hw, hi⟩)
          intro _ s1 ⟨⟨hw1, hi1⟩, hempty⟩
          apply post_read_bind
          intro nd1 hnd1
          have hc1 := deref_eq_val hnd1
          cases hp : nd1.m_parent with
          | none => trivial
          | some parent =>
            simp only []
            apply post_read_bind
            intro pn hpn
            obtain ⟨hpc, hpd⟩ := deref_dir_eq_val hpn
            exact post_mono
              (detach_and_delete hw1 hi1 hc1 hp (Or.inr (hempty nd1 hc1)) hpc hpd)
              (fun _ _ h => h.1) (fun _ h => h.elim)


/-! ### Copying -/

theorem grows_refl (s : File_system_emulator) : grows s s :=
  ⟨Nat.le_refl _, rfl, fun _ nd h => ⟨nd, h, rfl, rfl⟩,
    fun _ xn1 h hd _ hc _ => ⟨xn1, h, hd, hc⟩⟩

theorem grows_trans {s0 s s' : File_system_emulator} (h1 : grows s0 s) (h2 : grows s s') :
    grows s0 s' := by
  obtain ⟨a1, a2, a3, a4⟩ := h1
  obtain ⟨b1, b2, b3, b4⟩ := h2
  refine ⟨Nat.le_trans a1 b1, b2.trans a2, fun q nd hq => ?_, fun x xn' hx hd c hc hlt => ?_⟩
  · obtain ⟨nd1, c1, c2, c3⟩ := a3 q nd hq
    obtain ⟨nd2, d1, d2, d3⟩ := b3 q nd1 c1
    exact ⟨nd2, d1, d2.trans c2, d3.trans c3⟩
  · obtain ⟨xn, c1, c2, c3⟩ := b4 x xn' hx hd c hc (by omega)
    exact a4 x xn c1 c2 c c3 hlt

theorem grows_alloc {s0 s : File_system_emulator} (h : grows s0 s) (n : Node)
    (hch : n.m_childs = []) : grows s0 (alloc s n).2 := by
  refine grows_trans h ⟨by simp [alloc], rfl, fun q nd hq => ?_, fun x xn' hx hd c hc _ => ?_⟩
  · refine ⟨nd, ?_, rfl, rfl⟩
    rw [cell_alloc]
    have := cell_lt hq
    have hne : q ≠ s.heap.length := by omega
    simp [hne, hq]
  · rw [cell_alloc] at hx
    by_cases hxl : x = s.heap.length
    · simp only [hxl, if_true, Option.some.injEq] at hx
      subst hx
      rw [hch] at hc
      cases hc
    · simp only [hxl, if_false] at hx
      exact ⟨xn', hx, hd, hc⟩

/-- A store that keeps kind and parent and adds only child entries that are new
cells keeps `grows`. -/
theorem grows_store {s0 s : File_system_emulator} (h : grows s0 s) {p : Nat} {old n : Node}
    (hp : s.heap.cell p = some old) (hty : n.m_type = old.m_type)
    (hpar : n.m_parent = old.m_parent)
    (hch : ∀ c ∈ n.m_childs, c ∈ old.m_childs ∨ s0.heap.length ≤ c) :
    grows s0 (store s p n) := by
  obtain ⟨a1, a2, a3, a4⟩ := h
  refine ⟨by simpa using a1, a2, fun q nd hq => ?_, fun x xn' hx hd c hc hlt => ?_⟩
  · obtain ⟨nd1, c1, c2, c3⟩ := a3 q nd hq
    rw [cell_store hp]
    by_cases hqp : q = p
    · subst hqp
      rw [hp] at c1
      cases c1
      exact ⟨n, by simp, hty.trans c2, hpar.trans c3⟩
    · exact ⟨nd1, by simp [hqp, c1], c2, c3⟩
  · rw [cell_store hp] at hx
    by_cases hxp : x = p
    · subst hxp
      simp only [if_true, Option.some.injEq] at hx
      subst hx
      rcases hch c hc with h1 | h1
      · exact a4 x old hp (hty ▸ hd) c h1 hlt
      · omega
    · simp only [hxp, if_false] at hx
      exact a4 x xn' hx hd c hc hlt

/-- Below a node allocated childless in `s`, a state that extends `s` has new cells
only. -/
theorem fresh_subtree {s s' : File_system_emulator} (h : new_edges_fresh s s') {a : Nat}
    (ha : ∀ an, s.heap.cell a = some an → an.m_childs = []) (hal : a + 1 = s.heap.length) :
    ∀ x, in_subtree s' a x → a ≤ x := by
  intro x hx
  induction hx with
  | refl => exact Nat.le_refl _
  | @tail y z _ hyx ih =>
    obtain ⟨yn', hy, hd, hm⟩ := hyx
    by_contra hlt
    obtain ⟨yn, c1, _, c3⟩ := h y yn' hy hd z hm (by omega)
    have hyl := cell_lt c1
    have hya : y = a := by omega
    subst hya
    rw [ha yn c1] at c3
    cases c3

/-- Pushing a live node on the child list of the directory it names as parent, when
the directory is not below the node. -/
theorem push_child_wf {s : File_system_emulator} (hw : well_formed s) {d x : Nat} {xn : Node}
    (hdr : d ≠ s.m_root) (hx : s.heap.cell x = some xn) (hxp : xn.m_parent = some d)
    (hsub : ¬ in_subtree s x d) :
    (push_child d x s).post
      (fun _ s' => well_formed s' ∧
        ∀ s0, grows s0 s → s0.heap.length ≤ x → grows s0 s')
      (fun _ => False) := by
  unfold push_child
  apply post_read_bind
  intro dn hdn
  obtain ⟨hd, hdir⟩ := deref_dir_eq_val hdn
  refine ⟨well_formed_store_childs hw hd hdir hdr _ (fun c hc => ?_), fun s0 hg hl => ?_⟩
  · rcases List.mem_cons.mp hc with rfl | hc
    · exact Or.inr ⟨xn, hx, hxp, hsub⟩
    · exact Or.inl hc
  · refine grows_store (n := { dn with m_childs := x :: dn.m_childs }) hg hd rfl rfl
      (fun c hc => ?_)
    rcases List.mem_cons.mp hc with rfl | hc
    · exact Or.inr hl
    · exact Or.inl hc

theorem root_lt {s : File_system_emulator} (hw : well_formed s) : s.m_root < s.heap.length := by
  obtain ⟨rn, _, _, h1, _⟩ := hw.1
  exact cell_lt h1

theorem cell_alloc_new (s : File_system_emulator) (n : Node) :
    (alloc s n).2.heap.cell (alloc s n).1 = some n := by
  rw [cell_alloc]; simp [alloc]

theorem m_copy_link_wf (type : NODE_TYPE) (name : List Char) (destination : Nat)
    {s : File_system_emulator} (hw : well_formed s) (hdl : destination < s.heap.length)
    (hdr : destination ≠ s.m_root) :
    (m_copy_link type name destination s).post
      (fun _ s' => well_formed s' ∧ grows s s') (fun _ => False) := by
  unfold m_copy_link
  simp only []
  have ha : well_formed (alloc s ⟨some destination, type, name, [], [], []⟩).2 :=
    well_formed_alloc hw rfl (by simpa using hdr)
  have hnew := cell_alloc_new s ⟨some destination, type, name, [], [], []⟩
  have hga := grows_alloc (grows_refl s) ⟨some destination, type, name, [], [], []⟩ rfl
  apply post_read_bind
  intro target _
  cases target with
  | none => trivial
  | some t =>
    apply post_read_bind
    intro linked hlinked
    have hc := deref_linked_eq_val hlinked
    have key : ∀ n : Node, n.m_type = linked.m_type → n.m_parent = linked.m_parent →
        n.m_childs = linked.m_childs →
        (push_child destination (alloc s ⟨some destination, type, name, [], [], []⟩).1
          (store (alloc s ⟨some destination, type, name, [], [], []⟩).2 t n)).post
          (fun _ s' => well_formed s' ∧ grows s s') (fun _ => False) := by
      intro n h1 h2 h3
      have hss := same_shape_store hc h1 h2 h3
      have hw1 := well_formed_of_same_shape ha hss
      have hg1 := grows_store hga hc h1 h2 (fun c hc' => Or.inl (h3 ▸ hc'))
      obtain ⟨ln, hl1, hl2, hl3⟩ : ∃ ln, (store (alloc s
          ⟨some destination, type, name, [], [], []⟩).2 t n).heap.cell
          (alloc s ⟨some destination, type, name, [], [], []⟩).1 = some ln ∧
          ln.m_parent = some destination ∧ ln.m_childs = [] := by
        rcases hss.2.2 (alloc s ⟨some destination, type, name, [], [], []⟩).1 with
          ⟨e, _⟩ | ⟨nd, nd', e1, e2, _, e4, e5⟩
        · rw [hnew] at e; cases e
        · rw [hnew] at e1; cases e1
          exact ⟨nd', e2, e4, e5⟩
      refine post_mono (push_child_wf hw1 (by simpa [alloc] using hdr) hl1 hl2 (fun hsub => ?_))
        (fun _ s' h => ⟨h.1, h.2 s hg1 (by simp [alloc])⟩) (fun _ h => h)
      have := leaf_subtree hl1 (Or.inr hl3) hsub
      simp [alloc] at this
      omega
    by_cases hh : type = NODE_TYPE.HLINK
    · rw [if_pos hh]; exact key _ rfl rfl rfl
    · rw [if_neg hh]; exact key _ rfl rfl rfl

theorem for_each_returns (P : File_system_emulator → Prop)
    (body : Nat → File_system_emulator → Result Unit)
    (hbody : ∀ x s, P s → (body x s).post (fun _ s' => P s') (fun _ => False)) :
    ∀ (l : List Nat) (s : File_system_emulator), P s →
      (for_each body l s).post (fun _ s' => P s') (fun _ => False) := by
  intro l
  induction l with
  | nil => intro s hs; exact hs
  | cons x rest ih =>
    intro s hs
    unfold for_each
    exact post_bind (hbody x s hs) (fun _ s1 h1 => ih s1 h1)

theorem m_copy_wf : ∀ (fuel source destination : Nat) (s : File_system_emulator),
    well_formed s → destination < s.heap.length → destination ≠ s.m_root →
      (m_copy fuel source destination s).post
        (fun _ s' => well_formed s' ∧ grows s s') (fun _ => False) := by
  intro fuel
  induction fuel with
  | zero => intro _ _ s _ _ _; trivial
  | succ fuel ih =>
    intro source destination s hw hdl hdr
    unfold m_copy
    apply post_read_bind
    intro src _
    cases hty : src.m_type with
    | FILE =>
      simp only []
      have ha : well_formed (alloc s ⟨some destination, NODE_TYPE.FILE, src.m_name, [], [], []⟩).2 :=
        well_formed_alloc hw rfl (by simpa using hdr)
      have hnew := cell_alloc_new s ⟨some destination, NODE_TYPE.FILE, src.m_name, [], [], []⟩
      have hga := grows_alloc (grows_refl s)
        ⟨some destination, NODE_TYPE.FILE, src.m_name, [], [], []⟩ rfl
      refine post_mono (push_child_wf ha (by simpa [alloc] using hdr) hnew rfl (fun hsub => ?_))
        (fun _ s' h => ⟨h.1, h.2 s hga (by simp [alloc])⟩) (fun _ h => h)
      have := leaf_subtree hnew (Or.inr rfl) hsub
      simp [alloc] at this
      omega
    | HLINK => exact m_copy_link_wf _ _ _ hw hdl hdr
    | DLINK => exact m_copy_link_wf _ _ _ hw hdl hdr
    | DIRECTORY =>
      simp only []
      have ha : well_formed
          (alloc s ⟨some destination, NODE_TYPE.DIRECTORY, src.m_name, [], [], []⟩).2 :=
        well_formed_alloc hw rfl (by simpa using hdr)
      have hnew := cell_alloc_new s
        ⟨some destination, NODE_TYPE.DIRECTORY, src.m_name, [], [], []⟩
      have hga := grows_alloc (grows_refl s)
        ⟨some destination, NODE_TYPE.DIRECTORY, src.m_name, [], [], []⟩ rfl
      have hrl := root_lt hw
      apply post_bind
        (for_each_returns
          (fun s' => well_formed s' ∧
            grows (alloc s ⟨some destination, NODE_TYPE.DIRECTORY, src.m_name, [], [], []⟩).2 s')
          _ (fun x s1 h1 => post_mono
            (ih x _ s1 h1.1
              (by
                have := h1.2.1
                simp [alloc] at this ⊢
                omega)
              (by
                rw [h1.2.2.1]
                simp [alloc]
                omega))
            (fun _ s' h => ⟨h.1, grows_trans h1.2 h.2⟩) (fun _ h => h))
          src.m_childs _ ⟨ha, grows_refl _⟩)
      intro _ s2 ⟨hw2, hg2⟩
      obtain ⟨dn2, hd2, _, hd2p⟩ := hg2.2.2.1 _ _ hnew
      refine post_mono (push_child_wf hw2 (by rw [hg2.2.1]; simpa [alloc] using hdr) hd2 hd2p
          (fun hsub => ?_))
        (fun _ s' h => ⟨h.1, h.2 s (grows_trans hga hg2) (by simp [alloc])⟩) (fun _ h => h)
      have := fresh_subtree hg2.2.2.2 (a := s.heap.length)
        (fun an han => by
          have hn : (alloc s ⟨some destination, NODE_TYPE.DIRECTORY, src.m_name, [], [], []⟩).1
            = s.heap.length := rfl
          rw [← hn, hnew] at han
          cases han
          rfl)
        (by simp [alloc]) destination hsub
      omega

theorem copy_wf (source dest : List Char) {s : File_system_emulator} (hw : well_formed s) :
    (copy source dest s).post (fun _ s' => well_formed s') well_formed := by
  unfold copy
  apply post_read_bind
  intro source_ptr _
  cases source_ptr with
  | none => exact hw
  | some src =>
    apply post_read_bind
    intro dest_ptr hdest
    cases dest_ptr with
    | none => exact hw
    | some dst =>
      apply post_read_bind
      intro dn hdn
      by_cases hd : dn.m_type ≠ NODE_TYPE.DIRECTORY
      · rw [if_pos hd]; exact hw
      · rw [if_neg hd]
        exact post_mono (m_copy_wf _ src dst s hw (cell_lt (deref_eq_val hdn))
          (find_ne_root hw hdest)) (fun _ _ h => h.1) (fun _ h => h.elim)


/-! ### Moving -/

theorem rename_links_shape (name : List Char) :
    ∀ (l : List Nat) (s : File_system_emulator),
      (rename_links name l s).post (fun _ s' => same_shape s s') (fun _ => False) := by
  intro l
  induction l with
  | nil => intro s; exact same_shape_refl s
  | cons x rest ih =>
    intro s
    unfold rename_links
    apply post_read_bind
    intro xn hx
    exact post_mono (ih _)
      (fun _ _ h => same_shape_trans
        (same_shape_store (n := { xn with m_name := name }) (deref_eq_val hx) rfl rfl rfl) h)
      (fun _ h => h)

/-- A call of `m_update_links` that returns has kept the shape, and the subtree it
walked is a tree of at most `fuel` levels. -/
theorem m_update_links_shape : ∀ (fuel node : Nat) (s : File_system_emulator),
    (m_update_links fuel node s).post
      (fun _ s' => same_shape s s' ∧ tree_within s fuel node = true) (fun _ => False) := by
  intro fuel
  induction fuel with
  | zero => intro _ s; trivial
  | succ fuel ih =>
    intro node s
    unfold m_update_links
    apply post_read_bind
    intro nd hnd
    have hc := deref_eq_val hnd
    have hfirst : (if nd.m_type = NODE_TYPE.DIRECTORY ∨ nd.m_type = NODE_TYPE.FILE then
          if nd.m_dlinks ≠ [] then
            (m_to_absolute_path nd.m_name nd.m_parent s).bind fun updated_path =>
              rename_links ("dlink[".toList ++ updated_path ++ "]".toList) nd.m_dlinks s
          else Result.ok () s
        else Result.ok () s).post (fun _ s' => same_shape s s') (fun _ => False) := by
      by_cases h1 : nd.m_type = NODE_TYPE.DIRECTORY ∨ nd.m_type = NODE_TYPE.FILE
      · rw [if_pos h1]
        by_cases h2 : nd.m_dlinks ≠ []
        · rw [if_pos h2]
          exact post_read_bind (fun _ _ => rename_links_shape _ _ s)
        · rw [if_neg h2]; exact same_shape_refl s
      · rw [if_neg h1]; exact same_shape_refl s
    apply post_bind hfirst
    intro _ s1 hs1
    apply post_read_bind
    intro nd1 hnd1
    have hc1 := deref_eq_val hnd1
    have hsame : nd1.m_type = nd.m_type ∧ nd1.m_childs = nd.m_childs := by
      rcases hs1.2.2 node with ⟨e, _⟩ | ⟨x, x', e1, e2, e3, _, e5⟩
      · rw [hc] at e; cases e
      · rw [hc] at e1; cases e1
        rw [hc1] at e2; cases e2
        exact ⟨e3, e5⟩
    by_cases hd : nd1.m_type = NODE_TYPE.DIRECTORY
    · rw [if_pos hd]
      have loop : ∀ (l : List Nat) (s2 : File_system_emulator),
          (for_each (m_update_links fuel) l s2).post
            (fun _ s' => same_shape s2 s' ∧ ∀ c ∈ l, tree_within s2 fuel c = true)
            (fun _ => False) := by
        intro l
        induction l with
        | nil => intro s2; exact ⟨same_shape_refl s2, fun _ h => by cases h⟩
        | cons x rest ihl =>
          intro s2
          unfold for_each
          apply post_bind (ih x s2)
          intro _ s3 ⟨hs3, ht3⟩
          refine post_mono (ihl s3) (fun _ s' h => ⟨same_shape_trans hs3 h.1, fun c hc' => ?_⟩)
            (fun _ h => h)
          rcases List.mem_cons.mp hc' with rfl | hc'
          · exact ht3
          · rw [← same_shape_tree s2 s3 hs3]
            exact h.2 c hc'
      refine post_mono (loop nd1.m_childs s1)
        (fun _ s' h => ⟨same_shape_trans hs1 h.1, ?_⟩) (fun _ h => h)
      unfold tree_within
      simp only [hc]
      rw [if_pos (hsame.1 ▸ hd), List.all_eq_true]
      intro c hcm
      rw [← same_shape_tree s s1 hs1]
      exact h.2 c (hsame.2 ▸ hcm)
    · rw [if_neg hd]
      refine ⟨hs1, ?_⟩
      unfold tree_within
      simp only [hc]
      rw [if_neg (hsame.1 ▸ hd)]

theorem mem_moved_childs {a b p q c : Nat} {nd : Node}
    (h : c ∈ (moved_cell a b p q nd).m_childs) :
    (q = b ∧ c = a) ∨ (c ∈ nd.m_childs ∧ (q = p → c ≠ a)) := by
  simp only [moved_cell, List.mem_append] at h
  rcases h with h | h
  · by_cases hq : q = b
    · simp only [hq, if_true, List.mem_singleton] at h
      exact Or.inl ⟨hq, h⟩
    · simp [hq] at h
  · by_cases hq : q = p
    · simp only [hq, if_true, list_remove, List.mem_filter] at h
      exact Or.inr ⟨h.1, fun _ e => by simp [e] at h⟩
    · simp only [hq, if_false] at h
      exact Or.inr ⟨h, fun e => absurd e hq⟩

/-- The state after the three stores of `move` is well formed when the moved node
heads a tree there. -/
theorem well_formed_moved {s s3 : File_system_emulator} (hw : well_formed s)
    {a b p K : Nat} {an : Node}
    (ha : s.heap.cell a = some an) (hap : an.m_parent = some p)
    (hbr : b ≠ s.m_root) (har : a ≠ s.m_root)
    (hcells : ∀ q, s3.heap.cell q = (s.heap.cell q).map (moved_cell a b p q))
    (hr : s3.m_root = s.m_root) (hcur : s3.m_curr_catalog = s.m_curr_catalog)
    (htree : tree_within s3 K a = true) : well_formed s3 := by
  have hw' := hw
  obtain ⟨hroot, hpc, hhid, htrees⟩ := hw
  have hpr : p ≠ s.m_root := fun e => hhid.2 a an ha (e ▸ hap)
  have hfwd : ∀ q nd, s.heap.cell q = some nd →
      s3.heap.cell q = some (moved_cell a b p q nd) := by
    intro q nd hq
    rw [hcells, hq]; rfl
  have hback : ∀ q nd', s3.heap.cell q = some nd' →
      ∃ nd, s.heap.cell q = some nd ∧ nd' = moved_cell a b p q nd := by
    intro q nd' hq
    rw [hcells] at hq
    cases hc : s.heap.cell q with
    | none => simp [hc] at hq
    | some nd =>
      simp only [hc, Option.map_some', Option.some.injEq] at hq
      exact ⟨nd, rfl, hq.symm⟩
  refine ⟨?_, ?_, ?_, ?_⟩
  · obtain ⟨rn, drive, dn, h1, h2, h3, h4, h5, h6, h7, h8⟩ := hroot
    have hda : drive ≠ a := by
      intro e
      rw [e, ha] at h5
      cases h5
      rw [h7] at hap
      cases hap
    refine ⟨moved_cell a b p s.m_root rn, drive, moved_cell a b p drive dn, ?_, h2, ?_, ?_,
      hfwd _ _ h5, h6, ?_, by rw [hr]; exact h8⟩
    · rw [hr]; exact hfwd _ _ h1
    · have e1 : ¬ s.m_root = a := fun e => har e.symm
      simp [moved_cell, e1, h3]
    · have e2 : ¬ s.m_root = b := fun e => hbr e.symm
      have e3 : ¬ s.m_root = p := fun e => hpr e.symm
      simp [moved_cell, e2, e3, h4]
    · simp [moved_cell, hda, h7]
  · intro d dn' hd hdir hne c hcm
    obtain ⟨dn, a1, a2⟩ := hback d dn' hd
    subst a2
    rcases mem_moved_childs hcm with ⟨h1, h2⟩ | ⟨h1, h2⟩
    · subst h1 h2
      exact ⟨_, hfwd _ _ ha, by simp [moved_cell]⟩
    · obtain ⟨cn, c1, c2⟩ := hpc d dn a1 hdir (by rw [← hr]; exact hne) c h1
      have hca : c ≠ a := by
        intro e
        subst e
        rw [ha] at c1
        cases c1
        rw [hap] at c2
        exact h2 (Option.some.inj c2).symm rfl
      exact ⟨_, hfwd _ _ c1, by simp [moved_cell, hca, c2]⟩
  · refine ⟨by rw [hr, hcur]; exact hhid.1, fun n nd' hn => ?_⟩
    obtain ⟨nd, a1, a2⟩ := hback n nd' hn
    subst a2
    rw [hr]
    by_cases hna : n = a
    · simp only [moved_cell, hna, if_true]
      intro e
      exact hbr (Option.some.inj e)
    · simp only [moved_cell, hna, if_false]
      exact hhid.2 n nd a1
  · have key := tree_transfer s s3 K (by
      intro n nd nd' hn hn' hd'
      obtain ⟨nd0, a1, a2⟩ := hback n nd' hn'
      rw [hn] at a1
      cases a1
      subst a2
      refine ⟨hd', fun y hy => ?_⟩
      rcases mem_moved_childs hy with ⟨_, h2⟩ | ⟨h1, _⟩
      · subst h2
        exact Or.inr htree
      · obtain ⟨yn, hyl⟩ := children_live hw' hn hd' y h1
        exact Or.inl ⟨h1, _, hfwd _ _ hyl⟩)
    intro n nd' hn
    obtain ⟨nd, a1, _⟩ := hback n nd' hn
    obtain ⟨k, hk⟩ := htrees n nd a1
    exact ⟨_, key k n hk ⟨nd', hn⟩⟩

theorem push_child_post (d x : Nat) (s : File_system_emulator) :
    (push_child d x s).post
      (fun _ s' => ∃ dn, s.heap.cell d = some dn ∧
        s' = store s d { dn with m_childs := x :: dn.m_childs })
      (fun _ => False) := by
  unfold push_child
  apply post_read_bind
  intro dn hdn
  exact ⟨dn, (deref_dir_eq_val hdn).1, rfl⟩

theorem move_wf (source dest : List Char) {s : File_system_emulator} (hw : well_formed s) :
    (move source dest s).post (fun _ s' => well_formed s') well_formed := by
  unfold move
  apply post_read_bind
  intro source_ptr hsrc
  cases source_ptr with
  | none => exact hw
  | some src =>
    apply post_read_bind
    intro dest_ptr hdst
    cases dest_ptr with
    | none => exact hw
    | some dst =>
      apply post_read_bind
      intro dn _
      by_cases hd : dn.m_type ≠ NODE_TYPE.DIRECTORY
      · rw [if_pos hd]; exact hw
      · rw [if_neg hd]
        apply post_read_bind
        intro nothing_to_do hnt
        cases nothing_to_do with
        | true => exact hw
        | false =>
          have hab : src ≠ dst := by
            intro e
            rw [if_pos e.symm] at hnt
            cases hnt
          simp only [Bool.false_eq_true, if_false]
          apply post_read_bind
          intro sn hsn
          have ha := deref_eq_val hsn
          apply post_read_bind
          intro attached _
          cases attached with
          | true => exact hw
          | false =>
            simp only [Bool.false_eq_true, if_false]
            cases hp : sn.m_parent with
            | none => trivial
            | some source_parent =>
              simp only []
              apply post_read_bind
              intro pn hpn
              obtain ⟨hpc, _⟩ := deref_dir_eq_val hpn
              apply post_bind (post_mono (push_child_post dst src _) (fun _ _ h => h)
                (fun _ h => h.elim))
              intro _ s2 ⟨dn1, hb1, hs2⟩
              subst hs2
              apply post_read_bind
              intro sn2 hsn2
              have ha2 := deref_eq_val hsn2
              refine post_mono (m_update_links_shape _ _ _) (fun _ s' h => ?_)
                (fun _ h => h.elim)
              exact well_formed_of_same_shape
                (well_formed_moved hw ha hp (find_ne_root hw hdst) (find_ne_root hw hsrc)
                  (move_stores_cell hab hpc hb1 ha2) rfl rfl h.2) h.1


/-! ### Every reachable state -/

theorem post_and {α : Type} {Q1 Q2 : α → File_system_emulator → Prop}
    {E1 E2 : File_system_emulator → Prop} {r : Result α} (h1 : r.post Q1 E1)
    (h2 : r.post Q2 E2) : r.post (fun a s => Q1 a s ∧ Q2 a s) (fun s => E1 s ∧ E2 s) := by
  cases r with
  | ok a s => exact ⟨h1, h2⟩
  | raised e s => exact ⟨h1, h2⟩
  | undefined => trivial
  | diverge => trivial

theorem well_formed_init : well_formed init := by
  have hcell : ∀ n nd, init.heap.cell n = some nd →
      (n = 0 ∧ nd = ⟨none, NODE_TYPE.DIRECTORY, DRIVE, [], [], []⟩) ∨
      (n = 1 ∧ nd = ⟨none, NODE_TYPE.DIRECTORY, [], [], [], [0]⟩) := by
    intro n nd h
    rcases n with _ | _ | n
    · simp [init, Heap.cell] at h
      exact Or.inl ⟨rfl, h.symm⟩
    · simp [init, Heap.cell] at h
      exact Or.inr ⟨rfl, h.symm⟩
    · simp [init, Heap.cell] at h
  refine ⟨⟨_, 0, _, rfl, rfl, rfl, rfl, rfl, rfl, rfl, by decide⟩, ?_, ⟨by decide, ?_⟩, ?_⟩
  · intro d dn hd _ hne c hc
    rcases hcell d dn hd with ⟨_, h2⟩ | ⟨h1, _⟩
    · subst h2
      cases hc
    · exact absurd h1 hne
  · intro n nd hn
    rcases hcell n nd hn with ⟨_, h2⟩ | ⟨_, h2⟩
    · subst h2; simp
    · subst h2; simp
  · intro n nd hn
    rcases hcell n nd hn with ⟨h1, _⟩ | ⟨h1, _⟩
    · subst h1; exact ⟨1, by decide⟩
    · subst h1; exact ⟨2, by decide⟩

theorem exec_wf (c : Call) {s : File_system_emulator} (hw : well_formed s)
    (hi : registries_typed s) :
    (c.exec s).post (fun _ s' => well_formed s' ∧ registries_typed s')
      (fun s' => well_formed s' ∧ registries_typed s') := by
  cases c with
  | make_dir p => exact post_and (make_dir_wf p hw) (make_dir_typed p hi)
  | make_file p => exact post_and (make_file_wf p hw) (make_file_typed p hi)
  | make_hlink a b => exact post_and (make_hlink_wf a b hw) (make_hlink_typed a b hi)
  | make_dlink a b => exact post_and (make_dlink_wf a b hw) (make_dlink_typed a b hi)
  | change_dir p => exact post_and (change_dir_wf p hw) (change_dir_typed p hi)
  | remove_dir p => exact remove_dir_wf p hw hi
  | remove_file p => exact remove_file_wf p hw hi
  | copy a b => exact post_and (copy_wf a b hw) (copy_typed a b hi)
  | move a b => exact post_and (move_wf a b hw) (move_typed a b hi)
  | delete_tree p => exact delete_tree_wf p hw hi
  | print => exact post_and (print_wf hw) (print_typed hi)

/-- Every reachable state is well formed: the child lists form a tree under the
super-root, and each listed child names its directory as parent. -/
theorem reachable_well_formed {s : File_system_emulator} (h : Reachable s) :
    well_formed s := by
  have key : well_formed s ∧ registries_typed s := by
    induction h with
    | init => exact ⟨well_formed_init, registries_typed_init⟩
    | ok c s s' _ hexec ih =>
      have := exec_wf c ih.1 ih.2
      rw [hexec] at this
      exact this
    | raised c e s s' _ hexec ih =>
      have := exec_wf c ih.1 ih.2
      rw [hexec] at this
      exact this
  exact key.1

/-- In every reachable state each live node heads a tree of live nodes no deeper than
the arena is long: the recursions of `move` over the subtree of its source
return. -/
theorem reachable_tree {s : File_system_emulator} (h : Reachable s) {n : Nat} {nd : Node}
    (hn : s.heap.cell n = some nd) : tree_within s (s.heap.length + 1) n = true :=
  all_trees_heap (reachable_well_formed h) hn

/-! ## The parent portion and the basename of a path -/

theorem find_last_of_from_absent (c : Char) :
    ∀ (l : List Char) (i best : Nat), c ∉ l → find_last_of_from c l i best = best := by
  intro l
  induction l with
  | nil => intro i best _; rfl
  | cons x xs ih =>
    intro i best h
    have hx : x ≠ c := fun e => h (by simp [e])
    have hxs : c ∉ xs := fun e => h (List.mem_cons_of_mem _ e)
    simp [find_last_of_from, hx, ih _ _ hxs]

theorem find_last_of_from_last (c : Char) (b : List Char) (hb : c ∉ b) :
    ∀ (a : List Char) (i best : Nat),
      find_last_of_from c (a ++ c :: b) i best = i + a.length := by
  intro a
  induction a with
  | nil =>
    intro i best
    simp [find_last_of_from, find_last_of_from_absent c b _ _ hb]
  | cons x xs ih =>
    intro i best
    show find_last_of_from c (xs ++ c :: b) (i + 1) (if x = c then i else best) =
      i + (xs.length + 1)
    rw [ih]
    omega

/-- Without a separator the parent portion is the empty path and the basename is
the whole path. -/
theorem path_portions_plain (p : List Char) (h : '\\' ∉ p) :
    get_parent_path p = [] ∧ get_path_basename p = p := by
  have hidx : find_last_of p '\\' = npos := find_last_of_from_absent _ p 0 npos h
  constructor
  · simp [get_parent_path, hidx]
  · simp [get_path_basename, hidx, npos, substr_from]

/-- The parent portion is what stands before the last separator, the basename what
stands after it. -/
theorem path_portions_split (a b : List Char) (hb : '\\' ∉ b)
    (hlen : (a ++ '\\' :: b).length < 2 ^ 64) :
    get_parent_path (a ++ '\\' :: b) = a ∧ get_path_basename (a ++ '\\' :: b) = b := by
  have hidx : find_last_of (a ++ '\\' :: b) '\\' = a.length := by
    unfold find_last_of
    rw [find_last_of_from_last _ b hb]
    omega
  have hl : a.length + 1 < 2 ^ 64 := by
    simp only [List.length_append, List.length_cons] at hlen
    omega
  constructor
  · have hne : a.length ≠ npos := by
      unfold npos
      omega
    simp [get_parent_path, hidx, hne, substr]
  · simp only [get_path_basename, hidx, substr_from, Nat.mod_eq_of_lt hl]
    simp

/-! ## The scan of the siblings in `m_make_node` -/

/-- The scan stops at the first child with the wanted name that is a file or a
directory. If such a child of the other kind is met before any of the wanted
kind, the scan reports it. -/
theorem m_make_node_scan_blocked (s : File_system_emulator) (name : List Char)
    (type other : NODE_TYPE)
    (hkinds : (type = NODE_TYPE.DIRECTORY ∧ other = NODE_TYPE.FILE) ∨
      (type = NODE_TYPE.FILE ∧ other = NODE_TYPE.DIRECTORY))
    (f : Nat) (fn : Node) (post : List Nat) (hf : s.heap.cell f = some fn)
    (hname : fn.m_name = name) (hkind : fn.m_type = other) :
    ∀ pre : List Nat,
      (∀ c ∈ pre, ∃ cn, s.heap.cell c = some cn ∧ (cn.m_name = name → cn.m_type ≠ type)) →
      m_make_node_scan s name type (pre ++ f :: post) =
        .val (if other = NODE_TYPE.FILE then Scan.blocked_by_file
          else Scan.blocked_by_directory) := by
  intro pre
  induction pre with
  | nil =>
    intro _
    rcases hkinds with ⟨h1, h2⟩ | ⟨h1, h2⟩
    · subst h1 h2
      simp [m_make_node_scan, deref_of_cell hf, hname, hkind]
    · subst h1 h2
      simp [m_make_node_scan, deref_of_cell hf, hname, hkind]
  | cons c pre ih =>
    intro hpre
    obtain ⟨cn, hc, hcn⟩ := hpre c (List.mem_cons_self _ _)
    have hrest := ih (fun x hx => hpre x (List.mem_cons_of_mem _ hx))
    simp only [List.cons_append, m_make_node_scan, deref_of_cell hc, read_andThen_val]
    by_cases hn : cn.m_name = name
    · rw [if_pos hn, if_neg (hcn hn)]
      rcases hkinds with ⟨h1, h2⟩ | ⟨h1, h2⟩
      · subst h1 h2
        by_cases hfile : cn.m_type = NODE_TYPE.FILE
        · simp [hfile]
        · rw [if_neg hfile, if_neg (hcn hn)]
          exact hrest
      · subst h1 h2
        rw [if_neg (hcn hn)]
        by_cases hdirk : cn.m_type = NODE_TYPE.DIRECTORY
        · simp [hdirk]
        · rw [if_neg hdirk]
          exact hrest
    · rw [if_neg hn]
      exact hrest

/-! ## Path resolution after a node has been pushed on a child list -/

theorem deref_dir_of_cell {s : File_system_emulator} {p : Nat} {n : Node}
    (h : s.heap.cell p = some n) (hd : n.m_type = NODE_TYPE.DIRECTORY) :
    deref_dir s p = .val n := by
  simp [deref_dir, h, hd]

theorem find_child_pushed {s s' : File_system_emulator} {D new : Nat}
    (h : child_pushed s s' D new) (seg : List Char) :
    ∀ l : List Nat,
      (find_child s seg l = .val none → find_child s' seg l = .val none) ∧
      (∀ c cn, find_child s seg l = .val (some (c, cn)) →
        ∃ cn', find_child s' seg l = .val (some (c, cn')) ∧ cn'.m_type = cn.m_type) := by
  intro l
  induction l with
  | nil =>
    refine ⟨fun _ => rfl, fun c cn hc => ?_⟩
    simp [find_child] at hc
  | cons x rest ih =>
    constructor
    · intro hf
      unfold find_child at hf ⊢
      obtain ⟨xn, hx, hf⟩ := read_andThen_eq_val hf
      obtain ⟨xn', hx', hn, _⟩ := h.2.2.2 x xn (deref_eq_val hx)
      rw [deref_of_cell hx', read_andThen_val, hn]
      by_cases hseg : xn.m_name = seg
      · rw [if_pos hseg] at hf; cases hf
      · rw [if_neg hseg] at hf ⊢
        exact ih.1 hf
    · intro c cn hf
      unfold find_child at hf ⊢
      obtain ⟨xn, hx, hf⟩ := read_andThen_eq_val hf
      obtain ⟨xn', hx', hn, ht, _⟩ := h.2.2.2 x xn (deref_eq_val hx)
      rw [deref_of_cell hx', read_andThen_val, hn]
      by_cases hseg : xn.m_name = seg
      · rw [if_pos hseg] at hf ⊢
        cases hf
        exact ⟨xn', rfl, ht⟩
      · rw [if_neg hseg] at hf ⊢
        exact ih.2 c cn hf

/-- A walk over at least one segment ends strictly below its starting point. -/
theorem m_find_node_loop_below (s : File_system_emulator) :
    ∀ (segs : List (List Char)) (curr n : Nat),
      m_find_node_loop s segs curr = .val (some n) → segs ≠ [] →
        Relation.TransGen (is_child s) curr n := by
  intro segs
  induction segs with
  | nil => intro _ _ _ h; exact absurd rfl h
  | cons seg rest ih =>
    intro curr n h _
    unfold m_find_node_loop at h
    obtain ⟨d, hd, h⟩ := read_andThen_eq_val h
    obtain ⟨hdc, hdir⟩ := deref_dir_eq_val hd
    obtain ⟨r, hr, h⟩ := read_andThen_eq_val h
    cases r with
    | none => cases h
    | some pr =>
      obtain ⟨child, c⟩ := pr
      obtain ⟨hm, _⟩ := find_child_spec s seg _ _ _ hr
      have hstep : is_child s curr child := ⟨d, hdc, hdir, hm⟩
      simp only [] at h
      by_cases hcd : c.m_type = NODE_TYPE.DIRECTORY
      · rw [if_pos hcd] at h
        cases rest with
        | nil =>
          simp [m_find_node_loop] at h
          subst h
          exact Relation.TransGen.single hstep
        | cons seg2 rest2 =>
          exact Relation.TransGen.head hstep (ih child n h (by simp))
      · rw [if_neg hcd] at h
        cases h
        exact Relation.TransGen.single hstep

/-- The walk of the resolver gives the same node after the push, when no segment is
the name of the pushed node, or when the walk ends at the directory that
received it and that directory is not below itself. -/
theorem m_find_node_loop_pushed {s s' : File_system_emulator} {D new : Nat}
    (h : child_pushed s s' D new) (L : List Char)
    (hnew : ∃ nn, s'.heap.cell new = some nn ∧ nn.m_name = L) :
    ∀ (segs : List (List Char)) (curr : Nat) (r : Option Nat),
      m_find_node_loop s segs curr = .val r →
      ((∀ seg ∈ segs, seg ≠ L) ∨
        (r = some D ∧ ¬ Relation.TransGen (is_child s) D D)) →
      m_find_node_loop s' segs curr = .val r := by
  intro segs
  induction segs with
  | nil =>
    intro curr r hr _
    simpa [m_find_node_loop] using hr
  | cons seg rest ih =>
    intro curr r hr hcond
    have hr0 := hr
    unfold m_find_node_loop at hr
    obtain ⟨d, hd, hr⟩ := read_andThen_eq_val hr
    obtain ⟨hdc, hdir⟩ := deref_dir_eq_val hd
    obtain ⟨r1, hr1, hr⟩ := read_andThen_eq_val hr
    obtain ⟨d', hd', _, ht', _, hch'⟩ := h.2.2.2 curr d hdc
    have hkey : (r1 = none → find_child s' seg d'.m_childs = .val none) ∧
        (∀ c cn, r1 = some (c, cn) →
          ∃ cn', find_child s' seg d'.m_childs = .val (some (c, cn')) ∧
            cn'.m_type = cn.m_type) := by
      have hold := find_child_pushed h seg d.m_childs
      by_cases hcD : curr = D
      · rw [hch', if_pos hcD]
        obtain ⟨nn, hnn, hname⟩ := hnew
        have hsegL : seg ≠ L := by
          rcases hcond with hc | ⟨hc, hacyc⟩
          · exact hc seg (List.mem_cons_self _ _)
          · exfalso
            subst hc
            subst hcD
            exact hacyc (m_find_node_loop_below s _ _ _ hr0 (by simp))
        have hne : ¬ nn.m_name = seg := fun e => hsegL (e.symm.trans hname)
        have hstep : find_child s' seg (new :: d.m_childs) = find_child s' seg d.m_childs := by
          conv => lhs; unfold find_child
          rw [deref_of_cell hnn, read_andThen_val, if_neg hne]
        rw [hstep]
        exact ⟨fun e => hold.1 (e ▸ hr1), fun c cn e => hold.2 c cn (e ▸ hr1)⟩
      · rw [hch', if_neg hcD]
        exact ⟨fun e => hold.1 (e ▸ hr1), fun c cn e => hold.2 c cn (e ▸ hr1)⟩
    unfold m_find_node_loop
    rw [deref_dir_of_cell hd' (ht'.trans hdir), read_andThen_val]
    cases r1 with
    | none =>
      rw [hkey.1 rfl, read_andThen_val]
      exact hr
    | some pr =>
      obtain ⟨child, c⟩ := pr
      obtain ⟨cn', hfc, hty⟩ := hkey.2 child c rfl
      rw [hfc, read_andThen_val]
      simp only [] at hr ⊢
      by_cases hcd : c.m_type = NODE_TYPE.DIRECTORY
      · rw [if_pos hcd] at hr
        rw [if_pos (hty.trans hcd)]
        refine ih child r hr ?_
        rcases hcond with hc | hc
        · exact Or.inl (fun x hx => hc x (List.mem_cons_of_mem _ hx))
        · exact Or.inr hc
      · rw [if_neg hcd] at hr
        rw [if_neg (fun e => hcd (hty ▸ e))]
        exact hr

theorem m_find_node_by_path_pushed {s s' : File_system_emulator} {D new : Nat}
    (h : child_pushed s s' D new) (L : List Char)
    (hnew : ∃ nn, s'.heap.cell new = some nn ∧ nn.m_name = L)
    (path : List Char) (r : Option Nat) (hr : m_find_node_by_path path s = .val r)
    (hcond : (∀ seg ∈ split_path path, seg ≠ L) ∨
      (r = some D ∧ ¬ Relation.TransGen (is_child s) D D)) :
    m_find_node_by_path path s' = .val r := by
  unfold m_find_node_by_path at hr ⊢
  by_cases hp : path = []
  · rw [if_pos hp] at hr ⊢
    rw [h.2.1]
    exact hr
  · rw [if_neg hp] at hr ⊢
    rw [h.1, h.2.1]
    exact m_find_node_loop_pushed h L hnew _ _ _ hr hcond

/-- A walk that ends at a directory has used all its segments: further segments
are looked up from that directory. -/
theorem m_find_node_loop_append (s : File_system_emulator) (rest : List (List Char))
    {D : Nat} {dn : Node} (hD : s.heap.cell D = some dn)
    (hdir : dn.m_type = NODE_TYPE.DIRECTORY) :
    ∀ (segs : List (List Char)) (curr : Nat),
      m_find_node_loop s segs curr = .val (some D) →
      m_find_node_loop s (segs ++ rest) curr = m_find_node_loop s rest D := by
  intro segs
  induction segs with
  | nil =>
    intro curr h
    simp [m_find_node_loop] at h
    subst h
    rfl
  | cons seg segs ih =>
    intro curr h
    have h0 := h
    unfold m_find_node_loop at h
    obtain ⟨d, hd, h⟩ := read_andThen_eq_val h
    obtain ⟨r, hr, h⟩ := read_andThen_eq_val h
    rw [List.cons_append]
    conv => lhs; unfold m_find_node_loop
    rw [hd, read_andThen_val, hr, read_andThen_val]
    cases r with
    | none => cases h
    | some pr =>
      obtain ⟨child, c⟩ := pr
      obtain ⟨_, hc⟩ := find_child_spec s seg _ _ _ hr
      simp only [] at h ⊢
      by_cases hcd : c.m_type = NODE_TYPE.DIRECTORY
      · rw [if_pos hcd] at h ⊢
        exact ih child h
      · rw [if_neg hcd] at h
        cases h
        rw [hD] at hc
        cases hc
        exact absurd hdir hcd

theorem m_to_absolute_path_loop_pushed {s s' : File_system_emulator} {D new : Nat}
    (h : child_pushed s s' D new) :
    ∀ (fuel : Nat) (dir : Option Nat) (acc r : List Char),
      m_to_absolute_path_loop s fuel dir acc = .val r →
      ∀ fuel', fuel ≤ fuel' → m_to_absolute_path_loop s' fuel' dir acc = .val r := by
  intro fuel
  induction fuel with
  | zero =>
    intro dir acc r hr fuel' _
    cases dir with
    | none =>
      cases fuel' with
      | zero => simpa [m_to_absolute_path_loop] using hr
      | succ k => simpa [m_to_absolute_path_loop] using hr
    | some d => simp [m_to_absolute_path_loop] at hr
  | succ fuel ih =>
    intro dir acc r hr fuel' hle
    cases dir with
    | none =>
      cases fuel' with
      | zero => simpa [m_to_absolute_path_loop] using hr
      | succ k => simpa [m_to_absolute_path_loop] using hr
    | some d =>
      cases fuel' with
      | zero => omega
      | succ k =>
        unfold m_to_absolute_path_loop at hr ⊢
        obtain ⟨dn, hd, hr⟩ := read_andThen_eq_val hr
        obtain ⟨hdc, hdir⟩ := deref_dir_eq_val hd
        obtain ⟨dn', hd', hn, ht, hp, _⟩ := h.2.2.2 d dn hdc
        rw [deref_dir_of_cell hd' (ht.trans hdir), read_andThen_val, hn, hp]
        exact ih _ _ _ hr k (by omega)

theorem m_to_absolute_path_pushed {s s' : File_system_emulator} {D new : Nat}
    (h : child_pushed s s' D new) (path : List Char) (dir : Option Nat) (r : List Char)
    (hr : m_to_absolute_path path dir s = .val r) :
    m_to_absolute_path path dir s' = .val r := by
  unfold m_to_absolute_path at hr ⊢
  by_cases ha : is_absolute_path path = true
  · rw [if_pos ha] at hr ⊢
    exact hr
  · rw [if_neg ha] at hr ⊢
    exact m_to_absolute_path_loop_pushed h _ _ _ _ hr _ (by have := h.2.2.1; omega)

/-! ### Lengths of segments and of absolute paths -/

theorem split_path_loop_length (path : List Char) :
    ∀ (n curr_pos left_pos : Nat) (acc : List (List Char)),
      (∀ seg ∈ acc, seg.length ≤ path.length) →
      ∀ seg ∈ split_path_loop path n curr_pos left_pos acc, seg.length ≤ path.length := by
  intro n
  induction n with
  | zero =>
    intro curr_pos left_pos acc hacc seg hseg
    simp only [split_path_loop, List.mem_append, List.mem_singleton] at hseg
    rcases hseg with h | h
    · exact hacc seg h
    · subst h
      simp [substr_from]
  | succ n ih =>
    intro curr_pos left_pos acc hacc seg hseg
    unfold split_path_loop at hseg
    by_cases h1 : path[curr_pos]? = some '\\'
    · rw [if_pos h1] at hseg
      refine ih _ _ _ (fun x hx => ?_) seg hseg
      simp only [List.mem_append, List.mem_singleton] at hx
      rcases hx with h | h
      · exact hacc x h
      · subst h
        simp only [substr, List.length_take, List.length_drop]
        omega
    · rw [if_neg h1] at hseg
      by_cases h2 : path[curr_pos]? = some '['
      · rw [if_pos h2] at hseg
        simp only [List.mem_append, List.mem_singleton] at hseg
        rcases hseg with h | h
        · exact hacc seg h
        · subst h
          simp [substr_from]
      · rw [if_neg h2] at hseg
        exact ih _ _ _ hacc seg hseg

/-- A segment of a path is not longer than the path. -/
theorem split_path_length (path : List Char) :
    ∀ seg ∈ split_path path, seg.length ≤ path.length :=
  split_path_loop_length path _ _ _ [] (fun _ h => by cases h)

theorem m_to_absolute_path_loop_length (s : File_system_emulator) :
    ∀ (fuel : Nat) (dir : Option Nat) (acc r : List Char),
      m_to_absolute_path_loop s fuel dir acc = .val r → acc.length ≤ r.length := by
  intro fuel
  induction fuel with
  | zero =>
    intro dir acc r hr
    cases dir with
    | none =>
      simp [m_to_absolute_path_loop] at hr
      subst hr
      exact Nat.le_refl _
    | some d => simp [m_to_absolute_path_loop] at hr
  | succ fuel ih =>
    intro dir acc r hr
    cases dir with
    | none =>
      simp [m_to_absolute_path_loop] at hr
      subst hr
      exact Nat.le_refl _
    | some d =>
      unfold m_to_absolute_path_loop at hr
      obtain ⟨dn, _, hr⟩ := read_andThen_eq_val hr
      have := ih _ _ _ hr
      simp only [List.length_append, List.length_cons] at this
      omega

/-- The absolute path of a path is not shorter than the path. -/
theorem m_to_absolute_path_length {s : File_system_emulator} {path r : List Char}
    {dir : Option Nat} (hr : m_to_absolute_path path dir s = .val r) :
    path.length ≤ r.length := by
  unfold m_to_absolute_path at hr
  by_cases ha : is_absolute_path path = true
  · rw [if_pos ha] at hr
    cases hr
    exact Nat.le_refl _
  · rw [if_neg ha] at hr
    exact m_to_absolute_path_loop_length s _ _ _ _ hr

/-! ## What a successful creation leaves behind -/

/-- Anatomy of a call of `m_make_node` that returns: the parent resolved to a live
directory, and either the scan found the same entity and nothing changed, or
a node was allocated and pushed on the front of the child list. -/
theorem m_make_node_ok {path name : List Char} {type : NODE_TYPE}
    {s s1 : File_system_emulator} {r : Option Nat}
    (h : m_make_node path name type s = .ok r s1) :
    ∃ D dn, m_find_node_by_path path s = .val (some D) ∧ s.heap.cell D = some dn ∧
      dn.m_type = NODE_TYPE.DIRECTORY ∧
      ((m_make_node_scan s name type dn.m_childs = .val Scan.nothing ∧ r = none ∧ s1 = s) ∨
       (m_make_node_scan s name type dn.m_childs = .val Scan.create ∧
        r = some s.heap.length ∧
        s1 = store (alloc s ⟨some D, type, name, [], [], []⟩).2 D
          { dn with m_childs := s.heap.length :: dn.m_childs })) := by
  unfold m_make_node at h
  obtain ⟨node_ptr, hfind, h⟩ := read_bind_eq_ok h
  cases node_ptr with
  | none => cases h
  | some D =>
    simp only [] at h
    obtain ⟨dn, hdn, h⟩ := read_bind_eq_ok h
    by_cases hd : dn.m_type ≠ NODE_TYPE.DIRECTORY
    · rw [if_pos hd] at h; cases h
    · rw [if_neg hd] at h
      obtain ⟨sc, hsc, h⟩ := read_bind_eq_ok h
      refine ⟨D, dn, hfind, deref_eq_val hdn, not_not.mp hd, ?_⟩
      cases sc with
      | nothing =>
        simp only [] at h
        cases h
        exact Or.inl ⟨hsc, rfl, rfl⟩
      | blocked_by_file => cases h
      | blocked_by_directory => cases h
      | create =>
        simp only [] at h
        cases h
        exact Or.inr ⟨hsc, rfl, rfl⟩

theorem child_pushed_create {s : File_system_emulator} {D : Nat} {dn : Node}
    (hD : s.heap.cell D = some dn) (n : Node) :
    child_pushed s
      (store (alloc s n).2 D { dn with m_childs := s.heap.length :: dn.m_childs })
      D s.heap.length := by
  have hD1 : (alloc s n).2.heap.cell D = some dn := by
    rw [cell_alloc]
    have := cell_lt hD
    have hne : D ≠ s.heap.length := by omega
    simp [hne, hD]
  refine ⟨rfl, rfl, by simp [alloc], fun q nd hq => ?_⟩
  rw [cell_store hD1]
  by_cases hqD : q = D
  · subst hqD
    rw [hD] at hq
    cases hq
    exact ⟨{ dn with m_childs := s.heap.length :: dn.m_childs }, by simp, rfl, rfl, rfl,
      by simp⟩
  · refine ⟨nd, ?_, rfl, rfl, rfl, by simp [hqD]⟩
    rw [cell_alloc]
    have := cell_lt hq
    have hne : q ≠ s.heap.length := by omega
    simp [hqD, hne, hq]

/-- A store that keeps name, kind, parent and children keeps `child_pushed`. -/
theorem child_pushed_store {s s1 : File_system_emulator} {D new p : Nat} {old n : Node}
    (h : child_pushed s s1 D new) (hp : s1.heap.cell p = some old)
    (hname : n.m_name = old.m_name) (hty : n.m_type = old.m_type)
    (hpar : n.m_parent = old.m_parent) (hch : n.m_childs = old.m_childs) :
    child_pushed s (store s1 p n) D new := by
  refine ⟨h.1, h.2.1, by simpa using h.2.2.1, fun q nd hq => ?_⟩
  obtain ⟨nd', h1, h2, h3, h4, h5⟩ := h.2.2.2 q nd hq
  rw [cell_store hp]
  by_cases hqp : q = p
  · subst hqp
    rw [hp] at h1
    cases h1
    exact ⟨n, by simp, hname.trans h2, hty.trans h3, hpar.trans h4, hch.trans h5⟩
  · exact ⟨nd', by simp [hqp, h1], h2, h3, h4, h5⟩

/-- The cell of the node made by `m_make_node`, in the state it returns. -/
theorem cell_created {s : File_system_emulator} {D : Nat} {dn : Node}
    (hD : s.heap.cell D = some dn) (n : Node) :
    (store (alloc s n).2 D { dn with m_childs := s.heap.length :: dn.m_childs }).heap.cell
      s.heap.length = some n := by
  have hD1 : (alloc s n).2.heap.cell D = some dn := by
    rw [cell_alloc]
    have := cell_lt hD
    have hne : D ≠ s.heap.length := by omega
    simp [hne, hD]
  rw [cell_store hD1, cell_alloc]
  have := cell_lt hD
  have hne : s.heap.length ≠ D := by omega
  simp [hne]

/-- In a well-formed state no directory is below itself. -/
theorem well_formed_acyclic {s : File_system_emulator} (hw : well_formed s) {D : Nat}
    {dn : Node} (hD : s.heap.cell D = some dn) : ¬ Relation.TransGen (is_child s) D D := by
  obtain ⟨k, hk⟩ := hw.2.2.2 D dn hD
  exact tree_within_acyclic s k D hk

/-- After `m_make_node` has returned, the same call returns `nullptr` and changes
nothing, provided the state after the first call keeps the tree of the state
before it, up to the pushed node. -/
theorem m_make_node_again {path name : List Char} {type : NODE_TYPE}
    {s s2 : File_system_emulator} {D : Nat} {dn : Node}
    (hw : well_formed s)
    (hfind : m_find_node_by_path path s = .val (some D)) (hD : s.heap.cell D = some dn)
    (hdir : dn.m_type = NODE_TYPE.DIRECTORY)
    (hpush : child_pushed s s2 D s.heap.length)
    (hnew : ∃ nn, s2.heap.cell s.heap.length = some nn ∧ nn.m_name = name ∧ nn.m_type = type) :
    m_make_node path name type s2 = .ok none s2 := by
  obtain ⟨nn, hnn, hname, hkind⟩ := hnew
  have hfind2 := m_find_node_by_path_pushed hpush name ⟨nn, hnn, hname⟩ path _ hfind
    (Or.inr ⟨rfl, well_formed_acyclic hw hD⟩)
  obtain ⟨dn2, hD2, _, hty2, _, hch2⟩ := hpush.2.2.2 D dn hD
  rw [if_pos rfl] at hch2
  unfold m_make_node
  rw [hfind2, read_bind_val]
  simp only []
  rw [deref_of_cell hD2, read_bind_val, if_neg (not_not.mpr (hty2.trans hdir)), hch2]
  have hscan : m_make_node_scan s2 name type (s.heap.length :: dn.m_childs) =
      .val Scan.nothing := by
    unfold m_make_node_scan
    rw [deref_of_cell hnn, read_andThen_val, if_pos hname, if_pos hkind]
  rw [hscan, read_bind_val]

theorem m_make_node_twice {path name : List Char} {type : NODE_TYPE}
    {s s1 : File_system_emulator} {r : Option Nat} (hw : well_formed s)
    (h : m_make_node path name type s = .ok r s1) :
    m_make_node path name type s1 = .ok none s1 := by
  obtain ⟨D, dn, hfind, hD, hdir, hcase⟩ := m_make_node_ok h
  rcases hcase with ⟨_, hr, hs⟩ | ⟨_, _, hs⟩
  · subst hr hs
    exact h
  · subst hs
    exact m_make_node_again hw hfind hD hdir (child_pushed_create hD _)
      ⟨_, cell_created hD _, rfl, rfl⟩

/-- After `m_make_link` has returned, the same call returns and changes nothing, when
no segment of the source path is the name of the link. The state it left keeps
the tree of the state before, up to the pushed link. -/
theorem m_make_link_twice {source dest name : List Char} {type : NODE_TYPE}
    {s s2 : File_system_emulator} (hw : well_formed s)
    (h : m_make_link source dest name type s = .ok () s2)
    (hsegs : ∀ seg ∈ split_path source, seg ≠ name) :
    m_make_link source dest name type s2 = .ok () s2 ∧
      (s2 = s ∨ ∃ D, child_pushed s s2 D s.heap.length) := by
  have h0 := h
  unfold m_make_link at h
  obtain ⟨source_ptr, hsrc, h1⟩ := read_bind_eq_ok h
  clear h
  cases source_ptr with
  | none => cases h1
  | some src =>
    simp only [] at h1
    obtain ⟨link, s1, hmk, h2⟩ := result_bind_eq_ok h1
    clear h1
    obtain ⟨D, dn, hfind, hD, hdir, hcase⟩ := m_make_node_ok hmk
    rcases hcase with ⟨_, hr, hs⟩ | ⟨_, hr, hs⟩
    · subst hr
      simp only [] at h2
      cases h2
      subst hs
      exact ⟨h0, Or.inl rfl⟩
    · subst hr
      simp only [] at h2
      obtain ⟨ln, _, h3⟩ := read_bind_eq_ok h2
      clear h2
      obtain ⟨linked, hlinked, h⟩ := read_bind_eq_ok h3
      clear h3
      have hlc := deref_linked_eq_val hlinked
      have hpush1 : child_pushed s s1 D s.heap.length := hs ▸ child_pushed_create hD _
      have hnew1 : s1.heap.cell s.heap.length = some ⟨some D, type, name, [], [], []⟩ :=
        hs ▸ cell_created hD _
      have key : ∀ n : Node, n.m_name = linked.m_name → n.m_type = linked.m_type →
          n.m_parent = linked.m_parent → n.m_childs = linked.m_childs →
          s2 = store s1 src n →
          m_make_link source dest name type s2 = .ok () s2 ∧
            (s2 = s ∨ ∃ D, child_pushed s s2 D s.heap.length) := by
        intro n e1 e2 e3 e4 hs2
        have hpush2 : child_pushed s s2 D s.heap.length :=
          hs2 ▸ child_pushed_store hpush1 hlc e1 e2 e3 e4
        have hnew2 : ∃ nn, s2.heap.cell s.heap.length = some nn ∧ nn.m_name = name ∧
            nn.m_type = type := by
          rw [hs2, cell_store hlc]
          by_cases hsn : s.heap.length = src
          · rw [hsn] at hnew1
            rw [hlc] at hnew1
            cases hnew1
            exact ⟨n, by simp [hsn], e1, e2⟩
          · exact ⟨⟨some D, type, name, [], [], []⟩, by simp [hsn, hnew1], rfl, rfl⟩
        obtain ⟨nn, hnn, hname, hkind⟩ := hnew2
        have hsrc2 := m_find_node_by_path_pushed hpush2 name ⟨nn, hnn, hname⟩ source _ hsrc
          (Or.inl hsegs)
        have hmk2 : m_make_node dest name type s2 = .ok none s2 :=
          m_make_node_again hw hfind hD hdir hpush2 ⟨nn, hnn, hname, hkind⟩
        refine ⟨?_, Or.inr ⟨D, hpush2⟩⟩
        unfold m_make_link
        rw [hsrc2, read_bind_val]
        simp only []
        rw [hmk2, result_bind_ok]
      by_cases hh : ln.m_type = NODE_TYPE.HLINK
      · rw [if_pos hh] at h
        cases h
        exact key { linked with m_hlinks := s.heap.length :: linked.m_hlinks } rfl rfl rfl rfl rfl
      · rw [if_neg hh] at h
        cases h
        exact key { linked with m_dlinks := s.heap.length :: linked.m_dlinks } rfl rfl rfl rfl rfl

/-- The name of a link is not a segment of the path of its source: it is longer. -/
theorem link_name_not_segment {s : File_system_emulator} {source A : List Char}
    {dir : Option Nat} (pre : List Char) (hpre : 0 < pre.length)
    (habs : m_to_absolute_path source dir s = .val A) :
    ∀ seg ∈ split_path source, seg ≠ pre ++ A ++ "]".toList := by
  intro seg hseg e
  have h1 := split_path_length source seg hseg
  have h2 := m_to_absolute_path_length habs
  rw [e] at h1
  simp only [List.length_append] at h1
  omega

theorem make_link_twice (pre : List Char) (hpre : 0 < pre.length) (type : NODE_TYPE)
    {source dest : List Char} {s s2 : File_system_emulator} (hw : well_formed s)
    (h : ((m_to_absolute_path source (some s.m_curr_catalog) s).bind fun full_path_to_source =>
      m_make_link source dest (pre ++ full_path_to_source ++ "]".toList) type s) = .ok () s2) :
    ((m_to_absolute_path source (some s2.m_curr_catalog) s2).bind fun full_path_to_source =>
      m_make_link source dest (pre ++ full_path_to_source ++ "]".toList) type s2) = .ok () s2 := by
  obtain ⟨A, habs, hlink⟩ := read_bind_eq_ok h
  obtain ⟨hagain, hrel⟩ := m_make_link_twice hw hlink (link_name_not_segment pre hpre habs)
  rcases hrel with hs | ⟨D, hpush⟩
  · subst hs
    exact h
  · rw [hpush.2.1, m_to_absolute_path_pushed hpush _ _ _ habs, read_bind_val]
    exact hagain

/-- When the scan of `m_make_node` finds the entity already there and no link has its
name, the resolver finds the same child: the first one of that name. -/
theorem m_make_node_scan_nothing (s : File_system_emulator) (name : List Char)
    (type : NODE_TYPE) :
    ∀ l : List Nat, m_make_node_scan s name type l = .val Scan.nothing →
      (∀ c ∈ l, ∀ cn, s.heap.cell c = some cn → cn.m_name = name →
        cn.m_type = NODE_TYPE.FILE ∨ cn.m_type = NODE_TYPE.DIRECTORY) →
      ∃ c cn, find_child s name l = .val (some (c, cn)) ∧ cn.m_type = type ∧
        cn.m_name = name ∧ c ∈ l ∧ s.heap.cell c = some cn := by
  intro l
  induction l with
  | nil => intro h _; simp [m_make_node_scan] at h
  | cons x rest ih =>
    intro h hkinds
    unfold m_make_node_scan at h
    obtain ⟨xn, hx, h⟩ := read_andThen_eq_val h
    have hxc := deref_eq_val hx
    unfold find_child
    rw [hx, read_andThen_val]
    by_cases hn : xn.m_name = name
    · rw [if_pos hn] at h ⊢
      by_cases ht : xn.m_type = type
      · exact ⟨x, xn, rfl, ht, hn, List.mem_cons_self _ _, hxc⟩
      · rw [if_neg ht] at h
        rcases hkinds x (List.mem_cons_self _ _) xn hxc hn with hf | hd
        · rw [if_pos hf] at h; cases h
        · rw [if_neg (by rw [hd]; decide), if_pos hd] at h; cases h
    · rw [if_neg hn] at h ⊢
      obtain ⟨c, cn, h1, h2, h3, h4, h5⟩ :=
        ih h (fun c hc => hkinds c (List.mem_cons_of_mem _ hc))
      exact ⟨c, cn, h1, h2, h3, List.mem_cons_of_mem _ h4, h5⟩

/-- After `m_make_node(path, name, type)` has returned, looking up `name` from the
directory `path` resolved to gives a node of that kind and name whose parent
is that directory, when no link of that name is among its children. The walk
`segs` from `start` stands for the way the resolver reaches the directory. -/
theorem m_make_node_resolves {path name : List Char} {type : NODE_TYPE}
    {s s1 : File_system_emulator} {r : Option Nat} (hw : well_formed s)
    (hmk : m_make_node path name type s = .ok r s1)
    (segs : List (List Char)) (start : Nat)
    (hwalk : ∀ D, m_find_node_by_path path s = .val (some D) →
      m_find_node_loop s segs start = .val (some D))
    (hnolink : ∀ D dn, m_find_node_by_path path s = .val (some D) → s.heap.cell D = some dn →
      ∀ c ∈ dn.m_childs, ∀ cn, s.heap.cell c = some cn → cn.m_name = name →
        cn.m_type = NODE_TYPE.FILE ∨ cn.m_type = NODE_TYPE.DIRECTORY) :
    ∃ D n nd, m_find_node_by_path path s = .val (some D) ∧
      m_find_node_loop s1 (segs ++ [name]) start = .val (some n) ∧
      s1.heap.cell n = some nd ∧ nd.m_type = type ∧ nd.m_name = name ∧
      nd.m_parent = some D := by
  obtain ⟨D, dn, hfind, hD, hdir, hcase⟩ := m_make_node_ok hmk
  have hwalk0 := hwalk D hfind
  have hlast : ∀ (s2 : File_system_emulator) (d2 : Node) (c : Nat) (cn : Node),
      m_find_node_loop s2 segs start = .val (some D) → s2.heap.cell D = some d2 →
      d2.m_type = NODE_TYPE.DIRECTORY →
      find_child s2 name d2.m_childs = .val (some (c, cn)) →
      m_find_node_loop s2 (segs ++ [name]) start = .val (some c) := by
    intro s2 d2 c cn hw2 hD2 hdir2 hfc
    rw [m_find_node_loop_append s2 [name] hD2 hdir2 segs start hw2]
    unfold m_find_node_loop
    rw [deref_dir_of_cell hD2 hdir2, read_andThen_val, hfc, read_andThen_val]
    simp only []
    by_cases hcd : cn.m_type = NODE_TYPE.DIRECTORY
    · rw [if_pos hcd]; rfl
    · rw [if_neg hcd]
  rcases hcase with ⟨hscan, _, hs⟩ | ⟨_, _, hs⟩
  · rw [hs]
    obtain ⟨c, cn, hfc, hty, hname, hmem, hc⟩ :=
      m_make_node_scan_nothing s name type dn.m_childs hscan (hnolink D dn hfind hD)
    obtain ⟨cn', hc', hpar⟩ := hw.2.1 D dn hD hdir (find_ne_root hw hfind) c hmem
    rw [hc] at hc'
    cases hc'
    exact ⟨D, c, cn, hfind, hlast s dn c cn hwalk0 hD hdir hfc, hc, hty, hname, hpar⟩
  · have hpush : child_pushed s s1 D s.heap.length := hs ▸ child_pushed_create hD _
    have hnew : s1.heap.cell s.heap.length = some ⟨some D, type, name, [], [], []⟩ :=
      hs ▸ cell_created hD _
    have hwalk1 := m_find_node_loop_pushed hpush name ⟨_, hnew, rfl⟩ segs start _ hwalk0
      (Or.inr ⟨rfl, well_formed_acyclic hw hD⟩)
    obtain ⟨d1, hD1, _, hty1, _, hch1⟩ := hpush.2.2.2 D dn hD
    rw [if_pos rfl] at hch1
    have hfc : find_child s1 name d1.m_childs =
        .val (some (s.heap.length, ⟨some D, type, name, [], [], []⟩)) := by
      rw [hch1]
      unfold find_child
      rw [deref_of_cell hnew, read_andThen_val, if_pos rfl]
    exact ⟨D, s.heap.length, _, hfind,
      hlast s1 d1 _ _ hwalk1 hD1 (hty1.trans hdir) hfc, hnew, rfl, rfl, rfl⟩

/-- The resolver on a path that splits into the segments of its parent portion
followed by its basename: the walk goes the way of the parent portion. -/
theorem m_find_node_by_path_parent {p : List Char} (hp : p ≠ [])
    (hsplit : split_path p =
      (if get_parent_path p = [] then [] else split_path (get_parent_path p)) ++
        [get_path_basename p])
    (habs : is_absolute_path p =
      (if get_parent_path p = [] then false else is_absolute_path (get_parent_path p)))
    (s : File_system_emulator) :
    ∃ segs start, (∀ s2 : File_system_emulator, s2.m_root = s.m_root →
        s2.m_curr_catalog = s.m_curr_catalog →
        m_find_node_by_path p s2 =
          m_find_node_loop s2 (segs ++ [get_path_basename p]) start) ∧
      ∀ D, m_find_node_by_path (get_parent_path p) s = .val (some D) →
        m_find_node_loop s segs start = .val (some D) := by
  by_cases hpar : get_parent_path p = []
  · rw [if_pos hpar] at hsplit habs
    refine ⟨[], s.m_curr_catalog, fun s2 _ hcur => ?_, fun D hD => ?_⟩
    · unfold m_find_node_by_path
      rw [if_neg hp, hsplit, habs, hcur]
      simp
    · unfold m_find_node_by_path at hD
      rw [if_pos hpar] at hD
      exact hD
  · rw [if_neg hpar] at hsplit habs
    refine ⟨split_path (get_parent_path p),
      if is_absolute_path (get_parent_path p) then s.m_root else s.m_curr_catalog,
      fun s2 hroot hcur => ?_, fun D hD => ?_⟩
    · unfold m_find_node_by_path
      rw [if_neg hp, hsplit, habs, hroot, hcur]
    · unfold m_find_node_by_path at hD
      rw [if_neg hpar] at hD
      exact hD

/-! ### Which paths split into the parent portion and the basename -/

/-- Past the last separator the loop of `split_path` ends the vector with the text
from `left_pos` on. -/
theorem split_path_loop_tail (path : List Char) :
    ∀ (n curr_pos left_pos : Nat) (acc : List (List Char)),
      (∀ i, curr_pos ≤ i → path[i]? ≠ some '\\') →
      split_path_loop path n curr_pos left_pos acc = acc ++ [substr_from path left_pos] := by
  intro n
  induction n with
  | zero => intro _ _ _ _; rfl
  | succ n ih =>
    intro curr_pos left_pos acc h
    unfold split_path_loop
    rw [if_neg (h curr_pos (Nat.le_refl _))]
    by_cases h2 : path[curr_pos]? = some '['
    · rw [if_pos h2]
    · rw [if_neg h2]
      exact ih _ _ _ (fun i hi => h i (by omega))

/-- Before the last separator, and with no bracket there, the loop of `split_path`
on the whole path does what it does on the parent portion, and then adds the
basename. -/
theorem split_path_loop_parent (a b : List Char) (ha : '[' ∉ a) (hb : '\\' ∉ b) :
    ∀ (k curr_pos left_pos : Nat) (acc : List (List Char)),
      curr_pos + k = a.length → left_pos ≤ curr_pos →
      split_path_loop (a ++ '\\' :: b) (k + (1 + b.length)) curr_pos left_pos acc =
        split_path_loop a k curr_pos left_pos acc ++ [b] := by
  intro k
  induction k with
  | zero =>
    intro curr_pos left_pos acc hk hle
    have hcur : curr_pos = a.length := by omega
    subst hcur
    have hsep : (a ++ '\\' :: b)[a.length]? = some '\\' := by
      rw [List.getElem?_append_right (Nat.le_refl _)]
      simp
    have hstep : split_path_loop (a ++ '\\' :: b) (0 + (1 + b.length)) a.length left_pos acc =
        split_path_loop (a ++ '\\' :: b) b.length (a.length + 1) (a.length + 1)
          (acc ++ [substr (a ++ '\\' :: b) left_pos (a.length - left_pos)]) := by
      have : 0 + (1 + b.length) = b.length + 1 := by omega
      rw [this]
      conv => lhs; unfold split_path_loop
      rw [if_pos hsep]
    rw [hstep, split_path_loop_tail]
    · have e1 : substr (a ++ '\\' :: b) left_pos (a.length - left_pos) = substr_from a left_pos := by
        simp only [substr, substr_from]
        rw [List.drop_append_of_le_length hle, List.take_append_of_le_length (by simp)]
        simp
      have e2 : substr_from (a ++ '\\' :: b) (a.length + 1) = b := by
        simp [substr_from]
      rw [e1, e2]
      simp [split_path_loop]
    · intro i hi e
      have hi' : a.length < i := by omega
      rw [List.getElem?_append_right (by omega)] at e
      have hpos : i - a.length = (i - a.length - 1) + 1 := by omega
      rw [hpos, List.getElem?_cons_succ] at e
      exact hb (List.getElem?_mem e)
  | succ k ih =>
    intro curr_pos left_pos acc hk hle
    have hlt : curr_pos < a.length := by omega
    have hget : (a ++ '\\' :: b)[curr_pos]? = a[curr_pos]? := List.getElem?_append_left hlt
    have hnb : a[curr_pos]? ≠ some '[' := fun e => ha (List.getElem?_mem e)
    have hn : k + 1 + (1 + b.length) = (k + (1 + b.length)) + 1 := by omega
    rw [hn]
    conv => lhs; unfold split_path_loop
    conv => rhs; unfold split_path_loop
    rw [hget]
    by_cases h1 : a[curr_pos]? = some '\\'
    · rw [if_pos h1, if_pos h1]
      have e1 : substr (a ++ '\\' :: b) left_pos (curr_pos - left_pos) =
          substr a left_pos (curr_pos - left_pos) := by
        simp only [substr]
        rw [List.drop_append_of_le_length (by omega),
          List.take_append_of_le_length (by simp; omega)]
      rw [e1]
      exact ih _ _ _ (by omega) (Nat.le_refl _)
    · rw [if_neg h1, if_neg h1, if_neg hnb, if_neg hnb]
      exact ih _ _ _ (by omega) (by omega)

theorem is_absolute_path_parent (a b : List Char) (ha : a ≠ []) :
    is_absolute_path (a ++ '\\' :: b) = is_absolute_path a := by
  unfold is_absolute_path DRIVE
  match a, ha with
  | [x], _ =>
    simp only [List.cons_append, List.nil_append]
    have : ("C:".toList) = ['C', ':'] := rfl
    rw [this]
    simp [List.isPrefixOf]
  | x :: y :: rest, _ =>
    have : ("C:".toList) = ['C', ':'] := rfl
    rw [this]
    simp [List.isPrefixOf]

/-- A path `a\b` with `a` not empty, no bracket in `a` and no separator in `b` splits
into the segments of its parent portion `a` followed by its basename `b`, and
is absolute exactly when `a` is. -/
theorem path_splits_at_last_separator (a b : List Char) (ha : a ≠ []) (hbr : '[' ∉ a)
    (hb : '\\' ∉ b) (hlen : (a ++ '\\' :: b).length < 2 ^ 64) :
    split_path (a ++ '\\' :: b) =
      (if get_parent_path (a ++ '\\' :: b) = [] then []
        else split_path (get_parent_path (a ++ '\\' :: b))) ++
        [get_path_basename (a ++ '\\' :: b)] ∧
    is_absolute_path (a ++ '\\' :: b) =
      (if get_parent_path (a ++ '\\' :: b) = [] then false
        else is_absolute_path (get_parent_path (a ++ '\\' :: b))) := by
  obtain ⟨hpar, hbase⟩ := path_portions_split a b hb hlen
  rw [hpar, hbase, if_neg ha, if_neg ha]
  refine ⟨?_, is_absolute_path_parent a b ha⟩
  unfold split_path
  have hl : (a ++ '\\' :: b).length = a.length + (1 + b.length) := by
    simp only [List.length_append, List.length_cons]
    omega
  rw [hl]
  exact split_path_loop_parent a b hbr hb a.length 0 0 [] (by omega) (Nat.le_refl _)

/-- A relative name without separator is its own only segment. -/
theorem path_splits_plain (p : List Char) (hsep : '\\' ∉ p)
    (hrel : is_absolute_path p = false) :
    split_path p =
      (if get_parent_path p = [] then [] else split_path (get_parent_path p)) ++
        [get_path_basename p] ∧
    is_absolute_path p =
      (if get_parent_path p = [] then false else is_absolute_path (get_parent_path p)) := by
  obtain ⟨hpar, hbase⟩ := path_portions_plain p hsep
  rw [hpar, hbase, if_pos rfl, if_pos rfl]
  refine ⟨?_, hrel⟩
  unfold split_path
  rw [split_path_loop_tail p _ _ _ _ (fun i _ e => hsep (List.getElem?_mem e))]
  simp [substr_from]

/-! ## The absolute path of a relative path -/

theorem m_to_absolute_path_loop_chain (s : File_system_emulator) :
    ∀ (fuel : Nat) (dir : Option Nat) (names : List (List Char)) (acc : List Char),
      parent_chain s fuel dir = some names →
      m_to_absolute_path_loop s fuel dir acc =
        .val ((names.map fun n => n ++ ['\\']).flatten ++ acc) := by
  intro fuel
  induction fuel with
  | zero =>
    intro dir names acc h
    cases dir with
    | none =>
      simp [parent_chain] at h
      subst h
      simp [m_to_absolute_path_loop]
    | some d => simp [parent_chain] at h
  | succ fuel ih =>
    intro dir names acc h
    cases dir with
    | none =>
      simp [parent_chain] at h
      subst h
      simp [m_to_absolute_path_loop]
    | some d =>
      unfold parent_chain at h
      cases hc : s.heap.cell d with
      | none => simp [hc] at h
      | some dn =>
        simp only [hc] at h
        by_cases hd : dn.m_type = NODE_TYPE.DIRECTORY
        · rw [if_pos hd] at h
          cases hp : parent_chain s fuel dn.m_parent with
          | none => simp [hp] at h
          | some up =>
            simp [hp] at h
            subst h
            unfold m_to_absolute_path_loop
            simp [deref_dir, hc, hd, ih _ _ _ hp]
        · rw [if_neg hd] at h
          cases h

/-- When `source` is absolute or the parent chain of the current directory is made of
live directories, `m_to_absolute_path` returns the absolute form of `source`. -/
theorem m_to_absolute_path_chain (s : File_system_emulator) (source : List Char)
    (names : List (List Char))
    (h : is_absolute_path source = true ∨
      parent_chain s (s.heap.length + 1) (some s.m_curr_catalog) = some names) :
    m_to_absolute_path source (some s.m_curr_catalog) s = .val (absolute_form source names) := by
  unfold m_to_absolute_path absolute_form
  by_cases ha : is_absolute_path source = true
  · simp [ha]
  · rcases h with h | h
    · exact absurd h ha
    · simp only [ha, if_false]
      rw [m_to_absolute_path_loop_chain s _ _ _ _ h]
      simp

/-! ## A throw comes before any write -/

theorem delete_node_no_raise (s : File_system_emulator) (p : Nat) :
    (delete_node s p).post (fun _ _ => True) (fun _ => False) := by
  unfold delete_node
  cases destroy (s.heap.length + 1) p s.heap <;> trivial

theorem m_make_node_raised (path name : List Char) (type : NODE_TYPE)
    (s : File_system_emulator) :
    (m_make_node path name type s).post (fun _ _ => True) (fun s' => s' = s) := by
  unfold m_make_node
  apply post_read_bind
  intro np _
  cases np with
  | none => exact rfl
  | some d =>
    apply post_read_bind
    intro nd _
    by_cases hd : nd.m_type ≠ NODE_TYPE.DIRECTORY
    · rw [if_pos hd]; exact rfl
    · rw [if_neg hd]
      apply post_read_bind
      intro r _
      cases r <;> trivial

theorem m_make_link_raised (source dest name : List Char) (type : NODE_TYPE)
    (s : File_system_emulator) :
    (m_make_link source dest name type s).post (fun _ _ => True) (fun s' => s' = s) := by
  unfold m_make_link
  apply post_read_bind
  intro sp _
  cases sp with
  | none => exact rfl
  | some src =>
    refine post_bind (m_make_node_raised dest name type s) ?_
    intro link s1 _
    cases link with
    | none => trivial
    | some l =>
      apply post_read_bind
      intro ln _
      apply post_read_bind
      intro linked _
      by_cases hl : ln.m_type = NODE_TYPE.HLINK
      · rw [if_pos hl]; trivial
      · rw [if_neg hl]; trivial

theorem m_remove_dlinks_no_raise (node : Nat) :
    ∀ (fuel : Nat) (s : File_system_emulator),
      (m_remove_dlinks node fuel s).post (fun _ _ => True) (fun _ => False) := by
  intro fuel
  induction fuel with
  | zero =>
    intro s
    unfold m_remove_dlinks
    apply post_read_bind
    intro linked _
    by_cases h : linked.m_dlinks = []
    · rw [if_pos h]; trivial
    · rw [if_neg h]; trivial
  | succ fuel ih =>
    intro s
    unfold m_remove_dlinks
    apply post_read_bind
    intro linked _
    cases linked.m_dlinks with
    | nil => trivial
    | cons child rest =>
      apply post_read_bind
      intro c _
      cases c.m_parent with
      | none => trivial
      | some parent =>
        apply post_read_bind
        intro pn _
        apply post_read_bind
        intro linked1 _
        exact post_bind (delete_node_no_raise _ _) (fun _ s3 _ => ih s3)

theorem m_remove_node_raised (node : Nat) (s : File_system_emulator) :
    (m_remove_node node s).post (fun _ _ => True) (fun s' => s' = s) := by
  unfold m_remove_node
  apply post_read_bind
  intro nd _
  have hfirst : (if nd.m_type = NODE_TYPE.FILE ∨ nd.m_type = NODE_TYPE.DIRECTORY then
        if nd.m_hlinks ≠ [] then
          (Result.raised "ERROR: Can`t delete entity with attached hard link." s : Result Unit)
        else m_remove_dlinks node nd.m_dlinks.length s
      else .ok () s).post (fun _ _ => True) (fun s' => s' = s) := by
    by_cases h1 : nd.m_type = NODE_TYPE.FILE ∨ nd.m_type = NODE_TYPE.DIRECTORY
    · rw [if_pos h1]
      by_cases h2 : nd.m_hlinks ≠ []
      · rw [if_pos h2]; exact rfl
      · rw [if_neg h2]
        exact post_mono (m_remove_dlinks_no_raise node _ s) (fun _ _ _ => trivial)
          (fun _ h => h.elim)
    · rw [if_neg h1]; trivial
  refine post_bind hfirst ?_
  intro _ s1 _
  apply post_read_bind
  intro nd1 _
  cases nd1.m_parent with
  | none => trivial
  | some parent =>
    apply post_read_bind
    intro pn _
    exact post_mono (delete_node_no_raise _ _) (fun _ _ _ => trivial) (fun _ h => h.elim)

theorem push_child_no_raise (d x : Nat) (s : File_system_emulator) :
    (push_child d x s).post (fun _ _ => True) (fun _ => False) :=
  post_mono (push_child_post d x s) (fun _ _ _ => trivial) (fun _ h => h)

theorem m_copy_link_no_raise (type : NODE_TYPE) (name : List Char) (destination : Nat)
    (s : File_system_emulator) :
    (m_copy_link type name destination s).post (fun _ _ => True) (fun _ => False) := by
  unfold m_copy_link
  apply post_read_bind
  intro target _
  cases target with
  | none => trivial
  | some t =>
    apply post_read_bind
    intro linked _
    exact push_child_no_raise _ _ _

theorem m_copy_no_raise : ∀ (fuel source destination : Nat) (s : File_system_emulator),
    (m_copy fuel source destination s).post (fun _ _ => True) (fun _ => False) := by
  intro fuel
  induction fuel with
  | zero => intro _ _ s; trivial
  | succ fuel ih =>
    intro source destination s
    unfold m_copy
    apply post_read_bind
    intro src _
    cases src.m_type with
    | FILE => exact push_child_no_raise _ _ _
    | HLINK => exact m_copy_link_no_raise _ _ _ _
    | DLINK => exact m_copy_link_no_raise _ _ _ _
    | DIRECTORY =>
      refine post_bind
        (for_each_returns (fun _ => True) _ (fun x s1 _ => ih x _ s1) src.m_childs _ trivial) ?_
      intro _ s2 _
      exact push_child_no_raise _ _ _

theorem copy_raised (source dest : List Char) (s : File_system_emulator) :
    (copy source dest s).post (fun _ _ => True) (fun s' => s' = s) := by
  unfold copy
  apply post_read_bind
  intro sp _
  cases sp with
  | none => exact rfl
  | some src =>
    apply post_read_bind
    intro dp _
    cases dp with
    | none => exact rfl
    | some dst =>
      apply post_read_bind
      intro dn _
      by_cases hd : dn.m_type ≠ NODE_TYPE.DIRECTORY
      · rw [if_pos hd]; exact rfl
      · rw [if_neg hd]
        exact post_mono (m_copy_no_raise _ _ _ _) (fun _ _ _ => trivial) (fun _ h => h.elim)

theorem move_raised (source dest : List Char) (s : File_system_emulator) :
    (move source dest s).post (fun _ _ => True) (fun s' => s' = s) := by
  unfold move
  apply post_read_bind
  intro sp _
  cases sp with
  | none => exact rfl
  | some src =>
    apply post_read_bind
    intro dp _
    cases dp with
    | none => exact rfl
    | some dst =>
      apply post_read_bind
      intro dn _
      by_cases hd : dn.m_type ≠ NODE_TYPE.DIRECTORY
      · rw [if_pos hd]; exact rfl
      · rw [if_neg hd]
        apply post_read_bind
        intro nothing _
        cases nothing with
        | true => trivial
        | false =>
          simp only [Bool.false_eq_true, if_false]
          apply post_read_bind
          intro sn _
          apply post_read_bind
          intro attached _
          cases attached with
          | true => exact rfl
          | false =>
            simp only [Bool.false_eq_true, if_false]
            cases sn.m_parent with
            | none => trivial
            | some source_parent =>
              apply post_read_bind
              intro pn _
              refine post_bind
                (post_mono (push_child_no_raise _ _ _) (fun _ _ h => h) (fun _ h => h.elim)) ?_
              intro _ s2 _
              apply post_read_bind
              intro sn2 _
              exact post_mono (m_update_links_shape _ _ _) (fun _ _ _ => trivial)
                (fun _ h => h.elim)

theorem remove_dir_raised (path : List Char) (s : File_system_emulator) :
    (remove_dir path s).post (fun _ _ => True) (fun s' => s' = s) := by
  unfold remove_dir
  apply post_read_bind
  intro np _
  cases np with
  | none => exact rfl
  | some p =>
    apply post_read_bind
    intro nd _
    by_cases hd : nd.m_type ≠ NODE_TYPE.DIRECTORY
    · rw [if_pos hd]; exact rfl
    · rw [if_neg hd]
      apply post_read_bind
      intro drive _
      by_cases h1 : p = drive
      · rw [if_pos h1]; exact rfl
      · rw [if_neg h1]
        by_cases h2 : p = s.m_curr_catalog
        · rw [if_pos h2]; exact rfl
        · rw [if_neg h2]
          by_cases h3 : nd.m_childs ≠ []
          · rw [if_pos h3]; exact rfl
          · rw [if_neg h3]; exact m_remove_node_raised p s

theorem remove_file_raised (path : List Char) (s : File_system_emulator) :
    (remove_file path s).post (fun _ _ => True) (fun s' => s' = s) := by
  unfold remove_file
  apply post_read_bind
  intro np _
  cases np with
  | none => exact rfl
  | some p =>
    apply post_read_bind
    intro nd _
    by_cases hd : nd.m_type = NODE_TYPE.DIRECTORY
    · rw [if_pos hd]; exact rfl
    · rw [if_neg hd]; exact m_remove_node_raised p s

theorem change_dir_raised (path : List Char) (s : File_system_emulator) :
    (change_dir path s).post (fun _ _ => True) (fun s' => s' = s) := by
  unfold change_dir
  apply post_read_bind
  intro np _
  cases np with
  | none => exact rfl
  | some p =>
    apply post_read_bind
    intro nd _
    by_cases hd : nd.m_type ≠ NODE_TYPE.DIRECTORY
    · rw [if_pos hd]; exact rfl
    · rw [if_neg hd]; trivial

theorem make_raised (path : List Char) (s : File_system_emulator) :
    (make_dir path s).post (fun _ _ => True) (fun s' => s' = s) ∧
    (make_file path s).post (fun _ _ => True) (fun s' => s' = s) :=
  ⟨post_bind (m_make_node_raised _ _ _ s) (fun _ _ _ => trivial),
    post_bind (m_make_node_raised _ _ _ s) (fun _ _ _ => trivial)⟩

theorem make_link_raised (source dest : List Char) (s : File_system_emulator) :
    (make_hlink source dest s).post (fun _ _ => True) (fun s' => s' = s) ∧
    (make_dlink source dest s).post (fun _ _ => True) (fun s' => s' = s) :=
  ⟨post_read_bind (fun _ _ => m_make_link_raised _ _ _ _ s),
    post_read_bind (fun _ _ => m_make_link_raised _ _ _ _ s)⟩

/-! ## What a successful link creation leaves behind -/

theorem m_make_node_scan_create (s : File_system_emulator) (name : List Char)
    (type : NODE_TYPE) :
    ∀ l : List Nat, (∀ c ∈ l, ∃ cn, s.heap.cell c = some cn ∧ cn.m_name ≠ name) →
      m_make_node_scan s name type l = .val Scan.create := by
  intro l
  induction l with
  | nil => intro _; rfl
  | cons c rest ih =>
    intro h
    obtain ⟨cn, hc, hne⟩ := h c (List.mem_cons_self _ _)
    unfold m_make_node_scan
    simp only [deref_of_cell hc, read_andThen_val, hne, if_false]
    exact ih (fun x hx => h x (List.mem_cons_of_mem _ hx))

theorem m_make_link_added (s : File_system_emulator) (source dest L : List Char)
    (type : NODE_TYPE) (t D : Nat) (tn dn : Node)
    (htype : type = NODE_TYPE.HLINK ∨ type = NODE_TYPE.DLINK)
    (hsrc : m_find_node_by_path source s = .val (some t))
    (ht : s.heap.cell t = some tn)
    (htk : tn.m_type = NODE_TYPE.FILE ∨ tn.m_type = NODE_TYPE.DIRECTORY)
    (hdst : m_find_node_by_path dest s = .val (some D))
    (hD : s.heap.cell D = some dn) (hDk : dn.m_type = NODE_TYPE.DIRECTORY)
    (hfree : ∀ c ∈ dn.m_childs, ∃ cn, s.heap.cell c = some cn ∧ cn.m_name ≠ L) :
    ∃ s', m_make_link source dest L type s = .ok () s' ∧ link_added s s' D t type L := by
  have hDlt := cell_lt hD
  have htlt := cell_lt ht
  have hDne : D ≠ s.heap.length := by omega
  have htne : t ≠ s.heap.length := by omega
  have hD1 : (alloc s ⟨some D, type, L, [], [], []⟩).2.heap.cell D = some dn := by
    rw [cell_alloc]; simp [hDne, hD]
  have hcell1 : ∀ q, (store (alloc s ⟨some D, type, L, [], [], []⟩).2 D
      { dn with m_childs := s.heap.length :: dn.m_childs }).heap.cell q =
      if q = D then some { dn with m_childs := s.heap.length :: dn.m_childs }
      else if q = s.heap.length then some ⟨some D, type, L, [], [], []⟩ else s.heap.cell q := by
    intro q
    rw [cell_store hD1, cell_alloc]
  obtain ⟨tn1, ht1, htn1⟩ : ∃ tn1, (store (alloc s ⟨some D, type, L, [], [], []⟩).2 D
      { dn with m_childs := s.heap.length :: dn.m_childs }).heap.cell t = some tn1 ∧
      tn1 = { tn with m_childs := if t = D then s.heap.length :: tn.m_childs else tn.m_childs } := by
    by_cases htD : t = D
    · subst htD
      rw [hD] at ht
      cases ht
      exact ⟨{ tn with m_childs := s.heap.length :: tn.m_childs }, by rw [hcell1]; simp, by simp⟩
    · exact ⟨tn, by rw [hcell1]; simp [htD, htne, ht], by simp [htD]⟩
  have htk1 : tn1.m_type = NODE_TYPE.FILE ∨ tn1.m_type = NODE_TYPE.DIRECTORY := by
    rw [htn1]; exact htk
  have hnew := cell_created hD ⟨some D, type, L, [], [], []⟩
  have hscan := m_make_node_scan_create s L type dn.m_childs hfree
  have hrun : m_make_link source dest L type s =
      if type = NODE_TYPE.HLINK then
        .ok () (store (store (alloc s ⟨some D, type, L, [], [], []⟩).2 D
          { dn with m_childs := s.heap.length :: dn.m_childs }) t
          { tn1 with m_hlinks := s.heap.length :: tn1.m_hlinks })
      else
        .ok () (store (store (alloc s ⟨some D, type, L, [], [], []⟩).2 D
          { dn with m_childs := s.heap.length :: dn.m_childs }) t
          { tn1 with m_dlinks := s.heap.length :: tn1.m_dlinks }) := by
    have e1 : (alloc s ⟨some D, type, L, [], [], []⟩).1 = s.heap.length := rfl
    simp only [m_make_link, hsrc, read_bind_val, m_make_node, hdst, deref_of_cell hD]
    rw [if_neg (fun h => h hDk)]
    simp only [hscan, read_bind_val, result_bind_ok, e1, deref_of_cell hnew, deref_linked, ht1,
      htk1, if_true]
  have hfinal : ∀ (n : Node) (q : Nat),
      (store (store (alloc s ⟨some D, type, L, [], [], []⟩).2 D
        { dn with m_childs := s.heap.length :: dn.m_childs }) t n).heap.cell q =
      if q = t then some n
      else if q = D then some { dn with m_childs := s.heap.length :: dn.m_childs }
      else if q = s.heap.length then some ⟨some D, type, L, [], [], []⟩ else s.heap.cell q := by
    intro n q
    rw [cell_store ht1, hcell1]
  have hshape : ∀ n : Node,
      (n = ⟨tn1.m_parent, tn1.m_type, tn1.m_name,
          if type = NODE_TYPE.HLINK then s.heap.length :: tn1.m_hlinks else tn1.m_hlinks,
          if type = NODE_TYPE.DLINK then s.heap.length :: tn1.m_dlinks else tn1.m_dlinks,
          tn1.m_childs⟩) →
      link_added s (store (store (alloc s ⟨some D, type, L, [], [], []⟩).2 D
        { dn with m_childs := s.heap.length :: dn.m_childs }) t n) D t type L := by
    intro n hn
    refine ⟨rfl, rfl, by simp [store, alloc], ?_, ?_⟩
    · rw [hfinal]
      simp [Ne.symm htne, Ne.symm hDne]
    · intro q hq
      rw [hfinal]
      by_cases hqt : q = t
      · subst hqt
        simp only [if_true, ht, Option.map_some', hn, htn1, true_and]
      · by_cases hqD : q = D
        · subst hqD
          simp [hqt, hD]
        · have hql : q ≠ s.heap.length := by omega
          simp only [hqt, hqD, hql, if_false, false_and]
          cases s.heap.cell q <;> simp
  rcases htype with hty | hty
  · refine ⟨_, by rw [hrun, if_pos hty], hshape _ ?_⟩
    simp [hty]
  · have hne : type ≠ NODE_TYPE.HLINK := by rw [hty]; decide
    refine ⟨_, by rw [hrun, if_neg hne], hshape _ ?_⟩
    simp [hty]

/-! ## The segments of a path -/

theorem split_path_loop_rest (path : List Char) :
    ∀ (n curr_pos left_pos : Nat) (acc : List (List Char)),
      curr_pos + n = path.length → left_pos ≤ curr_pos →
      split_path_loop path n curr_pos left_pos acc =
        acc ++ split_rest (path.drop curr_pos) (substr path left_pos (curr_pos - left_pos)) := by
  intro n
  induction n with
  | zero =>
    intro curr_pos left_pos acc hn hle
    have hc : curr_pos = path.length := by omega
    subst hc
    simp only [split_path_loop, List.drop_length, split_rest, substr, substr_from]
    rw [List.take_of_length_le (by simp)]
  | succ n ih =>
    intro curr_pos left_pos acc hn hle
    have hlt : curr_pos < path.length := by omega
    have hdrop : path.drop curr_pos = path[curr_pos] :: path.drop (curr_pos + 1) :=
      List.drop_eq_getElem_cons hlt
    have hget : path[curr_pos]? = some path[curr_pos] := List.getElem?_eq_getElem hlt
    have hsplit : path.drop left_pos =
        substr path left_pos (curr_pos - left_pos) ++ path.drop curr_pos := by
      unfold substr
      have e : path.drop curr_pos = (path.drop left_pos).drop (curr_pos - left_pos) := by
        rw [List.drop_drop]
        congr 1
        omega
      rw [e, List.take_append_drop]
    unfold split_path_loop
    rw [hdrop, hget]
    unfold split_rest
    by_cases h1 : path[curr_pos] = '\\'
    · simp only [h1, if_true]
      rw [ih (curr_pos + 1) (curr_pos + 1) _ (by omega) (Nat.le_refl _)]
      simp [substr]
    · have h1' : ¬ (some path[curr_pos] = some '\\') := fun e => h1 (Option.some.inj e)
      rw [if_neg h1', if_neg h1]
      by_cases h2 : path[curr_pos] = '['
      · simp only [h2, if_true]
        rw [← h2, ← hdrop, ← hsplit]
        rfl
      · have h2' : ¬ (some path[curr_pos] = some '[') := fun e => h2 (Option.some.inj e)
        rw [if_neg h2', if_neg h2]
        rw [ih (curr_pos + 1) left_pos acc (by omega) (by omega)]
        congr 2
        unfold substr
        have e : curr_pos + 1 - left_pos = (curr_pos - left_pos) + 1 := by omega
        rw [e, List.take_succ]
        congr 1
        have : (path.drop left_pos)[curr_pos - left_pos]? = some path[curr_pos] := by
          rw [List.getElem?_drop]
          have e2 : left_pos + (curr_pos - left_pos) = curr_pos := by omega
          rw [e2, hget]
        rw [this]
        rfl

/-- The function `split_path` is the recursion `split_rest` over the whole path. -/
theorem split_path_eq_rest (p : List Char) : split_path p = split_rest p [] := by
  unfold split_path
  rw [split_path_loop_rest p p.length 0 0 [] (by omega) (Nat.le_refl _)]
  simp [substr]

theorem split_rest_ne_nil : ∀ (rest cur : List Char), split_rest rest cur ≠ [] := by
  intro rest
  induction rest with
  | nil => intro cur; simp [split_rest]
  | cons c rest ih =>
    intro cur
    unfold split_rest
    by_cases h1 : c = '\\'
    · simp [h1]
    · by_cases h2 : c = '['
      · simp [h2]
      · simp only [h1, h2, if_false]
        exact ih _

theorem intercalate_cons_of_ne_nil (sep x : List Char) :
    ∀ l : List (List Char), l ≠ [] →
      sep.intercalate (x :: l) = x ++ sep ++ sep.intercalate l := by
  intro l hl
  cases l with
  | nil => exact absurd rfl hl
  | cons y ys => simp [List.intercalate, List.intersperse]

theorem last_cons_of_ne_nil {α : Type} (x : α) :
    ∀ l : List α, l ≠ [] → (x :: l).getLast? = l.getLast? := by
  intro l hl
  cases l with
  | nil => exact absurd rfl hl
  | cons y ys => simp [List.getLast?_cons_cons]

theorem split_rest_intercalate : ∀ (rest cur : List Char),
    ['\\'].intercalate (split_rest rest cur) = cur ++ rest := by
  intro rest
  induction rest with
  | nil => intro cur; simp [split_rest, List.intercalate]
  | cons c rest ih =>
    intro cur
    unfold split_rest
    by_cases h1 : c = '\\'
    · simp only [h1, if_true]
      rw [intercalate_cons_of_ne_nil _ _ _ (split_rest_ne_nil rest []), ih []]
      simp
    · by_cases h2 : c = '['
      · simp [h2, List.intercalate]
      · simp only [h1, h2, if_false]
        rw [ih]
        simp

theorem split_rest_inner : ∀ (rest cur : List Char), '\\' ∉ cur → '[' ∉ cur →
    ∀ seg ∈ (split_rest rest cur).dropLast, '\\' ∉ seg ∧ '[' ∉ seg := by
  intro rest
  induction rest with
  | nil => intro cur _ _ seg hseg; simp [split_rest] at hseg
  | cons c rest ih =>
    intro cur hc1 hc2 seg hseg
    unfold split_rest at hseg
    by_cases h1 : c = '\\'
    · simp only [h1, if_true] at hseg
      rw [List.dropLast_cons_of_ne_nil (split_rest_ne_nil rest [])] at hseg
      rcases List.mem_cons.mp hseg with h | h
      · subst h; exact ⟨hc1, hc2⟩
      · exact ih [] (by simp) (by simp) seg h
    · by_cases h2 : c = '['
      · simp [h2] at hseg
      · simp only [h1, h2, if_false] at hseg
        refine ih (cur ++ [c]) ?_ ?_ seg hseg
        · simp [hc1]; exact fun e => h1 e.symm
        · simp [hc2]; exact fun e => h2 e.symm

theorem split_rest_last_plain : ∀ (rest cur : List Char), '[' ∉ rest → '\\' ∉ cur →
    ∀ seg, (split_rest rest cur).getLast? = some seg → '\\' ∉ seg := by
  intro rest
  induction rest with
  | nil =>
    intro cur _ hc seg hseg
    simp [split_rest] at hseg
    subst hseg
    exact hc
  | cons c rest ih =>
    intro cur hr hc seg hseg
    have hc2 : c ≠ '[' := fun e => hr (by simp [e])
    have hr2 : '[' ∉ rest := fun h => hr (List.mem_cons_of_mem _ h)
    unfold split_rest at hseg
    by_cases h1 : c = '\\'
    · simp only [h1, if_true] at hseg
      rw [last_cons_of_ne_nil _ _ (split_rest_ne_nil rest [])] at hseg
      exact ih [] hr2 (by simp) seg hseg
    · simp only [h1, hc2, if_false] at hseg
      refine ih (cur ++ [c]) hr2 ?_ seg hseg
      simp [hc]; exact fun e => h1 e.symm

theorem split_rest_last_bracket : ∀ (rest cur done : List Char), '[' ∈ rest →
    '\\' ∉ cur → '[' ∉ cur → '[' ∉ done → (done = [] ∨ done.getLast? = some '\\') →
    ∃ pre a b, done ++ cur ++ rest = pre ++ a ++ '[' :: b ∧ '[' ∉ pre ∧ '[' ∉ a ∧ '\\' ∉ a ∧
      (pre = [] ∨ pre.getLast? = some '\\') ∧
      (split_rest rest cur).getLast? = some (a ++ '[' :: b) := by
  intro rest
  induction rest with
  | nil => intro cur done h; simp at h
  | cons c rest ih =>
    intro cur done hr hc1 hc2 hd1 hd2
    unfold split_rest
    by_cases h1 : c = '\\'
    · subst h1
      have hr2 : '[' ∈ rest := by
        rcases List.mem_cons.mp hr with h | h
        · exact absurd h (by decide)
        · exact h
      simp only [if_true]
      obtain ⟨pre, a, b, e, hp1, ha1, ha2, hp2, hl⟩ :=
        ih [] (done ++ cur ++ ['\\']) hr2 (by simp) (by simp)
          (by simp [hd1, hc2]) (Or.inr (by simp))
      refine ⟨pre, a, b, ?_, hp1, ha1, ha2, hp2, ?_⟩
      · rw [← e]; simp
      · rw [last_cons_of_ne_nil _ _ (split_rest_ne_nil rest [])]
        exact hl
    · by_cases h2 : c = '['
      · subst h2
        simp only [h1, if_false, if_true]
        exact ⟨done, cur, rest, by simp, hd1, hc2, hc1, hd2, by simp⟩
      · have hr2 : '[' ∈ rest := by
          rcases List.mem_cons.mp hr with h | h
          · exact absurd h.symm h2
          · exact h
        simp only [h1, h2, if_false]
        obtain ⟨pre, a, b, e, hp1, ha1, ha2, hp2, hl⟩ :=
          ih (cur ++ [c]) done hr2
            (by simp [hc1]; exact fun e => h1 e.symm)
            (by simp [hc2]; exact fun e => h2 e.symm) hd1 hd2
        refine ⟨pre, a, b, ?_, hp1, ha1, ha2, hp2, hl⟩
        rw [← e]; simp

/-! ## What `print` writes -/

theorem tidied_reordered {s s' : File_system_emulator} {V : Nat → Prop} (h : tidied s s' V) :
    reordered s s' := by
  obtain ⟨h1, h2, h3, h4⟩ := h
  refine ⟨h1, h2, h3, ?_⟩
  intro q
  rcases h4 q with e | ⟨nd, l, e1, e2, e3, e4⟩
  · exact Or.inl e
  · refine Or.inr ⟨nd, l, e1, e2, ?_⟩
    by_cases hv : V q ∧ nd.m_type = NODE_TYPE.DIRECTORY
    · rw [e3 hv]; exact List.perm_insertionSort _ _
    · rw [e4 hv]

theorem name_of_reordered {s s' : File_system_emulator} (h : reordered s s') (c : Nat) :
    name_of s' c = name_of s c := by
  unfold name_of
  cases hc : s.heap.cell c with
  | none => rw [reordered_none h hc]
  | some cn =>
    obtain ⟨l, hl, _⟩ := reordered_cell h hc
    rw [hl]

theorem comp_keeps_reordered {s s' : File_system_emulator} (h : reordered s s') (a b : Nat) :
    comp_keeps s' a b ↔ comp_keeps s a b := by
  unfold comp_keeps
  rw [name_of_reordered h, name_of_reordered h]

theorem tidied_iff {s s' : File_system_emulator} {V V' : Nat → Prop}
    (hv : ∀ q nd, s.heap.cell q = some nd → nd.m_type = NODE_TYPE.DIRECTORY → (V q ↔ V' q))
    (h : tidied s s' V) : tidied s s' V' := by
  obtain ⟨h1, h2, h3, h4⟩ := h
  refine ⟨h1, h2, h3, ?_⟩
  intro q
  rcases h4 q with e | ⟨nd, l, e1, e2, e3, e4⟩
  · exact Or.inl e
  · refine Or.inr ⟨nd, l, e1, e2, ?_, ?_⟩
    · intro hh
      exact e3 ⟨(hv q nd e1 hh.2).mpr hh.1, hh.2⟩
    · intro hh
      exact e4 (fun hh' => hh ⟨(hv q nd e1 hh'.2).mp hh'.1, hh'.2⟩)

theorem tidied_refl (s : File_system_emulator) : tidied s s (fun _ => False) := by
  refine ⟨rfl, rfl, rfl, ?_⟩
  intro q
  cases hc : s.heap.cell q with
  | none => exact Or.inl ⟨rfl, rfl⟩
  | some nd =>
    exact Or.inr ⟨nd, nd.m_childs, rfl, rfl, fun hh => hh.1.elim, fun _ => rfl⟩

theorem tidied_store {s : File_system_emulator} {node : Nat} {nd : Node}
    (hc : s.heap.cell node = some nd) (hd : nd.m_type = NODE_TYPE.DIRECTORY) :
    tidied s (store s node { nd with m_childs := nd.m_childs.insertionSort (comp_keeps s) })
      (fun q => q = node) := by
  refine ⟨rfl, rfl, by simp, ?_⟩
  intro q
  rw [cell_store hc]
  by_cases hq : q = node
  · subst hq
    exact Or.inr ⟨nd, _, hc, by simp, fun _ => rfl, fun hh => absurd ⟨rfl, hd⟩ hh⟩
  · simp only [hq, if_false]
    cases hcq : s.heap.cell q with
    | none => exact Or.inl ⟨rfl, rfl⟩
    | some qn =>
      exact Or.inr ⟨qn, qn.m_childs, rfl, rfl, fun hh => hh.1.elim, fun _ => rfl⟩

theorem tidied_trans {s s1 s2 : File_system_emulator} {V1 V2 : Nat → Prop}
    (h1 : tidied s s1 V1) (h2 : tidied s1 s2 V2) : tidied s s2 (fun q => V1 q ∨ V2 q) := by
  have hr1 := tidied_reordered h1
  have hsort : ∀ l : List Nat, l.insertionSort (comp_keeps s1) = l.insertionSort (comp_keeps s) :=
    sorted_childs_congr s s1 (comp_keeps_reordered hr1)
  obtain ⟨a1, b1, c1, d1⟩ := h1
  obtain ⟨a2, b2, c2, d2⟩ := h2
  refine ⟨a2.trans a1, b2.trans b1, c2.trans c1, ?_⟩
  intro q
  rcases d1 q with ⟨e1, e2⟩ | ⟨nd, l, e1, e2, e3, e4⟩
  · rcases d2 q with ⟨_, f2⟩ | ⟨nd', l', f1, _, _, _⟩
    · exact Or.inl ⟨e1, f2⟩
    · rw [e2] at f1; cases f1
  · rcases d2 q with ⟨f1, _⟩ | ⟨nd', l', f1, f2, f3, f4⟩
    · rw [e2] at f1; cases f1
    · rw [e2] at f1
      cases f1
      refine Or.inr ⟨nd, l', e1, f2, ?_, ?_⟩
      · rintro ⟨hv, hd⟩
        by_cases hv2 : V2 q
        · have := f3 ⟨hv2, hd⟩
          simp only [] at this
          rw [this, hsort]
          by_cases hv1 : V1 q
          · rw [e3 ⟨hv1, hd⟩, sorted_childs_idem]
          · rw [e4 (fun hh => hv1 hh.1)]
        · have hv1 : V1 q := by
            rcases hv with h | h
            · exact h
            · exact absurd h hv2
          have := f4 (fun hh => hv2 hh.1)
          simp only [] at this
          rw [this, e3 ⟨hv1, hd⟩]
      · intro hh
        have n1 : ¬ (V1 q ∧ nd.m_type = NODE_TYPE.DIRECTORY) := fun x => hh ⟨Or.inl x.1, x.2⟩
        have n2 : ¬ (V2 q ∧ nd.m_type = NODE_TYPE.DIRECTORY) := fun x => hh ⟨Or.inr x.1, x.2⟩
        have := f4 n2
        simp only [] at this
        rw [this, e4 n1]

/-- A cell whose child list is sorted is left as it is. -/
theorem tidied_keeps_sorted {s1 s2 : File_system_emulator} {V : Nat → Prop}
    (h : tidied s1 s2 V) (q : Nat)
    (hs : ∀ nd, s1.heap.cell q = some nd → nd.m_type = NODE_TYPE.DIRECTORY →
      nd.m_childs.Sorted (comp_keeps s1)) :
    s2.heap.cell q = s1.heap.cell q := by
  rcases h.2.2.2 q with ⟨e1, e2⟩ | ⟨nd, l, e1, e2, e3, e4⟩
  · rw [e1, e2]
  · rw [e1, e2]
    by_cases hv : V q ∧ nd.m_type = NODE_TYPE.DIRECTORY
    · rw [e3 hv, (hs nd e1 hv.2).insertionSort_eq]
    · rw [e4 hv]

theorem preorder_each_congr (f g : Nat → Option (List Char)) :
    ∀ l : List Nat, (∀ c ∈ l, f c = g c) → preorder_each f l = preorder_each g l := by
  intro l
  induction l with
  | nil => intro _; rfl
  | cons c rest ih =>
    intro h
    unfold preorder_each
    rw [h c (List.mem_cons_self _ _), ih (fun x hx => h x (List.mem_cons_of_mem _ hx))]

/-- The pre-order text below a node depends on the cells below that node only. -/
theorem preorder_congr {s s' : File_system_emulator} :
    ∀ (k a depth : Nat), (∀ q, in_subtree s a q → s'.heap.cell q = s.heap.cell q) →
      preorder s' k a depth = preorder s k a depth := by
  intro k
  induction k with
  | zero => intro _ _ _; rfl
  | succ k ih =>
    intro a depth h
    unfold preorder
    rw [h a Relation.ReflTransGen.refl]
    cases hc : s.heap.cell a with
    | none => rfl
    | some nd =>
      simp only []
      by_cases hd : nd.m_type = NODE_TYPE.DIRECTORY
      · rw [if_pos hd, if_pos hd]
        rw [preorder_each_congr _ (fun c => preorder s k c (depth + 1))]
        intro c hcm
        refine ih c (depth + 1) ?_
        intro q hq
        exact h q (Relation.ReflTransGen.head ⟨nd, hc, hd, hcm⟩ hq)
      · rw [if_neg hd, if_neg hd]

theorem tidied_sorted_cell {s s1 : File_system_emulator} {V : Nat → Prop} (h : tidied s s1 V)
    {q : Nat} (hq : V q) :
    ∀ nd, s1.heap.cell q = some nd → nd.m_type = NODE_TYPE.DIRECTORY →
      nd.m_childs.Sorted (comp_keeps s1) := by
  intro nd1 hc hd
  have hr := tidied_reordered h
  rcases h.2.2.2 q with ⟨_, e2⟩ | ⟨nd, l, e1, e2, e3, _⟩
  · rw [e2] at hc; cases hc
  · rw [e2] at hc
    cases hc
    have hl := e3 ⟨hq, hd⟩
    simp only []
    rw [hl]
    exact (sorted_childs_sorted s nd.m_childs).imp
      (fun {a b} hab => (comp_keeps_reordered hr a b).mpr hab)

/-- The loop over the children in `m_print`, given that `m_print` does on each child what
the induction says. -/
theorem print_each_tidies (k fuel depth : Nat)
    (ih : ∀ (node : Nat) (s : File_system_emulator), tree_within s k node = true →
      ∃ text s', m_print fuel node depth s = .ok text s' ∧ tidied s s' (in_subtree s node) ∧
        preorder s' k node depth = some text) :
    ∀ (l : List Nat) (sa : File_system_emulator), (∀ c ∈ l, tree_within sa k c = true) →
      ∃ out sb, print_each (fun child => m_print fuel child depth) l sa = .ok out sb ∧
        tidied sa sb (fun q => ∃ c ∈ l, in_subtree sa c q) ∧
        preorder_each (fun c => preorder sb k c depth) l = some out := by
  intro l
  induction l with
  | nil =>
    intro sa _
    exact ⟨[], sa, rfl,
      tidied_iff (fun q _ _ _ => ⟨fun h => h.elim, fun ⟨_, hc, _⟩ => by cases hc⟩) (tidied_refl sa),
      rfl⟩
  | cons c rest ihl =>
    intro sa htree
    obtain ⟨text, sa1, hrun, htid, hpre⟩ := ih c sa (htree c (List.mem_cons_self _ _))
    have hr1 := tidied_reordered htid
    obtain ⟨out2, sb, hrun2, htid2, hpre2⟩ := ihl sa1 (fun x hx => by
      rw [tree_within_reordered hr1]
      exact htree x (List.mem_cons_of_mem _ hx))
    refine ⟨text ++ out2, sb, ?_, ?_, ?_⟩
    · unfold print_each
      simp only [hrun, result_bind_ok, hrun2]
    · refine tidied_iff ?_ (tidied_trans htid htid2)
      intro q _ _ _
      constructor
      · rintro (h | ⟨x, hx, hxq⟩)
        · exact ⟨c, List.mem_cons_self _ _, h⟩
        · exact ⟨x, List.mem_cons_of_mem _ hx, (in_subtree_reordered hr1 x q).mp hxq⟩
      · rintro ⟨x, hx, hxq⟩
        rcases List.mem_cons.mp hx with e | e
        · subst e; exact Or.inl hxq
        · exact Or.inr ⟨x, e, (in_subtree_reordered hr1 x q).mpr hxq⟩
    · unfold preorder_each
      have hsame : preorder sb k c depth = preorder sa1 k c depth := by
        refine preorder_congr k c depth ?_
        intro q hq
        exact tidied_keeps_sorted htid2 q
          (tidied_sorted_cell htid ((in_subtree_reordered hr1 c q).mp hq))
      rw [hsame, hpre, hpre2]
      rfl

/-- On a tree of live nodes `m_print` returns: it has sorted by name the child list of
every directory at or below the node and changed nothing else, and the text it
wrote is the pre-order text of the tree as it stands afterwards. -/
theorem m_print_tidies : ∀ (k node depth : Nat) (s : File_system_emulator) (fuel : Nat),
    tree_within s k node = true → k ≤ fuel →
    ∃ text s', m_print fuel node depth s = .ok text s' ∧ tidied s s' (in_subtree s node) ∧
      preorder s' k node depth = some text := by
  intro k
  induction k with
  | zero => intro node depth s fuel h; simp [tree_within] at h
  | succ k ih =>
    intro node depth s fuel htree hfuel
    obtain ⟨fuel, rfl⟩ : ∃ f, fuel = f + 1 := ⟨fuel - 1, by omega⟩
    obtain ⟨nd, hc⟩ := tree_within_live s htree
    unfold tree_within at htree
    simp only [hc] at htree
    unfold m_print
    simp only [deref_of_cell hc, read_bind_val]
    by_cases hd : nd.m_type = NODE_TYPE.DIRECTORY
    · rw [if_pos hd] at htree ⊢
      rw [List.all_eq_true] at htree
      have hlive : ∀ c ∈ nd.m_childs, ∃ cn, s.heap.cell c = some cn :=
        fun c hcm => tree_within_live s (htree c hcm)
      rw [sort_childs_live s nd.m_childs hlive]
      simp only [read_bind_val]
      have htid1 := tidied_store hc hd
      have hr1 := tidied_reordered htid1
      obtain ⟨out, s2, hrun, htid2, hpre⟩ :=
        print_each_tidies k fuel (depth + 1)
          (fun c sa hca => ih c (depth + 1) sa fuel hca (by omega))
          (nd.m_childs.insertionSort (comp_keeps s))
          (store s node { nd with m_childs := nd.m_childs.insertionSort (comp_keeps s) })
          (fun c hcm => by
            rw [tree_within_reordered hr1]
            exact htree c ((List.perm_insertionSort _ _).mem_iff.mp hcm))
      have htid : tidied s s2 (in_subtree s node) := by
        refine tidied_iff ?_ (tidied_trans htid1 htid2)
        intro q _ _ _
        constructor
        · rintro (h | ⟨c, hcm, hcq⟩)
          · rw [h]; exact Relation.ReflTransGen.refl
          · exact Relation.ReflTransGen.head
              ⟨nd, hc, hd, (List.perm_insertionSort _ _).mem_iff.mp hcm⟩
              ((in_subtree_reordered hr1 c q).mp hcq)
        · intro h
          rcases in_subtree_head s h with e | ⟨c, ⟨dn, h1, _, h3⟩, hcq⟩
          · exact Or.inl e
          · rw [hc] at h1
            cases h1
            exact Or.inr ⟨c, (List.perm_insertionSort _ _).mem_iff.mpr h3,
              (in_subtree_reordered hr1 c q).mpr hcq⟩
      refine ⟨_, s2, by rw [hrun]; rfl, htid, ?_⟩
      have hcell : s2.heap.cell node =
          some { nd with m_childs := nd.m_childs.insertionSort (comp_keeps s) } := by
        rcases htid.2.2.2 node with ⟨e1, _⟩ | ⟨nd0, l, e1, e2, e3, _⟩
        · rw [hc] at e1; cases e1
        · rw [hc] at e1
          cases e1
          rw [e2, e3 ⟨Relation.ReflTransGen.refl, hd⟩]
      unfold preorder
      simp only [hcell, hd, if_true, hpre, Option.map_some']
    · rw [if_neg hd]
      refine ⟨_, s, rfl, ?_, ?_⟩
      · refine tidied_iff ?_ (tidied_refl s)
        intro q qn hq hqd
        constructor
        · intro h; exact h.elim
        · intro h
          rcases in_subtree_head s h with e | ⟨c, ⟨dn, h1, h2, _⟩, _⟩
          · subst e
            rw [hc] at hq
            cases hq
            exact hd hqd
          · rw [hc] at h1
            cases h1
            exact hd h2
      · unfold preorder
        simp only [hc, hd, if_false]

theorem heap_ext {h1 h2 : Heap} (hlen : h1.length = h2.length)
    (hcell : ∀ q, h1.cell q = h2.cell q) : h1 = h2 := by
  apply List.ext_getElem? 
  intro q
  have := hcell q
  unfold Heap.cell at this
  by_cases hq : q < h1.length
  · have hq2 : q < h2.length := by omega
    rw [List.getElem?_eq_getElem hq, List.getElem?_eq_getElem hq2] at this ⊢
    cases e1 : h1[q] with
    | none =>
      cases e2 : h2[q] with
      | none => rfl
      | some b => simp [e1, e2] at this
    | some a =>
      cases e2 : h2[q] with
      | none => simp [e1, e2] at this
      | some b =>
        simp only [e1, e2] at this
        rw [this]
  · rw [List.getElem?_eq_none (by omega), List.getElem?_eq_none (by omega)]

/-- When every directory of `V` lists its children in sorted order already, sorting
them changes nothing. -/
theorem tidied_fixed {s1 s2 : File_system_emulator} {V : Nat → Prop} (h : tidied s1 s2 V)
    (hs : ∀ q, V q → ∀ nd, s1.heap.cell q = some nd → nd.m_type = NODE_TYPE.DIRECTORY →
      nd.m_childs.Sorted (comp_keeps s1)) : s2 = s1 := by
  have hcells : ∀ q, s2.heap.cell q = s1.heap.cell q := by
    intro q
    by_cases hv : V q
    · exact tidied_keeps_sorted h q (hs q hv)
    · rcases h.2.2.2 q with ⟨e1, e2⟩ | ⟨nd, l, e1, e2, _, e4⟩
      · rw [e1, e2]
      · rw [e1, e2, e4 (fun hh => hv hh.1)]
  have hheap : s2.heap = s1.heap := heap_ext h.2.2.1 hcells
  obtain ⟨ha, hb, _, _⟩ := h
  cases s1
  cases s2
  simp only at ha hb hheap
  subst ha hb hheap
  rfl

/-! ## An invariant of the reachable states: the current directory has been allocated -/

theorem arena_kept_refl (s : File_system_emulator) : arena_kept s s := ⟨Nat.le_refl _, rfl⟩

theorem arena_kept_trans {s s1 s2 : File_system_emulator} (h1 : arena_kept s s1)
    (h2 : arena_kept s1 s2) : arena_kept s s2 :=
  ⟨Nat.le_trans h1.1 h2.1, h2.2.trans h1.2⟩

theorem arena_store {s0 s : File_system_emulator} (h : arena_kept s0 s) (p : Nat) (n : Node) :
    arena_kept s0 (store s p n) := arena_kept_trans h ⟨by simp, rfl⟩

theorem arena_alloc {s0 s : File_system_emulator} (h : arena_kept s0 s) (n : Node) :
    arena_kept s0 (alloc s n).2 := arena_kept_trans h ⟨by simp [alloc], rfl⟩

theorem for_each_arena (s0 : File_system_emulator)
    (body : Nat → File_system_emulator → Result Unit)
    (hbody : ∀ x s, arena_kept s0 s →
      (body x s).post (fun _ s' => arena_kept s0 s') (arena_kept s0)) :
    ∀ (l : List Nat) (s : File_system_emulator), arena_kept s0 s →
      (for_each body l s).post (fun _ s' => arena_kept s0 s') (arena_kept s0) :=
  for_each_post (arena_kept s0) body hbody

theorem delete_node_arena (s0 s : File_system_emulator) (p : Nat) (h : arena_kept s0 s) :
    (delete_node s p).post (fun _ s' => arena_kept s0 s') (arena_kept s0) := by
  unfold delete_node
  cases hd : destroy (s.heap.length + 1) p s.heap with
  | none => trivial
  | some hp =>
    obtain ⟨l1, _⟩ := destroy_dies _ _ _ _ hd
    exact arena_kept_trans h ⟨by simp [l1], rfl⟩

theorem m_make_node_arena (s0 : File_system_emulator) (path name : List Char)
    (type : NODE_TYPE) (s : File_system_emulator) (h : arena_kept s0 s) :
    (m_make_node path name type s).post (fun _ s' => arena_kept s0 s') (arena_kept s0) := by
  unfold m_make_node
  apply post_read_bind
  intro np _
  cases np with
  | none => exact h
  | some d =>
    apply post_read_bind
    intro nd _
    by_cases hd : nd.m_type ≠ NODE_TYPE.DIRECTORY
    · rw [if_pos hd]; exact h
    · rw [if_neg hd]
      apply post_read_bind
      intro r _
      cases r with
      | create => exact arena_store (arena_alloc h _) _ _
      | nothing => exact h
      | blocked_by_file => exact h
      | blocked_by_directory => exact h

theorem m_make_link_arena (s0 : File_system_emulator) (source dest name : List Char)
    (type : NODE_TYPE) (s : File_system_emulator) (h : arena_kept s0 s) :
    (m_make_link source dest name type s).post (fun _ s' => arena_kept s0 s')
      (arena_kept s0) := by
  unfold m_make_link
  apply post_read_bind
  intro sp _
  cases sp with
  | none => exact h
  | some src =>
    refine post_bind (m_make_node_arena s0 dest name type s h) ?_
    intro link s1 h1
    cases link with
    | none => exact h1
    | some l =>
      apply post_read_bind
      intro ln _
      apply post_read_bind
      intro linked _
      by_cases hl : ln.m_type = NODE_TYPE.HLINK
      · rw [if_pos hl]; exact arena_store h1 _ _
      · rw [if_neg hl]; exact arena_store h1 _ _

theorem m_remove_dlinks_arena (s0 : File_system_emulator) (node : Nat) :
    ∀ (fuel : Nat) (s : File_system_emulator), arena_kept s0 s →
      (m_remove_dlinks node fuel s).post (fun _ s' => arena_kept s0 s') (arena_kept s0) := by
  intro fuel
  induction fuel with
  | zero =>
    intro s h
    unfold m_remove_dlinks
    apply post_read_bind
    intro linked _
    by_cases hl : linked.m_dlinks = []
    · rw [if_pos hl]; exact h
    · rw [if_neg hl]; trivial
  | succ fuel ih =>
    intro s h
    unfold m_remove_dlinks
    apply post_read_bind
    intro linked _
    cases linked.m_dlinks with
    | nil => exact h
    | cons child rest =>
      apply post_read_bind
      intro c _
      cases c.m_parent with
      | none => trivial
      | some parent =>
        apply post_read_bind
        intro pn _
        dsimp only
        apply post_read_bind
        intro linked1 _
        exact post_bind (delete_node_arena s0 _ _ (arena_store (arena_store h _ _) _ _))
          (fun _ s3 h3 => ih s3 h3)

theorem m_remove_node_arena (s0 : File_system_emulator) (node : Nat)
    (s : File_system_emulator) (h : arena_kept s0 s) :
    (m_remove_node node s).post (fun _ s' => arena_kept s0 s') (arena_kept s0) := by
  unfold m_remove_node
  apply post_read_bind
  intro nd _
  have hfirst : (if nd.m_type = NODE_TYPE.FILE ∨ nd.m_type = NODE_TYPE.DIRECTORY then
        if nd.m_hlinks ≠ [] then
          (Result.raised "ERROR: Can`t delete entity with attached hard link." s : Result Unit)
        else m_remove_dlinks node nd.m_dlinks.length s
      else .ok () s).post (fun _ s' => arena_kept s0 s') (arena_kept s0) := by
    by_cases h1 : nd.m_type = NODE_TYPE.FILE ∨ nd.m_type = NODE_TYPE.DIRECTORY
    · rw [if_pos h1]
      by_cases h2 : nd.m_hlinks ≠ []
      · rw [if_pos h2]; exact h
      · rw [if_neg h2]; exact m_remove_dlinks_arena s0 node _ s h
    · rw [if_neg h1]; exact h
  refine post_bind hfirst ?_
  intro _ s1 h1
  apply post_read_bind
  intro nd1 _
  cases nd1.m_parent with
  | none => trivial
  | some parent =>
    apply post_read_bind
    intro pn _
    exact delete_node_arena s0 _ _ (arena_store h1 _ _)

theorem push_child_arena (s0 : File_system_emulator) (d x : Nat) (s : File_system_emulator)
    (h : arena_kept s0 s) :
    (push_child d x s).post (fun _ s' => arena_kept s0 s') (arena_kept s0) := by
  unfold push_child
  apply post_read_bind
  intro dn _
  exact arena_store h _ _

theorem m_copy_link_arena (s0 : File_system_emulator) (type : NODE_TYPE) (name : List Char)
    (destination : Nat) (s : File_system_emulator) (h : arena_kept s0 s) :
    (m_copy_link type name destination s).post (fun _ s' => arena_kept s0 s')
      (arena_kept s0) := by
  unfold m_copy_link
  dsimp only
  apply post_read_bind
  intro target _
  cases target with
  | none => trivial
  | some t =>
    apply post_read_bind
    intro linked _
    exact push_child_arena s0 _ _ _ (arena_store (arena_alloc h _) _ _)

theorem m_copy_arena (s0 : File_system_emulator) :
    ∀ (fuel source destination : Nat) (s : File_system_emulator), arena_kept s0 s →
      (m_copy fuel source destination s).post (fun _ s' => arena_kept s0 s')
        (arena_kept s0) := by
  intro fuel
  induction fuel with
  | zero => intro _ _ s _; trivial
  | succ fuel ih =>
    intro source destination s h
    unfold m_copy
    apply post_read_bind
    intro src _
    cases src.m_type with
    | FILE => exact push_child_arena s0 _ _ _ (arena_alloc h _)
    | HLINK => exact m_copy_link_arena s0 _ _ _ _ h
    | DLINK => exact m_copy_link_arena s0 _ _ _ _ h
    | DIRECTORY =>
      dsimp only
      refine post_bind
        (for_each_arena s0 _ (fun x s1 h1 => ih x _ s1 h1) src.m_childs _ (arena_alloc h _)) ?_
      intro _ s2 h2
      exact push_child_arena s0 _ _ _ h2

theorem rename_links_arena (s0 : File_system_emulator) (name : List Char) :
    ∀ (l : List Nat) (s : File_system_emulator), arena_kept s0 s →
      (rename_links name l s).post (fun _ s' => arena_kept s0 s') (arena_kept s0) := by
  intro l
  induction l with
  | nil => intro s h; exact h
  | cons x rest ih =>
    intro s h
    unfold rename_links
    apply post_read_bind
    intro xn _
    exact ih _ (arena_store h _ _)

theorem m_update_links_arena (s0 : File_system_emulator) :
    ∀ (fuel node : Nat) (s : File_system_emulator), arena_kept s0 s →
      (m_update_links fuel node s).post (fun _ s' => arena_kept s0 s') (arena_kept s0) := by
  intro fuel
  induction fuel with
  | zero => intro _ s _; trivial
  | succ fuel ih =>
    intro node s h
    unfold m_update_links
    apply post_read_bind
    intro nd _
    have hfirst : (if nd.m_type = NODE_TYPE.DIRECTORY ∨ nd.m_type = NODE_TYPE.FILE then
          if nd.m_dlinks ≠ [] then
            (m_to_absolute_path nd.m_name nd.m_parent s).bind fun updated_path =>
              rename_links ("dlink[".toList ++ updated_path ++ "]".toList) nd.m_dlinks s
          else .ok () s
        else .ok () s).post (fun _ s' => arena_kept s0 s') (arena_kept s0) := by
      by_cases h1 : nd.m_type = NODE_TYPE.DIRECTORY ∨ nd.m_type = NODE_TYPE.FILE
      · rw [if_pos h1]
        by_cases h2 : nd.m_dlinks ≠ []
        · rw [if_pos h2]
          apply post_read_bind
          intro up _
          exact rename_links_arena s0 _ _ _ h
        · rw [if_neg h2]; exact h
      · rw [if_neg h1]; exact h
    refine post_bind hfirst ?_
    intro _ s1 h1
    apply post_read_bind
    intro nd1 _
    by_cases hd : nd1.m_type = NODE_TYPE.DIRECTORY
    · rw [if_pos hd]; exact for_each_arena s0 _ (fun x s2 h2 => ih x s2 h2) _ _ h1
    · rw [if_neg hd]; exact h1

theorem move_arena (source dest : List Char) (s : File_system_emulator) :
    (move source dest s).post (fun _ s' => arena_kept s s') (arena_kept s) := by
  have h := arena_kept_refl s
  unfold move
  apply post_read_bind
  intro sp _
  cases sp with
  | none => exact h
  | some src =>
    apply post_read_bind
    intro dp _
    cases dp with
    | none => exact h
    | some dst =>
      apply post_read_bind
      intro dn _
      by_cases hd : dn.m_type ≠ NODE_TYPE.DIRECTORY
      · rw [if_pos hd]; exact h
      · rw [if_neg hd]
        apply post_read_bind
        intro nothing _
        cases nothing with
        | true => exact h
        | false =>
          simp only [Bool.false_eq_true, if_false]
          apply post_read_bind
          intro sn _
          apply post_read_bind
          intro attached _
          cases attached with
          | true => exact h
          | false =>
            simp only [Bool.false_eq_true, if_false]
            cases sn.m_parent with
            | none => trivial
            | some source_parent =>
              apply post_read_bind
              intro pn _
              dsimp only
              refine post_bind (push_child_arena s _ _ _ (arena_store h _ _)) ?_
              intro _ s2 h2
              apply post_read_bind
              intro sn2 _
              exact m_update_links_arena s _ _ _ (arena_store h2 _ _)

theorem delete_tree_sweep_arena (s0 : File_system_emulator) :
    ∀ (fuel : Nat) (queue : List Nat) (s : File_system_emulator), arena_kept s0 s →
      (delete_tree_sweep fuel queue s).post (fun _ s' => arena_kept s0 s')
        (arena_kept s0) := by
  intro fuel
  induction fuel with
  | zero =>
    intro queue s h
    cases queue with
    | nil => exact h
    | cons _ _ => trivial
  | succ fuel ih =>
    intro queue s h
    cases queue with
    | nil => exact h
    | cons node queue =>
      unfold delete_tree_sweep
      apply post_read_bind
      intro nd _
      by_cases hd : nd.m_type ≠ NODE_TYPE.DIRECTORY
      · rw [if_pos hd]
        exact post_bind (m_remove_node_arena s0 node s h) (fun _ s1 h1 => ih queue s1 h1)
      · rw [if_neg hd]
        by_cases hc : nd.m_childs = []
        · rw [if_pos hc]
          exact post_bind (m_remove_node_arena s0 node s h) (fun _ s1 h1 => ih queue s1 h1)
        · rw [if_neg hc]
          exact ih _ s h

theorem delete_tree_loop_arena (s0 : File_system_emulator) (target : Nat) :
    ∀ (fuel : Nat) (s : File_system_emulator), arena_kept s0 s →
      (delete_tree_loop target fuel s).post (fun _ s' => arena_kept s0 s')
        (arena_kept s0) := by
  intro fuel
  induction fuel with
  | zero =>
    intro s h
    unfold delete_tree_loop
    apply post_read_bind
    intro t _
    by_cases ht : t.m_childs = []
    · rw [if_pos ht]; exact h
    · rw [if_neg ht]; trivial
  | succ fuel ih =>
    intro s h
    unfold delete_tree_loop
    apply post_read_bind
    intro t _
    by_cases ht : t.m_childs = []
    · rw [if_pos ht]; exact h
    · rw [if_neg ht]
      exact post_bind (delete_tree_sweep_arena s0 _ _ s h) (fun _ s1 h1 => ih s1 h1)

theorem delete_tree_arena (path : List Char) (s : File_system_emulator) :
    (delete_tree path s).post (fun _ s' => arena_kept s s') (arena_kept s) := by
  have h := arena_kept_refl s
  unfold delete_tree
  apply post_read_bind
  intro np _
  cases np with
  | none => exact h
  | some target =>
    apply post_read_bind
    intro nd _
    by_cases hd : nd.m_type ≠ NODE_TYPE.DIRECTORY
    · rw [if_pos hd]; exact h
    · rw [if_neg hd]
      apply post_read_bind
      intro drive _
      by_cases h1 : target = drive
      · rw [if_pos h1]; exact h
      · rw [if_neg h1]
        by_cases h2 : target = s.m_curr_catalog
        · rw [if_pos h2]; exact h
        · rw [if_neg h2]
          refine post_bind (delete_tree_loop_arena s target _ s h) ?_
          intro _ s1 hs1
          apply post_read_bind
          intro nd1 _
          cases nd1.m_parent with
          | none => trivial
          | some parent =>
            apply post_read_bind
            intro pn _
            exact delete_node_arena s _ _ (arena_store hs1 _ _)

theorem cursor_allocated_kept {s s' : File_system_emulator} (h : arena_kept s s')
    (hc : cursor_allocated s) : cursor_allocated s' := by
  unfold cursor_allocated at hc ⊢
  rw [h.2]
  exact Nat.lt_of_lt_of_le hc h.1

theorem exec_cursor (c : Call) {s : File_system_emulator} (hc : cursor_allocated s) :
    (c.exec s).post (fun _ s' => cursor_allocated s') cursor_allocated := by
  have h := arena_kept_refl s
  have key : ∀ r : Result Unit, r.post (fun _ s' => arena_kept s s') (arena_kept s) →
      r.post (fun _ s' => cursor_allocated s') cursor_allocated :=
    fun r hr => post_mono hr (fun _ _ h => cursor_allocated_kept h hc)
      (fun _ h => cursor_allocated_kept h hc)
  cases c with
  | make_dir p =>
    exact key _ (post_bind (m_make_node_arena s _ _ _ s h) (fun _ s1 h1 => h1))
  | make_file p =>
    exact key _ (post_bind (m_make_node_arena s _ _ _ s h) (fun _ s1 h1 => h1))
  | make_hlink a b => exact key _ (post_read_bind (fun _ _ => m_make_link_arena s _ _ _ _ s h))
  | make_dlink a b => exact key _ (post_read_bind (fun _ _ => m_make_link_arena s _ _ _ _ s h))
  | change_dir p =>
    show (change_dir p s).post _ _
    unfold change_dir
    apply post_read_bind
    intro np _
    cases np with
    | none => exact hc
    | some n =>
      apply post_read_bind
      intro nd hnd
      by_cases hd : nd.m_type ≠ NODE_TYPE.DIRECTORY
      · rw [if_pos hd]; exact hc
      · rw [if_neg hd]
        exact cell_lt (deref_eq_val hnd)
  | remove_dir p =>
    refine key _ ?_
    show (remove_dir p s).post _ _
    unfold remove_dir
    apply post_read_bind
    intro np _
    cases np with
    | none => exact h
    | some n =>
      apply post_read_bind
      intro nd _
      by_cases hd : nd.m_type ≠ NODE_TYPE.DIRECTORY
      · rw [if_pos hd]; exact h
      · rw [if_neg hd]
        apply post_read_bind
        intro drive _
        by_cases h1 : n = drive
        · rw [if_pos h1]; exact h
        · rw [if_neg h1]
          by_cases h2 : n = s.m_curr_catalog
          · rw [if_pos h2]; exact h
          · rw [if_neg h2]
            by_cases h3 : nd.m_childs ≠ []
            · rw [if_pos h3]; exact h
            · rw [if_neg h3]; exact m_remove_node_arena s n s h
  | remove_file p =>
    refine key _ ?_
    show (remove_file p s).post _ _
    unfold remove_file
    apply post_read_bind
    intro np _
    cases np with
    | none => exact h
    | some n =>
      apply post_read_bind
      intro nd _
      by_cases hd : nd.m_type = NODE_TYPE.DIRECTORY
      · rw [if_pos hd]; exact h
      · rw [if_neg hd]; exact m_remove_node_arena s n s h
  | copy a b =>
    refine key _ ?_
    show (copy a b s).post _ _
    unfold copy
    apply post_read_bind
    intro sp _
    cases sp with
    | none => exact h
    | some src =>
      apply post_read_bind
      intro dp _
      cases dp with
      | none => exact h
      | some dst =>
        apply post_read_bind
        intro dn _
        by_cases hd : dn.m_type ≠ NODE_TYPE.DIRECTORY
        · rw [if_pos hd]; exact h
        · rw [if_neg hd]; exact m_copy_arena s _ _ _ _ h
  | move a b => exact key _ (move_arena a b s)
  | delete_tree p => exact key _ (delete_tree_arena p s)
  | print =>
    refine key _ ?_
    refine post_bind (post_mono (print_reordered s) (fun _ _ h => h) (fun _ h => h.elim)) ?_
    intro _ s1 h1
    exact ⟨Nat.le_of_eq h1.2.2.1.symm, h1.2.1⟩

/-- In every reachable state the current directory is an address of the arena. -/
theorem reachable_cursor_allocated {s : File_system_emulator} (h : Reachable s) :
    cursor_allocated s := by
  induction h with
  | init => exact (by decide : init.m_curr_catalog < init.heap.length)
  | ok c s s' _ hexec ih =>
    have := exec_cursor c ih
    rw [hexec] at this
    exact this
  | raised c e s s' _ hexec ih =>
    have := exec_cursor c ih
    rw [hexec] at this
    exact this

/-! ## Path resolution while a copy is under way -/

theorem old_kept_cell {s0 s : File_system_emulator} (h : old_kept s0 s) {q : Nat} {nd : Node}
    (hq : s0.heap.cell q = some nd) :
    ∃ nd', s.heap.cell q = some nd' ∧ nd'.m_name = nd.m_name ∧ nd'.m_type = nd.m_type ∧
      nd'.m_childs = nd.m_childs := by
  rcases h.2.2.2 q (cell_lt hq) with ⟨e1, _⟩ | ⟨nd0, nd', e1, e2, e3, e4, e5⟩
  · rw [e1] at hq; cases hq
  · rw [e1] at hq
    cases hq
    exact ⟨nd', e2, e3, e4, e5⟩

theorem old_kept_none {s0 s : File_system_emulator} (h : old_kept s0 s) {q : Nat}
    (hlt : q < s0.heap.length) (hq : s0.heap.cell q = none) : s.heap.cell q = none := by
  rcases h.2.2.2 q hlt with ⟨_, e2⟩ | ⟨nd0, nd', e1, _⟩
  · exact e2
  · rw [e1] at hq; cases hq

theorem find_child_old {s0 s : File_system_emulator} (h : old_kept s0 s) (name : List Char) :
    ∀ l : List Nat, (∀ c ∈ l, c < s0.heap.length) →
      (find_child s0 name l = .val none → find_child s name l = .val none) ∧
      (∀ c cn, find_child s0 name l = .val (some (c, cn)) →
        ∃ cn', find_child s name l = .val (some (c, cn')) ∧ cn'.m_type = cn.m_type) ∧
      (find_child s0 name l = .undefined → find_child s name l = .undefined) ∧
      (find_child s0 name l ≠ .diverge) := by
  intro l
  induction l with
  | nil =>
    intro _
    refine ⟨fun _ => rfl, ?_, ?_, ?_⟩ <;> simp [find_child]
  | cons x rest ih =>
    intro hl
    have hx := hl x (List.mem_cons_self _ _)
    obtain ⟨i1, i2, i3, i4⟩ := ih (fun c hc => hl c (List.mem_cons_of_mem _ hc))
    cases hc : s0.heap.cell x with
    | none =>
      have hc' := old_kept_none h hx hc
      refine ⟨?_, ?_, ?_, ?_⟩ <;> simp [find_child, deref, hc, hc']
    | some xn =>
      obtain ⟨xn', hc', hn, ht, _⟩ := old_kept_cell h hc
      unfold find_child
      simp only [deref_of_cell hc, deref_of_cell hc', read_andThen_val, hn]
      by_cases hname : xn.m_name = name
      · simp only [hname, if_true]
        refine ⟨?_, ?_, ?_, ?_⟩
        · intro e; cases e
        · intro c cn e
          cases e
          exact ⟨xn', rfl, ht⟩
        · intro e; cases e
        · intro e; cases e
      · simp only [hname, if_false]
        exact ⟨i1, i2, i3, i4⟩

theorem m_find_node_loop_old {s0 s : File_system_emulator} (hw : well_formed s0)
    (h : old_kept s0 s) :
    ∀ (segs : List (List Char)) (curr : Nat), curr < s0.heap.length →
      m_find_node_loop s segs curr = m_find_node_loop s0 segs curr := by
  intro segs
  induction segs with
  | nil => intro curr _; rfl
  | cons seg rest ih =>
    intro curr hcur
    unfold m_find_node_loop
    cases hc : s0.heap.cell curr with
    | none =>
      have hc' := old_kept_none h hcur hc
      simp [deref_dir, hc, hc']
    | some dn =>
      obtain ⟨dn', hc', _, ht, hch⟩ := old_kept_cell h hc
      by_cases hd : dn.m_type = NODE_TYPE.DIRECTORY
      · have hd' : dn'.m_type = NODE_TYPE.DIRECTORY := by rw [ht]; exact hd
        rw [deref_dir_of_cell hc hd, deref_dir_of_cell hc' hd']
        simp only [read_andThen_val, hch]
        have hlive : ∀ c ∈ dn.m_childs, c < s0.heap.length := by
          intro c hcm
          obtain ⟨cn, hcn⟩ := children_live hw hc hd c hcm
          exact cell_lt hcn
        obtain ⟨i1, i2, i3, i4⟩ := find_child_old h seg dn.m_childs hlive
        cases hf : find_child s0 seg dn.m_childs with
        | val r =>
          cases r with
          | none => rw [i1 hf]; rfl
          | some pr =>
            obtain ⟨c, cn⟩ := pr
            obtain ⟨cn', hf', hty⟩ := i2 c cn hf
            rw [hf']
            simp only [read_andThen_val, hty]
            by_cases hcd : cn.m_type = NODE_TYPE.DIRECTORY
            · rw [if_pos hcd, if_pos hcd]
              obtain ⟨_, hcc⟩ := find_child_spec s0 seg _ _ _ hf
              exact ih c (cell_lt hcc)
            · rw [if_neg hcd, if_neg hcd]
        | undefined => rw [i3 hf]; rfl
        | diverge => exact absurd hf i4
      · have hd' : ¬ dn'.m_type = NODE_TYPE.DIRECTORY := by rw [ht]; exact hd
        simp [deref_dir, hc, hc', hd, hd']

/-- While a copy is under way the resolver gives what it gave when the copy began. -/
theorem m_find_node_by_path_old {s0 s : File_system_emulator} (hw : well_formed s0)
    (hcur : cursor_allocated s0) (h : old_kept s0 s) (path : List Char) :
    m_find_node_by_path path s = m_find_node_by_path path s0 := by
  unfold m_find_node_by_path
  rw [h.1, h.2.1]
  by_cases hp : path = []
  · rw [if_pos hp, if_pos hp]
  · rw [if_neg hp, if_neg hp]
    refine m_find_node_loop_old hw h _ _ ?_
    by_cases ha : is_absolute_path path = true
    · rw [if_pos ha]
      obtain ⟨rn, _, _, h1, _⟩ := hw.1
      exact cell_lt h1
    · rw [if_neg ha]
      exact hcur

theorem m_find_node_loop_live (s : File_system_emulator) :
    ∀ (segs : List (List Char)) (curr n : Nat), m_find_node_loop s segs curr = .val (some n) →
      segs ≠ [] → ∃ nn, s.heap.cell n = some nn := by
  intro segs
  induction segs with
  | nil => intro _ _ _ h; exact absurd rfl h
  | cons seg rest ih =>
    intro curr n h _
    unfold m_find_node_loop at h
    obtain ⟨d, hd, h⟩ := read_andThen_eq_val h
    obtain ⟨r, hr, h⟩ := read_andThen_eq_val h
    cases r with
    | none => cases h
    | some pr =>
      obtain ⟨child, c⟩ := pr
      obtain ⟨_, hc⟩ := find_child_spec s seg _ _ _ hr
      simp only [] at h
      by_cases hcd : c.m_type = NODE_TYPE.DIRECTORY
      · rw [if_pos hcd] at h
        cases rest with
        | nil =>
          simp [m_find_node_loop] at h
          subst h
          exact ⟨c, hc⟩
        | cons seg2 rest2 => exact ih child n h (by simp)
      · rw [if_neg hcd] at h
        cases h
        exact ⟨c, hc⟩

/-- What the resolver returns, when the current directory is an address of the arena,
is an address of the arena. -/
theorem find_allocated {s : File_system_emulator} (hcur : cursor_allocated s)
    {path : List Char} {n : Nat} (h : m_find_node_by_path path s = .val (some n)) :
    n < s.heap.length := by
  unfold m_find_node_by_path at h
  by_cases hp : path = []
  · rw [if_pos hp] at h
    cases h
    exact hcur
  · rw [if_neg hp] at h
    obtain ⟨nn, hn⟩ := m_find_node_loop_live s _ _ _ h (split_path_ne_nil path)
    exact cell_lt hn

/-! ## The steps of a copy -/

theorem copying_cell {s0 s s' : File_system_emulator} {a : Nat → List Nat}
    (h : copying s0 s s' a) {q : Nat} {nd : Node} (hq : s.heap.cell q = some nd) :
    ∃ nd', s'.heap.cell q = some nd' ∧
      nd'.m_name = nd.m_name ∧ nd'.m_type = nd.m_type ∧ nd'.m_parent = nd.m_parent ∧
      nd'.m_childs = a q ++ nd.m_childs ∧
      (∃ ex, nd'.m_hlinks = ex ++ nd.m_hlinks ∧
        ∀ l ∈ ex, gained s0 s' q NODE_TYPE.HLINK l) ∧
      (∃ ex, nd'.m_dlinks = ex ++ nd.m_dlinks ∧
        ∀ l ∈ ex, gained s0 s' q NODE_TYPE.DLINK l) := by
  rcases h.2.2.2 q (cell_lt hq) with ⟨e1, _⟩ | ⟨nd0, nd', e1, e2, e3⟩
  · rw [e1] at hq; cases hq
  · rw [e1] at hq
    cases hq
    exact ⟨nd', e2, e3⟩

theorem copying_refl (s0 s : File_system_emulator) : copying s0 s s (fun _ => []) := by
  refine ⟨rfl, rfl, Nat.le_refl _, ?_⟩
  intro q _
  cases hc : s.heap.cell q with
  | none => exact Or.inl ⟨rfl, rfl⟩
  | some nd =>
    exact Or.inr ⟨nd, nd, rfl, rfl, rfl, rfl, rfl, rfl, ⟨[], rfl, by simp⟩, ⟨[], rfl, by simp⟩⟩

theorem copying_congr {s0 s s' : File_system_emulator} {a a' : Nat → List Nat}
    (he : ∀ q, q < s.heap.length → a q = a' q) (h : copying s0 s s' a) :
    copying s0 s s' a' := by
  obtain ⟨h1, h2, h3, h4⟩ := h
  refine ⟨h1, h2, h3, ?_⟩
  intro q hq
  rcases h4 q hq with e | ⟨nd, nd', e1, e2, e3, e4, e5, e6, e7⟩
  · exact Or.inl e
  · exact Or.inr ⟨nd, nd', e1, e2, e3, e4, e5, by rw [← he q hq]; exact e6, e7⟩

theorem gained_mono {s0 s1 s2 : File_system_emulator} {a : Nat → List Nat}
    (h : copying s0 s1 s2 a) {q l : Nat} {kind : NODE_TYPE} (hg : gained s0 s1 q kind l) :
    gained s0 s2 q kind l := by
  obtain ⟨h1, ln, h2, h3, h4⟩ := hg
  obtain ⟨ln', e1, e2, e3, _⟩ := copying_cell h h2
  exact ⟨h1, ln', e1, by rw [e3]; exact h3, by rw [e2]; exact h4⟩

theorem copying_trans {s0 s s1 s2 : File_system_emulator} {a1 a2 : Nat → List Nat}
    (h1 : copying s0 s s1 a1) (h2 : copying s0 s1 s2 a2) :
    copying s0 s s2 (fun q => a2 q ++ a1 q) := by
  refine ⟨h2.1.trans h1.1, h2.2.1.trans h1.2.1, Nat.le_trans h1.2.2.1 h2.2.2.1, ?_⟩
  intro q hq
  rcases h1.2.2.2 q hq with ⟨e1, e2⟩ | ⟨nd, nd1, e1, e2, e3, e4, e5, e6, ⟨xh, e7, e8⟩, ⟨xd, e9, e10⟩⟩
  · rcases h2.2.2.2 q (Nat.lt_of_lt_of_le hq h1.2.2.1) with ⟨_, f2⟩ | ⟨nd1, nd2, f1, _⟩
    · exact Or.inl ⟨e1, f2⟩
    · rw [e2] at f1; cases f1
  · obtain ⟨nd2, f2, f3, f4, f5, f6, ⟨yh, f7, f8⟩, ⟨yd, f9, f10⟩⟩ := copying_cell h2 e2
    refine Or.inr ⟨nd, nd2, e1, f2, f3.trans e3, f4.trans e4, f5.trans e5, ?_, ?_, ?_⟩
    · rw [f6, e6]; simp
    · refine ⟨yh ++ xh, by rw [f7, e7]; simp, ?_⟩
      intro l hl
      rcases List.mem_append.mp hl with hl | hl
      · exact f8 l hl
      · exact gained_mono h2 (e8 l hl)
    · refine ⟨yd ++ xd, by rw [f9, e9]; simp, ?_⟩
      intro l hl
      rcases List.mem_append.mp hl with hl | hl
      · exact f10 l hl
      · exact gained_mono h2 (e10 l hl)

theorem copying_alloc (s0 s : File_system_emulator) (n : Node) :
    copying s0 s (alloc s n).2 (fun _ => []) := by
  refine ⟨rfl, rfl, by simp [alloc], ?_⟩
  intro q hq
  have hne : q ≠ s.heap.length := by omega
  rw [cell_alloc]
  simp only [hne, if_false]
  cases hc : s.heap.cell q with
  | none => exact Or.inl ⟨rfl, rfl⟩
  | some nd =>
    exact Or.inr ⟨nd, nd, rfl, rfl, rfl, rfl, rfl, rfl, ⟨[], rfl, by simp⟩, ⟨[], rfl, by simp⟩⟩

theorem copying_push (s0 : File_system_emulator) {s : File_system_emulator} {d x : Nat}
    {dn : Node} (hd : s.heap.cell d = some dn) :
    copying s0 s (store s d { dn with m_childs := x :: dn.m_childs })
      (fun q => if q = d then [x] else []) := by
  refine ⟨rfl, rfl, by simp, ?_⟩
  intro q _
  rw [cell_store hd]
  by_cases hq : q = d
  · subst hq
    exact Or.inr ⟨dn, { dn with m_childs := x :: dn.m_childs }, hd, by simp, rfl, rfl, rfl,
      by simp, ⟨[], rfl, by simp⟩, ⟨[], rfl, by simp⟩⟩
  · simp only [hq, if_false]
    cases hc : s.heap.cell q with
    | none => exact Or.inl ⟨rfl, rfl⟩
    | some nd =>
      exact Or.inr ⟨nd, nd, rfl, rfl, rfl, rfl, rfl, rfl, ⟨[], rfl, by simp⟩,
        ⟨[], rfl, by simp⟩⟩

/-- Registering the link `l` on the node `t` its name resolves to. -/
theorem copying_register (s0 : File_system_emulator) {s : File_system_emulator} {t l : Nat}
    {tn ln : Node} (type : NODE_TYPE) (ht : s.heap.cell t = some tn)
    (hl : s.heap.cell l = some ln) (hlt : l ≠ t) (hnew : s0.heap.length ≤ l)
    (hkind : ln.m_type = type) (htype : type = NODE_TYPE.HLINK ∨ type = NODE_TYPE.DLINK)
    (hfind : m_find_node_by_path (get_link_basename ln.m_name) s0 = .val (some t)) :
    copying s0 s
      (store s t
        (if type = NODE_TYPE.HLINK then { tn with m_hlinks := l :: tn.m_hlinks }
         else { tn with m_dlinks := l :: tn.m_dlinks }))
      (fun _ => []) := by
  refine ⟨rfl, rfl, by simp, ?_⟩
  intro q _
  have hg : ∀ n : Node, gained s0 (store s t n) t type l := by
    intro n
    refine ⟨hnew, ln, ?_, hkind, hfind⟩
    rw [cell_store ht]
    simp [hlt, hl]
  rw [cell_store ht]
  by_cases hq : q = t
  · subst hq
    simp only [if_true]
    by_cases hty : type = NODE_TYPE.HLINK
    · rw [if_pos hty]
      refine Or.inr ⟨tn, { tn with m_hlinks := l :: tn.m_hlinks }, ht, rfl, rfl, rfl, rfl, rfl,
        ⟨[l], rfl, ?_⟩, ⟨[], rfl, by simp⟩⟩
      intro l' hl'
      rw [List.mem_singleton.mp hl', ← hty]
      exact hg _
    · rw [if_neg hty]
      have hty2 : type = NODE_TYPE.DLINK := by
        rcases htype with h | h
        · exact absurd h hty
        · exact h
      refine Or.inr ⟨tn, { tn with m_dlinks := l :: tn.m_dlinks }, ht, rfl, rfl, rfl, rfl, rfl,
        ⟨[], rfl, by simp⟩, ⟨[l], rfl, ?_⟩⟩
      intro l' hl'
      rw [List.mem_singleton.mp hl', ← hty2]
      exact hg _
  · simp only [hq, if_false]
    cases hc : s.heap.cell q with
    | none => exact Or.inl ⟨rfl, rfl⟩
    | some nd =>
      exact Or.inr ⟨nd, nd, rfl, rfl, rfl, rfl, rfl, rfl, ⟨[], rfl, by simp⟩,
        ⟨[], rfl, by simp⟩⟩

theorem old_kept_refl (s : File_system_emulator) : old_kept s s := by
  refine ⟨rfl, rfl, Nat.le_refl _, ?_⟩
  intro q _
  cases hc : s.heap.cell q with
  | none => exact Or.inl ⟨rfl, rfl⟩
  | some nd => exact Or.inr ⟨nd, nd, rfl, rfl, rfl, rfl, rfl⟩

theorem old_kept_step {s0 s s' : File_system_emulator} {a : Nat → List Nat}
    (h : old_kept s0 s) (hc : copying s0 s s' a) (ha : ∀ q, q < s0.heap.length → a q = []) :
    old_kept s0 s' := by
  refine ⟨hc.1.trans h.1, hc.2.1.trans h.2.1, Nat.le_trans h.2.2.1 hc.2.2.1, ?_⟩
  intro q hq
  rcases h.2.2.2 q hq with ⟨e1, e2⟩ | ⟨nd, nd1, e1, e2, e3, e4, e5⟩
  · rcases hc.2.2.2 q (Nat.lt_of_lt_of_le hq h.2.2.1) with ⟨_, f2⟩ | ⟨nd1, nd2, f1, _⟩
    · exact Or.inl ⟨e1, f2⟩
    · rw [e2] at f1; cases f1
  · obtain ⟨nd2, f2, f3, f4, _, f6, _⟩ := copying_cell hc e2
    refine Or.inr ⟨nd, nd2, e1, f2, f3.trans e3, f4.trans e4, ?_⟩
    rw [f6, ha q hq, e5]
    rfl

theorem new_clean_refl (s : File_system_emulator) : new_clean s s := by
  intro q nd hq hc
  have := cell_lt hc
  omega

theorem new_clean_alloc {s0 s : File_system_emulator} (h : new_clean s0 s) (n : Node)
    (h1 : n.m_hlinks = []) (h2 : n.m_dlinks = []) : new_clean s0 (alloc s n).2 := by
  intro q nd hq hc
  rw [cell_alloc] at hc
  by_cases hql : q = s.heap.length
  · simp only [hql, if_true] at hc
    cases hc
    exact ⟨h1, h2⟩
  · simp only [hql, if_false] at hc
    exact h q nd hq hc

theorem new_clean_store {s0 s : File_system_emulator} (h : new_clean s0 s) {p : Nat}
    {old : Node} (hp : s.heap.cell p = some old) (n : Node)
    (hn : s0.heap.length ≤ p → n.m_hlinks = [] ∧ n.m_dlinks = []) :
    new_clean s0 (store s p n) := by
  intro q nd hq hc
  rw [cell_store hp] at hc
  by_cases hqp : q = p
  · simp only [hqp, if_true] at hc
    cases hc
    exact hn (hqp ▸ hq)
  · simp only [hqp, if_false] at hc
    exact h q nd hq hc

theorem registry_of_mono {type : NODE_TYPE} {tn tn' : Node} {x : Nat}
    (hh : ∃ ex, tn'.m_hlinks = ex ++ tn.m_hlinks) (hd : ∃ ex, tn'.m_dlinks = ex ++ tn.m_dlinks)
    (hx : x ∈ registry_of type tn) : x ∈ registry_of type tn' := by
  unfold registry_of at hx ⊢
  obtain ⟨eh, hh⟩ := hh
  obtain ⟨ed, hd⟩ := hd
  by_cases ht : type = NODE_TYPE.HLINK
  · rw [if_pos ht] at hx ⊢
    rw [hh]
    exact List.mem_append_right _ hx
  · rw [if_neg ht] at hx ⊢
    rw [hd]
    exact List.mem_append_right _ hx

/-- A copy that is complete stays a copy while the rest of the copying goes on, as
long as the later steps push nothing on its nodes. -/
theorem copy_of_stable {s0 s s2 : File_system_emulator} {a : Nat → List Nat}
    (hc : copying s0 s s2 a) :
    ∀ (k x x' : Nat), copy_of s0 s k x x' → (∀ q, x' ≤ q → a q = []) →
      copy_of s0 s2 k x x' := by
  intro k
  induction k with
  | zero => intro x x' h _; exact h
  | succ k ih =>
    intro x x' h ha
    unfold copy_of at h ⊢
    obtain ⟨xn, xn', h1, h2, h3, h4, h5, h6, h7, h8⟩ := h
    obtain ⟨xn2, f2, f3, f4, _, f6, _⟩ := copying_cell hc h2
    have hch : xn2.m_childs = xn'.m_childs := by
      rw [f6, ha x' (Nat.le_refl _)]
      rfl
    refine ⟨xn, xn2, h1, f2, h3, f3.trans h4, f4.trans h5, ?_, ?_, ?_⟩
    · intro hd
      rw [hch]
      refine List.Forall₂.imp ?_ (h6 hd)
      intro c c' ⟨g1, ⟨cn', g2, g3⟩, g4⟩
      obtain ⟨cn2, e2, _, _, e5, _⟩ := copying_cell hc g2
      exact ⟨g1, ⟨cn2, e2, e5.trans g3⟩, ih c c' g4 (fun q hq => ha q (by omega))⟩
    · intro hd
      rw [hch]
      exact h7 hd
    · intro hl
      obtain ⟨t, tn, tn', g1, g2, g3, g4, g5⟩ := h8 hl
      obtain ⟨tn2, e2, _, _, _, _, ⟨xh, e7, _⟩, ⟨xd, e9, _⟩⟩ := copying_cell hc g4
      exact ⟨t, tn, tn2, g1, g2, g3, e2, registry_of_mono ⟨xh, e7⟩ ⟨xd, e9⟩ g5⟩

theorem old_kept_back {s0 s : File_system_emulator} (h : old_kept s0 s) {q : Nat} {nd' : Node}
    (hlt : q < s0.heap.length) (hq : s.heap.cell q = some nd') :
    ∃ nd, s0.heap.cell q = some nd ∧ nd'.m_name = nd.m_name ∧ nd'.m_type = nd.m_type ∧
      nd'.m_childs = nd.m_childs := by
  rcases h.2.2.2 q hlt with ⟨_, e2⟩ | ⟨nd, nd1, e1, e2, e3, e4, e5⟩
  · rw [e2] at hq; cases hq
  · rw [e2] at hq
    cases hq
    exact ⟨nd, e1, e3, e4, e5⟩

theorem push_child_eq_ok {d x : Nat} {s s' : File_system_emulator}
    (h : push_child d x s = .ok () s') :
    ∃ dn, s.heap.cell d = some dn ∧ dn.m_type = NODE_TYPE.DIRECTORY ∧
      s' = store s d { dn with m_childs := x :: dn.m_childs } := by
  unfold push_child at h
  obtain ⟨dn, hd, h⟩ := read_bind_eq_ok h
  obtain ⟨h1, h2⟩ := deref_dir_eq_val hd
  cases h
  exact ⟨dn, h1, h2, rfl⟩

/-- The cases `FILE` and `DIRECTORY` of `m_copy` after the new node is built and, for a
directory, filled: the push on the destination. -/
theorem copied_push {s0 s s2 s' : File_system_emulator} {k x d : Nat} {a : Nat → List Nat}
    (hd : d < s.heap.length)
    (h12 : copying s0 s s2 a) (ha : ∀ q, q < s.heap.length → a q = [])
    (hnc : new_clean s0 s2)
    (hcopy : copy_of s0 s2 k x s.heap.length)
    (hpar : ∃ xn', s2.heap.cell s.heap.length = some xn' ∧ xn'.m_parent = some d)
    (hpush : push_child d s.heap.length s2 = .ok () s') :
    copied s0 s s' k x d := by
  obtain ⟨dn, hdn, _, hs'⟩ := push_child_eq_ok hpush
  subst hs'
  have hp := copying_push s0 (x := s.heap.length) hdn
  have hne : s.heap.length ≠ d := by omega
  refine ⟨?_, ?_, ?_, ?_⟩
  · refine copying_congr ?_ (copying_trans h12 hp)
    intro q hq
    simp only [ha q hq, List.append_nil]
  · refine new_clean_store hnc hdn _ ?_
    intro h0
    exact hnc d dn h0 hdn
  · refine copy_of_stable hp k x _ hcopy ?_
    intro q hq
    have : q ≠ d := by omega
    simp [this]
  · obtain ⟨xn', h1, h2⟩ := hpar
    refine ⟨xn', ?_, h2⟩
    rw [cell_store hdn]
    simp [hne, h1]

theorem m_copy_link_copied {s0 : File_system_emulator} (hw : well_formed s0)
    (hcur : cursor_allocated s0) {type : NODE_TYPE}
    (htype : type = NODE_TYPE.HLINK ∨ type = NODE_TYPE.DLINK) {k x d : Nat}
    {s s' : File_system_emulator} {xn : Node}
    (hok : old_kept s0 s) (hnc : new_clean s0 s) (hx : s0.heap.cell x = some xn)
    (hxt : xn.m_type = type) (hd : d < s.heap.length)
    (h : m_copy_link type xn.m_name d s = .ok () s') :
    copied s0 s s' (k + 1) x d := by
  unfold m_copy_link at h
  dsimp only at h
  have hlen : (alloc s ⟨some d, type, xn.m_name, [], [], []⟩).1 = s.heap.length := rfl
  rw [hlen] at h
  have hal := copying_alloc s0 s ⟨some d, type, xn.m_name, [], [], []⟩
  have hok1 : old_kept s0 (alloc s ⟨some d, type, xn.m_name, [], [], []⟩).2 :=
    old_kept_step hok hal (fun _ _ => rfl)
  have hnc1 : new_clean s0 (alloc s ⟨some d, type, xn.m_name, [], [], []⟩).2 :=
    new_clean_alloc hnc _ rfl rfl
  have hnew : (alloc s ⟨some d, type, xn.m_name, [], [], []⟩).2.heap.cell s.heap.length =
      some ⟨some d, type, xn.m_name, [], [], []⟩ := by
    rw [cell_alloc]; simp
  obtain ⟨target, hfind, h⟩ := read_bind_eq_ok h
  rw [m_find_node_by_path_old hw hcur hok1] at hfind
  cases target with
  | none => cases h
  | some t =>
    simp only [] at h
    obtain ⟨linked, hlinked, h⟩ := read_bind_eq_ok h
    have ht1 := deref_linked_eq_val hlinked
    have htlt := find_allocated hcur hfind
    obtain ⟨tn, ht0, _, htt, _⟩ := old_kept_back hok1 htlt ht1
    have hkind : tn.m_type = NODE_TYPE.FILE ∨ tn.m_type = NODE_TYPE.DIRECTORY := by
      rw [← htt]
      exact deref_linked_kind hlinked
    have hN := hok.2.2.1
    have hne : s.heap.length ≠ t := by omega
    have hreg := copying_register s0 type ht1 hnew hne hN rfl htype hfind
    have hnc2 : new_clean s0 (store (alloc s ⟨some d, type, xn.m_name, [], [], []⟩).2 t
        (if type = NODE_TYPE.HLINK then { linked with m_hlinks := s.heap.length :: linked.m_hlinks }
         else { linked with m_dlinks := s.heap.length :: linked.m_dlinks })) :=
      new_clean_store hnc1 ht1 _ (fun h0 => by omega)
    have hcell2 : ∀ q, (store (alloc s ⟨some d, type, xn.m_name, [], [], []⟩).2 t
        (if type = NODE_TYPE.HLINK then { linked with m_hlinks := s.heap.length :: linked.m_hlinks }
         else { linked with m_dlinks := s.heap.length :: linked.m_dlinks })).heap.cell q =
        if q = t then some (if type = NODE_TYPE.HLINK then
            { linked with m_hlinks := s.heap.length :: linked.m_hlinks }
          else { linked with m_dlinks := s.heap.length :: linked.m_dlinks })
        else (alloc s ⟨some d, type, xn.m_name, [], [], []⟩).2.heap.cell q :=
      fun q => cell_store ht1 _ q
    refine copied_push hd (copying_trans hal hreg) (fun _ _ => rfl) hnc2 ?_ ?_ h
    · unfold copy_of
      refine ⟨xn, ⟨some d, type, xn.m_name, [], [], []⟩, hx, ?_, hN, rfl, hxt.symm, ?_, ?_, ?_⟩
      · rw [hcell2]; simp [hne, hnew]
      · intro hdir
        rw [hxt] at hdir
        rcases htype with e | e <;> rw [e] at hdir <;> cases hdir
      · intro _; rfl
      · intro _
        refine ⟨t, tn,
          (if type = NODE_TYPE.HLINK then
            { linked with m_hlinks := s.heap.length :: linked.m_hlinks }
          else { linked with m_dlinks := s.heap.length :: linked.m_dlinks }),
          hfind, ht0, hkind, by rw [hcell2]; simp, ?_⟩
        rw [hxt]
        unfold registry_of
        by_cases hty : type = NODE_TYPE.HLINK
        · simp [hty]
        · simp [hty]
    · exact ⟨⟨some d, type, xn.m_name, [], [], []⟩, by rw [hcell2]; simp [hne, hnew], rfl⟩

/-- The loop of `m_copy` over the children of a directory, given what `m_copy` does on
each child: the copies are pushed on the new directory `D` one after the other. -/
theorem for_each_copied {s0 : File_system_emulator} (fuel D : Nat)
    (hD : s0.heap.length ≤ D)
    (ih : ∀ (x : Nat) (s s' : File_system_emulator), old_kept s0 s → new_clean s0 s →
      x < s0.heap.length → D < s.heap.length → m_copy fuel x D s = .ok () s' →
      copied s0 s s' fuel x D) :
    ∀ (cs : List Nat) (s1 s2 : File_system_emulator), old_kept s0 s1 → new_clean s0 s1 →
      (∀ c ∈ cs, c < s0.heap.length) → D < s1.heap.length →
      for_each (fun child => m_copy fuel child D) cs s1 = .ok () s2 →
      ∃ added, copying s0 s1 s2 (fun q => if q = D then added else []) ∧ new_clean s0 s2 ∧
        List.Forall₂
          (fun c c' => D < c' ∧ (∃ cn', s2.heap.cell c' = some cn' ∧ cn'.m_parent = some D) ∧
            copy_of s0 s2 fuel c c')
          cs added.reverse := by
  intro cs
  induction cs with
  | nil =>
    intro s1 s2 _ hnc _ _ h
    simp only [for_each] at h
    cases h
    exact ⟨[], copying_congr (fun q _ => by simp) (copying_refl s0 s1), hnc, by simp⟩
  | cons c rest ihl =>
    intro s1 s2 hok hnc hcs hDl h
    unfold for_each at h
    obtain ⟨_, sa, h1, h2⟩ := result_bind_eq_ok h
    obtain ⟨g1, g2, g3, xn', g4, g5⟩ :=
      ih c s1 sa hok hnc (hcs c (List.mem_cons_self _ _)) hDl h1
    have hoka : old_kept s0 sa := by
      refine old_kept_step hok g1 ?_
      intro q hq
      have : q ≠ D := by omega
      simp [this]
    have hDa : D < sa.heap.length := Nat.lt_of_lt_of_le hDl g1.2.2.1
    obtain ⟨added, f1, f2, f3⟩ :=
      ihl sa s2 hoka g2 (fun x hx => hcs x (List.mem_cons_of_mem _ hx)) hDa h2
    refine ⟨added ++ [s1.heap.length], ?_, f2, ?_⟩
    · refine copying_congr ?_ (copying_trans g1 f1)
      intro q _
      by_cases hq : q = D
      · simp [hq]
      · simp [hq]
    · rw [List.reverse_append, List.reverse_singleton, List.singleton_append]
      refine List.Forall₂.cons ⟨hDl, ?_, ?_⟩ f3
      · obtain ⟨cn2, e2, _, _, e5, _⟩ := copying_cell f1 g4
        exact ⟨cn2, e2, e5.trans g5⟩
      · refine copy_of_stable f1 fuel c _ g3 ?_
        intro q hq
        have : q ≠ D := by omega
        simp [this]

/-- What a call of `m_copy` that returns has done, as a part of a copy that began in
the well-formed state `s0`. -/
theorem m_copy_copied {s0 : File_system_emulator} (hw : well_formed s0)
    (hcur : cursor_allocated s0) :
    ∀ (fuel x d : Nat) (s s' : File_system_emulator), old_kept s0 s → new_clean s0 s →
      x < s0.heap.length → d < s.heap.length → m_copy fuel x d s = .ok () s' →
      copied s0 s s' fuel x d := by
  intro fuel
  induction fuel with
  | zero => intro x d s s' _ _ _ _ h; simp [m_copy] at h
  | succ fuel ih =>
    intro x d s s' hok hnc hx hd h
    unfold m_copy at h
    obtain ⟨src, hsrc, h⟩ := read_bind_eq_ok h
    obtain ⟨xn, hx0, hname, htype, hchilds⟩ := old_kept_back hok hx (deref_eq_val hsrc)
    have hN := hok.2.2.1
    cases hty : src.m_type with
    | FILE =>
      simp only [hty] at h
      have hlen : (alloc s ⟨some d, NODE_TYPE.FILE, src.m_name, [], [], []⟩).1 =
          s.heap.length := rfl
      rw [hlen] at h
      have hnew : (alloc s ⟨some d, NODE_TYPE.FILE, src.m_name, [], [], []⟩).2.heap.cell
          s.heap.length = some ⟨some d, NODE_TYPE.FILE, src.m_name, [], [], []⟩ := by
        rw [cell_alloc]; simp
      refine copied_push hd (copying_alloc s0 s _) (fun _ _ => rfl)
        (new_clean_alloc hnc _ rfl rfl) ?_
        ⟨⟨some d, NODE_TYPE.FILE, src.m_name, [], [], []⟩, hnew, rfl⟩ h
      unfold copy_of
      refine ⟨xn, ⟨some d, NODE_TYPE.FILE, src.m_name, [], [], []⟩, hx0, hnew, hN, hname,
        by rw [← htype, hty], ?_, ?_, ?_⟩
      · intro hdir
        rw [← htype, hty] at hdir
        cases hdir
      · intro _; rfl
      · intro hl
        rw [← htype, hty] at hl
        rcases hl with e | e <;> cases e
    | HLINK =>
      simp only [hty] at h
      rw [hname] at h
      exact m_copy_link_copied hw hcur (Or.inl rfl) hok hnc hx0 (by rw [← htype, hty]) hd h
    | DLINK =>
      simp only [hty] at h
      rw [hname] at h
      exact m_copy_link_copied hw hcur (Or.inr rfl) hok hnc hx0 (by rw [← htype, hty]) hd h
    | DIRECTORY =>
      simp only [hty] at h
      have hlen : (alloc s ⟨some d, NODE_TYPE.DIRECTORY, src.m_name, [], [], []⟩).1 =
          s.heap.length := rfl
      rw [hlen] at h
      have hnew : (alloc s ⟨some d, NODE_TYPE.DIRECTORY, src.m_name, [], [], []⟩).2.heap.cell
          s.heap.length = some ⟨some d, NODE_TYPE.DIRECTORY, src.m_name, [], [], []⟩ := by
        rw [cell_alloc]; simp
      have hal := copying_alloc s0 s ⟨some d, NODE_TYPE.DIRECTORY, src.m_name, [], [], []⟩
      have hok1 := old_kept_step hok hal (fun _ _ => rfl)
      have hnc1 : new_clean s0
          (alloc s ⟨some d, NODE_TYPE.DIRECTORY, src.m_name, [], [], []⟩).2 :=
        new_clean_alloc hnc _ rfl rfl
      have hxdir : xn.m_type = NODE_TYPE.DIRECTORY := by rw [← htype, hty]
      obtain ⟨_, s2, h1, h2⟩ := result_bind_eq_ok h
      obtain ⟨added, f1, f2, f3⟩ :=
        for_each_copied fuel s.heap.length hN
          (fun c sa sa' a1 a2 a3 a4 a5 => ih c s.heap.length sa sa' a1 a2 a3 a4 a5)
          src.m_childs _ s2 hok1 hnc1
          (fun c hc => by
            rw [hchilds] at hc
            obtain ⟨cn, hcn⟩ := children_live hw hx0 hxdir c hc
            exact cell_lt hcn)
          (by simp [alloc]) h1
      obtain ⟨xn2, e2, e3, e4, e5, e6, _⟩ := copying_cell f1 hnew
      simp only [if_true, List.append_nil] at e6
      refine copied_push hd (copying_trans hal f1) ?_ f2 ?_ ⟨xn2, e2, e5⟩ h2
      · intro q hq
        have : q ≠ s.heap.length := by omega
        simp [this]
      · unfold copy_of
        refine ⟨xn, xn2, hx0, e2, hN, e3.trans hname, e4.trans hxdir.symm, ?_, ?_, ?_⟩
        · intro _
          rw [e6, ← hchilds]
          exact f3
        · intro hnd
          exact absurd hxdir hnd
        · intro hl
          rw [hxdir] at hl
          rcases hl with e | e <;> cases e

/-! ## A copy returns -/

theorem copy_eq_ok {source dest : List Char} {s s' : File_system_emulator}
    (h : copy source dest s = .ok () s') :
    ∃ a b bn, m_find_node_by_path source s = .val (some a) ∧
      m_find_node_by_path dest s = .val (some b) ∧ s.heap.cell b = some bn ∧
      bn.m_type = NODE_TYPE.DIRECTORY ∧ m_copy (s.heap.length + 1) a b s = .ok () s' := by
  unfold copy at h
  obtain ⟨sp, h1, h⟩ := read_bind_eq_ok h
  cases sp with
  | none => cases h
  | some a =>
    simp only [] at h
    obtain ⟨dp, h2, h⟩ := read_bind_eq_ok h
    cases dp with
    | none => cases h
    | some b =>
      simp only [] at h
      obtain ⟨bn, h3, h⟩ := read_bind_eq_ok h
      by_cases hd : bn.m_type ≠ NODE_TYPE.DIRECTORY
      · rw [if_pos hd] at h; cases h
      · rw [if_neg hd] at h
        exact ⟨a, b, bn, h1, h2, deref_eq_val h3, not_not.mp hd, h⟩

/-- What a `copy` that returns has done, in a reachable state. -/
theorem copy_copied {s s' : File_system_emulator} (hs : Reachable s) {source dest : List Char}
    {a b : Nat} (ha : m_find_node_by_path source s = .val (some a))
    (hb : m_find_node_by_path dest s = .val (some b))
    (h : copy source dest s = .ok () s') :
    copied s s s' (s.heap.length + 1) a b := by
  obtain ⟨a', b', bn, h1, h2, h3, _, h5⟩ := copy_eq_ok h
  rw [ha] at h1
  rw [hb] at h2
  cases h1
  cases h2
  have hcur := reachable_cursor_allocated hs
  exact m_copy_copied (reachable_well_formed hs) hcur _ a b s s' (old_kept_refl s)
    (new_clean_refl s) (find_allocated hcur ha) (cell_lt h3) h5

/-- What `is_valid_name` tests on a name with an extension: the base name without
its last character. -/
theorem is_valid_name_base_ext (b e : List Char) (hb : b ≠ [])
    (hlen : b.length + e.length < 2 ^ 64 - 1) (hsep : '\\' ∉ b) (he : '.' ∉ e) :
    is_valid_name (b ++ '.' :: e)
      = (decide (e.length ≤ 3) && (decide (b.dropLast.length ≤ 8)
          && b.dropLast.all fun c => isdigit c || isalpha c)) := by
  have hpos : 0 < b.length := List.length_pos.mpr hb
  have hsep' : '\\' ∉ b.dropLast := fun h => hsep (List.dropLast_subset b h)
  have hext : find_last_of (b ++ '.' :: e) '.' = b.length := by
    unfold find_last_of
    rw [find_last_of_from_last '.' e he b 0 npos, Nat.zero_add]
  have hno : substr (b ++ '.' :: e) 0 ((b.length + 2 ^ 64 - 1) % 2 ^ 64) = b.dropLast := by
    have : (b.length + 2 ^ 64 - 1) % 2 ^ 64 = b.length - 1 := by
      have : b.length + 2 ^ 64 - 1 = (b.length - 1) + 2 ^ 64 := by omega
      rw [this, Nat.add_mod_right, Nat.mod_eq_of_lt (by omega)]
    rw [this]
    simp only [substr, List.drop_zero]
    rw [List.take_append_of_le_length (by omega), List.dropLast_eq_take]
  have hidx : find_last_of b.dropLast '\\' = npos := find_last_of_from_absent _ _ _ _ hsep'
  have hnpos : b.length ≠ npos := by unfold npos; omega
  have h1 : ((b ++ '.' :: e).length + 2 ^ 64 - b.length - 1) % 2 ^ 64 = e.length := by
    simp only [List.length_append, List.length_cons]
    have : b.length + (e.length + 1) + 2 ^ 64 - b.length - 1 = e.length + 2 ^ 64 := by omega
    rw [this, Nat.add_mod_right, Nat.mod_eq_of_lt (by omega)]
  have h2 : (npos + 1) % 2 ^ 64 = 0 := by decide
  unfold is_valid_name
  simp only [hext, hno, hidx, h1, h2, substr_from, List.drop_zero,
    ne_eq, hnpos, not_false_eq_true, true_and, if_true]
  by_cases h3 : e.length ≤ 3
  · rw [if_neg (by omega), decide_eq_true h3, Bool.true_and]
    by_cases h8 : b.dropLast.length ≤ 8
    · rw [if_neg (by omega), decide_eq_true h8, Bool.true_and]
    · rw [if_pos (by omega), decide_eq_false h8, Bool.false_and]
  · rw [if_pos (by omega), decide_eq_false h3, Bool.false_and]

/-! ## Calls that end -/

theorem ends_post {α : Type} {Q : α → File_system_emulator → Prop}
    {E : File_system_emulator → Prop} {r : Result α} (h : r.ends Q E) : r.post Q E := by
  cases r with
  | ok a s => exact h
  | raised e s => exact h
  | undefined => trivial
  | diverge => trivial

theorem ends_halts {α : Type} {Q : α → File_system_emulator → Prop}
    {E : File_system_emulator → Prop} {r : Result α} (h : r.ends Q E) : r ≠ .diverge := by
  intro e
  rw [e] at h
  exact h

theorem ends_of_post {α : Type} {Q : α → File_system_emulator → Prop}
    {E : File_system_emulator → Prop} {r : Result α} (h : r.post Q E) (hd : r ≠ .diverge) :
    r.ends Q E := by
  cases r with
  | ok a s => exact h
  | raised e s => exact h
  | undefined => trivial
  | diverge => exact hd rfl

theorem ends_mono {α : Type} {Q Q' : α → File_system_emulator → Prop}
    {E E' : File_system_emulator → Prop} {r : Result α} (hr : r.ends Q E)
    (hq : ∀ a s, Q a s → Q' a s) (he : ∀ s, E s → E' s) : r.ends Q' E' := by
  cases r with
  | ok a s => exact hq a s hr
  | raised e s => exact he s hr
  | undefined => trivial
  | diverge => exact hr

theorem ends_and {α : Type} {Q1 Q2 : α → File_system_emulator → Prop}
    {E1 E2 : File_system_emulator → Prop} {r : Result α} (h1 : r.ends Q1 E1)
    (h2 : r.post Q2 E2) : r.ends (fun a s => Q1 a s ∧ Q2 a s) (fun s => E1 s ∧ E2 s) := by
  cases r with
  | ok a s => exact ⟨h1, h2⟩
  | raised e s => exact ⟨h1, h2⟩
  | undefined => trivial
  | diverge => exact h1

theorem ends_read_bind {α β : Type} {Q : β → File_system_emulator → Prop}
    {E : File_system_emulator → Prop} {r : Read α} {f : α → Result β}
    (hd : r ≠ .diverge) (h : ∀ a, r = .val a → (f a).ends Q E) : (r.bind f).ends Q E := by
  cases r with
  | val a => exact h a rfl
  | undefined => trivial
  | diverge => exact absurd rfl hd

theorem ends_bind {α β : Type} {Q1 : α → File_system_emulator → Prop}
    {Q : β → File_system_emulator → Prop} {E1 E : File_system_emulator → Prop} {r : Result α}
    {f : α → File_system_emulator → Result β} (hr : r.ends Q1 E1)
    (h : ∀ a s, Q1 a s → (f a s).ends Q E) (he : ∀ s, E1 s → E s) : (r.bind f).ends Q E := by
  cases r with
  | ok a s => exact h a s hr
  | raised e s => exact he s hr
  | undefined => trivial
  | diverge => exact hr

theorem deref_halts (s : File_system_emulator) (p : Nat) : deref s p ≠ .diverge := by
  unfold deref
  cases s.heap.cell p <;> simp

theorem deref_dir_halts (s : File_system_emulator) (p : Nat) : deref_dir s p ≠ .diverge := by
  unfold deref_dir
  cases s.heap.cell p with
  | none => simp
  | some n => by_cases h : n.m_type = NODE_TYPE.DIRECTORY <;> simp [h]

theorem deref_linked_halts (s : File_system_emulator) (p : Nat) :
    deref_linked s p ≠ .diverge := by
  unfold deref_linked
  cases s.heap.cell p with
  | none => simp
  | some n =>
    by_cases h : n.m_type = NODE_TYPE.FILE ∨ n.m_type = NODE_TYPE.DIRECTORY <;> simp [h]

theorem andThen_halts {α β : Type} {r : Read α} {f : α → Read β} (hr : r ≠ .diverge)
    (hf : ∀ a, r = .val a → f a ≠ .diverge) : r.andThen f ≠ .diverge := by
  cases r with
  | val a => exact hf a rfl
  | undefined => simp [Read.andThen]
  | diverge => exact absurd rfl hr

theorem drive_root_halts (s : File_system_emulator) : drive_root s ≠ .diverge := by
  unfold drive_root
  apply andThen_halts (deref_dir_halts _ _)
  intro r _
  cases r.m_childs <;> simp

theorem find_child_halts (s : File_system_emulator) (name : List Char) :
    ∀ l : List Nat, find_child s name l ≠ .diverge := by
  intro l
  induction l with
  | nil => simp [find_child]
  | cons c rest ih =>
    unfold find_child
    apply andThen_halts (deref_halts _ _)
    intro cn _
    by_cases h : cn.m_name = name
    · rw [if_pos h]; simp
    · rw [if_neg h]; exact ih

theorem m_find_node_loop_halts (s : File_system_emulator) :
    ∀ (segs : List (List Char)) (curr : Nat), m_find_node_loop s segs curr ≠ .diverge := by
  intro segs
  induction segs with
  | nil => intro curr; simp [m_find_node_loop]
  | cons seg rest ih =>
    intro curr
    unfold m_find_node_loop
    apply andThen_halts (deref_dir_halts _ _)
    intro d _
    apply andThen_halts (find_child_halts _ _ _)
    intro r _
    cases r with
    | none => simp
    | some pr =>
      obtain ⟨child, c⟩ := pr
      simp only []
      by_cases h : c.m_type = NODE_TYPE.DIRECTORY
      · rw [if_pos h]; exact ih child
      · rw [if_neg h]; simp

/-- Path resolution walks the segments once: it always ends. -/
theorem m_find_node_by_path_halts (path : List Char) (s : File_system_emulator) :
    m_find_node_by_path path s ≠ .diverge := by
  unfold m_find_node_by_path
  by_cases h : path = []
  · rw [if_pos h]; simp
  · rw [if_neg h]; exact m_find_node_loop_halts s _ _
/-! ## Pruning a tree state -/

theorem pruned_refl (s : File_system_emulator) : pruned s s :=
  ⟨rfl, rfl, fun _ nd' h => ⟨nd', h, rfl, rfl, List.Sublist.refl _⟩⟩

theorem pruned_trans {s s1 s2 : File_system_emulator} (h1 : pruned s s1) (h2 : pruned s1 s2) :
    pruned s s2 := by
  refine ⟨h2.1.trans h1.1, h2.2.1.trans h1.2.1, fun q nd2 hq => ?_⟩
  obtain ⟨nd1, a1, a2, a3, a4⟩ := h2.2.2 q nd2 hq
  obtain ⟨nd, b1, b2, b3, b4⟩ := h1.2.2 q nd1 a1
  exact ⟨nd, b1, a2.trans b2, a3.trans b3, a4.trans b4⟩

theorem pruned_shrinks {s s' : File_system_emulator} (h : pruned s s') : shrinks s s' := by
  intro q nd' hq
  obtain ⟨nd, a1, a2, _, a4⟩ := h.2.2 q nd' hq
  exact ⟨nd, a1, a2, fun c hc => a4.subset hc⟩

theorem pruned_dead {s s' : File_system_emulator} (h : pruned s s') {q : Nat}
    (hq : s.heap.cell q = none) : s'.heap.cell q = none := by
  cases hc : s'.heap.cell q with
  | none => rfl
  | some nd' =>
    obtain ⟨nd, a1, _⟩ := h.2.2 q nd' hc
    rw [hq] at a1
    cases a1

theorem childs_nodup_pruned {s s' : File_system_emulator} (hn : childs_nodup s)
    (h : pruned s s') : childs_nodup s' := by
  intro d dn' hd
  obtain ⟨dn, a1, _, _, a4⟩ := h.2.2 d dn' hd
  exact (hn d dn a1).sublist a4

theorem removed_pruned {s s' : File_system_emulator} {x : Nat} (h : removed s s' x) :
    pruned s s' := by
  refine ⟨h.1, h.2.1, fun q nd' hq => ?_⟩
  by_cases hqx : q = x
  · rw [hqx, h.2.2.1] at hq
    cases hq
  · rcases h.2.2.2 q hqx with ⟨_, a2⟩ | ⟨nd, nd0, a1, a2, a3, a4, a5, _⟩
    · rw [hq] at a2; cases a2
    · rw [hq] at a2; cases a2
      exact ⟨nd, a1, a3, a4, a5⟩

/-- Taking a childless node out of the tree keeps every other node attached. -/
theorem attached_removed {s s' : File_system_emulator} {x : Nat} {xn : Node}
    (ha : attached s) (hx : s.heap.cell x = some xn)
    (hleaf : xn.m_type ≠ NODE_TYPE.DIRECTORY ∨ xn.m_childs = [])
    (h : removed s s' x) : attached s' := by
  have key : ∀ p n, n ≠ x → is_child s p n → is_child s' p n := by
    intro p n hnx ⟨pn, hp, hpd, hm⟩
    have hpx : p ≠ x := by
      intro e
      rw [e, hx] at hp
      cases hp
      rcases hleaf with h1 | h1
      · exact h1 hpd
      · rw [h1] at hm; cases hm
    rcases h.2.2.2 p hpx with ⟨a1, _⟩ | ⟨nd, nd', a1, a2, a3, _, _, a6⟩
    · rw [hp] at a1; cases a1
    · rw [hp] at a1; cases a1
      exact ⟨nd', a2, a3.trans hpd, a6 n hm hnx⟩
  intro n nd' hn
  have hnx : n ≠ x := by
    intro e
    rw [e, h.2.2.1] at hn
    cases hn
  rcases h.2.2.2 n hnx with ⟨_, a2⟩ | ⟨nd, nd0, a1, a2, _, a4, _, _⟩
  · rw [hn] at a2; cases a2
  · rw [hn] at a2; cases a2
    obtain ⟨h1, h2⟩ := ha n nd a1
    refine ⟨fun p hp => key p n hnx (h1 p (a4 ▸ hp)), fun hp => ?_⟩
    rcases h2 (a4 ▸ hp) with e | e
    · exact Or.inl (by rw [h.2.1]; exact e)
    · exact Or.inr (by rw [h.2.1]; exact key _ n hnx e)

/-- State `s'` is `s` with the entry `x` taken out of some child lists, every cell
being as alive as before. -/
theorem removed_release {s s2 : File_system_emulator} {x : Nat}
    (hlen : s2.heap.length = s.heap.length) (hroot : s2.m_root = s.m_root)
    (hcells : ∀ q, q ≠ x →
      (s.heap.cell q = none ∧ s2.heap.cell q = none) ∨
      ∃ nd nd', s.heap.cell q = some nd ∧ s2.heap.cell q = some nd' ∧
        nd'.m_type = nd.m_type ∧ nd'.m_parent = nd.m_parent ∧
        nd'.m_childs.Sublist nd.m_childs ∧ ∀ c ∈ nd.m_childs, c ≠ x → c ∈ nd'.m_childs) :
    removed s { s2 with heap := s2.heap.set x none } x := by
  refine ⟨by simp [hlen], hroot, ?_, fun q hq => ?_⟩
  · show Heap.cell (s2.heap.set x none) x = none
    rw [cell_release]; simp
  · have : Heap.cell (s2.heap.set x none) q = s2.heap.cell q := by
      rw [cell_release]; simp [hq]
    show (_ ∧ Heap.cell (s2.heap.set x none) q = none) ∨
      ∃ nd nd', _ ∧ Heap.cell (s2.heap.set x none) q = some nd' ∧ _
    rw [this]
    exact hcells q hq

/-- The cells after unlisting `x` from `p`. -/
theorem unlist_cells {s : File_system_emulator} {p : Nat} {pn : Node}
    (hp : s.heap.cell p = some pn) (x q : Nat) :
    (s.heap.cell q = none ∧
      (store s p { pn with m_childs := list_remove pn.m_childs x }).heap.cell q = none) ∨
    ∃ nd nd', s.heap.cell q = some nd ∧
      (store s p { pn with m_childs := list_remove pn.m_childs x }).heap.cell q = some nd' ∧
      nd'.m_type = nd.m_type ∧ nd'.m_parent = nd.m_parent ∧
      nd'.m_dlinks = nd.m_dlinks ∧ nd'.m_hlinks = nd.m_hlinks ∧
      nd'.m_childs.Sublist nd.m_childs ∧ ∀ c ∈ nd.m_childs, c ≠ x → c ∈ nd'.m_childs := by
  rw [cell_store hp]
  by_cases hqp : q = p
  · rw [hqp]
    refine Or.inr ⟨pn, { pn with m_childs := list_remove pn.m_childs x }, hp, by simp,
      rfl, rfl, rfl, rfl, ?_, ?_⟩
    · exact List.filter_sublist _
    · intro c hc hne
      show c ∈ list_remove pn.m_childs x
      unfold list_remove
      exact List.mem_filter.mpr ⟨hc, by simpa using hne⟩
  · simp only [hqp, if_false]
    cases hc : s.heap.cell q with
    | none => exact Or.inl ⟨rfl, rfl⟩
    | some nd =>
      exact Or.inr ⟨nd, nd, rfl, rfl, rfl, rfl, rfl, rfl, List.Sublist.refl _, fun _ h _ => h⟩

/-- Detaching a childless node from its parent and destroying it, in a tree state. -/
theorem detach_and_delete_ends {s : File_system_emulator} (h : tree_state s) {x p : Nat}
    {xn pn : Node} (hx : s.heap.cell x = some xn) (hxp : xn.m_parent = some p)
    (hleaf : xn.m_type ≠ NODE_TYPE.DIRECTORY ∨ xn.m_childs = [])
    (hp : s.heap.cell p = some pn) (hpd : pn.m_type = NODE_TYPE.DIRECTORY) :
    (delete_node (store s p { pn with m_childs := list_remove pn.m_childs x }) x).ends
      (fun _ s' => tree_state s' ∧ pruned s s' ∧ s'.heap.cell x = none)
      (fun _ => False) := by
  obtain ⟨hw, hi, ha, hn⟩ := h
  have hold := detach_and_delete hw hi hx hxp hleaf hp hpd
  have hx1 : ∃ xn1, (store s p { pn with m_childs := list_remove pn.m_childs x }).heap.cell x
      = some xn1 ∧ (xn1.m_type ≠ NODE_TYPE.DIRECTORY ∨ xn1.m_childs = []) := by
    rw [cell_store hp]
    by_cases hxe : x = p
    · subst hxe
      rw [hp] at hx; cases hx
      refine ⟨{ xn with m_childs := list_remove xn.m_childs x }, by simp, ?_⟩
      rcases hleaf with h | h
      · exact Or.inl h
      · exact Or.inr (by simp [h, list_remove])
    · exact ⟨xn, by simp [hxe, hx], hleaf⟩
  obtain ⟨xn1, hx1, hleaf1⟩ := hx1
  rw [delete_node_leaf hx1 hleaf1] at hold ⊢
  have hrem : removed s { (store s p { pn with m_childs := list_remove pn.m_childs x }) with
      heap := (store s p { pn with m_childs := list_remove pn.m_childs x }).heap.set x none } x := by
    apply removed_release (store_length _ _ _) rfl
    intro q _
    rcases unlist_cells hp x q with h1 | ⟨nd, nd', a1, a2, a3, a4, _, _, a7, a8⟩
    · exact Or.inl h1
    · exact Or.inr ⟨nd, nd', a1, a2, a3, a4, a7, a8⟩
  exact ⟨⟨hold.1.1, hold.1.2, attached_removed ha hx hleaf hrem,
    childs_nodup_pruned hn (removed_pruned hrem)⟩, removed_pruned hrem, hrem.2.2.1⟩

/-- The loop over the registered dynamic links ends: every turn takes one entry
out of the registry. -/
theorem m_remove_dlinks_ends (node : Nat) :
    ∀ (fuel : Nat) (s : File_system_emulator), tree_state s →
      (∀ linked, s.heap.cell node = some linked → linked.m_dlinks.length ≤ fuel) →
      (m_remove_dlinks node fuel s).ends (fun _ s' => tree_state s' ∧ pruned s s')
        (fun _ => False) := by
  intro fuel
  induction fuel with
  | zero =>
    intro s h hfuel
    unfold m_remove_dlinks
    apply ends_read_bind (deref_linked_halts _ _)
    intro linked hlinked
    have hlc := deref_linked_eq_val hlinked
    have : linked.m_dlinks = [] := List.length_eq_zero.mp (Nat.le_zero.mp (hfuel linked hlc))
    rw [if_pos this]
    exact ⟨h, pruned_refl s⟩
  | succ fuel ih =>
    intro s h hfuel
    obtain ⟨hw, hi, ha, hn⟩ := h
    unfold m_remove_dlinks
    apply ends_read_bind (deref_linked_halts _ _)
    intro linked hlinked
    have hlc := deref_linked_eq_val hlinked
    have hlk := deref_linked_kind hlinked
    cases hl : linked.m_dlinks with
    | nil => exact ⟨⟨hw, hi, ha, hn⟩, pruned_refl s⟩
    | cons child rest =>
      simp only []
      apply ends_read_bind (deref_halts _ _)
      intro c hc
      have hcc := deref_eq_val hc
      have hck : c.m_type = NODE_TYPE.DLINK :=
        ((hi node linked hlc).1 child (by rw [hl]; exact List.mem_cons_self _ _)).2 c hcc
      cases hp : c.m_parent with
      | none => trivial
      | some parent =>
        simp only []
        apply ends_read_bind (deref_dir_halts _ _)
        intro pn hpn
        obtain ⟨hpc, hpd⟩ := deref_dir_eq_val hpn
        have hpr : parent ≠ s.m_root := fun e => hw.2.2.1.2 child c hcc (e ▸ hp)
        have hw1 := well_formed_unlist hw hpc hpd hpr child
        have hu1 := unlisted_after_unlist hw hpc hcc hp
        have hi1 := registries_typed_store_same
          (n := { pn with m_childs := list_remove pn.m_childs child }) hi hpc rfl rfl rfl
        have hcp : child ≠ parent := by
          intro e
          rw [e, hpc] at hcc
          cases hcc
          rw [hpd] at hck
          cases hck
        have hc1 : (store s parent
            { pn with m_childs := list_remove pn.m_childs child }).heap.cell child = some c := by
          rw [cell_store hpc]; simp [hcp, hcc]
        apply ends_read_bind (deref_linked_halts _ _)
        intro linked1 hlinked1
        have hl1 := deref_linked_eq_val hlinked1
        have hk1 := deref_linked_kind hlinked1
        have hss := same_shape_store (n := { linked1 with m_dlinks := linked1.m_dlinks.tail })
          hl1 rfl rfl rfl
        have hw2 := well_formed_of_same_shape hw1 hss
        have hu2 := unlisted_of_same_shape hu1 hss
        have hi2 := registries_typed_store
          (n := { linked1 with m_dlinks := linked1.m_dlinks.tail })
          hi1 hl1 rfl (fun x hx => Or.inl (List.mem_of_mem_tail hx)) (fun x hx => Or.inl hx)
        have hcn : child ≠ node := by
          intro e
          have hcl : some c = some linked1 := by rw [← hc1, ← hl1, e]
          cases hcl
          rcases hk1 with h | h
          · rw [h] at hck; cases hck
          · rw [h] at hck; cases hck
        have hc2 : (store (store s parent
            { pn with m_childs := list_remove pn.m_childs child }) node
            { linked1 with m_dlinks := linked1.m_dlinks.tail }).heap.cell child = some c := by
          rw [cell_store hl1]; simp [hcn, hc1]
        rw [delete_node_leaf hc2 (Or.inl (by rw [hck]; decide))]
        have hxr : child ≠ s.m_root := ne_root_of_parent hw hcc hp
        have hw3 := well_formed_release hw2 hu2 hxr
        -- the registry of `node` before and after the turn
        have hd1 : linked1.m_dlinks = linked.m_dlinks ∧ linked1.m_type = linked.m_type ∧
            linked1.m_parent = linked.m_parent ∧
            linked1.m_childs.Sublist linked.m_childs ∧
            ∀ c ∈ linked.m_childs, c ≠ child → c ∈ linked1.m_childs := by
          rcases unlist_cells hpc child node with ⟨a1, _⟩ | ⟨nd, nd', a1, a2, a3, a4, a5, _, a7, a8⟩
          · rw [hlc] at a1; cases a1
          · rw [hlc] at a1; cases a1
            rw [hl1] at a2; cases a2
            exact ⟨a5, a3, a4, a7, a8⟩
        have hrem := @removed_release s (store (store s parent
            { pn with m_childs := list_remove pn.m_childs child }) node
            { linked1 with m_dlinks := linked1.m_dlinks.tail }) child (by simp [store]) rfl (by
          intro q _
          rw [cell_store hl1]
          by_cases hqn : q = node
          · rw [hqn]
            simp only [if_true]
            exact Or.inr ⟨linked, _, hlc, rfl, hd1.2.1, hd1.2.2.1, hd1.2.2.2.1, hd1.2.2.2.2⟩
          · simp only [hqn, if_false]
            rcases unlist_cells hpc child q with h1 | ⟨nd, nd', a1, a2, a3, a4, _, _, a7, a8⟩
            · exact Or.inl h1
            · exact Or.inr ⟨nd, nd', a1, a2, a3, a4, a7, a8⟩)
        have ha3 := attached_removed ha hcc (Or.inl (by rw [hck]; decide)) hrem
        have hn3 := childs_nodup_pruned hn (removed_pruned hrem)
        refine ends_mono (ih _ ⟨hw3, ?_, ha3, hn3⟩ ?_)
          (fun _ s' h => ⟨h.1, pruned_trans (removed_pruned hrem) h.2⟩) (fun _ h => h)
        · exact registries_typed_of_dies hi2 (by simp) (fun q => by
            rw [cell_release]
            by_cases hq : q = child
            · simp [hq]
            · simp [hq])
        intro linked3 hl3
        have hl3' : Heap.cell ((store (store s parent
            { pn with m_childs := list_remove pn.m_childs child }) node
            { linked1 with m_dlinks := linked1.m_dlinks.tail }).heap.set child none) node
            = some linked3 := hl3
        rw [cell_release, if_neg (fun e => hcn e.symm), cell_store hl1] at hl3'
        simp only [if_true, Option.some.injEq] at hl3'
        subst hl3'
        have := hfuel linked hlc
        rw [hl] at this
        simp only [hd1.1, hl, List.tail_cons]
        simp only [List.length_cons] at this
        omega

/-- Method `m_remove_node` on a childless node of a tree state ends: it returns
with the node destroyed, or throws before any change. -/
theorem m_remove_node_ends (node : Nat) {s : File_system_emulator} (h : tree_state s)
    (hleaf : ∀ nd, s.heap.cell node = some nd →
      nd.m_type ≠ NODE_TYPE.DIRECTORY ∨ nd.m_childs = []) :
    (m_remove_node node s).ends
      (fun _ s' => tree_state s' ∧ pruned s s' ∧ s'.heap.cell node = none)
      (fun s' => s' = s) := by
  unfold m_remove_node
  apply ends_read_bind (deref_halts _ _)
  intro nd hnd
  have hfirst : (if nd.m_type = NODE_TYPE.FILE ∨ nd.m_type = NODE_TYPE.DIRECTORY then
        if nd.m_hlinks ≠ [] then
          Result.raised "ERROR: Can`t delete entity with attached hard link." s
        else m_remove_dlinks node nd.m_dlinks.length s
      else Result.ok () s).ends
        (fun _ s' => tree_state s' ∧ pruned s s') (fun s' => s' = s) := by
    by_cases h1 : nd.m_type = NODE_TYPE.FILE ∨ nd.m_type = NODE_TYPE.DIRECTORY
    · rw [if_pos h1]
      by_cases h2 : nd.m_hlinks ≠ []
      · rw [if_pos h2]; exact rfl
      · rw [if_neg h2]
        refine ends_mono (m_remove_dlinks_ends node _ s h (fun linked hl => ?_)) (fun _ _ h => h)
          (fun _ h => h.elim)
        rw [deref_eq_val hnd] at hl
        cases hl
        exact Nat.le_refl _
    · rw [if_neg h1]; exact ⟨h, pruned_refl s⟩
  apply ends_bind hfirst _ (fun _ h => h)
  intro _ s1 ⟨h1, hpr1⟩
  apply ends_read_bind (deref_halts _ _)
  intro nd1 hnd1
  have hc1 := deref_eq_val hnd1
  obtain ⟨nd0, hc0, hty, _, hch⟩ := hpr1.2.2 node nd1 hc1
  have hleaf1 : nd1.m_type ≠ NODE_TYPE.DIRECTORY ∨ nd1.m_childs = [] := by
    rcases hleaf nd0 hc0 with h | h
    · exact Or.inl (by rw [hty]; exact h)
    · right
      rw [h] at hch
      exact List.sublist_nil.mp hch
  cases hp : nd1.m_parent with
  | none => trivial
  | some parent =>
    simp only []
    apply ends_read_bind (deref_dir_halts _ _)
    intro pn hpn
    obtain ⟨hpc, hpd⟩ := deref_dir_eq_val hpn
    exact ends_mono (detach_and_delete_ends h1 hc1 hp hleaf1 hpc hpd)
      (fun _ _ h => ⟨h.1, pruned_trans hpr1 h.2.1, h.2.2⟩) (fun _ h => h.elim)
/-! ## The size of a subtree -/

theorem subtree_size_pos (s : File_system_emulator) (k n : Nat) : 1 ≤ subtree_size s k n := by
  cases k with
  | zero => simp [subtree_size]
  | succ k =>
    unfold subtree_size
    cases s.heap.cell n with
    | none => simp
    | some nd =>
      simp only []
      by_cases hd : nd.m_type = NODE_TYPE.DIRECTORY
      · rw [if_pos hd]; omega
      · rw [if_neg hd]

/-- Pruning never makes a subtree larger. -/
theorem subtree_size_pruned {s s' : File_system_emulator} (h : pruned s s') :
    ∀ k n, subtree_size s' k n ≤ subtree_size s k n := by
  intro k
  induction k with
  | zero => intro n; simp [subtree_size]
  | succ k ih =>
    intro n
    cases hc' : s'.heap.cell n with
    | none =>
      have : subtree_size s' (k + 1) n = 1 := by
        unfold subtree_size; simp [hc']
      rw [this]
      exact subtree_size_pos s _ n
    | some nd' =>
      obtain ⟨nd, hc, hty, _, hsub⟩ := h.2.2 n nd' hc'
      unfold subtree_size
      simp only [hc', hc, hty]
      by_cases hd : nd.m_type = NODE_TYPE.DIRECTORY
      · rw [if_pos hd, if_pos hd]
        have h1 : (nd'.m_childs.map (subtree_size s' k)).sum
            ≤ (nd'.m_childs.map (subtree_size s k)).sum :=
          List.sum_le_sum (fun c _ => ih c)
        have h2 : (nd'.m_childs.map (subtree_size s k)).sum
            ≤ (nd.m_childs.map (subtree_size s k)).sum :=
          List.Sublist.sum_le_sum (hsub.map _) (fun _ _ => Nat.zero_le _)
        omega
      · rw [if_neg hd, if_neg hd]

/-- On a tree of at most `k` levels a deeper descent meets no more nodes. -/
theorem subtree_size_stable (s : File_system_emulator) :
    ∀ k n, tree_within s k n = true → subtree_size s (k + 1) n = subtree_size s k n := by
  intro k
  induction k with
  | zero => intro n h; simp [tree_within] at h
  | succ k ih =>
    intro n h
    obtain ⟨nd, hc⟩ := tree_within_live s h
    unfold tree_within at h
    simp only [hc] at h
    have e1 : subtree_size s (k + 1 + 1) n =
        if nd.m_type = NODE_TYPE.DIRECTORY then
          1 + (nd.m_childs.map (subtree_size s (k + 1))).sum else 1 := by
      rw [subtree_size]; simp only [hc]
    have e2 : subtree_size s (k + 1) n =
        if nd.m_type = NODE_TYPE.DIRECTORY then
          1 + (nd.m_childs.map (subtree_size s k)).sum else 1 := by
      rw [subtree_size]; simp only [hc]
    rw [e1, e2]
    by_cases hd : nd.m_type = NODE_TYPE.DIRECTORY
    · simp only [hd, if_true, List.all_eq_true] at h
      rw [if_pos hd, if_pos hd]
      congr 2
      exact List.map_congr_left (fun c hcm => ih c (h c hcm))
    · rw [if_neg hd, if_neg hd]

theorem subtree_size_stable_le (s : File_system_emulator) {k j n : Nat} (hkj : k ≤ j)
    (h : tree_within s k n = true) : subtree_size s j n = subtree_size s k n := by
  induction hkj with
  | refl => rfl
  | step hle ih =>
    rw [subtree_size_stable s _ n (tree_within_mono_le s hle h), ih]

theorem subtree_nodes_length (s : File_system_emulator) :
    ∀ k n, (subtree_nodes s k n).length = subtree_size s k n := by
  intro k
  induction k with
  | zero => intro n; rfl
  | succ k ih =>
    intro n
    unfold subtree_nodes subtree_size
    cases s.heap.cell n with
    | none => rfl
    | some nd =>
      simp only []
      by_cases hd : nd.m_type = NODE_TYPE.DIRECTORY
      · rw [if_pos hd, if_pos hd]
        simp only [List.length_cons, List.length_flatten, List.map_map]
        rw [Nat.add_comm]
        congr 2
        exact List.map_congr_left (fun c _ => ih c)
      · rw [if_neg hd, if_neg hd]; rfl

theorem subtree_nodes_below (s : File_system_emulator) :
    ∀ k n x, x ∈ subtree_nodes s k n → in_subtree s n x := by
  intro k
  induction k with
  | zero =>
    intro n x hx
    simp [subtree_nodes] at hx
    rw [hx]
    exact Relation.ReflTransGen.refl
  | succ k ih =>
    intro n x hx
    unfold subtree_nodes at hx
    cases hc : s.heap.cell n with
    | none =>
      simp [hc] at hx
      rw [hx]
      exact Relation.ReflTransGen.refl
    | some nd =>
      simp only [hc] at hx
      by_cases hd : nd.m_type = NODE_TYPE.DIRECTORY
      · rw [if_pos hd] at hx
        rcases List.mem_cons.mp hx with e | hx
        · rw [e]; exact Relation.ReflTransGen.refl
        · obtain ⟨l, hl, hxl⟩ := List.mem_flatten.mp hx
          obtain ⟨c, hcm, rfl⟩ := List.mem_map.mp hl
          exact Relation.ReflTransGen.head ⟨nd, hc, hd, hcm⟩ (ih c x hxl)
      · rw [if_neg hd] at hx
        simp at hx
        rw [hx]
        exact Relation.ReflTransGen.refl

/-- A node stands in the child list of one directory only. -/
theorem lister_unique {s : File_system_emulator} (hw : well_formed s) {d d' x : Nat}
    (h : is_child s d x) (h' : is_child s d' x) : d = d' := by
  have key : ∀ a b, is_child s a x → is_child s b x → a ≠ s.m_root → a = b := by
    intro a b ⟨an, ha, had, ham⟩ ⟨bn, hb, hbd, hbm⟩ har
    obtain ⟨xn, hx, hxp⟩ := hw.2.1 a an ha had har x ham
    by_cases hbr : b = s.m_root
    · exfalso
      obtain ⟨rn, drive, dn, h1, _, _, h4, h5, _, h7, _⟩ := hw.1
      rw [hbr, h1] at hb
      cases hb
      rw [h4] at hbm
      simp at hbm
      rw [hbm, h5] at hx
      cases hx
      rw [h7] at hxp
      cases hxp
    · obtain ⟨xn', hx', hxp'⟩ := hw.2.1 b bn hb hbd hbr x hbm
      rw [hx] at hx'
      cases hx'
      rw [hxp] at hxp'
      exact Option.some.inj hxp'
  by_cases hr : d = s.m_root
  · by_cases hr' : d' = s.m_root
    · rw [hr, hr']
    · exact (key d' d h' h hr').symm
  · exact key d d' h h' hr

/-- Two subtrees that share a node are nested. -/
theorem subtrees_nested {s : File_system_emulator} (hw : well_formed s) {c1 c2 x : Nat}
    (h1 : in_subtree s c1 x) (h2 : in_subtree s c2 x) :
    in_subtree s c1 c2 ∨ in_subtree s c2 c1 := by
  induction h1 with
  | refl => exact Or.inr h2
  | tail hy hstep ih =>
    rcases Relation.ReflTransGen.cases_tail h2 with e | ⟨y', hy', hstep'⟩
    · left
      rw [← e]
      exact Relation.ReflTransGen.tail hy hstep
    · have := lister_unique hw hstep hstep'
      subst this
      exact ih hy'

/-- In a tree state the preorder list of a subtree names every node once. -/
theorem subtree_nodes_nodup {s : File_system_emulator} (hw : well_formed s)
    (hn : childs_nodup s) :
    ∀ k n j, tree_within s j n = true → (subtree_nodes s k n).Nodup := by
  intro k
  induction k with
  | zero => intro n j _; simp [subtree_nodes]
  | succ k ih =>
    intro n j hj
    obtain ⟨j', rfl⟩ := tree_within_pos s hj
    obtain ⟨nd, hc⟩ := tree_within_live s hj
    unfold subtree_nodes
    simp only [hc]
    by_cases hd : nd.m_type = NODE_TYPE.DIRECTORY
    · rw [if_pos hd]
      have hchild : ∀ c ∈ nd.m_childs, is_child s n c := fun c hcm => ⟨nd, hc, hd, hcm⟩
      have hacyc := tree_within_acyclic s _ n hj
      apply List.nodup_cons.mpr
      constructor
      · intro hmem
        obtain ⟨l, hl, hxl⟩ := List.mem_flatten.mp hmem
        obtain ⟨c, hcm, rfl⟩ := List.mem_map.mp hl
        have := subtree_nodes_below s k c n hxl
        exact hacyc (Relation.TransGen.head' (hchild c hcm) this)
      · apply List.nodup_flatten.mpr
        constructor
        · intro l hl
          obtain ⟨c, hcm, rfl⟩ := List.mem_map.mp hl
          exact ih c j' (tree_within_child s hj (hchild c hcm))
        · rw [List.pairwise_map]
          apply List.Nodup.pairwise_of_forall_ne (hn n nd hc)
          intro a ha b hb hab
          have side : ∀ a b, a ∈ nd.m_childs → b ∈ nd.m_childs → a ≠ b →
              ¬ in_subtree s a b := by
            intro a b ha hb hab hsub
            rcases Relation.ReflTransGen.cases_tail hsub with e | ⟨y, hy, hstep⟩
            · exact hab e.symm
            · have := lister_unique hw hstep (hchild b hb)
              subst this
              exact hacyc (Relation.TransGen.head' (hchild a ha) hy)
          intro x hxa hxb
          rcases subtrees_nested hw (subtree_nodes_below s k a x hxa)
            (subtree_nodes_below s k b x hxb) with h | h
          · exact side a b ha hb hab h
          · exact side b a hb ha (fun e => hab e.symm) h
    · rw [if_neg hd]; simp

/-- A subtree of a tree state has at most as many nodes as the arena has cells. -/
theorem subtree_size_le_heap {s : File_system_emulator} (hw : well_formed s)
    (hn : childs_nodup s) {k n : Nat} (h : tree_within s k n = true) :
    subtree_size s k n ≤ s.heap.length := by
  rw [← subtree_nodes_length]
  apply nodup_bound _ _ (subtree_nodes_nodup hw hn k n k h)
  intro x hx
  obtain ⟨xn, hxc⟩ := tree_within_live s (tree_within_subtree s h (subtree_nodes_below s k n x hx))
  exact cell_lt hxc
/-! ## The sweep and the loop of `delete_tree` end -/

/-- The sweep of `delete_tree` ends in a tree state when the fuel exceeds the number of
nodes below the queue: every turn takes a node out of the queue and either
destroys it or puts its children in. -/
theorem delete_tree_sweep_ends : ∀ (fuel : Nat) (queue : List Nat) (s : File_system_emulator),
    tree_state s → (queue.map (subtree_size s (s.heap.length + 1))).sum < fuel →
      (delete_tree_sweep fuel queue s).ends (fun _ s' => tree_state s' ∧ pruned s s')
        (fun s' => tree_state s' ∧ pruned s s') := by
  intro fuel
  induction fuel with
  | zero => intro queue s _ hlt; exact absurd hlt (Nat.not_lt_zero _)
  | succ fuel ih =>
    intro queue s h hlt
    cases queue with
    | nil =>
      unfold delete_tree_sweep
      exact ⟨h, pruned_refl s⟩
    | cons node queue =>
      unfold delete_tree_sweep
      apply ends_read_bind (deref_halts _ _)
      intro nd hnd
      have hc := deref_eq_val hnd
      simp only [List.map_cons, List.sum_cons] at hlt
      have hpos := subtree_size_pos s (s.heap.length + 1) node
      have hrest : ∀ s1, pruned s s1 →
          (queue.map (subtree_size s1 (s1.heap.length + 1))).sum < fuel := by
        intro s1 hp1
        have : (queue.map (subtree_size s1 (s1.heap.length + 1))).sum
            ≤ (queue.map (subtree_size s (s.heap.length + 1))).sum := by
          rw [hp1.1]
          exact List.sum_le_sum (fun c _ => subtree_size_pruned hp1 _ c)
        omega
      have hleafcase : (∀ nd', s.heap.cell node = some nd' →
            nd'.m_type ≠ NODE_TYPE.DIRECTORY ∨ nd'.m_childs = []) →
          ((m_remove_node node s).bind fun _ s1 => delete_tree_sweep fuel queue s1).ends
            (fun _ s' => tree_state s' ∧ pruned s s') (fun s' => tree_state s' ∧ pruned s s') := by
        intro hleaf
        apply ends_bind (m_remove_node_ends node h hleaf)
        · intro _ s1 ⟨h1, hp1, _⟩
          exact ends_mono (ih queue s1 h1 (hrest s1 hp1))
            (fun _ _ hq => ⟨hq.1, pruned_trans hp1 hq.2⟩)
            (fun _ hq => ⟨hq.1, pruned_trans hp1 hq.2⟩)
        · intro s' e
          rw [e]
          exact ⟨h, pruned_refl s⟩
      by_cases hd : nd.m_type ≠ NODE_TYPE.DIRECTORY
      · rw [if_pos hd]
        apply hleafcase
        intro nd' hc'
        rw [hc] at hc'
        cases hc'
        exact Or.inl hd
      · rw [if_neg hd]
        have hdir : nd.m_type = NODE_TYPE.DIRECTORY := not_not.mp hd
        by_cases he : nd.m_childs = []
        · rw [if_pos he]
          apply hleafcase
          intro nd' hc'
          rw [hc] at hc'
          cases hc'
          exact Or.inr he
        · rw [if_neg he]
          apply ih _ s h
          have htree := all_trees_heap h.1 hc
          have e1 : subtree_size s (s.heap.length + 1) node =
              1 + (nd.m_childs.map (subtree_size s s.heap.length)).sum := by
            rw [subtree_size]; simp only [hc, hdir, if_true]
          have e2 : (nd.m_childs.map (subtree_size s (s.heap.length + 1))).sum =
              (nd.m_childs.map (subtree_size s s.heap.length)).sum := by
            congr 1
            exact List.map_congr_left (fun c hcm =>
              subtree_size_stable s _ c (tree_within_child s htree ⟨nd, hc, hdir, hcm⟩))
          rw [List.map_append, List.sum_append, e2]
          omega

/-- A sweep that returns has destroyed a node of every non-empty queue it was given, and
has only pruned the state. -/
theorem delete_tree_sweep_removes (s0 : File_system_emulator) (target : Nat) :
    ∀ (fuel : Nat) (queue : List Nat) (s s' : File_system_emulator),
      tree_state s → pruned s0 s →
      (∀ n ∈ queue, Relation.TransGen (is_child s0) target n) →
      delete_tree_sweep fuel queue s = .ok () s' →
      pruned s s' ∧ (queue ≠ [] →
        ∃ x, Relation.TransGen (is_child s0) target x ∧ s.heap.cell x ≠ none ∧
          s'.heap.cell x = none) := by
  intro fuel
  induction fuel with
  | zero =>
    intro queue s s' _ _ _ hrun
    cases queue with
    | nil =>
      unfold delete_tree_sweep at hrun
      cases hrun
      exact ⟨pruned_refl s, fun hne => absurd rfl hne⟩
    | cons _ _ =>
      unfold delete_tree_sweep at hrun
      cases hrun
  | succ fuel ih =>
    intro queue s s' h hp0 hq hrun
    cases queue with
    | nil =>
      unfold delete_tree_sweep at hrun
      cases hrun
      exact ⟨pruned_refl s, fun hne => absurd rfl hne⟩
    | cons node queue =>
      unfold delete_tree_sweep at hrun
      obtain ⟨nd, hnd, hrun⟩ := read_bind_eq_ok hrun
      have hc := deref_eq_val hnd
      have hleafcase : (∀ nd', s.heap.cell node = some nd' →
            nd'.m_type ≠ NODE_TYPE.DIRECTORY ∨ nd'.m_childs = []) →
          ((m_remove_node node s).bind fun _ s1 => delete_tree_sweep fuel queue s1)
            = .ok () s' →
          pruned s s' ∧ (node :: queue ≠ [] →
            ∃ x, Relation.TransGen (is_child s0) target x ∧ s.heap.cell x ≠ none ∧
              s'.heap.cell x = none) := by
        intro hleaf hrun
        obtain ⟨_, s1, hrm, hrest⟩ := result_bind_eq_ok hrun
        have hfact := m_remove_node_ends node h hleaf
        rw [hrm] at hfact
        obtain ⟨h1, hp1, hdead⟩ := hfact
        obtain ⟨hp2, _⟩ := ih queue s1 s' h1 (pruned_trans hp0 hp1)
          (fun n hn => hq n (List.mem_cons_of_mem _ hn)) hrest
        refine ⟨pruned_trans hp1 hp2, fun _ => ⟨node, hq node (List.mem_cons_self _ _), ?_,
          pruned_dead hp2 hdead⟩⟩
        rw [hc]
        simp
      by_cases hd : nd.m_type ≠ NODE_TYPE.DIRECTORY
      · rw [if_pos hd] at hrun
        apply hleafcase _ hrun
        intro nd' hc'
        rw [hc] at hc'
        cases hc'
        exact Or.inl hd
      · rw [if_neg hd] at hrun
        have hdir : nd.m_type = NODE_TYPE.DIRECTORY := not_not.mp hd
        by_cases he : nd.m_childs = []
        · rw [if_pos he] at hrun
          apply hleafcase _ hrun
          intro nd' hc'
          rw [hc] at hc'
          cases hc'
          exact Or.inr he
        · rw [if_neg he] at hrun
          obtain ⟨nd0, hc0, hty0, _, hsub0⟩ := hp0.2.2 node nd hc
          obtain ⟨hp2, hx⟩ := ih (queue ++ nd.m_childs) s s' h hp0 (by
            intro n hn
            rcases List.mem_append.mp hn with hn | hn
            · exact hq n (List.mem_cons_of_mem _ hn)
            · exact Relation.TransGen.tail (hq node (List.mem_cons_self _ _))
                ⟨nd0, hc0, hty0 ▸ hdir, hsub0.subset hn⟩) hrun
          refine ⟨hp2, fun _ => hx ?_⟩
          intro e
          have := List.append_eq_nil.mp e
          exact he this.2

theorem live_count_le (s : File_system_emulator) : live_count s ≤ s.heap.length := by
  unfold live_count
  have := List.length_filter_le (fun q => (s.heap.cell q).isSome) (List.range s.heap.length)
  simpa using this

/-- Pruning that destroys a node leaves fewer live cells. -/
theorem live_count_pruned {s s' : File_system_emulator} (h : pruned s s') {x : Nat}
    (hx : s.heap.cell x ≠ none) (hx' : s'.heap.cell x = none) :
    live_count s' < live_count s := by
  unfold live_count
  rw [h.1]
  have hsub : ((List.range s.heap.length).filter fun q => (s'.heap.cell q).isSome).Sublist
      ((List.range s.heap.length).filter fun q => (s.heap.cell q).isSome) := by
    apply List.monotone_filter_right
    intro q hq
    cases hc : s'.heap.cell q with
    | none => rw [hc] at hq; cases hq
    | some nd' =>
      obtain ⟨nd, a1, _⟩ := h.2.2 q nd' hc
      rw [a1]; rfl
  rcases Nat.lt_or_ge
    ((List.range s.heap.length).filter fun q => (s'.heap.cell q).isSome).length
    ((List.range s.heap.length).filter fun q => (s.heap.cell q).isSome).length with hlt | hge
  · exact hlt
  · exfalso
    have heq := hsub.eq_of_length_le hge
    have hmem : x ∈ (List.range s.heap.length).filter fun q => (s.heap.cell q).isSome := by
      cases hc : s.heap.cell x with
      | none => exact absurd hc hx
      | some nd =>
        exact List.mem_filter.mpr ⟨List.mem_range.mpr (cell_lt hc), by rw [hc]; rfl⟩
    rw [← heq] at hmem
    have := (List.mem_filter.mp hmem).2
    rw [hx'] at this
    cases this

/-- One pass of the outer loop of `delete_tree` over a directory that has children: the
sweep ends, and when it returns it has destroyed a node below the
directory. -/
theorem delete_tree_pass {s : File_system_emulator} (h : tree_state s) {target : Nat}
    {t : Node} (ht : s.heap.cell target = some t) (hd : t.m_type = NODE_TYPE.DIRECTORY)
    (hne : t.m_childs ≠ []) :
    (delete_tree_sweep (s.heap.length + 1) [target] s).ends
      (fun _ s' => tree_state s' ∧ pruned s s' ∧
        ∃ x, Relation.TransGen (is_child s) target x ∧ s.heap.cell x ≠ none ∧
          s'.heap.cell x = none)
      (fun s' => tree_state s' ∧ pruned s s') := by
  have hends := delete_tree_sweep_ends (s.heap.length + 1) [target] s h (by
    have := subtree_size_le_heap h.1 h.2.2.2 (all_trees_heap h.1 ht)
    simp only [List.map_cons, List.map_nil, List.sum_cons, List.sum_nil]
    omega)
  cases hr : delete_tree_sweep (s.heap.length + 1) [target] s with
  | ok u s' =>
    rw [hr] at hends
    refine ⟨hends.1, hends.2, ?_⟩
    have hr' := hr
    unfold delete_tree_sweep at hr'
    simp only [deref_of_cell ht, Read.bind, hd, ne_eq, not_true_eq_false, if_false, hne,
      List.nil_append] at hr'
    exact (delete_tree_sweep_removes s target _ _ s s' h (pruned_refl s)
      (fun n hn => Relation.TransGen.single ⟨t, ht, hd, hn⟩) hr').2 hne
  | raised e s' => rw [hr] at hends; exact hends
  | undefined => trivial
  | diverge => rw [hr] at hends; exact hends

/-- The outer loop of `delete_tree` ends when the fuel exceeds the number of live
cells: every pass that returns destroys a node. -/
theorem delete_tree_loop_ends (target : Nat) :
    ∀ (fuel : Nat) (s : File_system_emulator), tree_state s → live_count s < fuel →
      (delete_tree_loop target fuel s).ends
        (fun _ s' => tree_state s' ∧ pruned s s' ∧
          ∀ t, s'.heap.cell target = some t → t.m_childs = [])
        (fun s' => tree_state s' ∧ pruned s s') := by
  intro fuel
  induction fuel with
  | zero => intro s _ hlt; exact absurd hlt (Nat.not_lt_zero _)
  | succ fuel ih =>
    intro s h hlt
    unfold delete_tree_loop
    apply ends_read_bind (deref_dir_halts _ _)
    intro t ht
    obtain ⟨htc, htd⟩ := deref_dir_eq_val ht
    by_cases he : t.m_childs = []
    · rw [if_pos he]
      refine ⟨h, pruned_refl s, fun t' ht' => ?_⟩
      rw [htc] at ht'
      cases ht'
      exact he
    · rw [if_neg he]
      apply ends_bind (delete_tree_pass h htc htd he)
      · intro _ s1 ⟨h1, hp1, x, _, hx, hx'⟩
        have := live_count_pruned hp1 hx hx'
        exact ends_mono (ih s1 h1 (by omega))
          (fun _ _ hq => ⟨hq.1, pruned_trans hp1 hq.2.1, hq.2.2⟩)
          (fun _ hq => ⟨hq.1, pruned_trans hp1 hq.2⟩)
      · intro _ hq; exact hq

/-- Method `delete_tree` ends on every tree state, and leaves a tree state. -/
theorem delete_tree_ends (path : List Char) {s : File_system_emulator} (h : tree_state s) :
    (delete_tree path s).ends (fun _ s' => tree_state s' ∧ pruned s s')
      (fun s' => tree_state s' ∧ pruned s s') := by
  unfold delete_tree
  apply ends_read_bind (m_find_node_by_path_halts _ _)
  intro node_ptr _
  cases node_ptr with
  | none => exact ⟨h, pruned_refl s⟩
  | some target =>
    apply ends_read_bind (deref_halts _ _)
    intro nd _
    by_cases hd : nd.m_type ≠ NODE_TYPE.DIRECTORY
    · rw [if_pos hd]; exact ⟨h, pruned_refl s⟩
    · rw [if_neg hd]
      apply ends_read_bind (drive_root_halts _)
      intro drive _
      by_cases h1 : target = drive
      · rw [if_pos h1]; exact ⟨h, pruned_refl s⟩
      · rw [if_neg h1]
        by_cases h2 : target = s.m_curr_catalog
        · rw [if_pos h2]; exact ⟨h, pruned_refl s⟩
        · rw [if_neg h2]
          apply ends_bind (delete_tree_loop_ends target _ s h
            (Nat.lt_succ_of_le (live_count_le s)))
          · intro _ s1 ⟨hs1, hp1, hempty⟩
            apply ends_read_bind (deref_halts _ _)
            intro nd1 hnd1
            have hc1 := deref_eq_val hnd1
            cases hp : nd1.m_parent with
            | none => trivial
            | some parent =>
              simp only []
              apply ends_read_bind (deref_dir_halts _ _)
              intro pn hpn
              obtain ⟨hpc, hpd⟩ := deref_dir_eq_val hpn
              exact ends_mono
                (detach_and_delete_ends hs1 hc1 hp (Or.inr (hempty nd1 hc1)) hpc hpd)
                (fun _ _ hq => ⟨hq.1, pruned_trans hp1 hq.2.1⟩) (fun _ hq => hq.elim)
          · intro _ hq; exact hq
/-! ## Every node stays attached, no child list names a node twice -/

theorem attached_but_mono {s : File_system_emulator} {P P' : Nat → Prop}
    (h : attached_but s P) (hp : ∀ q, P q → P' q) : attached_but s P' :=
  fun n nd hn hnp => h n nd hn (fun hq => hnp (hp n hq))

theorem attached_of_but {s : File_system_emulator} (h : attached_but s (fun _ => False)) :
    attached s :=
  fun n nd hn => h n nd hn (fun h => h)

theorem attached_to_but {s : File_system_emulator} (h : attached s) (P : Nat → Prop) :
    attached_but s P :=
  fun n nd hn _ => h n nd hn

/-- Transfer of attachment to a state that keeps every child-list entry: a live node
outside `P'` either was attached before and has the same parent, or is in the
child list of its parent now. -/
theorem attached_but_transfer {s s' : File_system_emulator} {P P' : Nat → Prop}
    (ha : attached_but s P) (hroot : s'.m_root = s.m_root)
    (hkeep : ∀ p n, is_child s p n → is_child s' p n)
    (hcells : ∀ n nd', s'.heap.cell n = some nd' → ¬ P' n →
      (∃ nd, s.heap.cell n = some nd ∧ nd'.m_parent = nd.m_parent ∧ ¬ P n) ∨
      (∃ p, nd'.m_parent = some p ∧ is_child s' p n)) :
    attached_but s' P' := by
  intro n nd' hn hnp
  rcases hcells n nd' hn hnp with ⟨nd, h1, h2, h3⟩ | ⟨p, h1, h2⟩
  · obtain ⟨a1, a2⟩ := ha n nd h1 h3
    refine ⟨fun p hp => hkeep p n (a1 p (h2 ▸ hp)), fun hp => ?_⟩
    rcases a2 (h2 ▸ hp) with e | e
    · exact Or.inl (by rw [hroot]; exact e)
    · exact Or.inr (by rw [hroot]; exact hkeep _ n e)
  · refine ⟨fun p' hp' => ?_, fun hp' => ?_⟩
    · rw [h1] at hp'
      cases hp'
      exact h2
    · rw [h1] at hp'
      cases hp'

theorem is_child_store {s : File_system_emulator} {p : Nat} {old n : Node}
    (hp : s.heap.cell p = some old) (hty : n.m_type = old.m_type)
    (hch : ∀ c ∈ old.m_childs, c ∈ n.m_childs) {a c : Nat} (h : is_child s a c) :
    is_child (store s p n) a c := by
  obtain ⟨an, ha, had, ham⟩ := h
  by_cases hap : a = p
  · rw [hap] at ha ⊢
    rw [hp] at ha
    cases ha
    exact ⟨n, by rw [cell_store hp]; simp, hty.trans had, hch c ham⟩
  · exact ⟨an, by rw [cell_store hp]; simp [hap, ha], had, ham⟩

theorem is_child_alloc {s : File_system_emulator} (n : Node) {a c : Nat}
    (h : is_child s a c) : is_child (alloc s n).2 a c := by
  obtain ⟨an, ha, had, ham⟩ := h
  refine ⟨an, ?_, had, ham⟩
  rw [cell_alloc]
  have := cell_lt ha
  have hne : a ≠ s.heap.length := by omega
  simp [hne, ha]

/-- A freshly allocated node waits for its place in a child list. -/
theorem attached_but_alloc {s : File_system_emulator} {P : Nat → Prop}
    (ha : attached_but s P) (n : Node) :
    attached_but (alloc s n).2 (fun q => P q ∨ q = s.heap.length) := by
  refine attached_but_transfer ha ?_ (fun p c h => is_child_alloc n h) ?_
  · rfl
  intro q nd' hq hnp
  rw [cell_alloc] at hq
  by_cases hql : q = s.heap.length
  · exact absurd (Or.inr hql) hnp
  · simp only [hql, if_false] at hq
    exact Or.inl ⟨nd', hq, rfl, fun h => hnp (Or.inl h)⟩

theorem childs_nodup_alloc {s : File_system_emulator} (hn : childs_nodup s) {n : Node}
    (hch : n.m_childs = []) : childs_nodup (alloc s n).2 := by
  intro d dn hd
  rw [cell_alloc] at hd
  by_cases hdl : d = s.heap.length
  · simp only [hdl, if_true, Option.some.injEq] at hd
    rw [← hd, hch]
    exact List.nodup_nil
  · simp only [hdl, if_false] at hd
    exact hn d dn hd

/-- A store that keeps kind, parent and children keeps every node attached. -/
theorem attached_but_store {s : File_system_emulator} {P : Nat → Prop} {p : Nat}
    {old n : Node} (ha : attached_but s P) (hp : s.heap.cell p = some old)
    (hty : n.m_type = old.m_type) (hpar : n.m_parent = old.m_parent)
    (hch : n.m_childs = old.m_childs) : attached_but (store s p n) P := by
  refine attached_but_transfer ha ?_
    (fun a c h => is_child_store hp hty (fun x hx => hch ▸ hx) h) ?_
  · rfl
  intro q nd' hq hnp
  rw [cell_store hp] at hq
  by_cases hqp : q = p
  · simp only [hqp, if_true, Option.some.injEq] at hq
    rw [hqp]
    exact Or.inl ⟨old, hp, by rw [← hq]; exact hpar, by rw [← hqp]; exact hnp⟩
  · simp only [hqp, if_false] at hq
    exact Or.inl ⟨nd', hq, rfl, hnp⟩

theorem childs_nodup_store {s : File_system_emulator} (hn : childs_nodup s) {p : Nat}
    {old n : Node} (hp : s.heap.cell p = some old) (hch : n.m_childs.Nodup) :
    childs_nodup (store s p n) := by
  intro d dn hd
  rw [cell_store hp] at hd
  by_cases hdp : d = p
  · simp only [hdp, if_true, Option.some.injEq] at hd
    rw [← hd]
    exact hch
  · simp only [hdp, if_false] at hd
    exact hn d dn hd

/-- Pushing a waiting node on the child list of its parent attaches it. -/
theorem attached_but_push {s : File_system_emulator} {P : Nat → Prop} {d x : Nat}
    {dn xn : Node} (ha : attached_but s (fun q => P q ∨ q = x))
    (hd : s.heap.cell d = some dn) (hdir : dn.m_type = NODE_TYPE.DIRECTORY)
    (hx : s.heap.cell x = some xn) (hxp : xn.m_parent = some d) :
    attached_but (store s d { dn with m_childs := x :: dn.m_childs }) P := by
  have hd' : (store s d { dn with m_childs := x :: dn.m_childs }).heap.cell d
      = some { dn with m_childs := x :: dn.m_childs } := by
    rw [cell_store hd]; simp
  refine attached_but_transfer ha ?_
    (fun a c h => @is_child_store s d dn { dn with m_childs := x :: dn.m_childs } hd rfl
      (fun y hy => List.mem_cons_of_mem _ hy) a c h) ?_
  · rfl
  intro q nd' hq hnp
  by_cases hqx : q = x
  · right
    refine ⟨d, ?_, ⟨_, hd', hdir, by rw [hqx]; exact List.mem_cons_self _ _⟩⟩
    rw [cell_store hd] at hq
    by_cases hqd : q = d
    · simp only [hqd, if_true, Option.some.injEq] at hq
      rw [← hq]
      have : xn = dn := by
        rw [hqx] at hqd
        rw [hqd, hd] at hx
        exact (Option.some.inj hx).symm
      rw [← this]
      exact hxp
    · simp only [hqd, if_false] at hq
      rw [hqx, hx] at hq
      cases hq
      exact hxp
  · left
    rw [cell_store hd] at hq
    by_cases hqd : q = d
    · simp only [hqd, if_true, Option.some.injEq] at hq
      rw [hqd]
      exact ⟨dn, hd, by rw [← hq], fun h => by
        rcases h with h | h
        · exact hnp (hqd ▸ h)
        · exact hqx (hqd.trans h)⟩
    · simp only [hqd, if_false] at hq
      exact ⟨nd', hq, rfl, fun h => by
        rcases h with h | h
        · exact hnp h
        · exact hqx h⟩

theorem childs_nodup_push {s : File_system_emulator} (hn : childs_nodup s) {d x : Nat}
    {dn : Node} (hd : s.heap.cell d = some dn) (hfresh : x ∉ dn.m_childs) :
    childs_nodup (store s d { dn with m_childs := x :: dn.m_childs }) :=
  childs_nodup_store hn hd (List.nodup_cons.mpr ⟨hfresh, hn d dn hd⟩)

theorem attached_of_same_shape {s s' : File_system_emulator} {P : Nat → Prop}
    (ha : attached_but s P) (h : same_shape s s') : attached_but s' P := by
  refine attached_but_transfer ha h.1 ?_ ?_
  · intro p n ⟨pn, hp, hpd, hm⟩
    rcases h.2.2 p with ⟨a1, _⟩ | ⟨nd, nd', a1, a2, a3, _, a5⟩
    · rw [hp] at a1; cases a1
    · rw [hp] at a1; cases a1
      exact ⟨nd', a2, a3.trans hpd, a5 ▸ hm⟩
  · intro n nd' hn hnp
    rcases h.2.2 n with ⟨_, a2⟩ | ⟨nd, nd0, a1, a2, _, a4, _⟩
    · rw [hn] at a2; cases a2
    · rw [hn] at a2; cases a2
      exact Or.inl ⟨nd, a1, a4, hnp⟩

theorem childs_nodup_of_same_shape {s s' : File_system_emulator} (hn : childs_nodup s)
    (h : same_shape s s') : childs_nodup s' := by
  intro d dn' hd
  rcases h.2.2 d with ⟨_, a2⟩ | ⟨nd, nd0, a1, a2, _, _, a5⟩
  · rw [hd] at a2; cases a2
  · rw [hd] at a2; cases a2
    rw [a5]
    exact hn d nd a1

theorem tidy_reordered {s s' : File_system_emulator} (ha : attached s)
    (hn : childs_nodup s) (h : reordered s s') : attached s' ∧ childs_nodup s' := by
  constructor
  · apply attached_of_but
    refine attached_but_transfer (attached_to_but ha (fun _ => False)) h.1 ?_ ?_
    · intro p n ⟨pn, hp, hpd, hm⟩
      rcases h.2.2.2 p with ⟨a1, _⟩ | ⟨nd, l, a1, a2, a3⟩
      · rw [hp] at a1; cases a1
      · rw [hp] at a1; cases a1
        exact ⟨_, a2, hpd, a3.mem_iff.mpr hm⟩
    · intro n nd' hn' hnp
      rcases h.2.2.2 n with ⟨_, a2⟩ | ⟨nd, l, a1, a2, _⟩
      · rw [hn'] at a2; cases a2
      · rw [hn'] at a2; cases a2
        exact Or.inl ⟨nd, a1, rfl, hnp⟩
  · intro d dn' hd
    rcases h.2.2.2 d with ⟨_, a2⟩ | ⟨nd, l, a1, a2, a3⟩
    · rw [hd] at a2; cases a2
    · rw [hd] at a2; cases a2
      exact a3.nodup_iff.mpr (hn d nd a1)

/-! ### Creation, linking, the current directory -/

theorem m_make_node_tidy (path name : List Char) (type : NODE_TYPE)
    {s : File_system_emulator} (hw : well_formed s) (ha : attached s) (hn : childs_nodup s) :
    (m_make_node path name type s).post (fun _ s' => attached s' ∧ childs_nodup s')
      (fun s' => attached s' ∧ childs_nodup s') := by
  unfold m_make_node
  apply post_read_bind
  intro node_ptr _
  cases node_ptr with
  | none => exact ⟨ha, hn⟩
  | some parent_dir =>
    apply post_read_bind
    intro nd hnd
    have hc := deref_eq_val hnd
    by_cases hd : nd.m_type ≠ NODE_TYPE.DIRECTORY
    · rw [if_pos hd]; exact ⟨ha, hn⟩
    · rw [if_neg hd]
      have hdir : nd.m_type = NODE_TYPE.DIRECTORY := not_not.mp hd
      apply post_read_bind
      intro r _
      cases r with
      | nothing => exact ⟨ha, hn⟩
      | blocked_by_file => exact ⟨ha, hn⟩
      | blocked_by_directory => exact ⟨ha, hn⟩
      | create =>
        have hlt := cell_lt hc
        have hne : parent_dir ≠ s.heap.length := by omega
        have hd1 : (alloc s ⟨some parent_dir, type, name, [], [], []⟩).2.heap.cell parent_dir
            = some nd := by
          rw [cell_alloc]; simp [hne, hc]
        have hnew := cell_alloc_new s ⟨some parent_dir, type, name, [], [], []⟩
        constructor
        · exact attached_of_but (attached_but_push
            (attached_but_alloc (attached_to_but ha _) _) hd1 hdir hnew rfl)
        · apply childs_nodup_push (childs_nodup_alloc hn rfl) hd1
          intro hmem
          obtain ⟨cn, hcn⟩ := children_live hw hc hdir _ hmem
          have := cell_lt hcn
          simp [alloc] at this

theorem m_make_link_tidy (source dest name : List Char) (type : NODE_TYPE)
    {s : File_system_emulator} (hw : well_formed s) (ha : attached s) (hn : childs_nodup s) :
    (m_make_link source dest name type s).post (fun _ s' => attached s' ∧ childs_nodup s')
      (fun s' => attached s' ∧ childs_nodup s') := by
  unfold m_make_link
  apply post_read_bind
  intro source_ptr _
  cases source_ptr with
  | none => exact ⟨ha, hn⟩
  | some src =>
    apply post_bind (m_make_node_tidy dest name type hw ha hn)
    intro link s1 ⟨ha1, hn1⟩
    cases link with
    | none => exact ⟨ha1, hn1⟩
    | some l =>
      apply post_read_bind
      intro ln _
      apply post_read_bind
      intro linked hlinked
      have hc := deref_linked_eq_val hlinked
      have key : ∀ n : Node, n.m_type = linked.m_type → n.m_parent = linked.m_parent →
          n.m_childs = linked.m_childs →
          attached (store s1 src n) ∧ childs_nodup (store s1 src n) := by
        intro n h1 h2 h3
        exact ⟨attached_of_but (attached_but_store (attached_to_but ha1 _) hc h1 h2 h3),
          childs_nodup_store hn1 hc (h3 ▸ hn1 src linked hc)⟩
      by_cases hh : ln.m_type = NODE_TYPE.HLINK
      · rw [if_pos hh]; exact key _ rfl rfl rfl
      · rw [if_neg hh]; exact key _ rfl rfl rfl

theorem change_dir_tidy (path : List Char) {s : File_system_emulator} (ha : attached s)
    (hn : childs_nodup s) :
    (change_dir path s).post (fun _ s' => attached s' ∧ childs_nodup s')
      (fun s' => attached s' ∧ childs_nodup s') := by
  unfold change_dir
  apply post_read_bind
  intro node_ptr _
  cases node_ptr with
  | none => exact ⟨ha, hn⟩
  | some p =>
    apply post_read_bind
    intro nd _
    by_cases hd : nd.m_type ≠ NODE_TYPE.DIRECTORY
    · rw [if_pos hd]; exact ⟨ha, hn⟩
    · rw [if_neg hd]; exact ⟨ha, hn⟩

/-! ### Removal -/

theorem remove_dir_tidy (path : List Char) {s : File_system_emulator} (h : tree_state s) :
    (remove_dir path s).post (fun _ s' => tree_state s') tree_state := by
  unfold remove_dir
  apply post_read_bind
  intro node_ptr _
  cases node_ptr with
  | none => exact h
  | some p =>
    apply post_read_bind
    intro nd hnd
    by_cases hd : nd.m_type ≠ NODE_TYPE.DIRECTORY
    · rw [if_pos hd]; exact h
    · rw [if_neg hd]
      apply post_read_bind
      intro drive _
      by_cases h1 : p = drive
      · rw [if_pos h1]; exact h
      · rw [if_neg h1]
        by_cases h2 : p = s.m_curr_catalog
        · rw [if_pos h2]; exact h
        · rw [if_neg h2]
          by_cases h3 : nd.m_childs ≠ []
          · rw [if_pos h3]; exact h
          · rw [if_neg h3]
            refine post_mono (ends_post (m_remove_node_ends p h (fun nd' hc => ?_)))
              (fun _ _ hq => hq.1) (fun _ hq => hq ▸ h)
            rw [deref_eq_val hnd] at hc
            cases hc
            exact Or.inr (not_not.mp h3)

theorem remove_file_tidy (path : List Char) {s : File_system_emulator} (h : tree_state s) :
    (remove_file path s).post (fun _ s' => tree_state s') tree_state := by
  unfold remove_file
  apply post_read_bind
  intro node_ptr _
  cases node_ptr with
  | none => exact h
  | some p =>
    apply post_read_bind
    intro nd hnd
    by_cases hd : nd.m_type = NODE_TYPE.DIRECTORY
    · rw [if_pos hd]; exact h
    · rw [if_neg hd]
      refine post_mono (ends_post (m_remove_node_ends p h (fun nd' hc => ?_)))
        (fun _ _ hq => hq.1) (fun _ hq => hq ▸ h)
      rw [deref_eq_val hnd] at hc
      cases hc
      exact Or.inl hd
/-! ### Copying -/

theorem m_copy_link_tidy (type : NODE_TYPE) (name : List Char) (destination : Nat)
    {s : File_system_emulator} {P : Nat → Prop} (hw : well_formed s)
    (hdl : destination < s.heap.length) (ha : attached_but s P) (hn : childs_nodup s) :
    (m_copy_link type name destination s).post
      (fun _ s' => attached_but s' P ∧ childs_nodup s') (fun _ => False) := by
  unfold m_copy_link
  simp only []
  have hnew := cell_alloc_new s ⟨some destination, type, name, [], [], []⟩
  have ha1 := attached_but_alloc ha ⟨some destination, type, name, [], [], []⟩
  have hn1 : childs_nodup (alloc s ⟨some destination, type, name, [], [], []⟩).2 :=
    childs_nodup_alloc hn rfl
  have hne : destination ≠ s.heap.length := by omega
  apply post_read_bind
  intro target _
  cases target with
  | none => trivial
  | some t =>
    apply post_read_bind
    intro linked hlinked
    have hc := deref_linked_eq_val hlinked
    have key : ∀ n : Node, n.m_type = linked.m_type → n.m_parent = linked.m_parent →
        n.m_childs = linked.m_childs →
        (push_child destination (alloc s ⟨some destination, type, name, [], [], []⟩).1
          (store (alloc s ⟨some destination, type, name, [], [], []⟩).2 t n)).post
          (fun _ s' => attached_but s' P ∧ childs_nodup s') (fun _ => False) := by
      intro n h1 h2 h3
      have hss := same_shape_store hc h1 h2 h3
      obtain ⟨ln, hl1, hl2⟩ : ∃ ln, (store (alloc s
          ⟨some destination, type, name, [], [], []⟩).2 t n).heap.cell
          (alloc s ⟨some destination, type, name, [], [], []⟩).1 = some ln ∧
          ln.m_parent = some destination := by
        rcases hss.2.2 (alloc s ⟨some destination, type, name, [], [], []⟩).1 with
          ⟨e, _⟩ | ⟨nd, nd', e1, e2, _, e4, _⟩
        · rw [hnew] at e; cases e
        · rw [hnew] at e1; cases e1
          exact ⟨nd', e2, e4⟩
      unfold push_child
      apply post_read_bind
      intro dn hdn
      obtain ⟨hd, hdir⟩ := deref_dir_eq_val hdn
      have ha2 := attached_but_store ha1 hc h1 h2 h3
      have hn2 := childs_nodup_store hn1 hc (h3 ▸ hn1 t linked hc)
      refine ⟨attached_but_push ha2 hd hdir hl1 hl2, childs_nodup_push hn2 hd ?_⟩
      intro hmem
      rcases hss.2.2 destination with ⟨_, e2⟩ | ⟨nd, nd', e1, e2, e3, _, e5⟩
      · rw [hd] at e2; cases e2
      · rw [hd] at e2; cases e2
        rw [cell_alloc] at e1
        simp only [hne, if_false] at e1
        obtain ⟨cn, hcn⟩ := children_live hw e1 (e3 ▸ hdir) _ (e5 ▸ hmem)
        have := cell_lt hcn
        simp [alloc] at this
    by_cases hh : type = NODE_TYPE.HLINK
    · rw [if_pos hh]; exact key _ rfl rfl rfl
    · rw [if_neg hh]; exact key _ rfl rfl rfl

/-- Method `m_copy` keeps every node attached: the copy of a directory waits, while its
children are copied, for its place in the destination. -/
theorem m_copy_tidy : ∀ (fuel source destination : Nat) (s : File_system_emulator)
    (P : Nat → Prop), well_formed s → destination < s.heap.length →
      destination ≠ s.m_root → attached_but s P → childs_nodup s →
      (m_copy fuel source destination s).post
        (fun _ s' => attached_but s' P ∧ childs_nodup s') (fun _ => False) := by
  intro fuel
  induction fuel with
  | zero => intro _ _ s _ _ _ _ _ _; trivial
  | succ fuel ih =>
    intro source destination s P hw hdl hdr ha hn
    have hne : destination ≠ s.heap.length := by omega
    unfold m_copy
    apply post_read_bind
    intro src _
    cases hty : src.m_type with
    | FILE =>
      simp only []
      have hnew := cell_alloc_new s ⟨some destination, NODE_TYPE.FILE, src.m_name, [], [], []⟩
      unfold push_child
      apply post_read_bind
      intro dn hdn
      obtain ⟨hd, hdir⟩ := deref_dir_eq_val hdn
      refine ⟨attached_but_push (attached_but_alloc ha _) hd hdir hnew rfl,
        childs_nodup_push (childs_nodup_alloc hn rfl) hd ?_⟩
      intro hmem
      rw [cell_alloc] at hd
      simp only [hne, if_false] at hd
      obtain ⟨cn, hcn⟩ := children_live hw hd hdir _ hmem
      have := cell_lt hcn
      simp [alloc] at this
    | HLINK => exact m_copy_link_tidy _ _ _ hw hdl ha hn
    | DLINK => exact m_copy_link_tidy _ _ _ hw hdl ha hn
    | DIRECTORY =>
      simp only []
      have hw1 : well_formed
          (alloc s ⟨some destination, NODE_TYPE.DIRECTORY, src.m_name, [], [], []⟩).2 :=
        well_formed_alloc hw rfl (by simpa using hdr)
      have hnew := cell_alloc_new s
        ⟨some destination, NODE_TYPE.DIRECTORY, src.m_name, [], [], []⟩
      have hrl := root_lt hw
      have ha1 := attached_but_alloc ha
        ⟨some destination, NODE_TYPE.DIRECTORY, src.m_name, [], [], []⟩
      have hn1 : childs_nodup
          (alloc s ⟨some destination, NODE_TYPE.DIRECTORY, src.m_name, [], [], []⟩).2 :=
        childs_nodup_alloc hn rfl
      apply post_bind
        (for_each_returns
          (fun s' => (well_formed s' ∧
            grows (alloc s ⟨some destination, NODE_TYPE.DIRECTORY, src.m_name, [], [], []⟩).2 s') ∧
            attached_but s' (fun q => P q ∨ q = s.heap.length) ∧ childs_nodup s')
          _ (fun x s1 h1 => by
            have hlt : (alloc s ⟨some destination, NODE_TYPE.DIRECTORY, src.m_name,
                [], [], []⟩).1 < s1.heap.length := by
              have := h1.1.2.1
              simp [alloc] at this ⊢
              omega
            have hroot : (alloc s ⟨some destination, NODE_TYPE.DIRECTORY, src.m_name,
                [], [], []⟩).1 ≠ s1.m_root := by
              rw [h1.1.2.2.1]
              simp [alloc]
              omega
            exact post_mono
              (post_and (m_copy_wf fuel x _ s1 h1.1.1 hlt hroot)
                (ih x _ s1 _ h1.1.1 hlt hroot h1.2.1 h1.2.2))
              (fun _ s' h => ⟨⟨h.1.1, grows_trans h1.1.2 h.1.2⟩, h.2⟩) (fun _ h => h.1))
          src.m_childs _ ⟨⟨hw1, grows_refl _⟩, ha1, hn1⟩)
      intro _ s2 ⟨⟨hw2, hg2⟩, ha2, hn2⟩
      obtain ⟨dn2, hd2, _, hd2p⟩ := hg2.2.2.1 _ _ hnew
      unfold push_child
      apply post_read_bind
      intro dn hdn
      obtain ⟨hd, hdir⟩ := deref_dir_eq_val hdn
      refine ⟨attached_but_push ha2 hd hdir hd2 hd2p, childs_nodup_push hn2 hd ?_⟩
      intro hmem
      obtain ⟨xn, hx, hxd, hxm⟩ := hg2.2.2.2 destination dn hd hdir _ hmem (by simp [alloc])
      rw [cell_alloc] at hx
      simp only [hne, if_false] at hx
      obtain ⟨cn, hcn⟩ := children_live hw hx hxd _ hxm
      have := cell_lt hcn
      simp [alloc] at this

theorem copy_tidy (source dest : List Char) {s : File_system_emulator} (hw : well_formed s)
    (ha : attached s) (hn : childs_nodup s) :
    (copy source dest s).post (fun _ s' => attached s' ∧ childs_nodup s')
      (fun s' => attached s' ∧ childs_nodup s') := by
  unfold copy
  apply post_read_bind
  intro source_ptr _
  cases source_ptr with
  | none => exact ⟨ha, hn⟩
  | some src =>
    apply post_read_bind
    intro dest_ptr hdest
    cases dest_ptr with
    | none => exact ⟨ha, hn⟩
    | some dst =>
      apply post_read_bind
      intro dn hdn
      by_cases hd : dn.m_type ≠ NODE_TYPE.DIRECTORY
      · rw [if_pos hd]; exact ⟨ha, hn⟩
      · rw [if_neg hd]
        exact post_mono (m_copy_tidy _ src dst s (fun _ => False) hw
          (cell_lt (deref_eq_val hdn)) (find_ne_root hw hdest) (attached_to_but ha _) hn)
          (fun _ _ h => ⟨attached_of_but h.1, h.2⟩) (fun _ h => h.elim)

/-! ### Moving -/

/-- The state after the three stores of `move` keeps every node attached and names no
child twice. -/
theorem tidy_moved {s s3 : File_system_emulator} (hw : well_formed s) (ha : attached s)
    (hn : childs_nodup s) {a b p : Nat} {an bn : Node}
    (hac : s.heap.cell a = some an) (hap : an.m_parent = some p)
    (hb : s.heap.cell b = some bn) (hbd : bn.m_type = NODE_TYPE.DIRECTORY)
    (hcells : ∀ q, s3.heap.cell q = (s.heap.cell q).map (moved_cell a b p q))
    (hr : s3.m_root = s.m_root) : attached s3 ∧ childs_nodup s3 := by
  have hfwd : ∀ q nd, s.heap.cell q = some nd →
      s3.heap.cell q = some (moved_cell a b p q nd) := by
    intro q nd hq
    rw [hcells, hq]; rfl
  have hback : ∀ q nd', s3.heap.cell q = some nd' →
      ∃ nd, s.heap.cell q = some nd ∧ nd' = moved_cell a b p q nd := by
    intro q nd' hq
    rw [hcells] at hq
    cases hc : s.heap.cell q with
    | none => rw [hc] at hq; cases hq
    | some nd =>
      rw [hc] at hq
      exact ⟨nd, rfl, (Option.some.inj hq).symm⟩
  have hkeep : ∀ d n, n ≠ a → is_child s d n → is_child s3 d n := by
    intro d n hna ⟨dn, hd, hdd, hm⟩
    refine ⟨_, hfwd d dn hd, hdd, ?_⟩
    show n ∈ (if d = b then [a] else []) ++
      (if d = p then list_remove dn.m_childs a else dn.m_childs)
    apply List.mem_append_right
    by_cases hdp : d = p
    · rw [if_pos hdp]
      unfold list_remove
      exact List.mem_filter.mpr ⟨hm, by simpa using hna⟩
    · rw [if_neg hdp]; exact hm
  constructor
  · intro n nd' hn'
    obtain ⟨nd, hc, rfl⟩ := hback n nd' hn'
    by_cases hna : n = a
    · refine ⟨fun p' hp' => ?_, fun hp' => ?_⟩
      · have : (moved_cell a b p n nd).m_parent = some b := by simp [moved_cell, hna]
        rw [this] at hp'
        cases hp'
        refine ⟨_, hfwd b bn hb, hbd, ?_⟩
        show n ∈ (if b = b then [a] else []) ++ _
        rw [if_pos rfl, hna]
        exact List.mem_append_left _ (List.mem_cons_self _ _)
      · have : (moved_cell a b p n nd).m_parent = some b := by simp [moved_cell, hna]
        rw [this] at hp'
        cases hp'
    · have hpar : (moved_cell a b p n nd).m_parent = nd.m_parent := by simp [moved_cell, hna]
      obtain ⟨a1, a2⟩ := ha n nd hc
      refine ⟨fun p' hp' => hkeep p' n hna (a1 p' (hpar ▸ hp')), fun hp' => ?_⟩
      rcases a2 (hpar ▸ hp') with e | e
      · exact Or.inl (by rw [hr]; exact e)
      · exact Or.inr (by rw [hr]; exact hkeep _ n hna e)
  · intro d dn' hd
    obtain ⟨dn, hc, rfl⟩ := hback d dn' hd
    show ((if d = b then [a] else []) ++
      (if d = p then list_remove dn.m_childs a else dn.m_childs)).Nodup
    have hsnd : (if d = p then list_remove dn.m_childs a else dn.m_childs).Nodup := by
      by_cases hdp : d = p
      · rw [if_pos hdp]; exact (hn d dn hc).sublist (List.filter_sublist _)
      · rw [if_neg hdp]; exact hn d dn hc
    by_cases hdb : d = b
    · rw [if_pos hdb]
      apply List.nodup_cons.mpr
      refine ⟨?_, hsnd⟩
      by_cases hdp : d = p
      · rw [if_pos hdp]
        intro hmem
        unfold list_remove at hmem
        have := (List.mem_filter.mp hmem).2
        simp at this
      · rw [if_neg hdp]
        intro hmem
        rw [hdb, hb] at hc
        cases hc
        have h1 : is_child s b a := ⟨_, hb, hbd, hmem⟩
        have h2 : is_child s p a := (ha a an hac).1 p hap
        exact hdp (hdb.trans (lister_unique hw h1 h2))
    · rw [if_neg hdb]
      exact hsnd

/-- When the moved node heads a tree after the three stores of `move`, its new
directory was not inside its subtree. -/
theorem moved_apart {s s3 : File_system_emulator} (hw : well_formed s) {a b p K : Nat}
    {an bn : Node} (hac : s.heap.cell a = some an)
    (hb : s.heap.cell b = some bn) (hbd : bn.m_type = NODE_TYPE.DIRECTORY)
    (hcells : ∀ q, s3.heap.cell q = (s.heap.cell q).map (moved_cell a b p q))
    (htree : tree_within s3 K a = true) : ¬ in_subtree s a b := by
  intro hsub
  have hfwd : ∀ q nd, s.heap.cell q = some nd →
      s3.heap.cell q = some (moved_cell a b p q nd) := by
    intro q nd hq
    rw [hcells, hq]; rfl
  have key : ∀ x, in_subtree s a x → in_subtree s3 a x := by
    intro x hx
    induction hx with
    | refl => exact Relation.ReflTransGen.refl
    | tail hy hstep ih =>
      rename_i y z
      have hza : z ≠ a := by
        intro e
        exact well_formed_acyclic hw hac (Relation.TransGen.tail' hy (e ▸ hstep))
      obtain ⟨yn, hyc, hyd, hm⟩ := hstep
      refine Relation.ReflTransGen.tail ih ⟨_, hfwd y yn hyc, hyd, ?_⟩
      show z ∈ (if y = b then [a] else []) ++
        (if y = p then list_remove yn.m_childs a else yn.m_childs)
      apply List.mem_append_right
      by_cases hyp : y = p
      · rw [if_pos hyp]
        unfold list_remove
        exact List.mem_filter.mpr ⟨hm, by simpa using hza⟩
      · rw [if_neg hyp]; exact hm
  have hba : is_child s3 b a := by
    refine ⟨_, hfwd b bn hb, hbd, ?_⟩
    show a ∈ (if b = b then [a] else []) ++ _
    rw [if_pos rfl]
    exact List.mem_append_left _ (List.mem_cons_self _ _)
  exact tree_within_acyclic s3 K a htree (Relation.TransGen.tail' (key b hsub) hba)

/-- Method `move` keeps every node attached, and when it changes the state the
destination was not inside the subtree of the source. -/
theorem move_tidy (source dest : List Char) {s : File_system_emulator} (hw : well_formed s)
    (ha : attached s) (hn : childs_nodup s) :
    (move source dest s).post
      (fun _ s' => (attached s' ∧ childs_nodup s') ∧
        (s' = s ∨ ∀ a b, m_find_node_by_path source s = .val (some a) →
          m_find_node_by_path dest s = .val (some b) → ¬ in_subtree s a b))
      (fun s' => attached s' ∧ childs_nodup s') := by
  unfold move
  apply post_read_bind
  intro source_ptr hsrc
  cases source_ptr with
  | none => exact ⟨ha, hn⟩
  | some src =>
    apply post_read_bind
    intro dest_ptr hdst
    cases dest_ptr with
    | none => exact ⟨ha, hn⟩
    | some dst =>
      apply post_read_bind
      intro dn hdn
      have hb := deref_eq_val hdn
      by_cases hd : dn.m_type ≠ NODE_TYPE.DIRECTORY
      · rw [if_pos hd]; exact ⟨ha, hn⟩
      · rw [if_neg hd]
        have hbd : dn.m_type = NODE_TYPE.DIRECTORY := not_not.mp hd
        apply post_read_bind
        intro nothing_to_do hnt
        cases nothing_to_do with
        | true => exact ⟨⟨ha, hn⟩, Or.inl rfl⟩
        | false =>
          have hab : src ≠ dst := by
            intro e
            rw [if_pos e.symm] at hnt
            cases hnt
          simp only [Bool.false_eq_true, if_false]
          apply post_read_bind
          intro sn hsn
          have hac := deref_eq_val hsn
          apply post_read_bind
          intro attached _
          cases attached with
          | true => exact ⟨ha, hn⟩
          | false =>
            simp only [Bool.false_eq_true, if_false]
            cases hp : sn.m_parent with
            | none => trivial
            | some source_parent =>
              simp only []
              apply post_read_bind
              intro pn hpn
              obtain ⟨hpc, _⟩ := deref_dir_eq_val hpn
              apply post_bind (post_mono (push_child_post dst src _) (fun _ _ h => h)
                (fun _ h => h.elim))
              intro _ s2 ⟨dn1, hb1, hs2⟩
              subst hs2
              apply post_read_bind
              intro sn2 hsn2
              have ha2 := deref_eq_val hsn2
              refine post_mono (m_update_links_shape _ _ _) (fun _ s' h => ?_)
                (fun _ h => h.elim)
              have hcells := move_stores_cell hab hpc hb1 ha2
              have ht := tidy_moved hw ha hn hac hp hb hbd hcells rfl
              refine ⟨⟨attached_of_but (attached_of_same_shape (attached_to_but ht.1 _) h.1),
                childs_nodup_of_same_shape ht.2 h.1⟩, Or.inr (fun a b h1 h2 => ?_)⟩
              rw [hsrc] at h1
              rw [hdst] at h2
              cases h1
              cases h2
              exact moved_apart hw hac hb hbd hcells h.2

/-! ### Every reachable state is a tree state -/

theorem exec_tidy (c : Call) {s : File_system_emulator} (h : tree_state s) :
    (c.exec s).post (fun _ s' => attached s' ∧ childs_nodup s')
      (fun s' => attached s' ∧ childs_nodup s') := by
  obtain ⟨hw, hi, ha, hn⟩ := h
  cases c with
  | make_dir p =>
    show (make_dir p s).post _ _
    unfold make_dir
    exact post_bind (m_make_node_tidy _ _ _ hw ha hn) (fun _ _ h => h)
  | make_file p =>
    show (make_file p s).post _ _
    unfold make_file
    exact post_bind (m_make_node_tidy _ _ _ hw ha hn) (fun _ _ h => h)
  | make_hlink a b =>
    show (make_hlink a b s).post _ _
    unfold make_hlink
    exact post_read_bind (fun _ _ => m_make_link_tidy _ _ _ _ hw ha hn)
  | make_dlink a b =>
    show (make_dlink a b s).post _ _
    unfold make_dlink
    exact post_read_bind (fun _ _ => m_make_link_tidy _ _ _ _ hw ha hn)
  | change_dir p => exact change_dir_tidy p ha hn
  | remove_dir p =>
    exact post_mono (remove_dir_tidy p ⟨hw, hi, ha, hn⟩) (fun _ _ h => h.2.2) (fun _ h => h.2.2)
  | remove_file p =>
    exact post_mono (remove_file_tidy p ⟨hw, hi, ha, hn⟩) (fun _ _ h => h.2.2)
      (fun _ h => h.2.2)
  | copy a b => exact copy_tidy a b hw ha hn
  | move a b => exact post_mono (move_tidy a b hw ha hn) (fun _ _ h => h.1) (fun _ h => h)
  | delete_tree p =>
    exact post_mono (ends_post (delete_tree_ends p ⟨hw, hi, ha, hn⟩)) (fun _ _ h => h.1.2.2)
      (fun _ h => h.1.2.2)
  | print =>
    show ((print s).bind fun _ s1 => Result.ok () s1).post _ _
    exact post_bind (post_mono (print_reordered s) (fun _ _ h => tidy_reordered ha hn h)
      (fun _ h => h.elim)) (fun _ _ h => h)

theorem tree_state_init : tree_state init := by
  refine ⟨well_formed_init, registries_typed_init, ?_, ?_⟩
  · intro n nd hn
    have hcases : (n = 0 ∧ nd = ⟨none, NODE_TYPE.DIRECTORY, DRIVE, [], [], []⟩) ∨
        (n = 1 ∧ nd = ⟨none, NODE_TYPE.DIRECTORY, [], [], [], [0]⟩) := by
      match n, hn with
      | 0, hn => left; simp [init, Heap.cell] at hn; exact ⟨rfl, hn.symm⟩
      | 1, hn => right; simp [init, Heap.cell] at hn; exact ⟨rfl, hn.symm⟩
      | k + 2, hn => simp [init, Heap.cell] at hn
    rcases hcases with ⟨rfl, rfl⟩ | ⟨rfl, rfl⟩
    · refine ⟨fun p hp => (by cases hp), fun _ => Or.inr ?_⟩
      exact ⟨⟨none, NODE_TYPE.DIRECTORY, [], [], [], [0]⟩, by decide, rfl, by decide⟩
    · exact ⟨fun p hp => (by cases hp), fun _ => Or.inl rfl⟩
  · intro d dn hd
    match d, hd with
    | 0, hd => simp [init, Heap.cell] at hd; rw [← hd]; exact List.nodup_nil
    | 1, hd => simp [init, Heap.cell] at hd; rw [← hd]; simp
    | k + 2, hd => simp [init, Heap.cell] at hd

theorem exec_tree_state (c : Call) {s : File_system_emulator} (h : tree_state s) :
    (c.exec s).post (fun _ s' => tree_state s') tree_state :=
  post_mono (post_and (exec_wf c h.1 h.2.1) (exec_tidy c h))
    (fun _ _ h => ⟨h.1.1, h.1.2, h.2.1, h.2.2⟩) (fun _ h => ⟨h.1.1, h.1.2, h.2.1, h.2.2⟩)

/-- Every reachable state is a tree state. -/
theorem reachable_tree_state {s : File_system_emulator} (h : Reachable s) : tree_state s := by
  induction h with
  | init => exact tree_state_init
  | ok c s s' _ hexec ih =>
    have := exec_tree_state c ih
    rw [hexec] at this
    exact this
  | raised c e s s' _ hexec ih =>
    have := exec_tree_state c ih
    rw [hexec] at this
    exact this

/-! ## Parent references lead to the drive -/

/-- In a tree state the only child of the super-root is the drive. -/
theorem root_child_is_drive {s : File_system_emulator} (hw : well_formed s) {n : Nat}
    (h : is_child s s.m_root n) : drive_root s = .val n := by
  obtain ⟨rn, drive, dn, h1, h2, _, h4, _⟩ := hw.1
  obtain ⟨rn', hr, _, hm⟩ := h
  rw [h1] at hr
  cases hr
  rw [h4] at hm
  simp at hm
  subst hm
  simp [drive_root, deref_dir, h1, h2, h4, Read.andThen]

/-- The parent of an attached node heads a tree one level higher. -/
theorem parent_higher {s : File_system_emulator} {p n j : Nat} (hc : is_child s p n)
    (hn : tree_within s j n = false) : tree_within s (j + 1) p = false := by
  cases h : tree_within s (j + 1) p with
  | false => rfl
  | true =>
    rw [tree_within_child s h hc] at hn
    cases hn

/-- Following parent references from a live node other than the super-root reaches the
drive: a node whose subtree has more than `len - g` levels is at most `g` steps
below it. -/
theorem ancestor_reaches_drive_aux {s : File_system_emulator} (hw : well_formed s)
    (ha : attached s) :
    ∀ (g n : Nat) (nd : Node), s.heap.cell n = some nd → n ≠ s.m_root →
      tree_within s (s.heap.length - g) n = false →
      ∃ k drive, k ≤ g ∧ drive_root s = .val drive ∧ ancestor s k n = some drive := by
  intro g
  induction g with
  | zero =>
    intro n nd hn hnr hdeep
    obtain ⟨a1, a2⟩ := ha n nd hn
    cases hp : nd.m_parent with
    | none =>
      rcases a2 hp with e | e
      · exact absurd e hnr
      · exact ⟨0, n, Nat.le_refl _, root_child_is_drive hw e, rfl⟩
    | some p =>
      exfalso
      have hc := a1 p hp
      obtain ⟨pn, hpc, _, _⟩ := a1 p hp
      have := parent_higher hc hdeep
      rw [Nat.sub_zero, all_trees_heap hw hpc] at this
      cases this
  | succ g ih =>
    intro n nd hn hnr hdeep
    obtain ⟨a1, a2⟩ := ha n nd hn
    cases hp : nd.m_parent with
    | none =>
      rcases a2 hp with e | e
      · exact absurd e hnr
      · exact ⟨0, n, Nat.zero_le _, root_child_is_drive hw e, rfl⟩
    | some p =>
      have hc := a1 p hp
      obtain ⟨pn, hpc, _, _⟩ := a1 p hp
      have hpr : p ≠ s.m_root := fun e => hw.2.2.1.2 n nd hn (e ▸ hp)
      have hdeep' : tree_within s (s.heap.length - g) p = false := by
        by_cases hlt : g < s.heap.length
        · have := parent_higher hc hdeep
          have e : s.heap.length - (g + 1) + 1 = s.heap.length - g := by omega
          rw [e] at this
          exact this
        · have e : s.heap.length - g = 0 := by omega
          rw [e]
          rfl
      obtain ⟨k, drive, hk, hd, hanc⟩ := ih p pn hpc hpr hdeep'
      refine ⟨k + 1, drive, by omega, hd, ?_⟩
      rw [ancestor]
      simp only [hn, hp]
      exact hanc

theorem ancestor_reaches_drive {s : File_system_emulator} (hw : well_formed s)
    (ha : attached s) {n : Nat} {nd : Node} (hn : s.heap.cell n = some nd)
    (hnr : n ≠ s.m_root) :
    ∃ k drive, k ≤ s.heap.length ∧ drive_root s = .val drive ∧ ancestor s k n = some drive :=
  ancestor_reaches_drive_aux hw ha s.heap.length n nd hn hnr (by rw [Nat.sub_self]; rfl)

/-- The loop of `m_to_absolute_path` returns from a live directory of a tree state when
the fuel covers the levels above it. -/
theorem m_to_absolute_path_loop_returns {s : File_system_emulator} (hw : well_formed s)
    (ha : attached s) :
    ∀ (g dir : Nat) (dn : Node) (fuel : Nat) (acc : List Char),
      s.heap.cell dir = some dn → dn.m_type = NODE_TYPE.DIRECTORY →
      tree_within s (s.heap.length - g) dir = false → g < fuel →
      ∃ v, m_to_absolute_path_loop s fuel (some dir) acc = .val v := by
  intro g
  induction g with
  | zero =>
    intro dir dn fuel acc hd hdir hdeep hfuel
    obtain ⟨f, rfl⟩ : ∃ f, fuel = f + 1 := ⟨fuel - 1, by omega⟩
    rw [m_to_absolute_path_loop]
    simp only [deref_dir, hd, hdir, if_true, Read.andThen]
    obtain ⟨a1, _⟩ := ha dir dn hd
    cases hp : dn.m_parent with
    | none => cases f <;> exact ⟨_, rfl⟩
    | some p =>
      exfalso
      have hc := a1 p hp
      obtain ⟨pn, hpc, _, _⟩ := a1 p hp
      have := parent_higher hc hdeep
      rw [Nat.sub_zero, all_trees_heap hw hpc] at this
      cases this
  | succ g ih =>
    intro dir dn fuel acc hd hdir hdeep hfuel
    obtain ⟨f, rfl⟩ : ∃ f, fuel = f + 1 := ⟨fuel - 1, by omega⟩
    rw [m_to_absolute_path_loop]
    simp only [deref_dir, hd, hdir, if_true, Read.andThen]
    obtain ⟨a1, _⟩ := ha dir dn hd
    cases hp : dn.m_parent with
    | none => cases f <;> exact ⟨_, rfl⟩
    | some p =>
      have hc := a1 p hp
      obtain ⟨pn, hpc, hpd, _⟩ := a1 p hp
      have hdeep' : tree_within s (s.heap.length - g) p = false := by
        by_cases hlt : g < s.heap.length
        · have := parent_higher hc hdeep
          have e : s.heap.length - (g + 1) + 1 = s.heap.length - g := by omega
          rw [e] at this
          exact this
        · have e : s.heap.length - g = 0 := by omega
          rw [e]
          rfl
      exact ih p pn f _ hpc hpd hdeep' (by omega)

/-- Method `m_to_absolute_path` returns from every live directory of a tree state. -/
theorem m_to_absolute_path_returns {s : File_system_emulator} (hw : well_formed s)
    (ha : attached s) (path : List Char) {d : Nat} {dn : Node}
    (hd : s.heap.cell d = some dn) (hdir : dn.m_type = NODE_TYPE.DIRECTORY) :
    ∃ v, m_to_absolute_path path (some d) s = .val v := by
  unfold m_to_absolute_path
  by_cases hp : is_absolute_path path = true
  · rw [if_pos hp]; exact ⟨_, rfl⟩
  · rw [if_neg hp]
    exact m_to_absolute_path_loop_returns hw ha s.heap.length d dn _ _ hd hdir
      (by rw [Nat.sub_self]; rfl) (Nat.lt_succ_self _)

/-- The same from the parent reference of any live node. -/
theorem m_to_absolute_path_parent_returns {s : File_system_emulator} (hw : well_formed s)
    (ha : attached s) (path : List Char) {n : Nat} {nd : Node}
    (hn : s.heap.cell n = some nd) :
    ∃ v, m_to_absolute_path path nd.m_parent s = .val v := by
  cases hp : nd.m_parent with
  | none =>
    unfold m_to_absolute_path
    by_cases hq : is_absolute_path path = true
    · rw [if_pos hq]; exact ⟨_, rfl⟩
    · rw [if_neg hq]
      rw [m_to_absolute_path_loop]
      exact ⟨_, rfl⟩
  | some p =>
    obtain ⟨pn, hpc, hpd, _⟩ := (ha n nd hn).1 p hp
    exact m_to_absolute_path_returns hw ha path hpc hpd

/-! ## The renaming walk of `move` ends on a tree -/

theorem rename_links_ends (name : List Char) :
    ∀ (l : List Nat) (s : File_system_emulator),
      (rename_links name l s).ends (fun _ s' => same_shape s s') (fun _ => False) := by
  intro l s
  exact ends_of_post (rename_links_shape name l s) (by
    induction l generalizing s with
    | nil => simp [rename_links]
    | cons x rest ih =>
      unfold rename_links
      cases hx : deref s x with
      | val xn => exact ih _
      | undefined => simp [Read.bind]
      | diverge => exact absurd hx (deref_halts s x))

theorem for_each_ends (P : File_system_emulator → Prop)
    (body : Nat → File_system_emulator → Result Unit) :
    ∀ (l : List Nat) (s : File_system_emulator), P s →
      (∀ x ∈ l, ∀ s, P s → (body x s).ends (fun _ s' => P s') (fun _ => False)) →
      (for_each body l s).ends (fun _ s' => P s') (fun _ => False) := by
  intro l
  induction l with
  | nil => intro s hs _; exact hs
  | cons x rest ih =>
    intro s hs hbody
    unfold for_each
    exact ends_bind (hbody x (List.mem_cons_self _ _) s hs)
      (fun _ s1 h1 => ih s1 h1 (fun y hy => hbody y (List.mem_cons_of_mem _ hy)))
      (fun _ h => h)

/-- Method `m_update_links` ends on a tree of at most `fuel` levels in a state where
every node is attached: it returns, or reads a destroyed node. -/
theorem m_update_links_ends : ∀ (fuel node : Nat) (s : File_system_emulator),
    well_formed s → attached s → tree_within s fuel node = true →
      (m_update_links fuel node s).ends (fun _ s' => same_shape s s') (fun _ => False) := by
  intro fuel
  induction fuel with
  | zero => intro node s _ _ h; simp [tree_within] at h
  | succ fuel ih =>
    intro node s hw ha htree
    unfold m_update_links
    apply ends_read_bind (deref_halts _ _)
    intro nd hnd
    have hc := deref_eq_val hnd
    have hfirst : (if nd.m_type = NODE_TYPE.DIRECTORY ∨ nd.m_type = NODE_TYPE.FILE then
          if nd.m_dlinks ≠ [] then
            (m_to_absolute_path nd.m_name nd.m_parent s).bind fun updated_path =>
              rename_links ("dlink[".toList ++ updated_path ++ "]".toList) nd.m_dlinks s
          else Result.ok () s
        else Result.ok () s).ends (fun _ s' => same_shape s s') (fun _ => False) := by
      by_cases h1 : nd.m_type = NODE_TYPE.DIRECTORY ∨ nd.m_type = NODE_TYPE.FILE
      · rw [if_pos h1]
        by_cases h2 : nd.m_dlinks ≠ []
        · rw [if_pos h2]
          obtain ⟨v, hv⟩ := m_to_absolute_path_parent_returns hw ha nd.m_name hc
          rw [hv]
          exact rename_links_ends _ _ _
        · rw [if_neg h2]; exact same_shape_refl s
      · rw [if_neg h1]; exact same_shape_refl s
    apply ends_bind hfirst _ (fun _ h => h)
    intro _ s1 hss1
    apply ends_read_bind (deref_halts _ _)
    intro nd1 hnd1
    have hc1 := deref_eq_val hnd1
    by_cases hd1 : nd1.m_type = NODE_TYPE.DIRECTORY
    · rw [if_pos hd1]
      have htree1 : tree_within s1 (fuel + 1) node = true := by
        rw [same_shape_tree s s1 hss1]; exact htree
      refine ends_mono
        (for_each_ends (fun s' => (well_formed s' ∧ attached s') ∧ same_shape s1 s')
          (m_update_links fuel) nd1.m_childs s1
          ⟨⟨well_formed_of_same_shape hw hss1,
            attached_of_but (attached_of_same_shape (attached_to_but ha _) hss1)⟩,
            same_shape_refl s1⟩ ?_)
        (fun _ s' h => same_shape_trans hss1 h.2) (fun _ h => h)
      intro x hx s2 ⟨⟨hw2, ha2⟩, hss2⟩
      have hx1 : tree_within s1 fuel x = true :=
        tree_within_child s1 htree1 ⟨nd1, hc1, hd1, hx⟩
      refine ends_mono (ih x s2 hw2 ha2 (by rw [same_shape_tree s1 s2 hss2]; exact hx1))
        (fun _ s' h => ⟨⟨well_formed_of_same_shape hw2 h,
          attached_of_but (attached_of_same_shape (attached_to_but ha2 _) h)⟩,
          same_shape_trans hss2 h⟩) (fun _ h => h)
    · rw [if_neg hd1]; exact hss1
/-- A `move` of a directory into its own subtree never returns: `move` has no test for
it, and the renaming walk over the subtree of the source then meets the source
again below itself. -/
theorem move_into_own_subtree_never_returns :
    move "C:\\A".toList "C:\\A\\B".toList (after script_current_below) = .diverge := by
  decide

/-! ## Deleting a tree without registered dynamic links below the target -/

theorem defined_mono {α : Type} {Q Q' : α → File_system_emulator → Prop}
    {E E' : File_system_emulator → Prop} {r : Result α} (hr : r.defined Q E)
    (hq : ∀ a s, Q a s → Q' a s) (he : ∀ s, E s → E' s) : r.defined Q' E' := by
  cases r with
  | ok a s => exact hq a s hr
  | raised e s => exact he s hr
  | undefined => exact hr
  | diverge => trivial

theorem defined_bind {α β : Type} {Q1 : α → File_system_emulator → Prop}
    {Q : β → File_system_emulator → Prop} {E1 E : File_system_emulator → Prop} {r : Result α}
    {f : α → File_system_emulator → Result β} (hr : r.defined Q1 E1)
    (h : ∀ a s, Q1 a s → (f a s).defined Q E) (he : ∀ s, E1 s → E s) :
    (r.bind f).defined Q E := by
  cases r with
  | ok a s => exact h a s hr
  | raised e s => exact he s hr
  | undefined => exact hr
  | diverge => trivial

/-- A call that ends and has no undefined behaviour returns or throws. -/
theorem returns_of_ends_defined {α : Type} {Q Q' : α → File_system_emulator → Prop}
    {E E' : File_system_emulator → Prop} {r : Result α} (h1 : r.ends Q E)
    (h2 : r.defined Q' E') :
    (∃ a s', r = .ok a s') ∨ ∃ e s', r = .raised e s' := by
  cases r with
  | ok a s => exact Or.inl ⟨a, s, rfl⟩
  | raised e s => exact Or.inr ⟨e, s, rfl⟩
  | undefined => exact h2.elim
  | diverge => exact h1.elim

theorem is_child_pruned {s s' : File_system_emulator} (h : pruned s s') {a b : Nat}
    (hc : is_child s' a b) : is_child s a b := by
  obtain ⟨an', ha, had, ham⟩ := hc
  obtain ⟨an, a1, a2, _, a4⟩ := h.2.2 a an' ha
  exact ⟨an, a1, a2 ▸ had, a4.subset ham⟩

theorem in_subtree_pruned {s s' : File_system_emulator} (h : pruned s s') {a b : Nat}
    (hc : in_subtree s' a b) : in_subtree s a b :=
  Relation.ReflTransGen.mono (fun _ _ hab => is_child_pruned h hab) hc

theorem transgen_pruned {s s' : File_system_emulator} (h : pruned s s') {a b : Nat}
    (hc : Relation.TransGen (is_child s') a b) : Relation.TransGen (is_child s) a b :=
  Relation.TransGen.mono (fun _ _ hab => is_child_pruned h hab) hc

theorem is_child_removed {s s' : File_system_emulator} {x : Nat} {xn : Node}
    (hx : s.heap.cell x = some xn)
    (hleaf : xn.m_type ≠ NODE_TYPE.DIRECTORY ∨ xn.m_childs = [])
    (h : removed s s' x) {p n : Nat} (hnx : n ≠ x) (hc : is_child s p n) :
    is_child s' p n := by
  obtain ⟨pn, hp, hpd, hm⟩ := hc
  have hpx : p ≠ x := by
    intro e
    rw [e, hx] at hp
    cases hp
    rcases hleaf with h1 | h1
    · exact h1 hpd
    · rw [h1] at hm; cases hm
  rcases h.2.2.2 p hpx with ⟨a1, _⟩ | ⟨nd, nd', a1, a2, a3, _, _, a6⟩
  · rw [hp] at a1; cases a1
  · rw [hp] at a1; cases a1
    exact ⟨nd', a2, a3.trans hpd, a6 n hm hnx⟩

/-- A path through the child lists to a node other than the removed one survives the
removal of a childless node. -/
theorem transgen_removed {s s' : File_system_emulator} {x : Nat} {xn : Node}
    (hx : s.heap.cell x = some xn)
    (hleaf : xn.m_type ≠ NODE_TYPE.DIRECTORY ∨ xn.m_childs = [])
    (h : removed s s' x) {a n : Nat} (hc : Relation.TransGen (is_child s) a n)
    (hnx : n ≠ x) : Relation.TransGen (is_child s') a n := by
  induction hc with
  | single hstep => exact Relation.TransGen.single (is_child_removed hx hleaf h hnx hstep)
  | tail hrest hstep ih =>
    rename_i y z
    have hyx : y ≠ x := by
      intro e
      obtain ⟨yn, hy, hyd, hm⟩ := hstep
      rw [e, hx] at hy
      cases hy
      rcases hleaf with h1 | h1
      · exact h1 hyd
      · rw [h1] at hm; cases hm
    exact Relation.TransGen.tail (ih hyx) (is_child_removed hx hleaf h hnx hstep)

theorem swept_refl (target : Nat) (s : File_system_emulator) : swept target s s :=
  ⟨pruned_refl s, fun _ h1 h2 => absurd h2 h1, fun _ nd' h => ⟨nd', h, rfl⟩⟩

theorem swept_trans {target : Nat} {s s1 s2 : File_system_emulator}
    (h1 : swept target s s1) (h2 : swept target s1 s2) : swept target s s2 := by
  refine ⟨pruned_trans h1.1 h2.1, fun q hq hq2 => ?_, fun q nd2 hq => ?_⟩
  · cases hq1 : s1.heap.cell q with
    | none => exact h1.2.1 q hq hq1
    | some nd1 =>
      exact transgen_pruned h1.1 (h2.2.1 q (by rw [hq1]; simp) hq2)
  · obtain ⟨nd1, a1, a2⟩ := h2.2.2 q nd2 hq
    obtain ⟨nd, b1, b2⟩ := h1.2.2 q nd1 a1
    exact ⟨nd, b1, a2.trans b2⟩

/-- Two different children of a directory head disjoint subtrees. -/
theorem siblings_apart {s : File_system_emulator} (hw : well_formed s) {d : Nat} {dn : Node}
    (hd : s.heap.cell d = some dn) (hdir : dn.m_type = NODE_TYPE.DIRECTORY) {a b : Nat}
    (ha : a ∈ dn.m_childs) (hb : b ∈ dn.m_childs) (hab : a ≠ b) : apart s a b := by
  have hacyc := well_formed_acyclic hw hd
  have side : ∀ a b, a ∈ dn.m_childs → b ∈ dn.m_childs → a ≠ b → ¬ in_subtree s a b := by
    intro a b ha hb hab hsub
    rcases Relation.ReflTransGen.cases_tail hsub with e | ⟨y, hy, hstep⟩
    · exact hab e.symm
    · have := lister_unique hw hstep ⟨dn, hd, hdir, hb⟩
      subst this
      exact hacyc (Relation.TransGen.head' ⟨dn, hd, hdir, ha⟩ hy)
  exact ⟨side a b ha hb hab, side b a hb ha (fun e => hab e.symm)⟩

/-- Detaching a childless node from its parent and destroying it returns. -/
theorem detach_and_delete_returns {s : File_system_emulator} (h : tree_state s) {x p : Nat}
    {xn pn : Node} (hx : s.heap.cell x = some xn) (hxp : xn.m_parent = some p)
    (hleaf : xn.m_type ≠ NODE_TYPE.DIRECTORY ∨ xn.m_childs = [])
    (hp : s.heap.cell p = some pn) (hpd : pn.m_type = NODE_TYPE.DIRECTORY) :
    ∃ s', delete_node (store s p { pn with m_childs := list_remove pn.m_childs x }) x
        = .ok () s' ∧ tree_state s' ∧ removed s s' x ∧
      ∀ q nd', s'.heap.cell q = some nd' →
        ∃ nd, s.heap.cell q = some nd ∧ nd'.m_dlinks = nd.m_dlinks := by
  have hends := detach_and_delete_ends h hx hxp hleaf hp hpd
  have hx1 : ∃ xn1, (store s p { pn with m_childs := list_remove pn.m_childs x }).heap.cell x
      = some xn1 ∧ (xn1.m_type ≠ NODE_TYPE.DIRECTORY ∨ xn1.m_childs = []) := by
    rw [cell_store hp]
    by_cases hxe : x = p
    · subst hxe
      rw [hp] at hx; cases hx
      refine ⟨{ xn with m_childs := list_remove xn.m_childs x }, by simp, ?_⟩
      rcases hleaf with h | h
      · exact Or.inl h
      · exact Or.inr (by simp [h, list_remove])
    · exact ⟨xn, by simp [hxe, hx], hleaf⟩
  obtain ⟨xn1, hx1, hleaf1⟩ := hx1
  rw [delete_node_leaf hx1 hleaf1] at hends ⊢
  have hrem := @removed_release s (store s p { pn with m_childs := list_remove pn.m_childs x })
    x (store_length _ _ _) rfl (by
      intro q _
      rcases unlist_cells hp x q with h1 | ⟨nd, nd', a1, a2, a3, a4, _, _, a7, a8⟩
      · exact Or.inl h1
      · exact Or.inr ⟨nd, nd', a1, a2, a3, a4, a7, a8⟩)
  refine ⟨_, rfl, hends.1, hrem, fun q nd' hq => ?_⟩
  have hq' : Heap.cell ((store s p
      { pn with m_childs := list_remove pn.m_childs x }).heap.set x none) q = some nd' := hq
  rw [cell_release] at hq'
  by_cases hqx : q = x
  · simp [hqx] at hq'
  · simp only [hqx, if_false] at hq'
    rcases unlist_cells hp x q with ⟨_, a2⟩ | ⟨nd, nd0, a1, a2, _, _, a5, _⟩
    · rw [hq'] at a2; cases a2
    · rw [hq'] at a2; cases a2
      exact ⟨nd, a1, a5⟩

/-- Method `m_remove_node` on a childless node without registered dynamic links, in a
tree state: it returns with the node taken out, or throws before any change. -/
theorem m_remove_node_defined (node : Nat) {s : File_system_emulator} (h : tree_state s)
    {nd : Node} {p : Nat} (hc : s.heap.cell node = some nd)
    (hleaf : nd.m_type ≠ NODE_TYPE.DIRECTORY ∨ nd.m_childs = [])
    (hdl : nd.m_dlinks = []) (hp : nd.m_parent = some p) :
    (m_remove_node node s).defined
      (fun _ s' => tree_state s' ∧ removed s s' node ∧
        ∀ q nd', s'.heap.cell q = some nd' →
          ∃ nd, s.heap.cell q = some nd ∧ nd'.m_dlinks = nd.m_dlinks)
      (fun s' => s' = s) := by
  obtain ⟨pn, hpc, hpd, _⟩ := (h.2.2.1 node nd hc).1 p hp
  obtain ⟨s', hdel, hs', hrem, hreg⟩ := detach_and_delete_returns h hc hp hleaf hpc hpd
  have hdd : deref_dir s p = .val pn := by simp [deref_dir, hpc, hpd]
  unfold m_remove_node
  rw [deref_of_cell hc, read_bind_val]
  by_cases h1 : nd.m_type = NODE_TYPE.FILE ∨ nd.m_type = NODE_TYPE.DIRECTORY
  · rw [if_pos h1]
    by_cases h2 : nd.m_hlinks ≠ []
    · rw [if_pos h2, result_bind_raised]
      exact rfl
    · rw [if_neg h2]
      have : m_remove_dlinks node nd.m_dlinks.length s = .ok () s := by
        rw [hdl]
        show m_remove_dlinks node 0 s = .ok () s
        unfold m_remove_dlinks
        have : deref_linked s node = .val nd := by simp [deref_linked, hc, h1]
        rw [this, read_bind_val, if_pos hdl]
      rw [this, result_bind_ok, deref_of_cell hc, read_bind_val]
      simp only [hp]
      rw [hdd, read_bind_val, hdel]
      exact ⟨hs', hrem, hreg⟩
  · rw [if_neg h1, result_bind_ok, deref_of_cell hc, read_bind_val]
    simp only [hp]
    rw [hdd, read_bind_val, hdel]
    exact ⟨hs', hrem, hreg⟩

/-- A node strictly below a directory other than the super-root is alive and has a
parent reference. -/
theorem below_has_parent {s : File_system_emulator} (hw : well_formed s) {target n : Nat}
    (hr : target ≠ s.m_root) (hb : Relation.TransGen (is_child s) target n) :
    ∃ nd p, s.heap.cell n = some nd ∧ nd.m_parent = some p := by
  obtain ⟨y, hy, hstep⟩ := Relation.TransGen.tail'_iff.mp hb
  have hyr : y ≠ s.m_root := by
    rcases Relation.ReflTransGen.cases_tail hy with e | ⟨z, _, hz⟩
    · rw [e]; exact hr
    · exact child_ne_root hw hz
  obtain ⟨yn, hyc, hyd, hm⟩ := hstep
  obtain ⟨cn, h1, h2⟩ := hw.2.1 y yn hyc hyd hyr n hm
  exact ⟨cn, y, h1, h2⟩

theorem no_dlinks_below_swept {target : Nat} {s s' : File_system_emulator}
    (hc : no_dlinks_below s target) (h : swept target s s') : no_dlinks_below s' target := by
  intro x xn' hx hxc
  obtain ⟨xn, a1, a2⟩ := h.2.2 x xn' hxc
  rw [a2]
  exact hc x xn (transgen_pruned h.1 hx) a1

/-- The children of a directory in a tree state are pairwise apart. -/
theorem childs_apart {s : File_system_emulator} (h : tree_state s) {d : Nat} {dn : Node}
    (hd : s.heap.cell d = some dn) (hdir : dn.m_type = NODE_TYPE.DIRECTORY) :
    dn.m_childs.Pairwise (apart s) :=
  List.Nodup.pairwise_of_forall_ne (h.2.2.2 d dn hd)
    (fun _ ha _ hb hab => siblings_apart h.1 hd hdir ha hb hab)

/-- The sweep of `delete_tree` over nodes strictly below `target`, none of which has a
registered dynamic link, has no undefined behaviour: the nodes of the queue
are alive and apart from each other until they are taken out. -/
theorem delete_tree_sweep_defined (target : Nat) :
    ∀ (fuel : Nat) (queue : List Nat) (s : File_system_emulator),
      tree_state s → target ≠ s.m_root →
      (∀ n ∈ queue, Relation.TransGen (is_child s) target n) →
      queue.Pairwise (apart s) → no_dlinks_below s target →
      (delete_tree_sweep fuel queue s).defined (fun _ s' => tree_state s' ∧ swept target s s')
        (fun s' => tree_state s' ∧ swept target s s') := by
  intro fuel
  induction fuel with
  | zero =>
    intro queue s h _ _ _ _
    cases queue with
    | nil => unfold delete_tree_sweep; exact ⟨h, swept_refl target s⟩
    | cons _ _ => unfold delete_tree_sweep; trivial
  | succ fuel ih =>
    intro queue s h hr hq hpw hclean
    cases queue with
    | nil => unfold delete_tree_sweep; exact ⟨h, swept_refl target s⟩
    | cons node queue =>
      have hnode := hq node (List.mem_cons_self _ _)
      obtain ⟨nd, p, hc, hp⟩ := below_has_parent h.1 hr hnode
      obtain ⟨hhead, hrest⟩ := List.pairwise_cons.mp hpw
      unfold delete_tree_sweep
      rw [deref_of_cell hc, read_bind_val]
      have hleafcase : (nd.m_type ≠ NODE_TYPE.DIRECTORY ∨ nd.m_childs = []) →
          ((m_remove_node node s).bind fun _ s1 => delete_tree_sweep fuel queue s1).defined
            (fun _ s' => tree_state s' ∧ swept target s s')
            (fun s' => tree_state s' ∧ swept target s s') := by
        intro hleaf
        apply defined_bind
          (m_remove_node_defined node h hc hleaf (hclean node nd hnode hc) hp)
        · intro _ s1 ⟨h1, hrem, hreg⟩
          have hp1 := removed_pruned hrem
          have hsw : swept target s s1 := by
            refine ⟨hp1, fun q hq1 hq2 => ?_, hreg⟩
            by_cases hqn : q = node
            · rw [hqn]; exact hnode
            · rcases hrem.2.2.2 q hqn with ⟨a1, _⟩ | ⟨_, nd', _, a2, _⟩
              · exact absurd a1 hq1
              · rw [hq2] at a2; cases a2
          refine defined_mono (ih queue s1 h1 (by rw [hp1.2.1]; exact hr) ?_ ?_
            (no_dlinks_below_swept hclean hsw))
            (fun _ _ hq => ⟨hq.1, swept_trans hsw hq.2⟩)
            (fun _ hq => ⟨hq.1, swept_trans hsw hq.2⟩)
          · intro n hn
            have hne : n ≠ node := by
              intro e
              exact (hhead n hn).1 (e ▸ Relation.ReflTransGen.refl)
            exact transgen_removed hc hleaf hrem (hq n (List.mem_cons_of_mem _ hn)) hne
          · exact hrest.imp (fun hab =>
              ⟨fun hsub => hab.1 (in_subtree_pruned hp1 hsub),
                fun hsub => hab.2 (in_subtree_pruned hp1 hsub)⟩)
        · intro s' e
          rw [e]
          exact ⟨h, swept_refl target s⟩
      by_cases hd : nd.m_type ≠ NODE_TYPE.DIRECTORY
      · rw [if_pos hd]
        exact hleafcase (Or.inl hd)
      · rw [if_neg hd]
        have hdir : nd.m_type = NODE_TYPE.DIRECTORY := not_not.mp hd
        by_cases he : nd.m_childs = []
        · rw [if_pos he]
          exact hleafcase (Or.inr he)
        · rw [if_neg he]
          apply ih _ s h hr _ _ hclean
          · intro n hn
            rcases List.mem_append.mp hn with hn | hn
            · exact hq n (List.mem_cons_of_mem _ hn)
            · exact Relation.TransGen.tail hnode ⟨nd, hc, hdir, hn⟩
          · apply List.pairwise_append.mpr
            refine ⟨hrest, childs_apart h hc hdir, fun a ha b hb => ?_⟩
            have hna := hhead a ha
            have hnb : is_child s node b := ⟨nd, hc, hdir, hb⟩
            constructor
            · intro hsub
              rcases Relation.ReflTransGen.cases_tail hsub with e | ⟨y, hy, hstep⟩
              · exact hna.1 (e ▸ Relation.ReflTransGen.single hnb)
              · have := lister_unique h.1 hstep hnb
                subst this
                exact hna.2 hy
            · intro hsub
              exact hna.1 (Relation.ReflTransGen.head hnb hsub)

/-- The first turn of a sweep started from a directory with children puts the children
in the queue. -/
theorem delete_tree_sweep_start {s : File_system_emulator} {target : Nat} {t : Node}
    (ht : s.heap.cell target = some t) (hd : t.m_type = NODE_TYPE.DIRECTORY)
    (hne : t.m_childs ≠ []) (fuel : Nat) :
    delete_tree_sweep (fuel + 1) [target] s = delete_tree_sweep fuel t.m_childs s := by
  rw [delete_tree_sweep]
  simp only [deref_of_cell ht, read_bind_val, hd, ne_eq, not_true_eq_false, if_false, hne,
    List.nil_append]

/-- A node that is alive before a part of `delete_tree` on `target` and is not strictly
below `target` is alive after it, with the same kind and parent. -/
theorem swept_keeps {target : Nat} {s s' : File_system_emulator} (h : swept target s s')
    {q : Nat} {nd : Node} (hq : s.heap.cell q = some nd)
    (hnb : ¬ Relation.TransGen (is_child s) target q) :
    ∃ nd', s'.heap.cell q = some nd' ∧ nd'.m_type = nd.m_type ∧
      nd'.m_parent = nd.m_parent := by
  cases hc : s'.heap.cell q with
  | none => exact absurd (h.2.1 q (by rw [hq]; simp) hc) hnb
  | some nd' =>
    obtain ⟨nd0, a1, a2, a3, _⟩ := h.1.2.2 q nd' hc
    rw [hq] at a1
    cases a1
    exact ⟨nd', rfl, a2, a3⟩

/-- The outer loop of `delete_tree` has no undefined behaviour when no node strictly
below the target has a registered dynamic link. -/
theorem delete_tree_loop_defined (target : Nat) :
    ∀ (fuel : Nat) (s : File_system_emulator) (t : Node), tree_state s →
      target ≠ s.m_root → s.heap.cell target = some t → t.m_type = NODE_TYPE.DIRECTORY →
      no_dlinks_below s target →
      (delete_tree_loop target fuel s).defined
        (fun _ s' => tree_state s' ∧ swept target s s' ∧
          ∀ t', s'.heap.cell target = some t' → t'.m_childs = [])
        (fun s' => tree_state s' ∧ swept target s s') := by
  intro fuel
  induction fuel with
  | zero =>
    intro s t h _ ht hd _
    unfold delete_tree_loop
    have : deref_dir s target = .val t := by simp [deref_dir, ht, hd]
    rw [this, read_bind_val]
    by_cases he : t.m_childs = []
    · rw [if_pos he]
      refine ⟨h, swept_refl target s, fun t' ht' => ?_⟩
      rw [ht] at ht'
      cases ht'
      exact he
    · rw [if_neg he]; trivial
  | succ fuel ih =>
    intro s t h hr ht hd hclean
    unfold delete_tree_loop
    have : deref_dir s target = .val t := by simp [deref_dir, ht, hd]
    rw [this, read_bind_val]
    by_cases he : t.m_childs = []
    · rw [if_pos he]
      refine ⟨h, swept_refl target s, fun t' ht' => ?_⟩
      rw [ht] at ht'
      cases ht'
      exact he
    · rw [if_neg he, delete_tree_sweep_start ht hd he]
      apply defined_bind (delete_tree_sweep_defined target _ t.m_childs s h hr
        (fun n hn => Relation.TransGen.single ⟨t, ht, hd, hn⟩) (childs_apart h ht hd) hclean)
      · intro _ s1 ⟨h1, hsw⟩
        obtain ⟨t1, ht1, hty1, _⟩ := swept_keeps hsw ht (well_formed_acyclic h.1 ht)
        exact defined_mono
          (ih s1 t1 h1 (by rw [hsw.1.2.1]; exact hr) ht1 (hty1.trans hd)
            (no_dlinks_below_swept hclean hsw))
          (fun _ _ hq => ⟨hq.1, swept_trans hsw hq.2.1, hq.2.2⟩)
          (fun _ hq => ⟨hq.1, swept_trans hsw hq.2⟩)
      · intro _ hq; exact hq

/-- Method `delete_tree` has no undefined behaviour when its path resolves to a live
node and no node strictly below that node has a registered dynamic link. -/
theorem delete_tree_defined (path : List Char) {s : File_system_emulator} (h : tree_state s)
    {target : Nat} {t : Node} (hfind : m_find_node_by_path path s = .val (some target))
    (ht : s.heap.cell target = some t) (hclean : no_dlinks_below s target) :
    (delete_tree path s).defined (fun _ _ => True) (fun _ => True) := by
  obtain ⟨drive, dn, hdrive, _⟩ := rooted_drive h.1.1
  have hr := find_ne_root h.1 hfind
  unfold delete_tree
  rw [hfind, read_bind_val]
  simp only []
  rw [deref_of_cell ht, read_bind_val]
  by_cases hd : t.m_type ≠ NODE_TYPE.DIRECTORY
  · rw [if_pos hd]; trivial
  · rw [if_neg hd, hdrive, read_bind_val]
    have hdir : t.m_type = NODE_TYPE.DIRECTORY := not_not.mp hd
    by_cases h1 : target = drive
    · rw [if_pos h1]; trivial
    · rw [if_neg h1]
      by_cases h2 : target = s.m_curr_catalog
      · rw [if_pos h2]; trivial
      · rw [if_neg h2]
        apply defined_bind (delete_tree_loop_defined target _ s t h hr ht hdir hclean)
        · intro _ s1 ⟨hs1, hsw, hempty⟩
          obtain ⟨t1, ht1, _, hpar1⟩ := swept_keeps hsw ht (well_formed_acyclic h.1 ht)
          rw [deref_of_cell ht1, read_bind_val]
          cases hp : t1.m_parent with
          | none =>
            exfalso
            rcases (h.2.2.1 target t ht).2 (hpar1 ▸ hp) with e | e
            · exact hr e
            · have := root_child_is_drive h.1 e
              rw [hdrive] at this
              cases this
              exact h1 rfl
          | some parent =>
            simp only []
            obtain ⟨pn, hpc, hpd, _⟩ := (hs1.2.2.1 target t1 ht1).1 parent hp
            have : deref_dir s1 parent = .val pn := by simp [deref_dir, hpc, hpd]
            rw [this, read_bind_val]
            obtain ⟨s', hdel, _⟩ :=
              detach_and_delete_returns hs1 ht1 hp (Or.inr (hempty t1 ht1)) hpc hpd
            rw [hdel]
            trivial
        · intro _ _; trivial

/-- Method `delete_tree` returns or throws on a tree state when its path resolves to a
live node and no node strictly below that node has a registered dynamic
link. -/
theorem delete_tree_returns (path : List Char) {s : File_system_emulator} (h : tree_state s)
    {target : Nat} {t : Node} (hfind : m_find_node_by_path path s = .val (some target))
    (ht : s.heap.cell target = some t) (hclean : no_dlinks_below s target) :
    (∃ s', delete_tree path s = .ok () s') ∨ ∃ e s', delete_tree path s = .raised e s' := by
  rcases returns_of_ends_defined (delete_tree_ends path h)
    (delete_tree_defined path h hfind ht hclean) with ⟨_, s', e⟩ | h2
  · exact Or.inl ⟨s', e⟩
  · exact Or.inr h2

/-! ## The renaming walk returns when the registered links are alive -/

theorem renamed_only_cell {s s' : File_system_emulator} (h : renamed_only s s') {q : Nat}
    {nd' : Node} (hq : s'.heap.cell q = some nd') :
    ∃ nd, s.heap.cell q = some nd ∧ nd'.m_type = nd.m_type ∧ nd'.m_childs = nd.m_childs ∧
      nd'.m_dlinks = nd.m_dlinks := by
  rcases h.2.2 q with ⟨_, a2⟩ | ⟨nd, name, a1, a2, _⟩
  · rw [hq] at a2; cases a2
  · rw [hq] at a2; cases a2
    exact ⟨nd, a1, rfl, rfl, rfl⟩

theorem renamed_only_live {s s' : File_system_emulator} (h : renamed_only s s') {q : Nat}
    (hq : s.heap.cell q ≠ none) : s'.heap.cell q ≠ none := by
  rcases h.2.2 q with ⟨a1, _⟩ | ⟨nd, name, _, a2, _⟩
  · exact absurd a1 hq
  · rw [a2]; simp

theorem dlinks_alive_renamed {s s' : File_system_emulator} (h : renamed_only s s') {n : Nat}
    (hl : dlinks_alive s n) : dlinks_alive s' n := by
  intro x xn' hx hxc l hm
  obtain ⟨xn, a1, _, _, a4⟩ := renamed_only_cell h hxc
  have hback : ∀ a b, is_child s' a b → is_child s a b := by
    intro a b ⟨an', ha, had, ham⟩
    obtain ⟨an, b1, b2, b3, _⟩ := renamed_only_cell h ha
    exact ⟨an, b1, b2 ▸ had, b3 ▸ ham⟩
  exact renamed_only_live h
    (hl x xn (Relation.ReflTransGen.mono hback hx) a1 l (a4 ▸ hm))

theorem dlinks_alive_child {s : File_system_emulator} {n c : Nat} (hc : is_child s n c)
    (hl : dlinks_alive s n) : dlinks_alive s c :=
  fun x xn hx hxc l hm => hl x xn (Relation.ReflTransGen.head hc hx) hxc l hm

/-- The renaming loop returns when the listed nodes are alive. -/
theorem rename_links_returns (name : List Char) :
    ∀ (l : List Nat) (s : File_system_emulator), (∀ x ∈ l, s.heap.cell x ≠ none) →
      ∃ s', rename_links name l s = .ok () s' := by
  intro l
  induction l with
  | nil => intro s _; exact ⟨s, rfl⟩
  | cons x rest ih =>
    intro s hlive
    cases hx : s.heap.cell x with
    | none => exact absurd hx (hlive x (List.mem_cons_self _ _))
    | some xn =>
      unfold rename_links
      rw [deref_of_cell hx, read_bind_val]
      apply ih
      intro y hy
      rw [cell_store hx]
      by_cases hyx : y = x
      · simp [hyx]
      · simp only [hyx, if_false]
        exact hlive y (List.mem_cons_of_mem _ hy)

theorem for_each_returns_ok (P : File_system_emulator → Prop)
    (body : Nat → File_system_emulator → Result Unit) :
    ∀ (l : List Nat) (s : File_system_emulator), P s →
      (∀ x ∈ l, ∀ s, P s → ∃ s', body x s = .ok () s' ∧ P s') →
      ∃ s', for_each body l s = .ok () s' ∧ P s' := by
  intro l
  induction l with
  | nil => intro s hs _; exact ⟨s, rfl, hs⟩
  | cons x rest ih =>
    intro s hs hbody
    obtain ⟨s1, h1, hp1⟩ := hbody x (List.mem_cons_self _ _) s hs
    obtain ⟨s2, h2, hp2⟩ := ih s1 hp1 (fun y hy => hbody y (List.mem_cons_of_mem _ hy))
    refine ⟨s2, ?_, hp2⟩
    unfold for_each
    rw [h1, result_bind_ok]
    exact h2

/-- Method `m_update_links` returns on a tree of at most `fuel` levels whose registered
dynamic links are alive, in a state where every node is attached. -/
theorem m_update_links_returns : ∀ (fuel node : Nat) (s : File_system_emulator),
    well_formed s → attached s → tree_within s fuel node = true → dlinks_alive s node →
      ∃ s', m_update_links fuel node s = .ok () s' ∧ renamed_only s s' := by
  intro fuel
  induction fuel with
  | zero => intro node s _ _ h; simp [tree_within] at h
  | succ fuel ih =>
    intro node s hw ha htree hlive
    obtain ⟨nd, hc⟩ := tree_within_live s htree
    have hfirst : ∃ s1, (if nd.m_type = NODE_TYPE.DIRECTORY ∨ nd.m_type = NODE_TYPE.FILE then
          if nd.m_dlinks ≠ [] then
            (m_to_absolute_path nd.m_name nd.m_parent s).bind fun updated_path =>
              rename_links ("dlink[".toList ++ updated_path ++ "]".toList) nd.m_dlinks s
          else Result.ok () s
        else Result.ok () s) = .ok () s1 ∧ renamed_only s s1 := by
      by_cases h1 : nd.m_type = NODE_TYPE.DIRECTORY ∨ nd.m_type = NODE_TYPE.FILE
      · rw [if_pos h1]
        by_cases h2 : nd.m_dlinks ≠ []
        · rw [if_pos h2]
          obtain ⟨v, hv⟩ := m_to_absolute_path_parent_returns hw ha nd.m_name hc
          rw [hv, read_bind_val]
          obtain ⟨s1, hs1⟩ := rename_links_returns ("dlink[".toList ++ v ++ "]".toList)
            nd.m_dlinks s (fun l hl => hlive node nd Relation.ReflTransGen.refl hc l hl)
          exact ⟨s1, hs1, rename_links_frame _ node nd.m_dlinks nd.m_dlinks s s1 ⟨nd, hc, rfl⟩
            (fun _ hx => hx) hs1⟩
        · rw [if_neg h2]; exact ⟨s, rfl, renamed_only_refl s⟩
      · rw [if_neg h1]; exact ⟨s, rfl, renamed_only_refl s⟩
    obtain ⟨s1, hs1, hr1⟩ := hfirst
    have hss1 := same_shape_of_renamed hr1
    have hc1 : ∃ nd1, s1.heap.cell node = some nd1 ∧ nd1.m_type = nd.m_type ∧
        nd1.m_childs = nd.m_childs := by
      rcases hr1.2.2 node with ⟨a1, _⟩ | ⟨nd0, name, a1, a2, _⟩
      · rw [hc] at a1; cases a1
      · rw [hc] at a1; cases a1
        exact ⟨_, a2, rfl, rfl⟩
    obtain ⟨nd1, hc1, hty1, hch1⟩ := hc1
    have htree1 : tree_within s1 (fuel + 1) node = true := by
      rw [same_shape_tree s s1 hss1]; exact htree
    have hsecond : ∃ s', ((deref s1 node).bind fun nd1 =>
          if nd1.m_type = NODE_TYPE.DIRECTORY then
            for_each (m_update_links fuel) nd1.m_childs s1
          else Result.ok () s1) = .ok () s' ∧ renamed_only s1 s' := by
      rw [deref_of_cell hc1, read_bind_val]
      by_cases hd1 : nd1.m_type = NODE_TYPE.DIRECTORY
      · rw [if_pos hd1]
        obtain ⟨s', hs', hp'⟩ := for_each_returns_ok (fun s' => renamed_only s1 s')
          (m_update_links fuel) nd1.m_childs s1 (renamed_only_refl s1) (by
            intro x hx s2 hr2
            have hss2 := same_shape_of_renamed hr2
            have hchild : is_child s1 node x := ⟨nd1, hc1, hd1, hx⟩
            have hx1 : tree_within s1 fuel x = true := tree_within_child s1 htree1 hchild
            obtain ⟨s3, hs3, hr3⟩ := ih x s2 (well_formed_of_same_shape hw
                (same_shape_trans hss1 hss2))
              (attached_of_but (attached_of_same_shape (attached_to_but ha _)
                (same_shape_trans hss1 hss2)))
              (by rw [same_shape_tree s1 s2 hss2]; exact hx1)
              (dlinks_alive_renamed hr2
                (dlinks_alive_child hchild (dlinks_alive_renamed hr1 hlive)))
            exact ⟨s3, hs3, renamed_only_trans hr2 hr3⟩)
        exact ⟨s', hs', hp'⟩
      · rw [if_neg hd1]; exact ⟨s1, rfl, renamed_only_refl s1⟩
    obtain ⟨s', hs', hr'⟩ := hsecond
    refine ⟨s', ?_, renamed_only_trans hr1 hr'⟩
    unfold m_update_links
    rw [deref_of_cell hc, read_bind_val, hs1, result_bind_ok]
    exact hs'

/-! ## The renaming walk on a directory moved into its own subtree -/

/-- In the state `moved_into_itself` the renaming walk exceeds every step bound, from
`C:\A` and from `C:\A\B`: each of the two directories is a child of the other. -/
theorem m_update_links_cycle (fuel : Nat) :
    m_update_links fuel 2 moved_into_itself = .diverge ∧
    m_update_links fuel 3 moved_into_itself = .diverge := by
  induction fuel with
  | zero => exact ⟨rfl, rfl⟩
  | succ n ih =>
    have h2 : moved_into_itself.heap.cell 2 =
        some ⟨some 3, NODE_TYPE.DIRECTORY, "A".toList, [], [], [3]⟩ := by decide
    have h3 : moved_into_itself.heap.cell 3 =
        some ⟨some 2, NODE_TYPE.DIRECTORY, "B".toList, [], [], [2]⟩ := by decide
    constructor
    · simp [m_update_links, deref_of_cell h2, for_each, ih.2]
    · simp [m_update_links, deref_of_cell h3, for_each, ih.1]

/-! ## Refusals on live nodes, the end of `delete_tree`, the tree of a reachable state -/

/-- The refusals of `delete_tree`. If `p` does not resolve (`nullptr`), or resolves to a
live node that is not a directory, or to the drive root, or to the current
directory, then `delete_tree(p)` throws, and the state at the throw is the state
of the call. -/
theorem delete_tree_refused_live (s : File_system_emulator) (p : List Char)
    (h : m_find_node_by_path p s = .val none ∨
      ∃ n nd, m_find_node_by_path p s = .val (some n) ∧ s.heap.cell n = some nd ∧
        (nd.m_type ≠ NODE_TYPE.DIRECTORY ∨
          ∃ drive, drive_root s = .val drive ∧ (n = drive ∨ n = s.m_curr_catalog))) :
    delete_tree p s = .raised "ERROR: Path is not found." s ∨
    delete_tree p s = .raised "ERROR: Can`t delete root directory." s ∨
    delete_tree p s = .raised "ERROR: Can`t delete current directory." s := by
  rcases h with h | ⟨n, nd, hfind, hc, hcase⟩
  · left
    simp [delete_tree, h]
  · by_cases hd : nd.m_type = NODE_TYPE.DIRECTORY
    · rcases hcase with hnd | ⟨drive, hdrive, hn⟩
      · exact absurd hd hnd
      · by_cases h1 : n = drive
        · right; left
          subst h1
          simp [delete_tree, hfind, deref_of_cell hc, hd, hdrive]
        · rcases hn with hn | hn
          · exact absurd hn h1
          · right; right
            simp only [delete_tree, hfind, deref_of_cell hc, hd, hdrive, read_bind_val, ne_eq,
              not_true_eq_false, if_false, h1]
            rw [if_pos hn]
    · left
      simp [delete_tree, hfind, deref_of_cell hc, hd]

/-- The refusal of `delete_tree` in the state of `script_current_below`, for the current
directory `C:\A\B`. -/
theorem delete_tree_refused_live_example :
    (m_find_node_by_path "C:\\A\\B".toList (after script_current_below) = .val (some 3) ∧
      (after script_current_below).heap.cell 3 =
        some ⟨some 2, NODE_TYPE.DIRECTORY, "B".toList, [], [], []⟩ ∧
      drive_root (after script_current_below) = .val 0 ∧
      3 = (after script_current_below).m_curr_catalog) ∧
    (delete_tree "C:\\A\\B".toList (after script_current_below) =
        .raised "ERROR: Path is not found." (after script_current_below) ∨
      delete_tree "C:\\A\\B".toList (after script_current_below) =
        .raised "ERROR: Can`t delete root directory." (after script_current_below) ∨
      delete_tree "C:\\A\\B".toList (after script_current_below) =
        .raised "ERROR: Can`t delete current directory." (after script_current_below)) :=
  ⟨⟨by decide, by decide, by decide, by decide⟩,
    delete_tree_refused_live (after script_current_below) "C:\\A\\B".toList
      (Or.inr ⟨3, ⟨some 2, NODE_TYPE.DIRECTORY, "B".toList, [], [], []⟩, by decide, by decide,
        Or.inr ⟨0, by decide, Or.inr (by decide)⟩⟩)⟩

/-- Creation without a parent. If the parent portion of `p` (`get_parent_path`) does not
resolve, or resolves to a live node that is not a directory, then `make_dir(p)`
and `make_file(p)` throw `Path not found`, and the state at the throw is the state
of the call: no node is created. -/
theorem make_without_parent_live (s : File_system_emulator) (p : List Char)
    (h : m_find_node_by_path (get_parent_path p) s = .val none ∨
      ∃ n nd, m_find_node_by_path (get_parent_path p) s = .val (some n) ∧
        s.heap.cell n = some nd ∧ nd.m_type ≠ NODE_TYPE.DIRECTORY) :
    make_dir p s = .raised "ERROR: Path not found." s ∧
    make_file p s = .raised "ERROR: Path not found." s := by
  rcases h with h | ⟨n, nd, hfind, hc, hnd⟩
  · simp [make_dir, make_file, m_make_node, h]
  · simp [make_dir, make_file, m_make_node, hfind, deref_of_cell hc, hnd]

/-- Creation without a parent at the first call of the test
`Make_dir_throw_absolute_path`: the parent `C:\Dir1` has not been made. -/
theorem make_without_parent_live_example :
    m_find_node_by_path (get_parent_path "C:\\Dir1\\Dir2".toList) init = .val none ∧
    make_dir "C:\\Dir1\\Dir2".toList init = .raised "ERROR: Path not found." init ∧
    make_file "C:\\Dir1\\Dir2".toList init = .raised "ERROR: Path not found." init :=
  ⟨by decide, make_without_parent_live init "C:\\Dir1\\Dir2".toList (Or.inl (by decide))⟩

/-- Creation over a name of the other kind. Let the parent portion of `p` resolve to
the live directory `D`. If `D` has a child of kind `FILE` named `basename(p)`, and
every child that stands before it in the child list is alive and, when it has
that name, is not a directory, then `make_dir(p)` throws. If `D` has a child of
kind `DIRECTORY` named `basename(p)`, and every child that stands before it is
alive and, when it has that name, is not a file, then `make_file(p)` throws. The
state at the throw is the state of the call. -/
theorem make_blocked_by_first (s : File_system_emulator) (p : List Char) (D : Nat) (dn : Node)
    (hpar : m_find_node_by_path (get_parent_path p) s = .val (some D))
    (hD : s.heap.cell D = some dn) (hdir : dn.m_type = NODE_TYPE.DIRECTORY) :
    (∀ pre f post fn, dn.m_childs = pre ++ f :: post → s.heap.cell f = some fn →
      fn.m_name = get_path_basename p → fn.m_type = NODE_TYPE.FILE →
      (∀ c ∈ pre, ∃ cn, s.heap.cell c = some cn ∧
        (cn.m_name = get_path_basename p → cn.m_type ≠ NODE_TYPE.DIRECTORY)) →
      make_dir p s =
        .raised "ERROR: Can`t create a directory - File with the same name exists." s) ∧
    (∀ pre f post fn, dn.m_childs = pre ++ f :: post → s.heap.cell f = some fn →
      fn.m_name = get_path_basename p → fn.m_type = NODE_TYPE.DIRECTORY →
      (∀ c ∈ pre, ∃ cn, s.heap.cell c = some cn ∧
        (cn.m_name = get_path_basename p → cn.m_type ≠ NODE_TYPE.FILE)) →
      make_file p s =
        .raised "ERROR: Can`t create a file - Directory with the same name exists." s) := by
  constructor
  · intro pre f post fn hsplit hf hname hkind hpre
    have hscan := m_make_node_scan_blocked s (get_path_basename p) NODE_TYPE.DIRECTORY
      NODE_TYPE.FILE (Or.inl ⟨rfl, rfl⟩) f fn post hf hname hkind pre hpre
    simp [make_dir, m_make_node, hpar, deref_of_cell hD, hdir, hsplit, hscan]
  · intro pre f post fn hsplit hf hname hkind hpre
    have hscan := m_make_node_scan_blocked s (get_path_basename p) NODE_TYPE.FILE
      NODE_TYPE.DIRECTORY (Or.inr ⟨rfl, rfl⟩) f fn post hf hname hkind pre hpre
    simp [make_file, m_make_node, hpar, deref_of_cell hD, hdir, hsplit, hscan]

/-- Creation over a name of the other kind at the second throw of the test
`Make_dir_throw_absolute_path`: the directory `C:\Dir1` (address 2) holds the file
`file1` (address 3). -/
theorem make_blocked_by_first_example :
    (m_find_node_by_path (get_parent_path "C:\\Dir1\\file1".toList) (after script_file_in_dir) =
        .val (some 2) ∧
      (after script_file_in_dir).heap.cell 2 =
        some ⟨some 0, NODE_TYPE.DIRECTORY, "Dir1".toList, [], [], [3]⟩ ∧
      (after script_file_in_dir).heap.cell 3 =
        some ⟨some 2, NODE_TYPE.FILE, "file1".toList, [], [], []⟩ ∧
      get_path_basename "C:\\Dir1\\file1".toList = "file1".toList) ∧
    make_dir "C:\\Dir1\\file1".toList (after script_file_in_dir) =
      .raised "ERROR: Can`t create a directory - File with the same name exists."
        (after script_file_in_dir) :=
  ⟨⟨by decide, by decide, by decide, by decide⟩,
    (make_blocked_by_first (after script_file_in_dir) "C:\\Dir1\\file1".toList 2
      ⟨some 0, NODE_TYPE.DIRECTORY, "Dir1".toList, [], [], [3]⟩ (by decide) (by decide) rfl).1
      [] 3 [] ⟨some 2, NODE_TYPE.FILE, "file1".toList, [], [], []⟩ rfl (by decide) (by decide)
      rfl (fun _ h => by cases h)⟩

/-- The refusals of `make_hlink` and `make_dlink`. Let the absolute path of `source` be
computable (`source` is absolute, or the parent chain of the current directory
is made of live directories). If `source` does not resolve (`nullptr`),
`make_hlink` and `make_dlink` throw `Path is not found`; if `source` resolves and
`dest` does not resolve or resolves to a live node that is not a directory, they
throw `Path not found`. In both cases the state at the throw is the state of the
call: no node is created and no registry changes. -/
theorem make_link_refused_live (s : File_system_emulator) (source dest : List Char)
    (names : List (List Char))
    (ha : is_absolute_path source = true ∨
      parent_chain s (s.heap.length + 1) (some s.m_curr_catalog) = some names)
    (h : m_find_node_by_path source s = .val none ∨
      ((∃ t, m_find_node_by_path source s = .val (some t)) ∧
        (m_find_node_by_path dest s = .val none ∨
          ∃ n nd, m_find_node_by_path dest s = .val (some n) ∧ s.heap.cell n = some nd ∧
            nd.m_type ≠ NODE_TYPE.DIRECTORY))) :
    (make_hlink source dest s = .raised "ERROR: Path is not found." s ∨
      make_hlink source dest s = .raised "ERROR: Path not found." s) ∧
    (make_dlink source dest s = .raised "ERROR: Path is not found." s ∨
      make_dlink source dest s = .raised "ERROR: Path not found." s) := by
  have habs := m_to_absolute_path_chain s source names ha
  rcases h with h | ⟨⟨t, ht⟩, h | ⟨n, nd, hfind, hc, hnd⟩⟩
  · exact ⟨Or.inl (by simp [make_hlink, habs, m_make_link, h]),
      Or.inl (by simp [make_dlink, habs, m_make_link, h])⟩
  · exact ⟨Or.inr (by simp [make_hlink, habs, m_make_link, ht, m_make_node, h]),
      Or.inr (by simp [make_dlink, habs, m_make_link, ht, m_make_node, h])⟩
  · exact ⟨Or.inr (by simp [make_hlink, habs, m_make_link, ht, m_make_node, hfind,
        deref_of_cell hc, hnd]),
      Or.inr (by simp [make_dlink, habs, m_make_link, ht, m_make_node, hfind,
        deref_of_cell hc, hnd])⟩

/-- The refusals of the link creations at the throws of the test
`Make_link_throw_relative_path`, with `C:\Dir1` the current directory: the source
`file2.txt` does not resolve; the source `file1.txt` resolves and the destination
`C:\Dir3` does not. -/
theorem make_link_refused_live_example :
    (parent_chain (after script_link_throw_relative)
        ((after script_link_throw_relative).heap.length + 1)
        (some (after script_link_throw_relative).m_curr_catalog) =
        some ["C:".toList, "Dir1".toList] ∧
      m_find_node_by_path "file2.txt".toList (after script_link_throw_relative) = .val none ∧
      m_find_node_by_path "file1.txt".toList (after script_link_throw_relative) =
        .val (some 3) ∧
      m_find_node_by_path "C:\\Dir3".toList (after script_link_throw_relative) = .val none) ∧
    ((make_hlink "file2.txt".toList "C:\\Dir2".toList (after script_link_throw_relative) =
          .raised "ERROR: Path is not found." (after script_link_throw_relative) ∨
        make_hlink "file2.txt".toList "C:\\Dir2".toList (after script_link_throw_relative) =
          .raised "ERROR: Path not found." (after script_link_throw_relative)) ∧
      (make_dlink "file2.txt".toList "C:\\Dir2".toList (after script_link_throw_relative) =
          .raised "ERROR: Path is not found." (after script_link_throw_relative) ∨
        make_dlink "file2.txt".toList "C:\\Dir2".toList (after script_link_throw_relative) =
          .raised "ERROR: Path not found." (after script_link_throw_relative))) ∧
    ((make_hlink "file1.txt".toList "C:\\Dir3".toList (after script_link_throw_relative) =
          .raised "ERROR: Path is not found." (after script_link_throw_relative) ∨
        make_hlink "file1.txt".toList "C:\\Dir3".toList (after script_link_throw_relative) =
          .raised "ERROR: Path not found." (after script_link_throw_relative)) ∧
      (make_dlink "file1.txt".toList "C:\\Dir3".toList (after script_link_throw_relative) =
          .raised "ERROR: Path is not found." (after script_link_throw_relative) ∨
        make_dlink "file1.txt".toList "C:\\Dir3".toList (after script_link_throw_relative) =
          .raised "ERROR: Path not found." (after script_link_throw_relative))) :=
  ⟨⟨by decide, by decide, by decide, by decide⟩,
    make_link_refused_live (after script_link_throw_relative) "file2.txt".toList
      "C:\\Dir2".toList ["C:".toList, "Dir1".toList] (Or.inr (by decide)) (Or.inl (by decide)),
    make_link_refused_live (after script_link_throw_relative) "file1.txt".toList
      "C:\\Dir3".toList ["C:".toList, "Dir1".toList] (Or.inr (by decide))
      (Or.inr ⟨⟨3, by decide⟩, Or.inl (by decide)⟩)⟩

/-- Method `change_dir` on live nodes. If `p` resolves to a live directory `n`,
`change_dir(p)` returns normally and the state is the state of the call with
`m_curr_catalog` set to `n`: the heap, and with it the tree and the registries, is
the same. If `p` does not resolve (`nullptr`) or resolves to a live node that is
not a directory, `change_dir(p)` throws and the state, the current directory
included, is the state of the call. The empty path resolves to the current
directory. -/
theorem change_dir_live (s : File_system_emulator) (p : List Char) :
    (∀ n nd, m_find_node_by_path p s = .val (some n) → s.heap.cell n = some nd →
      nd.m_type = NODE_TYPE.DIRECTORY →
      change_dir p s = .ok () { s with m_curr_catalog := n }) ∧
    (m_find_node_by_path p s = .val none →
      change_dir p s = .raised "ERROR: Path not found." s) ∧
    (∀ n nd, m_find_node_by_path p s = .val (some n) → s.heap.cell n = some nd →
      nd.m_type ≠ NODE_TYPE.DIRECTORY →
      change_dir p s = .raised "ERROR: Path not found." s) ∧
    m_find_node_by_path [] s = .val (some s.m_curr_catalog) := by
  refine ⟨?_, ?_, ?_, ?_⟩
  · intro n nd hfind hc hd
    simp [change_dir, hfind, deref_of_cell hc, hd]
  · intro hfind
    simp [change_dir, hfind]
  · intro n nd hfind hc hd
    simp [change_dir, hfind, deref_of_cell hc, hd]
  · simp [m_find_node_by_path]

/-- Method `change_dir` in the state of the test `Make_link_throw_absolute_path`:
`C:\Dir1` (address 2) becomes the current directory, the path `C:\Dir3`, which is
not there, and the file `C:\Dir1\file1.txt` are refused. -/
theorem change_dir_live_example :
    change_dir "C:\\Dir1".toList (after script_link_throw) =
      .ok () { after script_link_throw with m_curr_catalog := 2 } ∧
    change_dir "C:\\Dir3".toList (after script_link_throw) =
      .raised "ERROR: Path not found." (after script_link_throw) ∧
    change_dir "C:\\Dir1\\file1.txt".toList (after script_link_throw) =
      .raised "ERROR: Path not found." (after script_link_throw) :=
  ⟨(change_dir_live (after script_link_throw) "C:\\Dir1".toList).1 2
      ⟨some 0, NODE_TYPE.DIRECTORY, "Dir1".toList, [], [], [3]⟩ (by decide) (by decide) rfl,
    (change_dir_live (after script_link_throw) "C:\\Dir3".toList).2.1 (by decide),
    (change_dir_live (after script_link_throw) "C:\\Dir1\\file1.txt".toList).2.2.1 3
      ⟨some 2, NODE_TYPE.FILE, "file1.txt".toList, [], [], []⟩ (by decide) (by decide)
      (by decide)⟩

/-- On every tree state `delete_tree` ends for every path: it never runs
for ever (it returns, throws, or reads a destroyed node).
For every live directory `target`: when it has children, the sweep of one pass
of the outer loop ends, and a sweep that returns leaves a tree state in which a
node below `target` is destroyed and fewer cells are alive; the outer loop
ends, and when it returns `target` has no child left. When the path resolves
to a live node and no node strictly below it has a registered dynamic link,
`delete_tree` returns or throws. -/
theorem delete_tree_never_diverges (s : File_system_emulator) (p : List Char)
    (h : tree_state s) :
    delete_tree p s ≠ .diverge ∧
    (∀ target t, s.heap.cell target = some t → t.m_type = NODE_TYPE.DIRECTORY →
      (t.m_childs ≠ [] →
        delete_tree_sweep (s.heap.length + 1) [target] s ≠ .diverge ∧
        ∀ s', delete_tree_sweep (s.heap.length + 1) [target] s = .ok () s' →
          tree_state s' ∧ live_count s' < live_count s ∧
          ∃ x, Relation.TransGen (is_child s) target x ∧ s.heap.cell x ≠ none ∧
            s'.heap.cell x = none) ∧
      delete_tree_loop target (s.heap.length + 1) s ≠ .diverge ∧
      ∀ s', delete_tree_loop target (s.heap.length + 1) s = .ok () s' →
        ∀ t', s'.heap.cell target = some t' → t'.m_childs = []) ∧
    (∀ target t, m_find_node_by_path p s = .val (some target) →
      s.heap.cell target = some t → no_dlinks_below s target →
      (∃ s', delete_tree p s = .ok () s') ∨ ∃ e s', delete_tree p s = .raised e s') := by
  refine ⟨ends_halts (delete_tree_ends p h), fun target t ht hd => ⟨fun hne => ?_, ?_, ?_⟩,
    fun target t hfind ht hclean => delete_tree_returns p h hfind ht hclean⟩
  · have hpass := delete_tree_pass h ht hd hne
    refine ⟨ends_halts hpass, fun s' hrun => ?_⟩
    rw [hrun] at hpass
    obtain ⟨h1, hp1, x, hx1, hx2, hx3⟩ := hpass
    exact ⟨h1, live_count_pruned hp1 hx2 hx3, x, hx1, hx2, hx3⟩
  · exact ends_halts (delete_tree_loop_ends target _ s h (Nat.lt_succ_of_le (live_count_le s)))
  · intro s' hrun
    have hloop := delete_tree_loop_ends target _ s h (Nat.lt_succ_of_le (live_count_le s))
    rw [hrun] at hloop
    exact hloop.2.2

/-- The end of `delete_tree` in the state of `script_file_in_dir`, for the path
`C:\Dir1`: the state is a tree state, and `delete_tree` returns there. -/
theorem delete_tree_never_diverges_example :
    (tree_state (after script_file_in_dir) ∧
      ∃ s', delete_tree "C:\\Dir1".toList (after script_file_in_dir) = .ok () s') ∧
    (delete_tree "C:\\Dir1".toList (after script_file_in_dir) ≠ .diverge ∧
    (∀ target t, (after script_file_in_dir).heap.cell target = some t →
      t.m_type = NODE_TYPE.DIRECTORY →
      (t.m_childs ≠ [] →
        delete_tree_sweep ((after script_file_in_dir).heap.length + 1) [target]
          (after script_file_in_dir) ≠ .diverge ∧
        ∀ s', delete_tree_sweep ((after script_file_in_dir).heap.length + 1) [target]
            (after script_file_in_dir) = .ok () s' →
          tree_state s' ∧ live_count s' < live_count (after script_file_in_dir) ∧
          ∃ x, Relation.TransGen (is_child (after script_file_in_dir)) target x ∧
            (after script_file_in_dir).heap.cell x ≠ none ∧ s'.heap.cell x = none) ∧
      delete_tree_loop target ((after script_file_in_dir).heap.length + 1)
        (after script_file_in_dir) ≠ .diverge ∧
      ∀ s', delete_tree_loop target ((after script_file_in_dir).heap.length + 1)
          (after script_file_in_dir) = .ok () s' →
        ∀ t', s'.heap.cell target = some t' → t'.m_childs = []) ∧
    (∀ target t,
      m_find_node_by_path "C:\\Dir1".toList (after script_file_in_dir) = .val (some target) →
      (after script_file_in_dir).heap.cell target = some t →
      no_dlinks_below (after script_file_in_dir) target →
      (∃ s', delete_tree "C:\\Dir1".toList (after script_file_in_dir) = .ok () s') ∨
      ∃ e s', delete_tree "C:\\Dir1".toList (after script_file_in_dir) = .raised e s')) :=
  have hreach : Reachable (after script_file_in_dir) :=
    reachable_run script_file_in_dir init _ Reachable.init (by decide)
  ⟨⟨reachable_tree_state hreach,
      ⟨{ heap := [some ⟨none, NODE_TYPE.DIRECTORY, DRIVE, [], [], []⟩,
                  some ⟨none, NODE_TYPE.DIRECTORY, [], [], [], [0]⟩, none, none],
         m_root := 1, m_curr_catalog := 0 }, by decide⟩⟩,
    delete_tree_never_diverges (after script_file_in_dir) "C:\\Dir1".toList
      (reachable_tree_state hreach)⟩

/-- In every reachable state the structure is a tree. A live node other
than the super-root and the drive stands in the child list of the directory its
parent reference names and of no other; no child list names a node twice;
following at most as many parent references as the arena has cells leads from
every live node other than the super-root to the drive; every live node heads a
tree of live nodes (no child list leads back to an ancestor). A `move` that
returns has changed nothing or had a destination outside the subtree of its
source. Method `m_to_absolute_path` returns from every live directory, and
`m_update_links` ends from every live node: it returns with the shape kept or
reads a destroyed node, and never throws; it returns, changing names only, when
the dynamic links registered at or below the node are alive. -/
theorem reachable_tree_facts (s : File_system_emulator) (h : Reachable s) :
    (∀ n nd, s.heap.cell n = some nd → n ≠ s.m_root → drive_root s ≠ .val n →
      ∃ p, nd.m_parent = some p ∧ is_child s p n ∧ ∀ d, is_child s d n → d = p) ∧
    childs_nodup s ∧
    (∀ n nd, s.heap.cell n = some nd → n ≠ s.m_root →
      ∃ k drive, k ≤ s.heap.length ∧ drive_root s = .val drive ∧
        ancestor s k n = some drive) ∧
    (∀ n nd, s.heap.cell n = some nd → tree_within s (s.heap.length + 1) n = true) ∧
    (∀ source dest s', move source dest s = .ok () s' →
      s' = s ∨ ∀ a b, m_find_node_by_path source s = .val (some a) →
        m_find_node_by_path dest s = .val (some b) → ¬ in_subtree s a b) ∧
    (∀ path d dn, s.heap.cell d = some dn → dn.m_type = NODE_TYPE.DIRECTORY →
      ∃ v, m_to_absolute_path path (some d) s = .val v) ∧
    (∀ n nd, s.heap.cell n = some nd →
      (m_update_links (s.heap.length + 1) n s).ends (fun _ s' => same_shape s s')
        (fun _ => False)) ∧
    (∀ n nd, s.heap.cell n = some nd → dlinks_alive s n →
      ∃ s', m_update_links (s.heap.length + 1) n s = .ok () s' ∧ renamed_only s s') := by
  obtain ⟨hw, hi, ha, hn⟩ := reachable_tree_state h
  refine ⟨fun n nd hc hnr hnd => ?_, hn, fun n nd hc hnr => ancestor_reaches_drive hw ha hc hnr,
    fun n nd hc => all_trees_heap hw hc, fun source dest s' hmove => ?_,
    fun path d dn hd hdir => m_to_absolute_path_returns hw ha path hd hdir,
    fun n nd hc => m_update_links_ends _ n s hw ha (all_trees_heap hw hc),
    fun n nd hc hl => m_update_links_returns _ n s hw ha (all_trees_heap hw hc) hl⟩
  · obtain ⟨a1, a2⟩ := ha n nd hc
    cases hp : nd.m_parent with
    | none =>
      rcases a2 hp with e | e
      · exact absurd e hnr
      · exact absurd (root_child_is_drive hw e) hnd
    | some p =>
      exact ⟨p, rfl, a1 p hp, fun d hd => lister_unique hw hd (a1 p hp)⟩
  · have := move_tidy source dest hw ha hn
    rw [hmove] at this
    exact this.2

/-- The tree facts in the state of `script_move_no_throw`, which is reachable. -/
theorem reachable_tree_facts_example :
    Reachable (after script_move_no_throw) ∧
    ((∀ n nd, (after script_move_no_throw).heap.cell n = some nd →
        n ≠ (after script_move_no_throw).m_root →
        drive_root (after script_move_no_throw) ≠ .val n →
        ∃ p, nd.m_parent = some p ∧ is_child (after script_move_no_throw) p n ∧
          ∀ d, is_child (after script_move_no_throw) d n → d = p) ∧
      childs_nodup (after script_move_no_throw) ∧
      (∀ n nd, (after script_move_no_throw).heap.cell n = some nd →
        n ≠ (after script_move_no_throw).m_root →
        ∃ k drive, k ≤ (after script_move_no_throw).heap.length ∧
          drive_root (after script_move_no_throw) = .val drive ∧
          ancestor (after script_move_no_throw) k n = some drive) ∧
      (∀ n nd, (after script_move_no_throw).heap.cell n = some nd →
        tree_within (after script_move_no_throw)
          ((after script_move_no_throw).heap.length + 1) n = true) ∧
      (∀ source dest s', move source dest (after script_move_no_throw) = .ok () s' →
        s' = after script_move_no_throw ∨
        ∀ a b, m_find_node_by_path source (after script_move_no_throw) = .val (some a) →
          m_find_node_by_path dest (after script_move_no_throw) = .val (some b) →
          ¬ in_subtree (after script_move_no_throw) a b) ∧
      (∀ path d dn, (after script_move_no_throw).heap.cell d = some dn →
        dn.m_type = NODE_TYPE.DIRECTORY →
        ∃ v, m_to_absolute_path path (some d) (after script_move_no_throw) = .val v) ∧
      (∀ n nd, (after script_move_no_throw).heap.cell n = some nd →
        (m_update_links ((after script_move_no_throw).heap.length + 1) n
          (after script_move_no_throw)).ends
          (fun _ s' => same_shape (after script_move_no_throw) s') (fun _ => False)) ∧
      (∀ n nd, (after script_move_no_throw).heap.cell n = some nd →
        dlinks_alive (after script_move_no_throw) n →
        ∃ s', m_update_links ((after script_move_no_throw).heap.length + 1) n
          (after script_move_no_throw) = .ok () s' ∧
          renamed_only (after script_move_no_throw) s')) :=
  have hreach : Reachable (after script_move_no_throw) :=
    reachable_run script_move_no_throw init _ Reachable.init (by decide)
  ⟨hreach, reachable_tree_facts (after script_move_no_throw) hreach⟩

/-! ## The claims -/

/-- Claim C1. Whenever a path resolves to a file whose `m_hlinks` registry is not empty,
`remove_file` throws and leaves the whole state untouched, so the file is still
in the tree. In particular, after `make_dir("C:\Dir1")`,
`make_file("C:\Dir1\file1.txt")` and
`make_hlink("C:\Dir1\file1.txt", "C:\Dir1")` on the initial state, `Dir1` has a
child named `hlink[C:\Dir1\file1.txt]` and `remove_file("C:\Dir1\file1.txt")`
throws. -/
theorem C1_remove_file_hard_linked (s : File_system_emulator) (p : List Char) (f : Nat)
    (nd : Node)
    (hfind : m_find_node_by_path p s = .val (some f))
    (hcell : s.heap.cell f = some nd)
    (htype : nd.m_type = NODE_TYPE.FILE)
    (hlinks : nd.m_hlinks ≠ []) :
    remove_file p s = .raised "ERROR: Can`t delete entity with attached hard link." s ∧
    (run script_hard_linked_file init = .ok () (after script_hard_linked_file) ∧
      m_find_node_by_path "C:\\Dir1".toList (after script_hard_linked_file) = .val (some 2) ∧
      "hlink[C:\\Dir1\\file1.txt]".toList ∈ child_names (after script_hard_linked_file) 2 ∧
      remove_file "C:\\Dir1\\file1.txt".toList (after script_hard_linked_file) =
        .raised "ERROR: Can`t delete entity with attached hard link."
          (after script_hard_linked_file)) := by
  refine ⟨?_, by decide, by decide, by decide, by decide⟩
  simp [remove_file, hfind, deref_of_cell hcell, htype, m_remove_node, hlinks]

/-- Claim C1 at a concrete input: the file of the scenario, which resolves to address 3
and carries the hard link at address 4. -/
theorem C1_remove_file_hard_linked_witness :
    (m_find_node_by_path "C:\\Dir1\\file1.txt".toList (after script_hard_linked_file)
        = .val (some 3) ∧
      (after script_hard_linked_file).heap.cell 3 =
        some ⟨some 2, NODE_TYPE.FILE, "file1.txt".toList, [4], [], []⟩ ∧
      NODE_TYPE.FILE = NODE_TYPE.FILE ∧ [4] ≠ ([] : List Nat)) ∧
    remove_file "C:\\Dir1\\file1.txt".toList (after script_hard_linked_file) =
      .raised "ERROR: Can`t delete entity with attached hard link."
        (after script_hard_linked_file) :=
  ⟨⟨by decide, by decide, rfl, by decide⟩,
    (C1_remove_file_hard_linked (after script_hard_linked_file) "C:\\Dir1\\file1.txt".toList 3
      ⟨some 2, NODE_TYPE.FILE, "file1.txt".toList, [4], [], []⟩
      (by decide) (by decide) rfl (by decide)).1⟩

/-- Claim C2, evaluated where the code departs from it. After `make_dir("C:\D")`,
`make_dlink("C:\D", "C:")` and `remove_file("C:\dlink[C:\D]")` the path `C:\D`
resolves to an empty directory that is neither the drive root nor the current
directory and has no hard link, yet `remove_dir("C:\D")` neither throws nor
succeeds: it dereferences the destroyed link still listed in `m_dlinks`. -/
theorem C2_remove_dir_after_dlink_removed :
    Reachable (after script_removed_dlink_of_dir) ∧
    run script_removed_dlink_of_dir init = .ok () (after script_removed_dlink_of_dir) ∧
    m_find_node_by_path "C:\\D".toList (after script_removed_dlink_of_dir) = .val (some 2) ∧
    (after script_removed_dlink_of_dir).heap.cell 2 =
      some ⟨some 0, NODE_TYPE.DIRECTORY, "D".toList, [], [3], []⟩ ∧
    (after script_removed_dlink_of_dir).heap.cell 3 = none ∧
    drive_root (after script_removed_dlink_of_dir) = .val 0 ∧
    (after script_removed_dlink_of_dir).m_curr_catalog = 0 ∧
    remove_dir "C:\\D".toList (after script_removed_dlink_of_dir) = .undefined :=
  ⟨reachable_run script_removed_dlink_of_dir init _ Reachable.init (by decide), by decide⟩

/-- Claim C3. In a reachable state let `source` resolve to a node other than the drive
root and `dest` to a different node that is a directory. If the source is a
file with a non-empty `m_hlinks` registry, or a directory whose subtree holds,
at any depth, a file or directory with a non-empty `m_hlinks` registry, the
source itself included, then `move` throws and the state is untouched, so the
source is still a child of its parent. The recursive scan returns because the
subtree of a reachable state is a tree (`reachable_tree`). -/
theorem C3_move_hard_linked (s : File_system_emulator) (source dest : List Char)
    (a b drive : Nat) (an dn : Node)
    (hs : Reachable s)
    (hsrc : m_find_node_by_path source s = .val (some a))
    (hdst : m_find_node_by_path dest s = .val (some b))
    (ha : s.heap.cell a = some an)
    (hb : s.heap.cell b = some dn)
    (hdir : dn.m_type = NODE_TYPE.DIRECTORY)
    (hab : b ≠ a)
    (hdrive : drive_root s = .val drive)
    (hroot : a ≠ drive)
    (hlinked : (an.m_type = NODE_TYPE.FILE ∧ an.m_hlinks ≠ []) ∨
      (an.m_type = NODE_TYPE.DIRECTORY ∧ ∃ n, in_subtree s a n ∧ has_hard_link s n)) :
    move source dest s = .raised "ERROR: Can't move source with attached hard link." s := by
  have htree := reachable_tree hs ha
  rcases hlinked with ⟨hf, hne⟩ | ⟨_, hex⟩
  · exact move_hard_linked s source dest a b drive _ an dn hsrc hdst ha hb hdir hab hdrive hroot
      htree ⟨a, Relation.ReflTransGen.refl, an, ha, Or.inl hf, hne⟩
  · exact move_hard_linked s source dest a b drive _ an dn hsrc hdst ha hb hdir hab hdrive hroot
      htree hex

/-- Claim C3 at the input of the test `Move_throw_absolute_path`: `C:\Dir1\Dir2`
(address 3) holds `file2.txt` (address 5), to which a hard link is attached. -/
theorem C3_move_hard_linked_witness :
    (Reachable (after script_move_throw) ∧
      m_find_node_by_path "C:\\Dir1\\Dir2".toList (after script_move_throw) = .val (some 3) ∧
      m_find_node_by_path "C:\\BDir1".toList (after script_move_throw) = .val (some 7) ∧
      (after script_move_throw).heap.cell 3 =
        some ⟨some 2, NODE_TYPE.DIRECTORY, "Dir2".toList, [], [], [6, 5, 4]⟩ ∧
      (after script_move_throw).heap.cell 7 =
        some ⟨some 0, NODE_TYPE.DIRECTORY, "BDir1".toList, [], [], []⟩ ∧
      7 ≠ 3 ∧ drive_root (after script_move_throw) = .val 0 ∧ 3 ≠ 0 ∧
      ∃ n, in_subtree (after script_move_throw) 3 n ∧ has_hard_link (after script_move_throw) n) ∧
    move "C:\\Dir1\\Dir2".toList "C:\\BDir1".toList (after script_move_throw) =
      .raised "ERROR: Can't move source with attached hard link." (after script_move_throw) :=
  have hreach : Reachable (after script_move_throw) :=
    reachable_run script_move_throw init _ Reachable.init (by decide)
  have hex : ∃ n, in_subtree (after script_move_throw) 3 n ∧
      has_hard_link (after script_move_throw) n :=
    ⟨5, Relation.ReflTransGen.single
        ⟨⟨some 2, NODE_TYPE.DIRECTORY, "Dir2".toList, [], [], [6, 5, 4]⟩,
          by decide, rfl, by decide⟩,
      ⟨some 3, NODE_TYPE.FILE, "file2.txt".toList, [6], [], []⟩, by decide, Or.inl rfl,
      by decide⟩
  ⟨⟨hreach, by decide, by decide, by decide, by decide, by decide, by decide, by decide, hex⟩,
    C3_move_hard_linked (after script_move_throw) "C:\\Dir1\\Dir2".toList "C:\\BDir1".toList
      3 7 0 ⟨some 2, NODE_TYPE.DIRECTORY, "Dir2".toList, [], [], [6, 5, 4]⟩
      ⟨some 0, NODE_TYPE.DIRECTORY, "BDir1".toList, [], [], []⟩
      hreach (by decide) (by decide) (by decide) (by decide) rfl (by decide) (by decide)
      (by decide) (Or.inr ⟨rfl, hex⟩)⟩

/-- Claim C4, evaluated where the code departs from it. After `make_dir("C:\D")` and
`make_hlink("C:\D", "C:")` the directory `C:\D` (address 2) is neither the drive
root nor the current directory and has a hard link attached, yet
`delete_tree("C:\D")` returns normally: the directory is destroyed, the path no
longer resolves, and the hard link `hlink[C:\D]` stays in the drive. -/
theorem C4_delete_tree_hard_linked_dir :
    Reachable (after script_hard_linked_dir) ∧
    run script_hard_linked_dir init = .ok () (after script_hard_linked_dir) ∧
    m_find_node_by_path "C:\\D".toList (after script_hard_linked_dir) = .val (some 2) ∧
    (after script_hard_linked_dir).heap.cell 2 =
      some ⟨some 0, NODE_TYPE.DIRECTORY, "D".toList, [3], [], []⟩ ∧
    drive_root (after script_hard_linked_dir) = .val 0 ∧
    (after script_hard_linked_dir).m_curr_catalog = 0 ∧
    ∃ s', delete_tree "C:\\D".toList (after script_hard_linked_dir) = .ok () s' ∧
      s'.heap.cell 2 = none ∧
      m_find_node_by_path "C:\\D".toList s' = .val none ∧
      "hlink[C:\\D]".toList ∈ child_names s' 0 :=
  ⟨reachable_run script_hard_linked_dir init _ Reachable.init (by decide),
    by decide, by decide, by decide, by decide, by decide,
    after (script_hard_linked_dir ++ [.delete_tree "C:\\D".toList]),
    by decide, by decide, by decide, by decide⟩

/-- Claim C5, evaluated where the code departs from it. After the calls of the test
`Remove_file_no_throw_absolute_path` (a file, a dynamic and a hard link to it,
then `remove_file` on both links) the file (address 4) still lists both links
in its registries, and both link nodes (addresses 5 and 6) are destroyed. -/
theorem C5_registry_keeps_destroyed_link :
    Reachable (after script_links_removed) ∧
    run script_links_removed init = .ok () (after script_links_removed) ∧
    m_find_node_by_path "C:\\Dir1\\file1.txt".toList (after script_links_removed)
      = .val (some 4) ∧
    (after script_links_removed).heap.cell 4 =
      some ⟨some 2, NODE_TYPE.FILE, "file1.txt".toList, [6], [5], []⟩ ∧
    (after script_links_removed).heap.cell 5 = none ∧
    (after script_links_removed).heap.cell 6 = none :=
  ⟨reachable_run script_links_removed init _ Reachable.init (by decide), by decide⟩

/-- Claim C6, evaluated where the code departs from it. After `make_file("C:\f")`,
`make_dlink("C:\f", "C:")` and `remove_file("C:\dlink[C:\f]")` the path `C:\f`
resolves to a file with an empty `m_hlinks` registry, yet `remove_file("C:\f")`
does not succeed: it dereferences the destroyed link still listed in
`m_dlinks`. Further, after `make_dir("C:\D")`, `make_dlink("C:\D", "C:")`,
`delete_tree("C:\D")` and `make_dir("C:\D")` the path `C:\D` resolves to an
empty directory with empty registries; `remove_dir("C:\D")` succeeds and the
drive still has the child `dlink[C:\D]`. -/
theorem C6_remove_file_after_dlink_removed :
    Reachable (after script_removed_dlink_of_file) ∧
    run script_removed_dlink_of_file init = .ok () (after script_removed_dlink_of_file) ∧
    m_find_node_by_path "C:\\f".toList (after script_removed_dlink_of_file) = .val (some 2) ∧
    (after script_removed_dlink_of_file).heap.cell 2 =
      some ⟨some 0, NODE_TYPE.FILE, "f".toList, [], [3], []⟩ ∧
    (after script_removed_dlink_of_file).heap.cell 3 = none ∧
    remove_file "C:\\f".toList (after script_removed_dlink_of_file) = .undefined ∧
    Reachable (after script_deleted_tree_made_again) ∧
    run script_deleted_tree_made_again init = .ok () (after script_deleted_tree_made_again) ∧
    m_find_node_by_path "C:\\D".toList (after script_deleted_tree_made_again) = .val (some 4) ∧
    (after script_deleted_tree_made_again).heap.cell 4 =
      some ⟨some 0, NODE_TYPE.DIRECTORY, "D".toList, [], [], []⟩ ∧
    absolute_path_of (after script_deleted_tree_made_again) 5 4 = some "C:\\D".toList ∧
    remove_dir "C:\\D".toList (after script_deleted_tree_made_again) =
      .ok () (after (script_deleted_tree_made_again ++ [.remove_dir "C:\\D".toList])) ∧
    "dlink[C:\\D]".toList ∈
      child_names (after (script_deleted_tree_made_again ++ [.remove_dir "C:\\D".toList])) 0 :=
  ⟨reachable_run script_removed_dlink_of_file init _ Reachable.init (by decide), by decide,
    by decide, by decide, by decide, by decide,
    reachable_run script_deleted_tree_made_again init _ Reachable.init (by decide), by decide,
    by decide, by decide, by decide, by decide, by decide⟩

/-- Claim C7, evaluated where the code departs from it. A directory named `C:x` in the
drive, with a dynamic link to it, is moved into `C:\B`. The move returns
normally, the directory (address 2) now has the absolute path `C:\B\C:x`, and
its registered dynamic link (address 3) is renamed `dlink[C:x]`, not
`dlink[C:\B\C:x]`. -/
theorem C7_move_drive_named_dir :
    Reachable (after script_drive_named_dir) ∧
    run script_drive_named_dir init = .ok () (after script_drive_named_dir) ∧
    m_find_node_by_path "C:\\C:x".toList (after script_drive_named_dir) = .val (some 2) ∧
    ∃ s', move "C:\\C:x".toList "C:\\B".toList (after script_drive_named_dir) = .ok () s' ∧
      m_find_node_by_path "C:\\B\\C:x".toList s' = .val (some 2) ∧
      s'.heap.cell 2 = some ⟨some 4, NODE_TYPE.DIRECTORY, "C:x".toList, [], [3], []⟩ ∧
      absolute_path_of s' s'.heap.length 2 = some "C:\\B\\C:x".toList ∧
      s'.heap.cell 3 = some ⟨some 0, NODE_TYPE.DLINK, "dlink[C:x]".toList, [], [], []⟩ :=
  ⟨reachable_run script_drive_named_dir init _ Reachable.init (by decide), by decide, by decide,
    after (script_drive_named_dir ++ [.move "C:\\C:x".toList "C:\\B".toList]),
    by decide, by decide, by decide, by decide, by decide⟩

/-- Claim C8, evaluated where the code departs from it, on two scripts run from the
initial state. `make_dlink("", "C:")` registers on the drive (address 0,
absolute path `C:`) a link named `dlink[C:\]`. `make_file("C:\f")` followed by
`make_dlink("C:\f\junk", "C:")` registers on the file (address 2, absolute path
`C:\f`) a link named `dlink[C:\f\junk]`. -/
theorem C8_dlink_name_not_absolute_path :
    (Reachable (after script_dlink_to_current) ∧
      run script_dlink_to_current init = .ok () (after script_dlink_to_current) ∧
      (after script_dlink_to_current).heap.cell 0 =
        some ⟨none, NODE_TYPE.DIRECTORY, "C:".toList, [], [2], [2]⟩ ∧
      absolute_path_of (after script_dlink_to_current) 3 0 = some "C:".toList ∧
      (after script_dlink_to_current).heap.cell 2 =
        some ⟨some 0, NODE_TYPE.DLINK, "dlink[C:\\]".toList, [], [], []⟩ ∧
      get_link_basename "dlink[C:\\]".toList = "C:\\".toList) ∧
    (Reachable (after script_dlink_past_file) ∧
      run script_dlink_past_file init = .ok () (after script_dlink_past_file) ∧
      (after script_dlink_past_file).heap.cell 2 =
        some ⟨some 0, NODE_TYPE.FILE, "f".toList, [], [3], []⟩ ∧
      absolute_path_of (after script_dlink_past_file) 4 2 = some "C:\\f".toList ∧
      (after script_dlink_past_file).heap.cell 3 =
        some ⟨some 0, NODE_TYPE.DLINK, "dlink[C:\\f\\junk]".toList, [], [], []⟩ ∧
      get_link_basename "dlink[C:\\f\\junk]".toList = "C:\\f\\junk".toList) :=
  ⟨⟨reachable_run script_dlink_to_current init _ Reachable.init (by decide), by decide⟩,
    ⟨reachable_run script_dlink_past_file init _ Reachable.init (by decide), by decide⟩⟩

/-- Claim C9. Let `move` return normally with `source` resolving to a node `a` other
than the drive root and `dest` to a different node `b`, a directory, in a
state whose `m_dlinks` registries list nodes of kind `DLINK` only (every reachable
state is one, `reachable_dlinks_typed`). Afterwards
`a` is a child of `b` (at the front of its child list), `a` is no longer a
child of its former parent `p` unless `p` is `b`, the parent of `a` is `b`, and
the child lists of all directories other than `p` and `b`, the parent of every
other node, the kind of every node, the name of every node that is not a
`DLINK`, both registries of every node, the current directory and the root are
unchanged. -/
theorem C9_move_frame (s s' : File_system_emulator) (source dest : List Char)
    (a b drive : Nat) (dn : Node)
    (hsrc : m_find_node_by_path source s = .val (some a))
    (hdst : m_find_node_by_path dest s = .val (some b))
    (hb : s.heap.cell b = some dn)
    (hdir : dn.m_type = NODE_TYPE.DIRECTORY)
    (hab : a ≠ b)
    (hdrive : drive_root s = .val drive)
    (hroot : a ≠ drive)
    (htyped : dlinks_typed s = true)
    (hmove : move source dest s = .ok () s') :
    ∃ an p pn an' bn',
      s.heap.cell a = some an ∧ an.m_parent = some p ∧ s.heap.cell p = some pn ∧
      s'.heap.cell a = some an' ∧ s'.heap.cell b = some bn' ∧
      a ∈ bn'.m_childs ∧
      (p ≠ b → ∃ pn', s'.heap.cell p = some pn' ∧ a ∉ pn'.m_childs) ∧
      an'.m_parent = some b ∧
      bn'.m_childs = a :: (if b = p then list_remove dn.m_childs a else dn.m_childs) ∧
      (∀ q, q ≠ p → q ≠ b →
        (s'.heap.cell q).map Node.m_childs = (s.heap.cell q).map Node.m_childs) ∧
      (∀ q, q ≠ a →
        (s'.heap.cell q).map Node.m_parent = (s.heap.cell q).map Node.m_parent) ∧
      (∀ q, (s'.heap.cell q).map Node.m_type = (s.heap.cell q).map Node.m_type) ∧
      (∀ q nd, s.heap.cell q = some nd → nd.m_type ≠ NODE_TYPE.DLINK →
        (s'.heap.cell q).map Node.m_name = some nd.m_name) ∧
      (∀ q, (s'.heap.cell q).map Node.m_hlinks = (s.heap.cell q).map Node.m_hlinks) ∧
      (∀ q, (s'.heap.cell q).map Node.m_dlinks = (s.heap.cell q).map Node.m_dlinks) ∧
      s'.m_curr_catalog = s.m_curr_catalog ∧ s'.m_root = s.m_root := by
  obtain ⟨an, p, pn, ha, hpar, hp, hr, hcur, H⟩ :=
    move_ok_cells hsrc hdst hb hdir hab hdrive hroot htyped hmove
  have Ha : ∃ name, s'.heap.cell a = some { moved_cell a b p a an with m_name := name } := by
    rcases H a with ⟨h1, _⟩ | ⟨nd, name, h1, h2, _⟩
    · rw [ha] at h1; cases h1
    · rw [ha] at h1; cases h1; exact ⟨name, h2⟩
  have Hb : ∃ name, s'.heap.cell b = some { moved_cell a b p b dn with m_name := name } := by
    rcases H b with ⟨h1, _⟩ | ⟨nd, name, h1, h2, _⟩
    · rw [hb] at h1; cases h1
    · rw [hb] at h1; cases h1; exact ⟨name, h2⟩
  have Hp : ∃ name, s'.heap.cell p = some { moved_cell a b p p pn with m_name := name } := by
    rcases H p with ⟨h1, _⟩ | ⟨nd, name, h1, h2, _⟩
    · rw [hp] at h1; cases h1
    · rw [hp] at h1; cases h1; exact ⟨name, h2⟩
  obtain ⟨na, Ha⟩ := Ha
  obtain ⟨nb, Hb⟩ := Hb
  obtain ⟨np, Hp⟩ := Hp
  have hfield : ∀ {β : Type} (f : Node → β),
      (∀ q nd name, f { moved_cell a b p q nd with m_name := name } = f nd) →
      ∀ q, (s'.heap.cell q).map f = (s.heap.cell q).map f := by
    intro β f hf q
    rcases H q with ⟨h1, h2⟩ | ⟨nd, name, h1, h2, _⟩
    · rw [h1, h2]
    · rw [h1, h2]; simp [hf]
  refine ⟨an, p, pn, _, _, ha, hpar, hp, Ha, Hb, ?_, ?_, ?_, ?_, ?_, ?_, ?_, ?_, ?_, ?_, hcur, hr⟩
  · simp [moved_cell]
  · intro hpb
    refine ⟨_, Hp, ?_⟩
    simp [moved_cell, hpb, list_remove]
  · simp [moved_cell]
  · by_cases hbp : b = p
    · simp [moved_cell, hbp]
    · simp [moved_cell, hbp]
  · intro q hqp hqb
    rcases H q with ⟨h1, h2⟩ | ⟨nd, name, h1, h2, _⟩
    · rw [h1, h2]
    · rw [h1, h2]; simp [moved_cell, hqp, hqb]
  · intro q hqa
    rcases H q with ⟨h1, h2⟩ | ⟨nd, name, h1, h2, _⟩
    · rw [h1, h2]
    · rw [h1, h2]; simp [moved_cell, hqa]
  · exact hfield Node.m_type (fun _ _ _ => rfl)
  · intro q nd hq hty
    rcases H q with ⟨h1, _⟩ | ⟨nd', name, h1, h2, h3⟩
    · rw [hq] at h1; cases h1
    · rw [hq] at h1; cases h1
      rw [h2]; simp [h3 hty]
  · exact hfield Node.m_hlinks (fun _ _ _ => rfl)
  · exact hfield Node.m_dlinks (fun _ _ _ => rfl)

/-- Claim C9 at the input of the test `Move_no_throw_absolute_path`: from the current
directory `C:\Dir1`, `Dir2` (address 3) is moved into `C:\BDir1` (address 8). -/
theorem C9_move_frame_witness :
    (m_find_node_by_path "Dir2".toList (after script_move_no_throw) = .val (some 3) ∧
      m_find_node_by_path "C:\\BDir1".toList (after script_move_no_throw) = .val (some 8) ∧
      (after script_move_no_throw).heap.cell 8 =
        some ⟨some 0, NODE_TYPE.DIRECTORY, "BDir1".toList, [], [], []⟩ ∧
      3 ≠ 8 ∧ drive_root (after script_move_no_throw) = .val 0 ∧ 3 ≠ 0 ∧
      dlinks_typed (after script_move_no_throw) = true ∧
      move "Dir2".toList "C:\\BDir1".toList (after script_move_no_throw) =
        .ok () (after (script_move_no_throw ++ [.move "Dir2".toList "C:\\BDir1".toList]))) ∧
    ∃ an p pn an' bn',
      (after script_move_no_throw).heap.cell 3 = some an ∧ an.m_parent = some p ∧
      (after script_move_no_throw).heap.cell p = some pn ∧
      (after (script_move_no_throw ++ [.move "Dir2".toList "C:\\BDir1".toList])).heap.cell 3
        = some an' ∧
      (after (script_move_no_throw ++ [.move "Dir2".toList "C:\\BDir1".toList])).heap.cell 8
        = some bn' ∧
      3 ∈ bn'.m_childs ∧ an'.m_parent = some 8 :=
  have h := C9_move_frame (after script_move_no_throw)
    (after (script_move_no_throw ++ [.move "Dir2".toList "C:\\BDir1".toList]))
    "Dir2".toList "C:\\BDir1".toList 3 8 0
    ⟨some 0, NODE_TYPE.DIRECTORY, "BDir1".toList, [], [], []⟩
    (by decide) (by decide) (by decide) rfl (by decide) (by decide) (by decide) (by decide)
    (by decide)
  ⟨⟨by decide, by decide, by decide, by decide, by decide, by decide, by decide, by decide⟩,
    match h with
    | ⟨an, p, pn, an', bn', h1, h2, h3, h4, h5, h6, _, h8, _⟩ =>
      ⟨an, p, pn, an', bn', h1, h2, h3, h4, h5, h6, h8⟩⟩

/-- Claim C10. When `source` resolves to a node and `dest` to a directory, and both are
the same node or the source is the drive root `C:`, `move` returns normally and
the state (tree, registries, names, current directory) is unchanged. -/
theorem C10_move_same_or_root (s : File_system_emulator) (source dest : List Char) (a b : Nat)
    (dn : Node)
    (hsrc : m_find_node_by_path source s = .val (some a))
    (hdst : m_find_node_by_path dest s = .val (some b))
    (hcell : s.heap.cell b = some dn)
    (hdir : dn.m_type = NODE_TYPE.DIRECTORY)
    (h : b = a ∨ drive_root s = .val a) :
    move source dest s = .ok () s := by
  simp only [move, hsrc, hdst, deref_of_cell hcell, hdir, read_bind_val]
  rcases h with h | h
  · simp [h]
  · by_cases hab : b = a
    · simp [hab]
    · simp [hab, h]

/-- Claim C10 at a concrete input: the drive root moved into `C:\BDir1` in the state of
the test `Move_throw_absolute_path`. -/
theorem C10_move_same_or_root_witness :
    (m_find_node_by_path "C:".toList (after script_move_throw) = .val (some 0) ∧
      m_find_node_by_path "C:\\BDir1".toList (after script_move_throw) = .val (some 7) ∧
      (after script_move_throw).heap.cell 7 =
        some ⟨some 0, NODE_TYPE.DIRECTORY, "BDir1".toList, [], [], []⟩ ∧
      (7 = 0 ∨ drive_root (after script_move_throw) = .val 0)) ∧
    move "C:".toList "C:\\BDir1".toList (after script_move_throw) =
      .ok () (after script_move_throw) :=
  ⟨⟨by decide, by decide, by decide, Or.inr (by decide)⟩,
    C10_move_same_or_root (after script_move_throw) "C:".toList "C:\\BDir1".toList 0 7
      ⟨some 0, NODE_TYPE.DIRECTORY, "BDir1".toList, [], [], []⟩
      (by decide) (by decide) (by decide) rfl (Or.inr (by decide))⟩

/-- Claim C11, evaluated where the code departs from it. With `C:\A` (address 2) the
current directory and `C:\B` (address 3) another directory,
`move("C:\A", "C:\B")` returns normally: the current directory is taken out of
the drive and put into `C:\B`. The method has no test on `m_curr_catalog`. -/
theorem C11_move_current_directory :
    Reachable (after script_current_beside) ∧
    run script_current_beside init = .ok () (after script_current_beside) ∧
    (after script_current_beside).m_curr_catalog = 2 ∧
    m_find_node_by_path "C:\\A".toList (after script_current_beside) = .val (some 2) ∧
    m_find_node_by_path "C:\\B".toList (after script_current_beside) = .val (some 3) ∧
    (after script_current_beside).heap.cell 2 =
      some ⟨some 0, NODE_TYPE.DIRECTORY, "A".toList, [], [], []⟩ ∧
    (after script_current_beside).heap.cell 3 =
      some ⟨some 0, NODE_TYPE.DIRECTORY, "B".toList, [], [], []⟩ ∧
    (after script_current_beside).heap.cell 0 =
      some ⟨none, NODE_TYPE.DIRECTORY, "C:".toList, [], [], [3, 2]⟩ ∧
    ∃ s', move "C:\\A".toList "C:\\B".toList (after script_current_beside) = .ok () s' ∧
      s'.m_curr_catalog = 2 ∧
      s'.heap.cell 2 = some ⟨some 3, NODE_TYPE.DIRECTORY, "A".toList, [], [], []⟩ ∧
      s'.heap.cell 3 = some ⟨some 0, NODE_TYPE.DIRECTORY, "B".toList, [], [], [2]⟩ ∧
      s'.heap.cell 0 = some ⟨none, NODE_TYPE.DIRECTORY, "C:".toList, [], [], [3]⟩ :=
  ⟨reachable_run script_current_beside init _ Reachable.init (by decide),
    by decide, by decide, by decide, by decide, by decide, by decide, by decide,
    after (script_current_beside ++ [.move "C:\\A".toList "C:\\B".toList]),
    by decide, by decide, by decide, by decide, by decide⟩

/-- Claim C12, evaluated where the code departs from it. With the current directory
`C:\A\B` (address 3), `delete_tree("C:\A")` returns normally: the test of the
method compares the target with `m_curr_catalog` only, so the current
directory is destroyed with the tree above it. The state reached is reachable,
its `m_curr_catalog` still holds address 3, that cell is empty, and nothing is
below the drive. -/
theorem C12_current_directory_destroyed :
    Reachable (after script_current_below) ∧
    run script_current_below init = .ok () (after script_current_below) ∧
    (after script_current_below).m_curr_catalog = 3 ∧
    (after script_current_below).heap.cell 3 =
      some ⟨some 2, NODE_TYPE.DIRECTORY, "B".toList, [], [], []⟩ ∧
    m_find_node_by_path "C:\\A".toList (after script_current_below) = .val (some 2) ∧
    drive_root (after script_current_below) = .val 0 ∧
    ∃ s', delete_tree "C:\\A".toList (after script_current_below) = .ok () s' ∧
      Reachable s' ∧
      s'.m_curr_catalog = 3 ∧
      s'.heap.cell 3 = none ∧
      drive_root s' = .val 0 ∧
      s'.heap.cell 0 = some ⟨none, NODE_TYPE.DIRECTORY, "C:".toList, [], [], []⟩ ∧
      ¬ in_subtree s' 0 3 :=
  have hcell : (after (script_current_below ++ [.delete_tree "C:\\A".toList])).heap.cell 0 =
      some ⟨none, NODE_TYPE.DIRECTORY, "C:".toList, [], [], []⟩ := by decide
  ⟨reachable_run script_current_below init _ Reachable.init (by decide),
    by decide, by decide, by decide, by decide, by decide,
    after (script_current_below ++ [.delete_tree "C:\\A".toList]),
    by decide,
    reachable_run (script_current_below ++ [.delete_tree "C:\\A".toList]) init _ Reachable.init
      (by decide),
    by decide, by decide, by decide, hcell,
    fun h => absurd (leaf_subtree hcell (Or.inr rfl) h) (by decide)⟩

/-- Claim C15, evaluated where the code departs from it, on two scripts. In both, the
directory `C:\D` (address 2) is neither the drive root nor the current
directory, and its subtree holds directories, files and dynamic links only,
with no hard link anywhere. In the first the link `dlink[C:\D\f]` stands
beside its target `C:\D\f`: the sweep of `delete_tree` destroys the link, which
stays in `m_dlinks` of the file, and `m_remove_node` of the file then reads the
destroyed link. In the second the link stands one level down: `m_remove_node`
of the file destroys the link while the queue of the sweep still holds it. -/
theorem C15_delete_tree_dlink_inside :
    (Reachable (after script_dlink_beside_target) ∧
      run script_dlink_beside_target init = .ok () (after script_dlink_beside_target) ∧
      m_find_node_by_path "C:\\D".toList (after script_dlink_beside_target) = .val (some 2) ∧
      drive_root (after script_dlink_beside_target) = .val 0 ∧
      (after script_dlink_beside_target).m_curr_catalog = 0 ∧
      (after script_dlink_beside_target).heap.cell 2 =
        some ⟨some 0, NODE_TYPE.DIRECTORY, "D".toList, [], [], [4, 3]⟩ ∧
      (after script_dlink_beside_target).heap.cell 3 =
        some ⟨some 2, NODE_TYPE.FILE, "f".toList, [], [4], []⟩ ∧
      (after script_dlink_beside_target).heap.cell 4 =
        some ⟨some 2, NODE_TYPE.DLINK, "dlink[C:\\D\\f]".toList, [], [], []⟩ ∧
      delete_tree "C:\\D".toList (after script_dlink_beside_target) = .undefined) ∧
    (Reachable (after script_dlink_below_target) ∧
      run script_dlink_below_target init = .ok () (after script_dlink_below_target) ∧
      m_find_node_by_path "C:\\D".toList (after script_dlink_below_target) = .val (some 2) ∧
      drive_root (after script_dlink_below_target) = .val 0 ∧
      (after script_dlink_below_target).m_curr_catalog = 0 ∧
      (after script_dlink_below_target).heap.cell 2 =
        some ⟨some 0, NODE_TYPE.DIRECTORY, "D".toList, [], [], [4, 3]⟩ ∧
      (after script_dlink_below_target).heap.cell 3 =
        some ⟨some 2, NODE_TYPE.FILE, "f".toList, [], [5], []⟩ ∧
      (after script_dlink_below_target).heap.cell 4 =
        some ⟨some 2, NODE_TYPE.DIRECTORY, "E".toList, [], [], [5]⟩ ∧
      (after script_dlink_below_target).heap.cell 5 =
        some ⟨some 4, NODE_TYPE.DLINK, "dlink[C:\\D\\f]".toList, [], [], []⟩ ∧
      delete_tree "C:\\D".toList (after script_dlink_below_target) = .undefined) :=
  ⟨⟨reachable_run script_dlink_beside_target init _ Reachable.init (by decide), by decide⟩,
    ⟨reachable_run script_dlink_below_target init _ Reachable.init (by decide), by decide⟩⟩

/-- Claim C16, evaluated where the code departs from it. The state of
`script_current_destroyed` is reachable; its `m_curr_catalog` holds address 3,
the directory `C:\A\B` that `delete_tree("C:\A")` destroyed with the tree above
it. The empty path resolves to that address, the current directory, and
`delete_tree("")` reads the type of the destroyed node; the relative path `x`
names no directory, and the resolver reads the child list of the destroyed
node. Neither call throws. -/
theorem C16_delete_tree_dangling_current :
    Reachable (after script_current_destroyed) ∧
    run script_current_destroyed init = .ok () (after script_current_destroyed) ∧
    (after script_current_destroyed).m_curr_catalog = 3 ∧
    (after script_current_destroyed).heap.cell 3 = none ∧
    m_find_node_by_path [] (after script_current_destroyed) = .val (some 3) ∧
    delete_tree [] (after script_current_destroyed) = .undefined ∧
    m_find_node_by_path "x".toList (after script_current_destroyed) = .undefined ∧
    delete_tree "x".toList (after script_current_destroyed) = .undefined :=
  ⟨reachable_run script_current_destroyed init _ Reachable.init (by decide), by decide⟩

/-- Claim C19, evaluated where the code departs from it. In the reachable state of
`script_current_destroyed` the current directory (address 3) has been
destroyed. The parent portion of the path `x` is the empty path, which resolves
to that address and not to a directory; `make_dir("x")` and `make_file("x")`
read the type of the destroyed node in `m_make_node` and do not throw. -/
theorem C19_make_dangling_current :
    Reachable (after script_current_destroyed) ∧
    run script_current_destroyed init = .ok () (after script_current_destroyed) ∧
    (after script_current_destroyed).m_curr_catalog = 3 ∧
    (after script_current_destroyed).heap.cell 3 = none ∧
    get_parent_path "x".toList = [] ∧
    m_find_node_by_path (get_parent_path "x".toList) (after script_current_destroyed) =
      .val (some 3) ∧
    make_dir "x".toList (after script_current_destroyed) = .undefined ∧
    make_file "x".toList (after script_current_destroyed) = .undefined :=
  ⟨reachable_run script_current_destroyed init _ Reachable.init (by decide), by decide⟩

/-- Claim C17, evaluated where the code departs from it, on two reachable states. In
the state of `script_same_name_twice` the parent portion of `C:\x` resolves to
the drive (address 0), the drive has a child of kind `FILE` named `x` (address
4), and `make_dir("C:\x")` returns normally, doing nothing: the directory `x`
that `move` put before the file (address 3) ends the scan of `m_make_node`. In
the state of `script_same_name_file_first` the drive has a child of kind
`DIRECTORY` named `x` (address 4) behind the file `x` that `move` put there
(address 3), and `make_file("C:\x")` returns normally. -/
theorem C17_make_not_blocked :
    (Reachable (after script_same_name_twice) ∧
      run script_same_name_twice init = .ok () (after script_same_name_twice) ∧
      get_parent_path "C:\\x".toList = "C:".toList ∧
      get_path_basename "C:\\x".toList = "x".toList ∧
      m_find_node_by_path "C:".toList (after script_same_name_twice) = .val (some 0) ∧
      (after script_same_name_twice).heap.cell 0 =
        some ⟨none, NODE_TYPE.DIRECTORY, "C:".toList, [], [], [3, 4, 2]⟩ ∧
      (after script_same_name_twice).heap.cell 3 =
        some ⟨some 0, NODE_TYPE.DIRECTORY, "x".toList, [], [], []⟩ ∧
      (after script_same_name_twice).heap.cell 4 =
        some ⟨some 0, NODE_TYPE.FILE, "x".toList, [], [], []⟩ ∧
      make_dir "C:\\x".toList (after script_same_name_twice) =
        .ok () (after script_same_name_twice)) ∧
    (Reachable (after script_same_name_file_first) ∧
      run script_same_name_file_first init = .ok () (after script_same_name_file_first) ∧
      m_find_node_by_path "C:".toList (after script_same_name_file_first) = .val (some 0) ∧
      (after script_same_name_file_first).heap.cell 0 =
        some ⟨none, NODE_TYPE.DIRECTORY, "C:".toList, [], [], [3, 4, 2]⟩ ∧
      (after script_same_name_file_first).heap.cell 3 =
        some ⟨some 0, NODE_TYPE.FILE, "x".toList, [], [], []⟩ ∧
      (after script_same_name_file_first).heap.cell 4 =
        some ⟨some 0, NODE_TYPE.DIRECTORY, "x".toList, [], [], []⟩ ∧
      make_file "C:\\x".toList (after script_same_name_file_first) =
        .ok () (after script_same_name_file_first)) :=
  ⟨⟨reachable_run script_same_name_twice init _ Reachable.init (by decide), by decide⟩,
    ⟨reachable_run script_same_name_file_first init _ Reachable.init (by decide), by decide⟩⟩

/-- Claim C18. From a reachable state, when `make_dir(p)`, `make_file(p)`,
`make_hlink(source, dest)` or `make_dlink(source, dest)` returns normally, the
same call made at once in the state it left returns normally too and leaves
that state as it is: the scan of `m_make_node` meets the node of the first call
at the front of the child list and returns `nullptr`, so no node is made and no
registry receives an entry. -/
theorem C18_make_twice (s s1 : File_system_emulator) (hs : Reachable s) :
    (∀ p, make_dir p s = .ok () s1 → make_dir p s1 = .ok () s1) ∧
    (∀ p, make_file p s = .ok () s1 → make_file p s1 = .ok () s1) ∧
    (∀ source dest, make_hlink source dest s = .ok () s1 →
      make_hlink source dest s1 = .ok () s1) ∧
    (∀ source dest, make_dlink source dest s = .ok () s1 →
      make_dlink source dest s1 = .ok () s1) := by
  have hw := reachable_well_formed hs
  refine ⟨fun p h => ?_, fun p h => ?_, fun source dest h => ?_, fun source dest h => ?_⟩
  · unfold make_dir at h ⊢
    obtain ⟨r, s', hmk, h⟩ := result_bind_eq_ok h
    cases h
    rw [m_make_node_twice hw hmk, result_bind_ok]
  · unfold make_file at h ⊢
    obtain ⟨r, s', hmk, h⟩ := result_bind_eq_ok h
    cases h
    rw [m_make_node_twice hw hmk, result_bind_ok]
  · exact make_link_twice "hlink[".toList (by decide) NODE_TYPE.HLINK hw h
  · exact make_link_twice "dlink[".toList (by decide) NODE_TYPE.DLINK hw h

/-- Claim C18 at the hard link of the test `Remove_file_throw_absolute_path`: the
second `make_hlink` changes nothing. -/
theorem C18_make_twice_witness :
    Reachable (after (script_hard_linked_file.take 2)) ∧
    make_hlink "C:\\Dir1\\file1.txt".toList "C:\\Dir1".toList
      (after (script_hard_linked_file.take 2)) = .ok () (after script_hard_linked_file) ∧
    make_hlink "C:\\Dir1\\file1.txt".toList "C:\\Dir1".toList (after script_hard_linked_file) =
      .ok () (after script_hard_linked_file) :=
  have hreach : Reachable (after (script_hard_linked_file.take 2)) :=
    reachable_run (script_hard_linked_file.take 2) init _ Reachable.init (by decide)
  have hfirst : make_hlink "C:\\Dir1\\file1.txt".toList "C:\\Dir1".toList
      (after (script_hard_linked_file.take 2)) = .ok () (after script_hard_linked_file) := by
    decide
  ⟨hreach, hfirst,
    (C18_make_twice (after (script_hard_linked_file.take 2)) (after script_hard_linked_file)
      hreach).2.2.1 _ _ hfirst⟩

/-- Claim C20 fails as stated, at three inputs. (1) From the initial state
`make_dir("")` returns normally and makes a directory named `""` in the drive
(address 2), and the empty path resolves to the current directory, the drive
itself, as before. (2) After `make_dir("C:\a[b")`, the call
`make_dir("C:\a[b\c")` returns normally and the path `C:\a[b\c` does not
resolve: the resolver takes everything from the segment that holds `[` as one
name. (3) In the state of `script_link_before_dir`, `make_dir("hlink[C:]")`
returns normally, the directory being there already, and the path resolves to
the hard link of the same name that stands before it (address 4). -/
theorem C20_resolve_created_counterexample :
    (make_dir [] init = .ok () (after script_empty_name) ∧
      (after script_empty_name).heap.cell 2 =
        some ⟨some 0, NODE_TYPE.DIRECTORY, [], [], [], []⟩ ∧
      m_find_node_by_path [] (after script_empty_name) = .val (some 0) ∧
      (after script_empty_name).heap.cell 0 =
        some ⟨none, NODE_TYPE.DIRECTORY, "C:".toList, [], [], [2]⟩) ∧
    (make_dir "C:\\a[b\\c".toList (after script_bracket_dir) =
        .ok () (after (script_bracket_dir ++ [.make_dir "C:\\a[b\\c".toList])) ∧
      (after (script_bracket_dir ++ [.make_dir "C:\\a[b\\c".toList])).heap.cell 3 =
        some ⟨some 2, NODE_TYPE.DIRECTORY, "c".toList, [], [], []⟩ ∧
      m_find_node_by_path "C:\\a[b\\c".toList
        (after (script_bracket_dir ++ [.make_dir "C:\\a[b\\c".toList])) = .val none) ∧
    (Reachable (after script_link_before_dir) ∧
      make_dir "hlink[C:]".toList (after script_link_before_dir) =
        .ok () (after script_link_before_dir) ∧
      m_find_node_by_path "hlink[C:]".toList (after script_link_before_dir) = .val (some 4) ∧
      (after script_link_before_dir).heap.cell 4 =
        some ⟨some 0, NODE_TYPE.HLINK, "hlink[C:]".toList, [], [], []⟩) :=
  ⟨by decide, by decide,
    reachable_run script_link_before_dir init _ Reachable.init (by decide), by decide⟩

/-- Claim C20, amended. In a reachable state let `p` be a non-empty path that the
resolver splits into the segments of its parent portion followed by its
basename, and that is absolute exactly when its parent portion is (relative
when the parent portion is empty); let no link named `basename(p)` be among
the children of the directory the parent portion resolves to. If `make_dir(p)`
returns normally, then resolving `p` in the state it leaves, where the current
directory is the same, gives a directory named `basename(p)` whose parent is
the directory the parent portion of `p` resolved to. The same holds for
`make_file(p)` and a file. -/
theorem C20_resolve_created (s s1 : File_system_emulator) (p : List Char) (hs : Reachable s)
    (hp : p ≠ [])
    (hsplit : split_path p =
      (if get_parent_path p = [] then [] else split_path (get_parent_path p)) ++
        [get_path_basename p])
    (habs : is_absolute_path p =
      (if get_parent_path p = [] then false else is_absolute_path (get_parent_path p)))
    (hnolink : ∀ D dn, m_find_node_by_path (get_parent_path p) s = .val (some D) →
      s.heap.cell D = some dn → ∀ c ∈ dn.m_childs, ∀ cn, s.heap.cell c = some cn →
        cn.m_name = get_path_basename p →
        cn.m_type = NODE_TYPE.FILE ∨ cn.m_type = NODE_TYPE.DIRECTORY) :
    (make_dir p s = .ok () s1 →
      s1.m_curr_catalog = s.m_curr_catalog ∧
      ∃ D n nd, m_find_node_by_path (get_parent_path p) s = .val (some D) ∧
        m_find_node_by_path p s1 = .val (some n) ∧ s1.heap.cell n = some nd ∧
        nd.m_type = NODE_TYPE.DIRECTORY ∧ nd.m_name = get_path_basename p ∧
        nd.m_parent = some D) ∧
    (make_file p s = .ok () s1 →
      s1.m_curr_catalog = s.m_curr_catalog ∧
      ∃ D n nd, m_find_node_by_path (get_parent_path p) s = .val (some D) ∧
        m_find_node_by_path p s1 = .val (some n) ∧ s1.heap.cell n = some nd ∧
        nd.m_type = NODE_TYPE.FILE ∧ nd.m_name = get_path_basename p ∧
        nd.m_parent = some D) := by
  have hw := reachable_well_formed hs
  obtain ⟨segs, start, hres, hwalk⟩ := m_find_node_by_path_parent hp hsplit habs s
  have key : ∀ (type : NODE_TYPE) (r : Option Nat),
      m_make_node (get_parent_path p) (get_path_basename p) type s = .ok r s1 →
      s1.m_curr_catalog = s.m_curr_catalog ∧
      ∃ D n nd, m_find_node_by_path (get_parent_path p) s = .val (some D) ∧
        m_find_node_by_path p s1 = .val (some n) ∧ s1.heap.cell n = some nd ∧
        nd.m_type = type ∧ nd.m_name = get_path_basename p ∧ nd.m_parent = some D := by
    intro type r hmk
    have hsame : s1.m_root = s.m_root ∧ s1.m_curr_catalog = s.m_curr_catalog := by
      obtain ⟨D, dn, _, _, _, hcase⟩ := m_make_node_ok hmk
      rcases hcase with ⟨_, _, e⟩ | ⟨_, _, e⟩
      · subst e; exact ⟨rfl, rfl⟩
      · subst e; exact ⟨rfl, rfl⟩
    obtain ⟨D, n, nd, h1, h2, h3, h4, h5, h6⟩ :=
      m_make_node_resolves hw hmk segs start hwalk hnolink
    exact ⟨hsame.2, D, n, nd, h1, by rw [hres s1 hsame.1 hsame.2]; exact h2, h3, h4, h5, h6⟩
  constructor
  · intro h
    unfold make_dir at h
    obtain ⟨r, s', hmk, h⟩ := result_bind_eq_ok h
    cases h
    exact key _ r hmk
  · intro h
    unfold make_file at h
    obtain ⟨r, s', hmk, h⟩ := result_bind_eq_ok h
    cases h
    exact key _ r hmk

/-- Claim C20 at the second `make_dir` of the test `Make_dir_no_throw_relative_path`:
with `C:\Dir1` the current directory, `Dir2\Dir3` resolves afterwards to the
new directory `Dir3` (address 4) below `Dir2` (address 3). -/
theorem C20_resolve_created_witness :
    Reachable (after script_relative_dir) ∧
    make_dir "Dir2\\Dir3".toList (after script_relative_dir) =
      .ok () (after (script_relative_dir ++ [.make_dir "Dir2\\Dir3".toList])) ∧
    m_find_node_by_path "Dir2".toList (after script_relative_dir) = .val (some 3) ∧
    m_find_node_by_path "Dir2\\Dir3".toList
      (after (script_relative_dir ++ [.make_dir "Dir2\\Dir3".toList])) = .val (some 4) ∧
    ∃ D n nd,
      m_find_node_by_path (get_parent_path "Dir2\\Dir3".toList) (after script_relative_dir) =
        .val (some D) ∧
      m_find_node_by_path "Dir2\\Dir3".toList
        (after (script_relative_dir ++ [.make_dir "Dir2\\Dir3".toList])) = .val (some n) ∧
      (after (script_relative_dir ++ [.make_dir "Dir2\\Dir3".toList])).heap.cell n = some nd ∧
      nd.m_type = NODE_TYPE.DIRECTORY ∧ nd.m_name = get_path_basename "Dir2\\Dir3".toList ∧
      nd.m_parent = some D :=
  have hreach : Reachable (after script_relative_dir) :=
    reachable_run script_relative_dir init _ Reachable.init (by decide)
  have hmk : make_dir "Dir2\\Dir3".toList (after script_relative_dir) =
      .ok () (after (script_relative_dir ++ [.make_dir "Dir2\\Dir3".toList])) := by decide
  have hpar : m_find_node_by_path (get_parent_path "Dir2\\Dir3".toList)
      (after script_relative_dir) = .val (some 3) := by decide
  have hcell : (after script_relative_dir).heap.cell 3 =
      some ⟨some 2, NODE_TYPE.DIRECTORY, "Dir2".toList, [], [], []⟩ := by decide
  ⟨hreach, hmk, by decide, by decide,
    ((C20_resolve_created (after script_relative_dir)
      (after (script_relative_dir ++ [.make_dir "Dir2\\Dir3".toList])) "Dir2\\Dir3".toList
      hreach (by decide) (by decide) (by decide)
      (fun D dn hD hdn c hc => by
        rw [hpar] at hD
        cases hD
        rw [hcell] at hdn
        cases hdn
        cases hc)).1 hmk).2⟩

/-- Claim C22, evaluated where the code departs from it. In the reachable state of
`script_current_destroyed` the current directory (address 3) has been
destroyed, and the destination `C:\nope` does not resolve. With the empty source
or the relative source `x`, `make_hlink` and `make_dlink` start by computing the
absolute path of the source, and `m_to_absolute_path` reads the name of the
destroyed current directory: the calls do not throw. -/
theorem C22_make_link_dangling_current :
    Reachable (after script_current_destroyed) ∧
    run script_current_destroyed init = .ok () (after script_current_destroyed) ∧
    (after script_current_destroyed).m_curr_catalog = 3 ∧
    (after script_current_destroyed).heap.cell 3 = none ∧
    m_find_node_by_path "C:\\nope".toList (after script_current_destroyed) = .val none ∧
    m_to_absolute_path [] (some 3) (after script_current_destroyed) = .undefined ∧
    make_hlink [] "C:\\nope".toList (after script_current_destroyed) = .undefined ∧
    make_dlink [] "C:\\nope".toList (after script_current_destroyed) = .undefined ∧
    make_hlink "x".toList "C:\\nope".toList (after script_current_destroyed) = .undefined ∧
    make_dlink "x".toList "C:\\nope".toList (after script_current_destroyed) = .undefined :=
  ⟨reachable_run script_current_destroyed init _ Reachable.init (by decide), by decide⟩

/-- Claim C23, evaluated where the code departs from it, on three reachable states.
`move` puts the directory `C:\A\x` into the drive, which holds a file `x`.
`copy("C:\A", "C:")` puts a second directory `A` into the drive. `make_dir` over
the name of the hard link `hlink[C:]` makes a directory of that name beside the
link: the scan of `m_make_node` steps over a same-named link. -/
theorem C23_same_name_siblings :
    (Reachable (after script_same_name_twice) ∧
      run script_same_name_twice init = .ok () (after script_same_name_twice) ∧
      (after script_same_name_twice).heap.cell 0 =
        some ⟨none, NODE_TYPE.DIRECTORY, "C:".toList, [], [], [3, 4, 2]⟩ ∧
      (after script_same_name_twice).heap.cell 3 =
        some ⟨some 0, NODE_TYPE.DIRECTORY, "x".toList, [], [], []⟩ ∧
      (after script_same_name_twice).heap.cell 4 =
        some ⟨some 0, NODE_TYPE.FILE, "x".toList, [], [], []⟩) ∧
    (Reachable (after script_copy_beside) ∧
      run script_copy_beside init = .ok () (after script_copy_beside) ∧
      (after script_copy_beside).heap.cell 0 =
        some ⟨none, NODE_TYPE.DIRECTORY, "C:".toList, [], [], [3, 2]⟩ ∧
      (after script_copy_beside).heap.cell 2 =
        some ⟨some 0, NODE_TYPE.DIRECTORY, "A".toList, [], [], []⟩ ∧
      (after script_copy_beside).heap.cell 3 =
        some ⟨some 0, NODE_TYPE.DIRECTORY, "A".toList, [], [], []⟩) ∧
    (Reachable (after script_dir_over_link) ∧
      run script_dir_over_link init = .ok () (after script_dir_over_link) ∧
      (after script_dir_over_link).heap.cell 0 =
        some ⟨none, NODE_TYPE.DIRECTORY, "C:".toList, [2], [], [3, 2]⟩ ∧
      (after script_dir_over_link).heap.cell 2 =
        some ⟨some 0, NODE_TYPE.HLINK, "hlink[C:]".toList, [], [], []⟩ ∧
      (after script_dir_over_link).heap.cell 3 =
        some ⟨some 0, NODE_TYPE.DIRECTORY, "hlink[C:]".toList, [], [], []⟩) :=
  ⟨⟨reachable_run script_same_name_twice init _ Reachable.init (by decide), by decide⟩,
    ⟨reachable_run script_copy_beside init _ Reachable.init (by decide), by decide⟩,
    ⟨reachable_run script_dir_over_link init _ Reachable.init (by decide), by decide⟩⟩

/-- Claim C25, evaluated where the code departs from it. With a file `C:\f` (address
2), the path `C:\f\junk` splits into `C:`, `f`, `junk`; the segment `f` is not the
last one and matches the file, and the resolver returns the file, not
`nullptr`: the inner loop returns the matched child at once. `remove_file` of
that path then removes the file `C:\f`. -/
theorem C25_resolver_returns_file_early :
    Reachable (after script_one_file) ∧
    run script_one_file init = .ok () (after script_one_file) ∧
    (after script_one_file).heap.cell 2 =
      some ⟨some 0, NODE_TYPE.FILE, "f".toList, [], [], []⟩ ∧
    split_path "C:\\f\\junk".toList = ["C:".toList, "f".toList, "junk".toList] ∧
    m_find_node_by_path "C:\\f\\junk".toList (after script_one_file) = .val (some 2) ∧
    ∃ s', remove_file "C:\\f\\junk".toList (after script_one_file) = .ok () s' ∧
      s'.heap.cell 2 = none ∧
      s'.heap.cell 0 = some ⟨none, NODE_TYPE.DIRECTORY, "C:".toList, [], [], []⟩ :=
  ⟨reachable_run script_one_file init _ Reachable.init (by decide),
    by decide, by decide, by decide, by decide,
    after (script_one_file ++ [.remove_file "C:\\f\\junk".toList]),
    by decide, by decide, by decide⟩

/-- Claim C26, evaluated where the code departs from it. In the reachable state of
`script_current_destroyed` the current directory (address 3) has been
destroyed. The empty path resolves to that address, and `change_dir("")` reads
the type of the destroyed node: the call neither returns with the current
directory set nor throws. For the relative path `x` the resolver itself reads
the child list of the destroyed node. -/
theorem C26_change_dir_dangling_current :
    Reachable (after script_current_destroyed) ∧
    run script_current_destroyed init = .ok () (after script_current_destroyed) ∧
    (after script_current_destroyed).m_curr_catalog = 3 ∧
    (after script_current_destroyed).heap.cell 3 = none ∧
    m_find_node_by_path [] (after script_current_destroyed) = .val (some 3) ∧
    change_dir [] (after script_current_destroyed) = .undefined ∧
    m_find_node_by_path "x".toList (after script_current_destroyed) = .undefined ∧
    change_dir "x".toList (after script_current_destroyed) = .undefined :=
  ⟨reachable_run script_current_destroyed init _ Reachable.init (by decide), by decide⟩

/-- Claim C29, evaluated where the code departs from it. With a directory `C:\D`
(address 2) and a dynamic link to it in the drive (address 3, registered in
`m_dlinks` of `C:\D`), `delete_tree("C:\D")` returns normally and the link is
still a child of the drive: the final removal of the target does not go through
`m_remove_node`, which is where registered dynamic links are destroyed. -/
theorem C29_delete_tree_keeps_dlink :
    Reachable (after script_dir_with_dlink) ∧
    run script_dir_with_dlink init = .ok () (after script_dir_with_dlink) ∧
    m_find_node_by_path "C:\\D".toList (after script_dir_with_dlink) = .val (some 2) ∧
    (after script_dir_with_dlink).heap.cell 2 =
      some ⟨some 0, NODE_TYPE.DIRECTORY, "D".toList, [], [3], []⟩ ∧
    (after script_dir_with_dlink).heap.cell 3 =
      some ⟨some 0, NODE_TYPE.DLINK, "dlink[C:\\D]".toList, [], [], []⟩ ∧
    ∃ s', delete_tree "C:\\D".toList (after script_dir_with_dlink) = .ok () s' ∧
      s'.heap.cell 2 = none ∧
      s'.heap.cell 0 = some ⟨none, NODE_TYPE.DIRECTORY, "C:".toList, [], [], [3]⟩ ∧
      s'.heap.cell 3 = some ⟨some 0, NODE_TYPE.DLINK, "dlink[C:\\D]".toList, [], [], []⟩ ∧
      m_find_node_by_path "C:\\dlink[C:\\D]".toList s' = .val (some 3) :=
  ⟨reachable_run script_dir_with_dlink init _ Reachable.init (by decide),
    by decide, by decide, by decide, by decide,
    after (script_dir_with_dlink ++ [.delete_tree "C:\\D".toList]),
    by decide, by decide, by decide, by decide, by decide⟩

/-- Claim C24. When a call of `make_dir`, `make_file`, `make_hlink`, `make_dlink`,
`change_dir`, `remove_dir`, `remove_file`, `copy` or `move` throws, in any state
and with any arguments, the state at the throw is the state of the call: heap
(tree, names, registries), root and current directory (`print`, the one other
call, never throws). `delete_tree` can throw
after it has changed the tree: in the reachable state of
`script_partial_delete` the call `delete_tree("C:\D")` destroys the file `C:\D\a`
(address 4) and then throws on the hard-linked file `C:\D\f`. -/
theorem C24_raise_keeps_state :
    (∀ (c : Call) (s s' : File_system_emulator) (e : String),
      (∀ p, c ≠ Call.delete_tree p) → c.exec s = .raised e s' → s' = s) ∧
    (Reachable (after script_partial_delete) ∧
      (after script_partial_delete).heap.cell 4 =
        some ⟨some 2, NODE_TYPE.FILE, "a".toList, [], [], []⟩ ∧
      ∃ s', delete_tree "C:\\D".toList (after script_partial_delete) =
          .raised "ERROR: Can`t delete entity with attached hard link." s' ∧
        s'.heap.cell 4 = none ∧ s' ≠ after script_partial_delete) := by
  refine ⟨?_, reachable_run script_partial_delete init _ Reachable.init (by decide),
    by decide, ?_⟩
  · intro c s s' e hc h
    have key : (c.exec s).post (fun _ _ => True) (fun s' => s' = s) := by
      cases c with
      | make_dir p => exact (make_raised p s).1
      | make_file p => exact (make_raised p s).2
      | make_hlink a b => exact (make_link_raised a b s).1
      | make_dlink a b => exact (make_link_raised a b s).2
      | change_dir p => exact change_dir_raised p s
      | remove_dir p => exact remove_dir_raised p s
      | remove_file p => exact remove_file_raised p s
      | copy a b => exact copy_raised a b s
      | move a b => exact move_raised a b s
      | delete_tree p => exact absurd rfl (hc p)
      | print =>
        exact post_bind (post_mono (print_reordered s) (fun _ _ _ => trivial) (fun _ h => h.elim))
          (fun _ _ _ => trivial)
    rw [h] at key
    exact key
  · exact ⟨⟨[some ⟨none, NODE_TYPE.DIRECTORY, "C:".toList, [], [], [5, 2]⟩,
        some ⟨none, NODE_TYPE.DIRECTORY, [], [], [], [0]⟩,
        some ⟨some 0, NODE_TYPE.DIRECTORY, "D".toList, [], [], [3]⟩,
        some ⟨some 2, NODE_TYPE.FILE, "f".toList, [5], [], []⟩,
        none,
        some ⟨some 0, NODE_TYPE.HLINK, "hlink[C:\\D\\f]".toList, [], [], []⟩], 1, 0⟩,
      by decide, by decide, by decide⟩

/-- Claim C24 at the throw of the test `Move_throw_absolute_path`: `move` of the
directory `C:\Dir1\Dir2`, which holds a hard-linked file, throws and leaves the
state of the call. -/
theorem C24_raise_keeps_state_witness :
    move "C:\\Dir1\\Dir2".toList "C:\\BDir1".toList (after script_move_throw) =
      .raised "ERROR: Can't move source with attached hard link." (after script_move_throw) ∧
    ∀ e s', move "C:\\Dir1\\Dir2".toList "C:\\BDir1".toList (after script_move_throw) =
      .raised e s' → s' = after script_move_throw :=
  ⟨by decide,
    fun e s' h => C24_raise_keeps_state.1 (.move "C:\\Dir1\\Dir2".toList "C:\\BDir1".toList)
      (after script_move_throw) s' e (fun p hp => by cases hp) h⟩

/-- Claim C21. Let the absolute path `A` of `source` be computable (`source` starts with
the drive token and `A` is `source`, or the parent chain of the current
directory is made of live directories and `A` is their names, each followed by
the separator, followed by `source`), let `source` resolve to a live file or
directory `t` and `dest` to a live directory `D`. If every child of `D` is alive
and none is named `hlink[A]`, `make_hlink(source, dest)` returns normally and
the state is the state of the call with one node more: a node of kind `HLINK`
named `hlink[A]` with parent `D`, put at the front of the child list of `D` and of
`m_hlinks` of `t`; every other cell, the root and the current directory are the
same. Likewise for `make_dlink` with `dlink[A]`, kind `DLINK` and `m_dlinks`. -/
theorem C21_make_link (s : File_system_emulator) (source dest : List Char)
    (names : List (List Char)) (t D : Nat) (tn dn : Node)
    (ha : is_absolute_path source = true ∨
      parent_chain s (s.heap.length + 1) (some s.m_curr_catalog) = some names)
    (hsrc : m_find_node_by_path source s = .val (some t))
    (ht : s.heap.cell t = some tn)
    (htk : tn.m_type = NODE_TYPE.FILE ∨ tn.m_type = NODE_TYPE.DIRECTORY)
    (hdst : m_find_node_by_path dest s = .val (some D))
    (hD : s.heap.cell D = some dn) (hDk : dn.m_type = NODE_TYPE.DIRECTORY) :
    ((∀ c ∈ dn.m_childs, ∃ cn, s.heap.cell c = some cn ∧
        cn.m_name ≠ "hlink[".toList ++ absolute_form source names ++ "]".toList) →
      ∃ s', make_hlink source dest s = .ok () s' ∧
        link_added s s' D t NODE_TYPE.HLINK
          ("hlink[".toList ++ absolute_form source names ++ "]".toList)) ∧
    ((∀ c ∈ dn.m_childs, ∃ cn, s.heap.cell c = some cn ∧
        cn.m_name ≠ "dlink[".toList ++ absolute_form source names ++ "]".toList) →
      ∃ s', make_dlink source dest s = .ok () s' ∧
        link_added s s' D t NODE_TYPE.DLINK
          ("dlink[".toList ++ absolute_form source names ++ "]".toList)) := by
  have habs := m_to_absolute_path_chain s source names ha
  constructor
  · intro hfree
    obtain ⟨s', h1, h2⟩ := m_make_link_added s source dest _ NODE_TYPE.HLINK t D tn dn
      (Or.inl rfl) hsrc ht htk hdst hD hDk hfree
    exact ⟨s', by simp only [make_hlink, habs, read_bind_val]; exact h1, h2⟩
  · intro hfree
    obtain ⟨s', h1, h2⟩ := m_make_link_added s source dest _ NODE_TYPE.DLINK t D tn dn
      (Or.inr rfl) hsrc ht htk hdst hD hDk hfree
    exact ⟨s', by simp only [make_dlink, habs, read_bind_val]; exact h1, h2⟩

/-- Claim C21 at the links of the test `Make_link_no_throw_relative_path`: with
`C:\Dir1` the current directory, `file1.txt` resolves to the file at address 3,
whose absolute path is `C:\Dir1\file1.txt`, and `C:\Dir2` to the empty directory at
address 4. -/
theorem C21_make_link_witness :
    (parent_chain (after script_link_relative) ((after script_link_relative).heap.length + 1)
        (some (after script_link_relative).m_curr_catalog) =
        some ["C:".toList, "Dir1".toList] ∧
      absolute_form "file1.txt".toList ["C:".toList, "Dir1".toList] =
        "C:\\Dir1\\file1.txt".toList ∧
      m_find_node_by_path "file1.txt".toList (after script_link_relative) = .val (some 3) ∧
      (after script_link_relative).heap.cell 3 =
        some ⟨some 2, NODE_TYPE.FILE, "file1.txt".toList, [], [], []⟩ ∧
      m_find_node_by_path "C:\\Dir2".toList (after script_link_relative) = .val (some 4) ∧
      (after script_link_relative).heap.cell 4 =
        some ⟨some 0, NODE_TYPE.DIRECTORY, "Dir2".toList, [], [], []⟩) ∧
    (∃ s', make_hlink "file1.txt".toList "C:\\Dir2".toList (after script_link_relative) =
        .ok () s' ∧
      link_added (after script_link_relative) s' 4 3 NODE_TYPE.HLINK
        ("hlink[".toList ++ absolute_form "file1.txt".toList ["C:".toList, "Dir1".toList] ++
          "]".toList)) ∧
    (∃ s', make_dlink "file1.txt".toList "C:\\Dir2".toList (after script_link_relative) =
        .ok () s' ∧
      link_added (after script_link_relative) s' 4 3 NODE_TYPE.DLINK
        ("dlink[".toList ++ absolute_form "file1.txt".toList ["C:".toList, "Dir1".toList] ++
          "]".toList)) :=
  ⟨⟨by decide, by decide, by decide, by decide, by decide, by decide⟩,
    (C21_make_link (after script_link_relative) "file1.txt".toList "C:\\Dir2".toList
      ["C:".toList, "Dir1".toList] 3 4
      ⟨some 2, NODE_TYPE.FILE, "file1.txt".toList, [], [], []⟩
      ⟨some 0, NODE_TYPE.DIRECTORY, "Dir2".toList, [], [], []⟩
      (Or.inr (by decide)) (by decide) (by decide) (Or.inl rfl) (by decide) (by decide) rfl).1
      (fun c hc => absurd hc (List.not_mem_nil c)),
    (C21_make_link (after script_link_relative) "file1.txt".toList "C:\\Dir2".toList
      ["C:".toList, "Dir1".toList] 3 4
      ⟨some 2, NODE_TYPE.FILE, "file1.txt".toList, [], [], []⟩
      ⟨some 0, NODE_TYPE.DIRECTORY, "Dir2".toList, [], [], []⟩
      (Or.inr (by decide)) (by decide) (by decide) (Or.inl rfl) (by decide) (by decide) rfl).2
      (fun c hc => absurd hc (List.not_mem_nil c))⟩

/-- Claim C27. For every text `p`, `split_path(p)` is a non-empty list of segments;
joined with the separator between consecutive segments they give `p` back; no
segment but the last holds a separator or an opening bracket; when `p` has no
opening bracket the last segment has no separator; when `p` has one, `p` is
`pre ++ a ++ '[' :: b` where the bracket shown is the first of `p`, `a` has no
separator, `pre` is empty or ends with a separator, and the last segment is
`a ++ '[' :: b`: it starts right after the last separator before the first
bracket (or at position 0) and runs to the end of `p`. -/
theorem C27_split_path (p : List Char) :
    split_path p ≠ [] ∧
    ['\\'].intercalate (split_path p) = p ∧
    (∀ seg ∈ (split_path p).dropLast, '\\' ∉ seg ∧ '[' ∉ seg) ∧
    ('[' ∉ p → ∀ seg, (split_path p).getLast? = some seg → '\\' ∉ seg) ∧
    ('[' ∈ p → ∃ pre a b, p = pre ++ a ++ '[' :: b ∧ '[' ∉ pre ∧ '[' ∉ a ∧ '\\' ∉ a ∧
      (pre = [] ∨ pre.getLast? = some '\\') ∧
      (split_path p).getLast? = some (a ++ '[' :: b)) := by
  rw [split_path_eq_rest]
  refine ⟨split_rest_ne_nil p [], ?_, split_rest_inner p [] (by simp) (by simp),
    fun h => split_rest_last_plain p [] h (by simp), ?_⟩
  · rw [split_rest_intercalate]; simp
  · intro h
    obtain ⟨pre, a, b, e, h1, h2, h3, h4, h5⟩ :=
      split_rest_last_bracket p [] [] h (by simp) (by simp) (by simp) (Or.inl rfl)
    exact ⟨pre, a, b, by simpa using e, h1, h2, h3, h4, h5⟩

/-- Claim C27 at a path of the test `Remove_file_no_throw_absolute_path`: the link name,
with the separators of the path it encodes, is the last segment. -/
theorem C27_split_path_witness :
    split_path "C:\\Dir1\\Dir2\\hlink[C:\\Dir1\\file1.txt]".toList =
      ["C:".toList, "Dir1".toList, "Dir2".toList, "hlink[C:\\Dir1\\file1.txt]".toList] ∧
    ['\\'].intercalate (split_path "C:\\Dir1\\Dir2\\hlink[C:\\Dir1\\file1.txt]".toList) =
      "C:\\Dir1\\Dir2\\hlink[C:\\Dir1\\file1.txt]".toList :=
  ⟨by decide, (C27_split_path "C:\\Dir1\\Dir2\\hlink[C:\\Dir1\\file1.txt]".toList).2.1⟩

/-- Claim C30. Let the super-root have the drive as its only child and let the nodes
below the drive be alive and form a tree (as in every reachable state). Then
`print` returns; between the two line feeds it writes the depth-first
pre-order text of the tree below the drive as it stands after the call; in
that state every directory at or below the drive lists its children in
non-decreasing order of their names; the state differs from the state of the
call in the order of siblings only (same cells alive, same names, kinds,
parents, registries, root and current directory, each child list a permutation
of what it was); and a second `print` writes the same text and changes
nothing. -/
theorem C30_print (s : File_system_emulator) (drive k : Nat) (rn : Node)
    (hroot : s.heap.cell s.m_root = some rn) (hrd : rn.m_type = NODE_TYPE.DIRECTORY)
    (hrc : rn.m_childs = [drive]) (htree : tree_within s k drive = true) :
    ∃ text s', print s = .ok ('\n' :: text ++ ['\n']) s' ∧
      preorder s' (s'.heap.length + 1) drive 0 = some text ∧
      sorted_below s' drive ∧
      reordered s s' ∧
      print s' = .ok ('\n' :: text ++ ['\n']) s' := by
  have hdrive : ∀ s1, reordered s s1 → drive_root s1 = .val drive := by
    intro s1 hr
    obtain ⟨l, e1, e2⟩ := reordered_cell hr hroot
    rw [hrc] at e2
    have el : l = [drive] := List.perm_singleton.mp e2
    unfold drive_root deref_dir
    rw [hr.1, e1]
    simp [hrd, el]
  have htree1 := tree_within_heap s htree
  obtain ⟨text, s', hrun, htid, hpre⟩ :=
    m_print_tidies (s.heap.length + 1) drive 0 s (s.heap.length + 1) htree1 (Nat.le_refl _)
  have hr := tidied_reordered htid
  have hlen : s'.heap.length = s.heap.length := hr.2.2.1
  have hsorted : ∀ q, in_subtree s' drive q → ∀ nd, s'.heap.cell q = some nd →
      nd.m_type = NODE_TYPE.DIRECTORY → nd.m_childs.Sorted (comp_keeps s') :=
    fun q hq => tidied_sorted_cell htid ((in_subtree_reordered hr drive q).mp hq)
  have htree2 : tree_within s' (s'.heap.length + 1) drive = true := by
    rw [tree_within_reordered hr, hlen]
    exact htree1
  obtain ⟨text2, s'', hrun2, htid2, hpre2⟩ :=
    m_print_tidies (s'.heap.length + 1) drive 0 s' (s'.heap.length + 1) htree2 (Nat.le_refl _)
  have hfix : s'' = s' := tidied_fixed htid2 hsorted
  subst hfix
  rw [hlen] at hpre2
  rw [hpre] at hpre2
  cases hpre2
  refine ⟨text, s'', ?_, ?_, ?_, hr, ?_⟩
  · unfold print
    simp only [hdrive s (reordered_refl s), read_bind_val, hrun, result_bind_ok]
  · rw [hlen]; exact hpre
  · intro q nd hq hc hd
    exact hsorted q hq nd hc hd
  · unfold print
    simp only [hdrive s'' hr, read_bind_val, hrun2, result_bind_ok]

/-- Claim C30 where the test `Make_link_no_throw_absolute_path` prints: two directories
in the drive, the second holding two hard and two dynamic links. The text
written is shown in full. -/
theorem C30_print_witness :
    ((after script_print).heap.cell (after script_print).m_root =
        some ⟨none, NODE_TYPE.DIRECTORY, [], [], [], [0]⟩ ∧
      tree_within (after script_print) 3 0 = true ∧
      (after script_print).heap.cell 4 =
        some ⟨some 0, NODE_TYPE.DIRECTORY, "Dir2".toList, [], [], [8, 7, 6, 5]⟩) ∧
    (∃ text s', print (after script_print) = .ok ('\n' :: text ++ ['\n']) s' ∧
      preorder s' (s'.heap.length + 1) 0 0 = some text ∧
      sorted_below s' 0 ∧
      reordered (after script_print) s' ∧
      print s' = .ok ('\n' :: text ++ ['\n']) s') ∧
    (match print (after script_print) with
      | .ok text _ => text
      | _ => []) =
      ("\nC:\n|_Dir1\n| |_file1.txt\n|_Dir2\n| |_dlink[C:\\Dir1\\file1.txt]\n" ++
        "| |_dlink[C:\\Dir1]\n| |_hlink[C:\\Dir1\\file1.txt]\n| |_hlink[C:\\Dir1]\n\n").toList :=
  ⟨⟨by decide, by decide, by decide⟩,
    C30_print (after script_print) 0 3 ⟨none, NODE_TYPE.DIRECTORY, [], [], [], [0]⟩
      (by decide) rfl rfl (by decide),
    by decide⟩

/-- Claim C28. After a `copy` that returns, in a reachable state, every node made by
the copy (every live cell at an address that was free before the call) has an
empty `m_hlinks` and an empty `m_dlinks`, whatever the registries of the node it
was copied from. -/
theorem C28_copies_unregistered (s s' : File_system_emulator) (source dest : List Char)
    (hs : Reachable s) (h : copy source dest s = .ok () s') :
    ∀ q nd, s.heap.length ≤ q → s'.heap.cell q = some nd →
      nd.m_hlinks = [] ∧ nd.m_dlinks = [] := by
  obtain ⟨a, b, bn, h1, h2, _, _, _⟩ := copy_eq_ok h
  exact (copy_copied hs h1 h2 h).2.1

/-- Claim C28 at a file with a hard link attached: the file `C:\Dir1\file1.txt` (address
3, registry `[4]`) is copied into `C:\Dir2`; the copy (address 6) has empty
registries and `remove_file` removes it, while `remove_file` of the original
still throws. -/
theorem C28_copies_unregistered_witness :
    (Reachable (after script_copy_hard_linked) ∧
      (after script_copy_hard_linked).heap.cell 3 =
        some ⟨some 2, NODE_TYPE.FILE, "file1.txt".toList, [4], [], []⟩ ∧
      (after script_copy_hard_linked).heap.length = 6 ∧
      copy "C:\\Dir1\\file1.txt".toList "C:\\Dir2".toList (after script_copy_hard_linked) =
        .ok () (after (script_copy_hard_linked ++
          [.copy "C:\\Dir1\\file1.txt".toList "C:\\Dir2".toList])) ∧
      (after (script_copy_hard_linked ++
          [.copy "C:\\Dir1\\file1.txt".toList "C:\\Dir2".toList])).heap.cell 6 =
        some ⟨some 5, NODE_TYPE.FILE, "file1.txt".toList, [], [], []⟩) ∧
    (∀ q nd, (after script_copy_hard_linked).heap.length ≤ q →
      (after (script_copy_hard_linked ++
          [.copy "C:\\Dir1\\file1.txt".toList "C:\\Dir2".toList])).heap.cell q = some nd →
      nd.m_hlinks = [] ∧ nd.m_dlinks = []) ∧
    (∃ s', remove_file "C:\\Dir2\\file1.txt".toList
        (after (script_copy_hard_linked ++
          [.copy "C:\\Dir1\\file1.txt".toList "C:\\Dir2".toList])) = .ok () s' ∧
      s'.heap.cell 6 = none) ∧
    remove_file "C:\\Dir1\\file1.txt".toList
        (after (script_copy_hard_linked ++
          [.copy "C:\\Dir1\\file1.txt".toList "C:\\Dir2".toList])) =
      .raised "ERROR: Can`t delete entity with attached hard link."
        (after (script_copy_hard_linked ++
          [.copy "C:\\Dir1\\file1.txt".toList "C:\\Dir2".toList])) :=
  ⟨⟨reachable_run script_copy_hard_linked init _ Reachable.init (by decide), by decide,
      by decide, by decide, by decide⟩,
    C28_copies_unregistered (after script_copy_hard_linked)
      (after (script_copy_hard_linked ++
        [.copy "C:\\Dir1\\file1.txt".toList "C:\\Dir2".toList]))
      "C:\\Dir1\\file1.txt".toList "C:\\Dir2".toList
      (reachable_run script_copy_hard_linked init _ Reachable.init (by decide)) (by decide),
    ⟨after (script_copy_hard_linked ++
        [.copy "C:\\Dir1\\file1.txt".toList "C:\\Dir2".toList,
         .remove_file "C:\\Dir2\\file1.txt".toList]), by decide, by decide⟩,
    by decide⟩

/-- Claim C31 fails on the code: `is_valid_name` cuts the text one character before
the last dot, so the last character of the base name is never examined. It
accepts `abcdefghi.txt`, whose base name has nine characters, and `ab$.txt`,
whose base name holds a `$`. -/
theorem C31_is_valid_name_accepts :
    is_valid_name "abcdefghi.txt".toList = true ∧
    base_name "abcdefghi.txt".toList = "abcdefghi".toList ∧
    8 < (base_name "abcdefghi.txt".toList).length ∧
    is_valid_name "ab$.txt".toList = true ∧
    base_name "ab$.txt".toList = "ab$".toList ∧
    (isdigit '$' || isalpha '$') = false := by
  decide

/-- Claim C32, evaluated where the code departs from it, on two reachable tree states.
In both, `C:\D` (address 2) is a live directory with children, and parent
references and child lists agree (`tree_state`). In the state of
`script_dlink_beside_target` the sweep of the first pass destroys the link
`dlink[C:\D\f]` (address 4), which stays in `m_dlinks` of the file `C:\D\f`
(address 3), and `m_remove_node` of the file reads the destroyed link. In the
state of `script_dlink_below_target` `m_remove_node` of the file destroys the link
(address 5) while the queue of the sweep still holds it. In neither state does
the sweep, the outer loop or `delete_tree("C:\D")` return or throw. -/
theorem C32_delete_tree_reads_destroyed :
    (Reachable (after script_dlink_beside_target) ∧
      tree_state (after script_dlink_beside_target) ∧
      m_find_node_by_path "C:\\D".toList (after script_dlink_beside_target) = .val (some 2) ∧
      (after script_dlink_beside_target).heap.cell 2 =
        some ⟨some 0, NODE_TYPE.DIRECTORY, "D".toList, [], [], [4, 3]⟩ ∧
      (after script_dlink_beside_target).heap.cell 3 =
        some ⟨some 2, NODE_TYPE.FILE, "f".toList, [], [4], []⟩ ∧
      (after script_dlink_beside_target).heap.cell 4 =
        some ⟨some 2, NODE_TYPE.DLINK, "dlink[C:\\D\\f]".toList, [], [], []⟩ ∧
      delete_tree_sweep ((after script_dlink_beside_target).heap.length + 1) [2]
        (after script_dlink_beside_target) = .undefined ∧
      delete_tree_loop 2 ((after script_dlink_beside_target).heap.length + 1)
        (after script_dlink_beside_target) = .undefined ∧
      delete_tree "C:\\D".toList (after script_dlink_beside_target) = .undefined) ∧
    (Reachable (after script_dlink_below_target) ∧
      tree_state (after script_dlink_below_target) ∧
      m_find_node_by_path "C:\\D".toList (after script_dlink_below_target) = .val (some 2) ∧
      (after script_dlink_below_target).heap.cell 2 =
        some ⟨some 0, NODE_TYPE.DIRECTORY, "D".toList, [], [], [4, 3]⟩ ∧
      (after script_dlink_below_target).heap.cell 3 =
        some ⟨some 2, NODE_TYPE.FILE, "f".toList, [], [5], []⟩ ∧
      (after script_dlink_below_target).heap.cell 4 =
        some ⟨some 2, NODE_TYPE.DIRECTORY, "E".toList, [], [], [5]⟩ ∧
      (after script_dlink_below_target).heap.cell 5 =
        some ⟨some 4, NODE_TYPE.DLINK, "dlink[C:\\D\\f]".toList, [], [], []⟩ ∧
      delete_tree_sweep ((after script_dlink_below_target).heap.length + 1) [2]
        (after script_dlink_below_target) = .undefined ∧
      delete_tree_loop 2 ((after script_dlink_below_target).heap.length + 1)
        (after script_dlink_below_target) = .undefined ∧
      delete_tree "C:\\D".toList (after script_dlink_below_target) = .undefined) :=
  have h1 : Reachable (after script_dlink_beside_target) :=
    reachable_run script_dlink_beside_target init _ Reachable.init (by decide)
  have h2 : Reachable (after script_dlink_below_target) :=
    reachable_run script_dlink_below_target init _ Reachable.init (by decide)
  ⟨⟨h1, reachable_tree_state h1, by decide⟩, ⟨h2, reachable_tree_state h2, by decide⟩⟩

/-- Claim C33, evaluated where the code departs from it, on two reachable states. In
the state of `script_removed_dlink_and_dir` the directory `C:\D` (address 2)
still lists in `m_dlinks` the link that `remove_file` destroyed (address 3):
`m_update_links` on `C:\D` reads the destroyed link, and so does
`move("C:\D", "C:\B")`, which calls it. In the state of `script_dir_in_dir` the
destination `C:\A\B` (address 3) lies in the subtree of the source `C:\A`
(address 2): `move` has no test for it, takes `C:\A` out of the drive, puts it
into `C:\A\B` (the state `moved_into_itself`), and `m_update_links` on `C:\A` then
exceeds every step bound, so that `move` does not return. -/
theorem C33_m_update_links_does_not_return :
    (Reachable (after script_removed_dlink_and_dir) ∧
      run script_removed_dlink_and_dir init = .ok () (after script_removed_dlink_and_dir) ∧
      (after script_removed_dlink_and_dir).heap.cell 2 =
        some ⟨some 0, NODE_TYPE.DIRECTORY, "D".toList, [], [3], []⟩ ∧
      (after script_removed_dlink_and_dir).heap.cell 3 = none ∧
      (after script_removed_dlink_and_dir).heap.cell 4 =
        some ⟨some 0, NODE_TYPE.DIRECTORY, "B".toList, [], [], []⟩ ∧
      m_update_links ((after script_removed_dlink_and_dir).heap.length + 1) 2
        (after script_removed_dlink_and_dir) = .undefined ∧
      m_find_node_by_path "C:\\D".toList (after script_removed_dlink_and_dir) = .val (some 2) ∧
      m_find_node_by_path "C:\\B".toList (after script_removed_dlink_and_dir) = .val (some 4) ∧
      move "C:\\D".toList "C:\\B".toList (after script_removed_dlink_and_dir) = .undefined) ∧
    (Reachable (after script_dir_in_dir) ∧
      run script_dir_in_dir init = .ok () (after script_dir_in_dir) ∧
      (after script_dir_in_dir).heap.cell 0 =
        some ⟨none, NODE_TYPE.DIRECTORY, "C:".toList, [], [], [2]⟩ ∧
      (after script_dir_in_dir).heap.cell 2 =
        some ⟨some 0, NODE_TYPE.DIRECTORY, "A".toList, [], [], [3]⟩ ∧
      (after script_dir_in_dir).heap.cell 3 =
        some ⟨some 2, NODE_TYPE.DIRECTORY, "B".toList, [], [], []⟩ ∧
      m_find_node_by_path "C:\\A".toList (after script_dir_in_dir) = .val (some 2) ∧
      m_find_node_by_path "C:\\A\\B".toList (after script_dir_in_dir) = .val (some 3) ∧
      in_subtree (after script_dir_in_dir) 2 3 ∧
      (∃ s2, push_child 3 2 (store (after script_dir_in_dir) 0
          ⟨none, NODE_TYPE.DIRECTORY, "C:".toList, [], [], list_remove [2] 2⟩) = .ok () s2 ∧
        store s2 2 ⟨some 3, NODE_TYPE.DIRECTORY, "A".toList, [], [], [3]⟩ =
          moved_into_itself) ∧
      (∀ fuel, m_update_links fuel 2 moved_into_itself = .diverge) ∧
      move "C:\\A".toList "C:\\A\\B".toList (after script_dir_in_dir) = .diverge) :=
  ⟨⟨reachable_run script_removed_dlink_and_dir init _ Reachable.init (by decide), by decide⟩,
    ⟨reachable_run script_dir_in_dir init _ Reachable.init (by decide),
      by decide, by decide, by decide, by decide, by decide, by decide,
      Relation.ReflTransGen.single
        ⟨⟨some 0, NODE_TYPE.DIRECTORY, "A".toList, [], [], [3]⟩, by decide, rfl, by decide⟩,
      ⟨_, rfl, by decide⟩,
      fun fuel => (m_update_links_cycle fuel).1,
      by decide⟩⟩

end FSE
